import Mathlib

/-!
# bimap: two treaps over one set of records

A shallow embedding of `bimap/src/{node,sentinel_node,bimap_node,bimap_iterator,map,bimap}.h`.

* An object address is a natural number, a possibly-null pointer is an `Option Nat`.
* `Mem` is the store of the `node<Tag>` sub-objects of one tag, indexed by the address
  of the enclosing object (a record or the sentinel).  The `node<left_tag>` and the
  `node<right_tag>` of one object share its address, so `flip` keeps the address.
* Recursion and loops of the source take a fuel argument; `none` is returned when the
  fuel is exhausted or when the source would dereference a null pointer.
* `size_t` arithmetic is taken modulo `2 ^ 64`.
-/

namespace bimap_impl

/-- The `node<Tag>` sub-object: a priority and three links. -/
structure node where
  value : Nat
  left : Option Nat
  right : Option Nat
  pred : Option Nat
deriving DecidableEq

/-- Store of the `node<Tag>` sub-objects of one tag. -/
abbrev Mem := Nat → node

/-- Overwrite one object of the store. -/
def Mem.write (m : Mem) (a : Nat) (n : node) : Mem :=
  fun b => if b = a then n else m b

/-- Assignment `a->left = v`. -/
def Mem.wleft (m : Mem) (a : Nat) (v : Option Nat) : Mem :=
  m.write a { m a with left := v }

/-- Assignment `a->right = v`. -/
def Mem.wright (m : Mem) (a : Nat) (v : Option Nat) : Mem :=
  m.write a { m a with right := v }

/-- Assignment `a->pred = v`. -/
def Mem.wpred (m : Mem) (a : Nat) (v : Option Nat) : Mem :=
  m.write a { m a with pred := v }

/-- `node::get_right(temp)`: the rightmost node below `temp`, null for null. -/
def get_right (m : Mem) : Nat → Option Nat → Option (Option Nat)
  | _, none => some none
  | 0, some _ => none
  | fuel + 1, some temp =>
    match (m temp).right with
    | some r => get_right m fuel (some r)
    | none => some (some temp)

/-- `node::get_left(temp)`: the leftmost node below `temp`, null for null. -/
def get_left (m : Mem) : Nat → Option Nat → Option (Option Nat)
  | _, none => some none
  | 0, some _ => none
  | fuel + 1, some temp =>
    match (m temp).left with
    | some l => get_left m fuel (some l)
    | none => some (some temp)

/-- `node::up_right(temp)`: climb while `temp` is a right child, then step to the
parent (or stay when there is none). -/
def up_right (m : Mem) : Nat → Nat → Option Nat
  | 0, _ => none
  | fuel + 1, temp =>
    match (m temp).pred with
    | none => some temp
    | some p => if (m p).right = some temp then up_right m fuel p else some p

/-- `node::up_left(temp)`: climb while `temp` is a left child, then step to the
parent (or stay when there is none). -/
def up_left (m : Mem) : Nat → Nat → Option Nat
  | 0, _ => none
  | fuel + 1, temp =>
    match (m temp).pred with
    | none => some temp
    | some p => if (m p).left = some temp then up_left m fuel p else some p

/-- `node::get_next()`. -/
def get_next (m : Mem) (fuel : Nat) (this : Nat) : Option Nat :=
  match get_left m fuel (m this).right with
  | none => none
  | some (some res) => some res
  | some none => up_right m fuel this

/-- `node::get_prev()`. -/
def get_prev (m : Mem) (fuel : Nat) (this : Nat) : Option Nat :=
  match get_right m fuel (m this).left with
  | none => none
  | some (some res) => some res
  | some none => up_left m fuel this

/-- `node::set_new_left(new_node)`. -/
def set_new_left (m : Mem) (this new_node : Nat) : Mem :=
  let m1 :=
    match (m this).left with
    | some l => (m.wleft new_node (some l)).wpred l (some new_node)
    | none => m
  (m1.wpred new_node (some this)).wleft this (some new_node)

/-- `node::set_left(pred_, left_)` (static). -/
def set_left (m : Mem) (pred_ : Nat) (left_ : Option Nat) : Mem :=
  let m1 := m.wleft pred_ left_
  match (m1 pred_).left with
  | some c => m1.wpred c (some pred_)
  | none => m1

/-- `node::set_right(pred_, right_)` (static). -/
def set_right (m : Mem) (pred_ : Nat) (right_ : Option Nat) : Mem :=
  let m1 := m.wright pred_ right_
  match (m1 pred_).right with
  | some c => m1.wpred c (some pred_)
  | none => m1

/-- `node::clear_node(node)`. -/
def clear_node (m : Mem) (node : Nat) : Mem :=
  ((m.wleft node none).wpred node none).wright node none

/-- `node::set_pred(new_node)`; dereferences `pred`. -/
def set_pred (m : Mem) (this : Nat) (new_node : Option Nat) : Option Mem :=
  match (m this).pred with
  | none => none
  | some p =>
    if (m p).left = some this then some (set_left m p new_node)
    else some (set_right m p new_node)

/-- `node::set_new_right(new_node)`. -/
def set_new_right (m : Mem) (this new_node : Nat) : Option Mem :=
  let m1 :=
    match (m this).left with
    | some l => (set_left m new_node (some l)).wleft this none
    | none => m
  match set_pred m1 this (some new_node) with
  | none => none
  | some m2 => some ((m2.wright new_node (some this)).wpred this (some new_node))

/-- `node::set_new_node(new_node)`. -/
def set_new_node (m : Mem) (this new_node : Nat) : Option Mem :=
  if (m this).pred = none ∨ (m this).value > (m new_node).value then
    some (set_new_left m this new_node)
  else
    set_new_right m this new_node

/-- `node::merge(left, right)`. -/
def merge (m : Mem) : Nat → Option Nat → Option Nat → Option (Mem × Option Nat)
  | _, none, right => some (m, right)
  | _, some l, none => some (m, some l)
  | 0, some _, some _ => none
  | fuel + 1, some l, some r =>
    if (m l).value > (m r).value then
      match merge m fuel (m l).right (some r) with
      | none => none
      | some (m1, res) => some (set_right m1 l res, some l)
    else
      match merge m fuel (some l) (m r).left with
      | none => none
      | some (m1, res) => some (set_left m1 r res, some r)

/-- `node::erase()`. -/
def erase (m : Mem) (fuel : Nat) (this : Nat) : Option Mem :=
  match merge m fuel (m this).left (m this).right with
  | none => none
  | some (m1, node) =>
    match set_pred m1 this node with
    | none => none
    | some m2 => some (clear_node m2 this)

/-- Friend `operator==` of `node`: compares the three links, not the priority. -/
def node_eq (lhs rhs : node) : Bool :=
  lhs.pred == rhs.pred && lhs.left == rhs.left && lhs.right == rhs.right

/-- The records of a bimap as `map<Tag, A, B, Compare>` sees them: `cur` holds the
`node<Tag>` sub-objects, `opp` those of the opposite tag, `value` is `get_value<Tag>`,
`other` the value of the opposite side, `live` lists the records allocated with `new`
and not yet deleted. -/
structure store (A B : Type) where
  cur : Mem
  opp : Mem
  value : Nat → Option A
  other : Nat → Option B
  live : List Nat

/-- The same records seen from the opposite tag. -/
def store.flipped {A B : Type} (h : store A B) : store B A :=
  { cur := h.opp, opp := h.cur, value := h.other, other := h.value, live := h.live }

/-- Fuel that bounds every descent, climb and loop over the records of the store. -/
def store.fuel {A B : Type} (h : store A B) : Nat := h.live.length + 1

/-- The expression `new node_t(x, y)` returning address `a`: both nodes get fresh
priorities `p` and `q` and null links. -/
def store.alloc {A B : Type} (h : store A B) (a p q : Nat) (x : A) (y : B) : store A B :=
  { cur := h.cur.write a ⟨p, none, none, none⟩
    opp := h.opp.write a ⟨q, none, none, none⟩
    value := fun b => if b = a then some x else h.value b
    other := fun b => if b = a then some y else h.other b
    live := a :: h.live }

namespace bimap_iterator

/-- Dereference `*it`; the sentinel holds no value. -/
def deref {A B : Type} (h : store A B) (it : Nat) : Option A := h.value it

/-- Increment `++it`. -/
def inc {A B : Type} (h : store A B) (it : Nat) : Option Nat := get_next h.cur h.fuel it

/-- Decrement `--it`. -/
def dec {A B : Type} (h : store A B) (it : Nat) : Option Nat := get_prev h.cur h.fuel it

/-- The iterator `it.flip()`: same object, opposite tag. -/
def flip (it : Nat) : Nat := it

/-- Friend `operator==` of iterators: `*lhs.node_ == *rhs.node_`. -/
def eq {A B : Type} (h : store A B) (lhs rhs : Nat) : Bool := node_eq (h.cur lhs) (h.cur rhs)

end bimap_iterator

namespace map

/-- `map::end(node)`. -/
def end_ (node : Nat) : Nat := node

/-- `map::begin(node)`. -/
def begin {A B : Type} (h : store A B) (node : Nat) : Option Nat :=
  match (h.cur node).left with
  | none => some (end_ node)
  | some l =>
    match get_left h.cur h.fuel (some l) with
    | some (some res) => some res
    | _ => none

/-- `map::lower_bound_impl(value, node)`. -/
def lower_bound_impl {A B : Type} (compare : A → A → Bool) (h : store A B) (value : A) :
    Nat → Option Nat → Option (Option Nat)
  | _, none => some none
  | 0, some _ => none
  | fuel + 1, some node =>
    match h.value node with
    | none => none
    | some x =>
      if compare x value then lower_bound_impl compare h value fuel (h.cur node).right
      else
        match lower_bound_impl compare h value fuel (h.cur node).left with
        | none => none
        | some none => some (some node)
        | some (some res) =>
          match h.value res with
          | none => none
          | some y => if !compare y value then some (some res) else some (some node)

/-- `map::lower_bound(value, node)`. -/
def lower_bound {A B : Type} (compare : A → A → Bool) (h : store A B) (value : A)
    (node : Nat) : Option Nat :=
  match lower_bound_impl compare h value h.fuel (h.cur node).left with
  | none => none
  | some none => some (end_ node)
  | some (some res) => some res

/-- `map::find(value, node)`. -/
def find {A B : Type} (compare : A → A → Bool) (h : store A B) (value : A)
    (node : Nat) : Option Nat :=
  match lower_bound compare h value node with
  | none => none
  | some res =>
    if bimap_iterator.eq h res (end_ node) then some (end_ node)
    else
      match bimap_iterator.deref h res with
      | none => none
      | some x => if compare x value || compare value x then some (end_ node) else some res

/-- `map::upper_bound(value, node)`. -/
def upper_bound {A B : Type} (compare : A → A → Bool) (h : store A B) (value : A)
    (node : Nat) : Option Nat :=
  match lower_bound compare h value node with
  | none => none
  | some it =>
    if bimap_iterator.eq h it (end_ node) then some it
    else
      match bimap_iterator.deref h it with
      | none => none
      | some x =>
        if !compare value x && !compare x value then bimap_iterator.inc h it else some it

/-- The exception thrown by `map::at`. -/
inductive exn where
  | out_of_range
deriving DecidableEq

/-- `map::at(key, node)`. -/
def at_ {A B : Type} [DecidableEq A] (compare : A → A → Bool) (h : store A B) (key : A)
    (node : Nat) : Option (Except exn B) :=
  match lower_bound compare h key node with
  | none => none
  | some it =>
    if bimap_iterator.eq h it (end_ node) then some (.error .out_of_range)
    else
      match bimap_iterator.deref h it with
      | none => none
      | some x =>
        if x ≠ key then some (.error .out_of_range)
        else
          match bimap_iterator.deref h.flipped (bimap_iterator.flip it) with
          | none => none
          | some y => some (.ok y)

/-- `map::at_or_default(key, node)`. -/
def at_or_default {A B : Type} [DecidableEq A] (compare : A → A → Bool) (h : store A B)
    (key : A) (node : Nat) : Option Bool :=
  match lower_bound compare h key node with
  | none => none
  | some it =>
    if bimap_iterator.eq h it (end_ node) then some false
    else
      match bimap_iterator.deref h it with
      | none => none
      | some x => some (decide (x = key))

/-- `map::erase(iterator it)`. -/
def erase {A B : Type} (h : store A B) (it : Nat) : Option (store A B × Nat) :=
  match bimap_iterator.inc h it with
  | none => none
  | some res =>
    match bimap_impl.erase h.cur h.fuel it with
    | none => none
    | some m1 =>
      match bimap_impl.erase h.opp h.fuel (bimap_iterator.flip it) with
      | none => none
      | some m2 => some ({ h with cur := m1, opp := m2, live := h.live.erase it }, res)

/-- `map::erase(const value_t& value, node* node)`. -/
def erase_value {A B : Type} [DecidableEq A] (compare : A → A → Bool) (h : store A B)
    (value : A) (node : Nat) : Option (store A B × Bool) :=
  match lower_bound compare h value node with
  | none => none
  | some it =>
    if bimap_iterator.eq h it (end_ node) then some (h, false)
    else
      match bimap_iterator.deref h it with
      | none => none
      | some x =>
        if x = value then
          match erase h it with
          | none => none
          | some (h1, _) => some (h1, true)
        else some (h, false)

/-- `map::erase(iterator first, iterator last)`: `while (first != last) erase(first++)`. -/
def erase_range {A B : Type} : Nat → store A B → Nat → Nat → Option (store A B × Nat)
  | 0, h, first, last => if bimap_iterator.eq h first last then some (h, last) else none
  | fuel + 1, h, first, last =>
    if bimap_iterator.eq h first last then some (h, last)
    else
      match bimap_iterator.inc h first with
      | none => none
      | some next =>
        match erase h first with
        | none => none
        | some (h1, _) => erase_range fuel h1 next last

/-- `std::distance(first, last)` on iterators: count increments until `first == last`. -/
def distance {A B : Type} (h : store A B) : Nat → Nat → Nat → Option Nat
  | 0, first, last => if bimap_iterator.eq h first last then some 0 else none
  | fuel + 1, first, last =>
    if bimap_iterator.eq h first last then some 0
    else
      match bimap_iterator.inc h first with
      | none => none
      | some next => (distance h fuel next last).map (· + 1)

/-- The loop `for (it = first; it != end(node); it++)` collecting the visited iterators. -/
def walk {A B : Type} (h : store A B) (node : Nat) : Nat → Nat → Option (List Nat)
  | 0, it => if bimap_iterator.eq h it (end_ node) then some [] else none
  | fuel + 1, it =>
    if bimap_iterator.eq h it (end_ node) then some []
    else
      match bimap_iterator.inc h it with
      | none => none
      | some next => (walk h node fuel next).map (it :: ·)

end map

end bimap_impl

/-! ## Abstract shape of a linked tree -/

namespace bimap_impl

/-- The shape of a tree of nodes: which address sits where. -/
inductive shape where
  | nil
  | node (l : shape) (a : Nat) (r : shape)

/-- The pointer to the root of a shape (null for the empty shape). -/
def shape.root : shape → Option Nat
  | .nil => none
  | .node _ a _ => some a

/-- The addresses of a shape in in-order. -/
def shape.inorder : shape → List Nat
  | .nil => []
  | .node l a r => l.inorder ++ a :: r.inorder

/-- Number of nodes of a shape. -/
def shape.size : shape → Nat
  | .nil => 0
  | .node l _ r => l.size + 1 + r.size

/-- The store `m` links the nodes of the shape `t` as a tree hanging below `p`: each
node points to its parent and to the roots of its two subtrees. -/
def linked (m : Mem) : Nat → shape → Prop
  | _, .nil => True
  | p, .node l a r =>
    (m a).pred = some p ∧ (m a).left = l.root ∧ (m a).right = r.root ∧
      linked m a l ∧ linked m a r

/-- The sentinel `base` of the store `m` holds the linked shape `t` as its left child and
is not one of its nodes, which are pairwise distinct. -/
structure side_ok (m : Mem) (base : Nat) (t : shape) : Prop where
  pred : (m base).pred = none
  right : (m base).right = none
  left : (m base).left = t.root
  linked : linked m base t
  nodup : (base :: t.inorder).Nodup

/-- The element that follows `x` in `xs`, or `d` when `x` is the last one. -/
def next_of (xs : List Nat) (d : Nat) (x : Nat) : Nat :=
  match xs with
  | [] => d
  | y :: ys => if y = x then ys.headD d else next_of ys d x

/-- The list `xs` with `n` put right before `x`, or at the end when `x` is absent. -/
def insert_before (xs : List Nat) (x n : Nat) : List Nat :=
  match xs with
  | [] => [n]
  | y :: ys => if y = x then n :: y :: ys else y :: insert_before ys x n

/-- A strict weak ordering given as a boolean comparator. -/
structure strict_weak {A : Type} (compare : A → A → Bool) : Prop where
  irrefl : ∀ a, compare a a = false
  trans : ∀ a b c, compare a b = true → compare b c = true → compare a c = true
  incomp : ∀ a b c, compare a b = false → compare b a = false → compare b c = false →
    compare c b = false → compare a c = false ∧ compare c a = false

/-- Under `compare`, the value stored at `a` is less than the one stored at `b`. -/
def lt_at {A : Type} (compare : A → A → Bool) (value : Nat → Option A) (a b : Nat) : Prop :=
  ∃ x y, value a = some x ∧ value b = some y ∧ compare x y = true

/-- The value stored at `a` is not less than `v`: the test of `lower_bound_impl`. -/
def not_less {A : Type} (compare : A → A → Bool) (value : Nat → Option A) (v : A)
    (a : Nat) : Bool :=
  match value a with
  | some x => !compare x v
  | none => false

/-- The tree of one side is well formed: the sentinel `base` holds the root of the
shape `t` as its left child, `t` is linked, its nodes are the live records, and their
values increase strictly in in-order. -/
structure view_ok {A B : Type} (compare : A → A → Bool) (h : store A B) (base : Nat)
    (t : shape) : Prop where
  pred : (h.cur base).pred = none
  right : (h.cur base).right = none
  left : (h.cur base).left = t.root
  linked : linked h.cur base t
  nodup : (base :: t.inorder).Nodup
  perm : t.inorder.Perm h.live
  vals : ∀ a ∈ t.inorder, ∃ x, h.value a = some x
  sorted : t.inorder.Pairwise (lt_at compare h.value)

end bimap_impl

open bimap_impl

/-- The class `bimap<Left, Right, CompareLeft, CompareRight>`: the two comparators (the
`map` bases), `size_`, the address of the sentinel `base`, and the heap of records. -/
structure bimap (L R : Type) where
  compare_left : L → L → Bool
  compare_right : R → R → Bool
  size_ : Nat
  base : Nat
  mem : store L R

namespace bimap

variable {L R : Type}

/-- Width of `size_t`. -/
def size_max : Nat := 2 ^ 64

/-- The constructor `bimap(compare_left, compare_right)`: a sentinel at address `base`
whose two nodes carry the priorities `p` and `q`, and no record. -/
def ctor (compare_left : L → L → Bool) (compare_right : R → R → Bool) (base p q : Nat) :
    bimap L R :=
  { compare_left := compare_left
    compare_right := compare_right
    size_ := 0
    base := base
    mem :=
      { cur := Mem.write (fun _ => ⟨0, none, none, none⟩) base ⟨p, none, none, none⟩
        opp := Mem.write (fun _ => ⟨0, none, none, none⟩) base ⟨q, none, none, none⟩
        value := fun _ => none
        other := fun _ => none
        live := [] } }

/-- `bimap::size()`. -/
def size (s : bimap L R) : Nat := s.size_

/-- `bimap::empty()`. -/
def empty (s : bimap L R) : Bool := (s.mem.cur s.base).left == none

/-- `bimap::begin_left()`. -/
def begin_left (s : bimap L R) : Option Nat := map.begin s.mem s.base

/-- `bimap::end_left()`. -/
def end_left (s : bimap L R) : Nat := map.end_ s.base

/-- `bimap::begin_right()`. -/
def begin_right (s : bimap L R) : Option Nat := map.begin s.mem.flipped s.base

/-- `bimap::end_right()`. -/
def end_right (s : bimap L R) : Nat := map.end_ s.base

/-- `bimap::lower_bound_left(value)`. -/
def lower_bound_left (s : bimap L R) (value : L) : Option Nat :=
  map.lower_bound s.compare_left s.mem value s.base

/-- `bimap::upper_bound_left(value)`. -/
def upper_bound_left (s : bimap L R) (value : L) : Option Nat :=
  map.upper_bound s.compare_left s.mem value s.base

/-- `bimap::lower_bound_right(value)`. -/
def lower_bound_right (s : bimap L R) (value : R) : Option Nat :=
  map.lower_bound s.compare_right s.mem.flipped value s.base

/-- `bimap::upper_bound_right(value)`. -/
def upper_bound_right (s : bimap L R) (value : R) : Option Nat :=
  map.upper_bound s.compare_right s.mem.flipped value s.base

/-- `bimap::find_left(value)`. -/
def find_left (s : bimap L R) (value : L) : Option Nat :=
  map.find s.compare_left s.mem value s.base

/-- `bimap::find_right(value)`. -/
def find_right (s : bimap L R) (value : R) : Option Nat :=
  map.find s.compare_right s.mem.flipped value s.base

/-- `bimap::at_left(key)`. -/
def at_left [DecidableEq L] (s : bimap L R) (key : L) : Option (Except map.exn R) :=
  map.at_ s.compare_left s.mem key s.base

/-- `bimap::at_right(key)`. -/
def at_right [DecidableEq R] (s : bimap L R) (key : R) : Option (Except map.exn L) :=
  map.at_ s.compare_right s.mem.flipped key s.base

/-- `bimap::insert_node(left_node_, right_node_, new_node)`. -/
def insert_node (s : bimap L R) (left_node_ right_node_ new_node : Nat) :
    Option (bimap L R × Nat) :=
  match set_new_node s.mem.cur left_node_ new_node with
  | none => none
  | some ml =>
    match set_new_node s.mem.opp right_node_ new_node with
    | none => none
    | some mr =>
      some ({ s with mem := { s.mem with cur := ml, opp := mr },
                     size_ := (s.size_ + 1) % size_max }, new_node)

/-- `bimap::insert_impl(left, right)`; `new node_t` returns the address `a` and the two
nodes of the record draw the priorities `p` and `q`. -/
def insert_impl (s : bimap L R) (left : L) (right : R) (a p q : Nat) :
    Option (bimap L R × Nat) :=
  match s.find_left left with
  | none => none
  | some fl =>
    if bimap_iterator.eq s.mem fl s.end_left then
      match s.find_right right with
      | none => none
      | some fr =>
        if bimap_iterator.eq s.mem.flipped fr s.end_right then
          match s.lower_bound_left left with
          | none => none
          | some left_node_ =>
            match s.lower_bound_right right with
            | none => none
            | some right_node_ =>
              insert_node { s with mem := s.mem.alloc a p q left right } left_node_ right_node_ a
        else some (s, s.end_left)
    else some (s, s.end_left)

/-- `bimap::insert(left, right)`. -/
def insert (s : bimap L R) (left : L) (right : R) (a p q : Nat) : Option (bimap L R × Nat) :=
  s.insert_impl left right a p q

/-- The statement `size_--`. -/
def dec_size (s : bimap L R) : bimap L R :=
  { s with size_ := (s.size_ + (size_max - 1)) % size_max }

/-- `bimap::erase_left(left_iterator it)`. -/
def erase_left (s : bimap L R) (it : Nat) : Option (bimap L R × Nat) :=
  match map.erase s.mem it with
  | none => none
  | some (h, ans) => some (dec_size { s with mem := h }, ans)

/-- `bimap::erase_right(right_iterator it)`. -/
def erase_right (s : bimap L R) (it : Nat) : Option (bimap L R × Nat) :=
  match map.erase s.mem.flipped it with
  | none => none
  | some (h, ans) => some (dec_size { s with mem := h.flipped }, ans)

/-- `bimap::erase_left(const left_t& value)`. -/
def erase_left_value [DecidableEq L] (s : bimap L R) (value : L) : Option (bimap L R × Bool) :=
  match map.erase_value s.compare_left s.mem value s.base with
  | none => none
  | some (h, true) => some (dec_size { s with mem := h }, true)
  | some (h, false) => some ({ s with mem := h }, false)

/-- `bimap::erase_right(const right_t& value)`. -/
def erase_right_value [DecidableEq R] (s : bimap L R) (value : R) : Option (bimap L R × Bool) :=
  match map.erase_value s.compare_right s.mem.flipped value s.base with
  | none => none
  | some (h, true) => some (dec_size { s with mem := h.flipped }, true)
  | some (h, false) => some ({ s with mem := h.flipped }, false)

/-- `bimap::erase_left(left_iterator first, left_iterator last)`. -/
def erase_left_range (s : bimap L R) (first last : Nat) : Option (bimap L R × Nat) :=
  match map.distance s.mem s.mem.fuel first last with
  | none => none
  | some count =>
    match map.erase_range s.mem.fuel s.mem first last with
    | none => none
    | some (h, ans) =>
      some ({ s with mem := h,
                     size_ := (s.size_ + (size_max - count % size_max)) % size_max }, ans)

/-- `bimap::erase_right(right_iterator first, right_iterator last)`. -/
def erase_right_range (s : bimap L R) (first last : Nat) : Option (bimap L R × Nat) :=
  match map.distance s.mem.flipped s.mem.fuel first last with
  | none => none
  | some count =>
    match map.erase_range s.mem.fuel s.mem.flipped first last with
    | none => none
    | some (h, ans) =>
      some ({ s with mem := h.flipped,
                     size_ := (s.size_ + (size_max - count % size_max)) % size_max }, ans)

/-- `bimap::at_left_or_default(key)`; `new node_t` (executed on both inserting paths)
returns the address `a` and the new nodes draw the priorities `p` and `q`. A deleted
record keeps its cell in the store, so that links written through a stale pointer land
in that cell. -/
def at_left_or_default [DecidableEq L] [DecidableEq R] [Inhabited R] (s : bimap L R) (key : L)
    (a p q : Nat) : Option (bimap L R × Except map.exn R) :=
  match map.at_or_default s.compare_left s.mem key s.base with
  | none => none
  | some true =>
    match s.at_left key with
    | none => none
    | some res => some (s, res)
  | some false =>
    match map.at_or_default s.compare_right s.mem.flipped default s.base with
    | none => none
    | some true =>
      match s.lower_bound_left key with
      | none => none
      | some left_node_ =>
        match s.lower_bound_right default with
        | none => none
        | some lb =>
          match bimap_iterator.inc s.mem.flipped lb with
          | none => none
          | some right_node_ =>
            match s.find_right default with
            | none => none
            | some it =>
              match erase_right { s with mem := s.mem.alloc a p q key default } it with
              | none => none
              | some (s1, _) =>
                match s1.insert_node left_node_ right_node_ a with
                | none => none
                | some (s2, res) =>
                  match bimap_iterator.deref s2.mem.flipped (bimap_iterator.flip res) with
                  | none => none
                  | some v => some (s2, .ok v)
    | some false =>
      match s.insert key default a p q with
      | none => none
      | some (s1, res) =>
        match bimap_iterator.deref s1.mem.flipped (bimap_iterator.flip res) with
        | none => none
        | some v => some (s1, .ok v)

/-- `bimap::at_right_or_default(key)`, with the same conventions as
`at_left_or_default`. -/
def at_right_or_default [DecidableEq L] [DecidableEq R] [Inhabited L] (s : bimap L R) (key : R)
    (a p q : Nat) : Option (bimap L R × Except map.exn L) :=
  match map.at_or_default s.compare_right s.mem.flipped key s.base with
  | none => none
  | some true =>
    match s.at_right key with
    | none => none
    | some res => some (s, res)
  | some false =>
    match map.at_or_default s.compare_left s.mem default s.base with
    | none => none
    | some true =>
      match s.lower_bound_left default with
      | none => none
      | some lb =>
        match bimap_iterator.inc s.mem lb with
        | none => none
        | some left_node_ =>
          match s.lower_bound_right key with
          | none => none
          | some right_node_ =>
            match s.find_left default with
            | none => none
            | some it =>
              match erase_left { s with mem := s.mem.alloc a p q default key } it with
              | none => none
              | some (s1, _) =>
                match s1.insert_node left_node_ right_node_ a with
                | none => none
                | some (s2, res) =>
                  match bimap_iterator.deref s2.mem res with
                  | none => none
                  | some v => some (s2, .ok v)
    | some false =>
      match s.insert default key a p q with
      | none => none
      | some (s1, res) =>
        match bimap_iterator.deref s1.mem res with
        | none => none
        | some v => some (s1, .ok v)

/-- The iterators visited by `for (it = begin_left(); it != end_left(); it++)`. -/
def walk_left (s : bimap L R) : Option (List Nat) :=
  match s.begin_left with
  | none => none
  | some it => map.walk s.mem s.base s.mem.fuel it

/-- The iterators visited by `for (it = begin_right(); it != end_right(); it++)`. -/
def walk_right (s : bimap L R) : Option (List Nat) :=
  match s.begin_right with
  | none => none
  | some it => map.walk s.mem.flipped s.base s.mem.fuel it

end bimap

namespace bimap

variable {L R : Type}

/-- Well-formedness of a bimap whose left and right trees have the shapes `tl` and `tr`:
both trees are well formed over the same live records, `size_` counts them, and every
record has a non-null machine address. -/
structure wf_at (s : bimap L R) (tl tr : shape) : Prop where
  left : view_ok s.compare_left s.mem s.base tl
  right : view_ok s.compare_right s.mem.flipped s.base tr
  size : s.size_ = s.mem.live.length
  addr : ∀ a ∈ s.mem.live, 0 < a ∧ a < size_max

/-- Well-formedness of a bimap, for some shapes of its two trees. -/
def wf (s : bimap L R) : Prop :=
  ∃ tl tr : shape, wf_at s tl tr

/-- What `new` may return: a non-null machine address that is neither the sentinel nor
a live record. -/
def fresh (s : bimap L R) (a : Nat) : Prop :=
  0 < a ∧ a < size_max ∧ a ≠ s.base ∧ a ∉ s.mem.live

/-- Some record has a left value equivalent to `l` under the left comparator. -/
def left_taken (s : bimap L R) (l : L) : Prop :=
  ∃ a ∈ s.mem.live, ∃ x, s.mem.value a = some x ∧
    s.compare_left x l = false ∧ s.compare_left l x = false

/-- Some record has a right value equivalent to `r` under the right comparator. -/
def right_taken (s : bimap L R) (r : R) : Prop :=
  ∃ a ∈ s.mem.live, ∃ y, s.mem.other a = some y ∧
    s.compare_right y r = false ∧ s.compare_right r y = false

/-- Some record has the left value `k`. -/
def left_key (s : bimap L R) (k : L) : Prop :=
  ∃ a ∈ s.mem.live, s.mem.value a = some k

/-- Some record has the right value `k`. -/
def right_key (s : bimap L R) (k : R) : Prop :=
  ∃ a ∈ s.mem.live, s.mem.other a = some k

/-- The record at address `a` is live and holds the pair `(l, r)`. -/
def has_record (s : bimap L R) (a : Nat) (l : L) (r : R) : Prop :=
  a ∈ s.mem.live ∧ s.mem.value a = some l ∧ s.mem.other a = some r

/-- The values `*it` of a list of left iterators. -/
def left_values (s : bimap L R) (its : List Nat) : List (Option L) :=
  its.map (bimap_iterator.deref s.mem)

/-- The values `*it` of a list of right iterators. -/
def right_values (s : bimap L R) (its : List Nat) : List (Option R) :=
  its.map (bimap_iterator.deref s.mem.flipped)

/-- The bimaps reachable from a freshly constructed one by `insert` and by
`erase_left` / `erase_right`, called with a key or with an iterator at a record. -/
inductive reachable [DecidableEq L] [DecidableEq R] : bimap L R → Prop
  | ctor (cl : L → L → Bool) (cr : R → R → Bool) (base p q : Nat) :
      reachable (bimap.ctor cl cr base p q)
  | insert {s s' : bimap L R} {it : Nat} (l : L) (r : R) (a p q : Nat) :
      reachable s → s.fresh a → s.insert l r a p q = some (s', it) → reachable s'
  | erase_left {s s' : bimap L R} {ans : Nat} (it : Nat) :
      reachable s → it ∈ s.mem.live → s.erase_left it = some (s', ans) → reachable s'
  | erase_right {s s' : bimap L R} {ans : Nat} (it : Nat) :
      reachable s → it ∈ s.mem.live → s.erase_right it = some (s', ans) → reachable s'
  | erase_left_value {s s' : bimap L R} {b : Bool} (v : L) :
      reachable s → s.erase_left_value v = some (s', b) → reachable s'
  | erase_right_value {s s' : bimap L R} {b : Bool} (v : R) :
      reachable s → s.erase_right_value v = some (s', b) → reachable s'

/-- The comparator `<` of the natural numbers, as `std::less<unsigned>`. -/
def nat_less (a b : Nat) : Bool := decide (a < b)

/-- A freshly constructed `bimap<unsigned, unsigned>` with its sentinel at address 0. -/
def demo0 : bimap Nat Nat := bimap.ctor nat_less nat_less 0 0 0

/-- The state after `insert l r` on `s`, the record being allocated at `a` with the
priorities `p` and `q` (the state `s` itself should the model fail). -/
def after_insert (s : bimap L R) (l : L) (r : R) (a p q : Nat) : bimap L R :=
  match s.insert l r a p q with
  | some (s', _) => s'
  | none => s

/-- After `insert(4, 40)` with priorities 0. -/
def demo1 : bimap Nat Nat := after_insert demo0 4 40 4 0 0

/-- After `insert(3, 30)` with priorities 1. -/
def demo2 : bimap Nat Nat := after_insert demo1 3 30 3 1 1

/-- After `insert(2, 20)` with priorities 0. -/
def demo3 : bimap Nat Nat := after_insert demo2 2 20 2 0 0

/-- After `insert(1, 10)` with priorities 1: the left tree has the root 3, whose children
are 1 and 4, and 2 is the right child of 1. -/
def demo4 : bimap Nat Nat := after_insert demo3 1 10 1 1 1

/-- After `erase_left(first, last)` on `demo4`, with `first` at the record of key 1 and
`last` at the record of key 4. -/
def demo5 : bimap Nat Nat :=
  match demo4.erase_left_range 1 4 with
  | some (s', _) => s'
  | none => demo4

end bimap

/-! ## Further notions used by the claims on iterators, bounds and priorities -/

namespace bimap_impl

/-- The element that precedes `x` in `xs`, or `d` when `x` is the first one. -/
def prev_of : List Nat → Nat → Nat → Nat
  | [], d, _ => d
  | y :: ys, d, x => if y = x then d else prev_of ys y x

/-- The value stored at `a` is greater than `v`. -/
def greater {A : Type} (compare : A → A → Bool) (value : Nat → Option A) (v : A)
    (a : Nat) : Bool :=
  match value a with
  | some x => compare v x
  | none => false

/-- Heap order at the node `x` of the store `m`: the priority of `x` is at least the
priority of each of its children. -/
def heap_ordered (m : Mem) (x : Nat) : Prop :=
  ∀ c, (m x).left = some c ∨ (m x).right = some c → (m c).value ≤ (m x).value

end bimap_impl

namespace bimap

/-- After `insert(1, 10)` on a fresh bimap, both nodes of the record drawing the
priority 1. -/
def demo6 : bimap Nat Nat := after_insert demo0 1 10 1 1 1

/-- After `insert(2, 20)` on `demo6`, both nodes of the record drawing the priority 0. -/
def demo7 : bimap Nat Nat := after_insert demo6 2 20 2 0 0

/-- After `erase_left(first, last)` on `demo3`, with `first` at the record of key 2 and
`last` at the record of key 4. -/
def demo8 : bimap Nat Nat :=
  match demo3.erase_left_range 2 4 with
  | some (s', _) => s'
  | none => demo3

end bimap

/-! ## Relocation by `at_*_or_default`, the throwing constructor, copy, move and comparison -/

namespace bimap_impl

/-- The move constructor `node(node&& other)` building the node at address `this`. -/
def node_move (m : Mem) (this other : Nat) : Mem :=
  let m1 := m.write this ⟨(m other).value, (m other).left, (m other).right, (m other).pred⟩
  let m2 :=
    match (m1 this).left with
    | some l => m1.wpred l (some this)
    | none => m1
  let m3 :=
    match (m2 this).right with
    | some r => m2.wpred r (some this)
    | none => m2
  clear_node m3 other

/-- Outcome of the expression `new node_t(left, right)`: the address of the record with
the priorities drawn by its two nodes, or the exception thrown by the allocation or by
the constructor of one of the two values. -/
inductive new_result (E : Type) where
  | built (a p q : Nat)
  | thrown (e : E)

end bimap_impl

namespace bimap

variable {L R : Type}

/-- `bimap::insert_impl(left, right)` with the outcome of `new node_t` made explicit: a
thrown exception leaves the function at the `new` expression. -/
def insert_impl_new {E : Type} (s : bimap L R) (left : L) (right : R) (c : new_result E) :
    Option (bimap L R × Except E Nat) :=
  match s.find_left left with
  | none => none
  | some fl =>
    if bimap_iterator.eq s.mem fl s.end_left then
      match s.find_right right with
      | none => none
      | some fr =>
        if bimap_iterator.eq s.mem.flipped fr s.end_right then
          match s.lower_bound_left left with
          | none => none
          | some left_node_ =>
            match s.lower_bound_right right with
            | none => none
            | some right_node_ =>
              match c with
              | .thrown e => some (s, .error e)
              | .built a p q =>
                match insert_node { s with mem := s.mem.alloc a p q left right }
                    left_node_ right_node_ a with
                | none => none
                | some (s', it) => some (s', .ok it)
        else some (s, .ok s.end_left)
    else some (s, .ok s.end_left)

/-- The move constructor `bimap(bimap&& other)` building a bimap whose sentinel is at
`base`: the new bimap, which owns the records from now on, and `other` as it is left. -/
def move_ctor (other : bimap L R) (base : Nat) : bimap L R × bimap L R :=
  let cur := node_move other.mem.cur base other.base
  let opp := node_move other.mem.opp base other.base
  ({ compare_left := other.compare_left
     compare_right := other.compare_right
     size_ := other.size_
     base := base
     mem := { other.mem with cur := cur, opp := opp } },
   { other with size_ := 0, mem := { other.mem with cur := cur, opp := opp, live := [] } })

/-- The loop of friend `operator==`. -/
def eq_loop (lhs rhs : bimap L R) : Nat → Nat → Nat → Option Bool
  | 0, lhs_it, rhs_it =>
    if !bimap_iterator.eq lhs.mem lhs_it lhs.end_left &&
        !bimap_iterator.eq rhs.mem rhs_it rhs.end_left then none
    else some true
  | fuel + 1, lhs_it, rhs_it =>
    if !bimap_iterator.eq lhs.mem lhs_it lhs.end_left &&
        !bimap_iterator.eq rhs.mem rhs_it rhs.end_left then
      match bimap_iterator.deref lhs.mem lhs_it, bimap_iterator.deref rhs.mem rhs_it,
        bimap_iterator.deref lhs.mem.flipped (bimap_iterator.flip lhs_it),
        bimap_iterator.deref rhs.mem.flipped (bimap_iterator.flip rhs_it) with
      | some l1, some l2, some r1, some r2 =>
        if lhs.compare_left l1 l2 || lhs.compare_left l2 l1 || lhs.compare_right r1 r2 ||
            lhs.compare_right r2 r1 then some false
        else
          match bimap_iterator.inc lhs.mem lhs_it with
          | none => none
          | some lhs_next =>
            match bimap_iterator.inc rhs.mem rhs_it with
            | none => none
            | some rhs_next => eq_loop lhs rhs fuel lhs_next rhs_next
      | _, _, _, _ => none
    else some true

/-- Friend `operator==` of `bimap`. -/
def op_eq (lhs rhs : bimap L R) : Option Bool :=
  if lhs.size ≠ rhs.size then some false
  else
    match lhs.begin_left with
    | none => none
    | some lhs_it =>
      match rhs.begin_left with
      | none => none
      | some rhs_it => eq_loop lhs rhs lhs.mem.fuel lhs_it rhs_it

/-- Friend `operator!=` of `bimap`. -/
def op_ne (lhs rhs : bimap L R) : Option Bool :=
  (op_eq lhs rhs).map (fun b => !b)

/-- The loop of the copy constructor, `for (it = other.begin_left(); it != other.end_left();
it++) insert(*it, *it.flip())`; the `i`-th `new node_t` returns the address and the
priorities `alloc i`. -/
def copy_loop (other : bimap L R) (alloc : Nat → Nat × Nat × Nat) :
    Nat → Nat → Nat → bimap L R → Option (bimap L R)
  | 0, _, it, s => if bimap_iterator.eq other.mem it other.end_left then some s else none
  | fuel + 1, i, it, s =>
    if bimap_iterator.eq other.mem it other.end_left then some s
    else
      match bimap_iterator.deref other.mem it,
        bimap_iterator.deref other.mem.flipped (bimap_iterator.flip it) with
      | some l, some r =>
        match s.insert l r (alloc i).1 (alloc i).2.1 (alloc i).2.2 with
        | none => none
        | some (s', _) =>
          match bimap_iterator.inc other.mem it with
          | none => none
          | some next => copy_loop other alloc fuel (i + 1) next s'
      | _, _ => none

/-- The copy constructor `bimap(const bimap& other)`, when no insertion throws: the new
bimap has its sentinel at `base`, with the priorities `p` and `q`. -/
def copy_ctor (other : bimap L R) (base p q : Nat) (alloc : Nat → Nat × Nat × Nat) :
    Option (bimap L R) :=
  match other.begin_left with
  | none => none
  | some it =>
    copy_loop other alloc other.mem.fuel 0 it
      (bimap.ctor other.compare_left other.compare_right base p q)

/-- The pairs `(*it, *it.flip())` of a list of iterators. -/
def pairs (s : bimap L R) (its : List Nat) : List (Option L × Option R) :=
  its.map (fun it =>
    (bimap_iterator.deref s.mem it, bimap_iterator.deref s.mem.flipped (bimap_iterator.flip it)))

/-- The records at `x` of `a` and at `y` of `b` hold equivalent left values and
equivalent right values, under the comparators of `a`. -/
def same_pair (a b : bimap L R) (x y : Nat) : Prop :=
  ∃ l1 l2 r1 r2, a.mem.value x = some l1 ∧ b.mem.value y = some l2 ∧
    a.mem.other x = some r1 ∧ b.mem.other y = some r2 ∧
    a.compare_left l1 l2 = false ∧ a.compare_left l2 l1 = false ∧
    a.compare_right r1 r2 = false ∧ a.compare_right r2 r1 = false

/-- A fresh bimap holding the single pair `(5, 0)`, whose right value is the
default-constructed one. -/
def demo9 : bimap Nat Nat := after_insert demo0 5 0 1 3 3

/-- The state after `at_left_or_default(3)` on `demo9`. -/
def demo10 : bimap Nat Nat :=
  match demo9.at_left_or_default 3 2 1 1 with
  | some (s', _) => s'
  | none => demo9

/-- A fresh bimap holding the single pair `(0, 5)`, whose left value is the
default-constructed one. -/
def demo11 : bimap Nat Nat := after_insert demo0 0 5 1 3 3

/-- The state after `at_right_or_default(3)` on `demo11`. -/
def demo12 : bimap Nat Nat :=
  match demo11.at_right_or_default 3 2 1 1 with
  | some (s', _) => s'
  | none => demo11

/-- An allocator handing out the addresses 11, 12, ... with priorities 0. -/
def demo_alloc (i : Nat) : Nat × Nat × Nat := (i + 11, 0, 0)

end bimap

/-! # function: a type-erased callable with a small-object buffer

A shallow embedding of `function/src/function.h`. A `function` object is its two members;
objects are addressed by natural numbers, so that `this != &other` can be tested, and
the targets allocated with `new` live in a heap. -/

namespace function_impl

/-- The exceptions leaving the operations: `bad_function_call`, or the exception `e`
thrown by a constructor of a target. -/
inductive exn (E : Type) where
  | bad_function_call
  | target (e : E)
deriving DecidableEq

/-- What the code uses of the target types, `T` standing for the objects of all of them:
the call operator, the copy constructor, the move constructor (each constructor returns
the object built or the exception thrown) and whether the type satisfies `SmallType`. -/
structure target_ops (T A R E : Type) where
  call : T → A → R
  copy : T → Except E T
  move : T → Except E T
  small : T → Bool

/-- The object `models<F, R, Args...>` the member `control` points to: the specialisation
for `void`, the one for a `SmallType`, or the primary one. -/
inductive control_t where
  | void_model
  | small_model
  | heap_model
deriving DecidableEq

/-- The member `storage`: raw bytes, a target built in place, or a pointer to a target
allocated with `new`. -/
inductive storage_t (T : Type) where
  | raw
  | inplace (t : T)
  | pointer (p : Option Nat)

end function_impl

open function_impl

/-- The class `function<R(Args...)>`: its two members. -/
structure function (T : Type) where
  storage : storage_t T
  control : control_t

namespace function_impl

/-- The `function` objects by address, and the heap of targets. -/
structure world (T : Type) where
  obj : Nat → function T
  heap : Nat → Option T

/-- Assignment to the member `storage` of the object at `x`. -/
def world.set_storage {T : Type} (w : world T) (x : Nat) (st : storage_t T) : world T :=
  { w with obj := fun y => if y = x then { w.obj x with storage := st } else w.obj y }

/-- Assignment to the member `control` of the object at `x`. -/
def world.set_control {T : Type} (w : world T) (x : Nat) (c : control_t) : world T :=
  { w with obj := fun y => if y = x then { w.obj x with control := c } else w.obj y }

/-- `model::operator()(src, args)`. -/
def model_call {T A R E : Type} (ops : target_ops T A R E) (w : world T) (c : control_t)
    (src : storage_t T) (args : A) : Option (Except (exn E) R) :=
  match c, src with
  | .void_model, _ => some (.error .bad_function_call)
  | .small_model, .inplace t => some (.ok (ops.call t args))
  | .heap_model, .pointer (some p) =>
    match w.heap p with
    | some t => some (.ok (ops.call t args))
    | none => none
  | _, _ => none

/-- `model::copy(src, dst)`, `dst` being the storage of the object at `dst`; `new T`
returns the address `a`, released again when the constructor throws. -/
def model_copy {T A R E : Type} (ops : target_ops T A R E) (w : world T) (c : control_t)
    (src : storage_t T) (dst : Nat) (a : Nat) : Option (world T × Except (exn E) Unit) :=
  match c, src with
  | .void_model, _ => some (w, .ok ())
  | .small_model, .inplace t =>
    match ops.copy t with
    | .ok t' => some (w.set_storage dst (.inplace t'), .ok ())
    | .error e => some (w, .error (.target e))
  | .heap_model, .pointer (some p) =>
    match w.heap p with
    | some t =>
      match ops.copy t with
      | .ok t' =>
        some (({ w with heap := fun b => if b = a then some t' else w.heap b }).set_storage dst
          (.pointer (some a)), .ok ())
      | .error e => some (w, .error (.target e))
    | none => none
  | _, _ => none

/-- `model::destroy(data)`, `data` being the storage of the object at `x`. -/
def model_destroy {T : Type} (w : world T) (c : control_t) (x : Nat) : Option (world T) :=
  match c, (w.obj x).storage with
  | .void_model, _ => some w
  | .small_model, .inplace _ => some (w.set_storage x .raw)
  | .heap_model, .pointer (some p) =>
    some { w with heap := fun b => if b = p then none else w.heap b }
  | .heap_model, .pointer none => some w
  | _, _ => none

/-- `model::move(src, dst)`, from the storage of the object at `src` to that of the object
at `dst`; it is `noexcept`, and the move constructor of a `SmallType` does not throw. -/
def model_move {T A R E : Type} (ops : target_ops T A R E) (w : world T) (c : control_t)
    (src dst : Nat) : Option (world T) :=
  match c, (w.obj src).storage with
  | .void_model, _ => some w
  | .small_model, .inplace t =>
    match ops.move t with
    | .ok t' => model_destroy (w.set_storage dst (.inplace t')) .small_model src
    | .error _ => none
  | .heap_model, .pointer p =>
    some ((w.set_storage dst (.pointer p)).set_storage src (.pointer none))
  | _, _ => none

end function_impl

namespace function

/-- The constructor `function()` building the object at `this`. -/
def ctor {T : Type} (w : world T) (this : Nat) : world T :=
  { w with obj := fun y => if y = this then ⟨.raw, .void_model⟩ else w.obj y }

/-- The constructor `function(F func)` building the object at `this`; `new T` returns
the address `a`. -/
def ctor_from {T A R E : Type} (ops : target_ops T A R E) (w : world T) (this : Nat)
    (func : T) (a : Nat) : Option (world T × Except (exn E) Unit) :=
  if ops.small func then
    match ops.move func with
    | .ok t => some ({ w with obj := fun y => if y = this then ⟨.inplace t, .small_model⟩
                                               else w.obj y }, .ok ())
    | .error _ => none
  else
    match ops.move func with
    | .ok t =>
      some ({ obj := fun y => if y = this then ⟨.pointer (some a), .heap_model⟩ else w.obj y
              heap := fun b => if b = a then some t else w.heap b }, .ok ())
    | .error e => some (w.set_control this .heap_model, .error (.target e))

/-- The copy constructor `function(const function& other)` building the object at
`this`. -/
def copy_ctor {T A R E : Type} (ops : target_ops T A R E) (w : world T) (this other : Nat)
    (a : Nat) : Option (world T × Except (exn E) Unit) :=
  let w1 := w.set_control this (w.obj other).control
  model_copy ops w1 (w1.obj this).control (w1.obj other).storage this a

/-- The move constructor `function(function&& other)` building the object at `this`. -/
def move_ctor {T A R E : Type} (ops : target_ops T A R E) (w : world T) (this other : Nat) :
    Option (world T) :=
  let w1 := w.set_control this (w.obj other).control
  match model_move ops w1 (w1.obj this).control other this with
  | none => none
  | some w2 => some (w2.set_control other .void_model)

/-- The destructor `~function()` of the object at `this`. -/
def dtor {T : Type} (w : world T) (this : Nat) : Option (world T) :=
  model_destroy w (w.obj this).control this

/-- The move assignment `operator=(function&& other)` of the object at `this`. -/
def assign_move {T A R E : Type} (ops : target_ops T A R E) (w : world T) (this other : Nat) :
    Option (world T) :=
  if this ≠ other then
    match model_destroy w (w.obj this).control this with
    | none => none
    | some w1 =>
      let w2 := w1.set_control this (w1.obj other).control
      match model_move ops w2 (w2.obj this).control other this with
      | none => none
      | some w3 => some (w3.set_control other .void_model)
  else some w

/-- The copy assignment `operator=(const function& other)` of the object at `this`; the
temporary `function(other)` is built at `tmp`. -/
def assign_copy {T A R E : Type} (ops : target_ops T A R E) (w : world T)
    (this other tmp a : Nat) : Option (world T × Except (exn E) Unit) :=
  if this ≠ other then
    match copy_ctor ops w tmp other a with
    | none => none
    | some (w1, .error e) => some (w1, .error e)
    | some (w1, .ok _) =>
      match assign_move ops w1 this tmp with
      | none => none
      | some w2 =>
        match dtor w2 tmp with
        | none => none
        | some w3 => some (w3, .ok ())
  else some (w, .ok ())

/-- `explicit operator bool()` of the object at `this`. -/
def to_bool {T : Type} (w : world T) (this : Nat) : Bool :=
  (w.obj this).control != .void_model

/-- `operator()(args...)` of the object at `this`. -/
def call {T A R E : Type} (ops : target_ops T A R E) (w : world T) (this : Nat) (args : A) :
    Option (Except (exn E) R) :=
  model_call ops w (w.obj this).control (w.obj this).storage args

/-- The object at `f` holds the target `t`, in its buffer or on the heap. -/
def holds {T : Type} (w : world T) (f : Nat) (t : T) : Prop :=
  ((w.obj f).control = .small_model ∧ (w.obj f).storage = .inplace t) ∨
  ((w.obj f).control = .heap_model ∧
    ∃ p, (w.obj f).storage = .pointer (some p) ∧ w.heap p = some t)

/-- Targets for the examples: `small_func n` and `large_func n` return `n` when called,
`throwing_copy` returns 43 and its copy constructor throws. -/
inductive demo_target where
  | small_func (n : Nat)
  | large_func (n : Nat)
  | throwing_copy
deriving DecidableEq

/-- The operations of the example targets. -/
def demo_ops : target_ops demo_target Unit Nat Unit where
  call := fun t _ =>
    match t with
    | .small_func n => n
    | .large_func n => n
    | .throwing_copy => 43
  copy := fun t =>
    match t with
    | .throwing_copy => .error ()
    | t => .ok t
  move := fun t => .ok t
  small := fun t =>
    match t with
    | .large_func _ => false
    | _ => true

/-- A world with no object built yet. -/
def demo_world0 : world demo_target :=
  { obj := fun _ => ⟨.raw, .void_model⟩, heap := fun _ => none }

/-- The world after `function<int()> f = large_func(42)` at address 1 (target at heap
address 100) and `function<int()> g = throwing_copy()` at address 2. -/
def demo_world : world demo_target :=
  match ctor_from demo_ops demo_world0 1 (.large_func 42) 100 with
  | some (w1, _) =>
    match ctor_from demo_ops w1 2 .throwing_copy 101 with
    | some (w2, _) => w2
    | none => w1
  | none => demo_world0

end function

/-! # signal: slots kept in an intrusive list

A shallow embedding of `intrusive-list/src/intrusive-list.{h,cpp}` (the list elements and
`push_back`) and of `signal/src/signals.h` (`connect` and the emission). A list is
identified with the address of its sentinel, which is the address of the signal that
owns it. A slot is a `std::function<void(Args...)>`: empty, or a target acting on the
state `U` of its caller; loops take a fuel argument. -/

namespace intrusive

/-- The class `list_element_base`: the two links. -/
structure list_element_base where
  next : Nat
  prev : Nat
deriving DecidableEq

/-- Store of the list elements, by address. -/
abbrev Links := Nat → list_element_base

/-- Assignment `a->next = v`. -/
def Links.wnext (m : Links) (a v : Nat) : Links :=
  fun b => if b = a then { m a with next := v } else m b

/-- Assignment `a->prev = v`. -/
def Links.wprev (m : Links) (a v : Nat) : Links :=
  fun b => if b = a then { m a with prev := v } else m b

/-- `list_element_base::link_on_this()`. -/
def link_on_this (m : Links) (this : Nat) : Links :=
  (m.wprev this this).wnext this this

/-- `list_element_base::unlink()`. -/
def unlink (m : Links) (this : Nat) : Links :=
  let m1 := m.wprev (m this).next (m this).prev
  let m2 := m1.wnext (m1 this).prev (m1 this).next
  link_on_this m2 this

/-- `list_element_base::link(pos)`. -/
def link (m : Links) (this pos : Nat) : Links :=
  let m1 := m.wprev this (m pos).prev
  let m2 := m1.wnext (m1 this).prev this
  let m3 := m2.wprev pos this
  m3.wnext this pos

namespace list

/-- `list::begin()`. -/
def begin (m : Links) (sentinel : Nat) : Nat := (m sentinel).next

/-- `list::end()`. -/
def end_ (sentinel : Nat) : Nat := sentinel

/-- `list::insert(pos, value)`. -/
def insert (m : Links) (pos value : Nat) : Links × Nat :=
  let previous := (m pos).prev
  let m1 := if pos ≠ value then link (unlink m value) value pos else m
  (m1, (m1 previous).next)

/-- `list::push_back(value)`. -/
def push_back (m : Links) (sentinel value : Nat) : Links :=
  (insert m (end_ sentinel) value).1

end list

end intrusive

namespace signals

open intrusive

/-- The exception thrown by an empty `std::function`. -/
inductive slot_exn where
  | bad_function_call
deriving DecidableEq

/-- The members of `signal::connection`, its list element apart. -/
structure connection (A U : Type) where
  it_ : Option Nat
  strong_it : Option Nat
  need_unlink : Bool
  slot_ : Option (A → U → U)

/-- The class `signal::iterator_token`. -/
structure iterator_token where
  sig_ : Option Nat
  it : Nat
  prev : Option Nat

/-- The objects a signal works on: list elements, connections and tokens by address, and
the member `_token` of each signal. -/
structure heap (A U : Type) where
  elem : Links
  conn : Nat → connection A U
  token : Nat → iterator_token
  token_ : Nat → Option Nat

variable {A U : Type}

/-- The loop `for (i = begin; i != _sig->_list.end(); i++) i->_it = i->_strong_it = v` of
the constructor and of the destructor of `iterator_token`. -/
def set_tokens (sig : Nat) (v : Option Nat) : Nat → heap A U → Nat → Option (heap A U)
  | 0, h, i => if i = list.end_ sig then some h else none
  | fuel + 1, h, i =>
    if i = list.end_ sig then some h
    else
      set_tokens sig v fuel
        { h with conn := fun c => if c = i then { h.conn i with it_ := v, strong_it := v }
                                  else h.conn c }
        (h.elem i).next

/-- The constructor `iterator_token(sig)` building the token at `tk`. -/
def token_ctor (h : heap A U) (tk sig fuel : Nat) : Option (heap A U) :=
  let h1 : heap A U :=
    { h with token := fun t => if t = tk then ⟨some sig, list.begin h.elem sig, h.token_ sig⟩
                               else h.token t }
  let h2 : heap A U := { h1 with token_ := fun s => if s = sig then some tk else h1.token_ s }
  set_tokens sig (some tk) fuel h2 (list.begin h2.elem sig)

/-- The destructor `~iterator_token()` of the token at `tk`. -/
def token_dtor (h : heap A U) (tk fuel : Nat) : Option (heap A U) :=
  match (h.token tk).sig_ with
  | none => some h
  | some sig =>
    let h1 : heap A U :=
      { h with token_ := fun s => if s = sig then (h.token tk).prev else h.token_ s }
    set_tokens sig (h.token tk).prev fuel h1 (list.begin h1.elem sig)

/-- The loop of `signal::operator()`, the token being at `tk`: the heap and the state of
the caller after the loop, and whether a slot threw. -/
def emit_loop (args : A) (tk : Nat) :
    Nat → heap A U → U → Option (heap A U × U × Except slot_exn Unit)
  | 0, h, u =>
    match (h.token tk).sig_ with
    | none => none
    | some sig => if (h.token tk).it ≠ list.end_ sig then none else some (h, u, .ok ())
  | fuel + 1, h, u =>
    match (h.token tk).sig_ with
    | none => none
    | some sig =>
      if (h.token tk).it ≠ list.end_ sig then
        let current := (h.token tk).it
        let h1 : heap A U :=
          { h with token := fun t => if t = tk then { h.token tk with it := (h.elem current).next }
                                     else h.token t }
        match (h1.conn current).slot_ with
        | none => some (h1, u, .error .bad_function_call)
        | some f =>
          match (h1.token tk).sig_ with
          | none => some (h1, f args u, .ok ())
          | some _ => emit_loop args tk fuel h1 (f args u)
      else some (h, u, .ok ())

namespace signal

/-- The constructor `signal()` of the signal at `sig`. -/
def ctor (h : heap A U) (sig : Nat) : heap A U :=
  { h with elem := fun b => if b = sig then ⟨sig, sig⟩ else h.elem b,
           token_ := fun s => if s = sig then none else h.token_ s }

/-- `signal::connect(slot)`: the connection is built at address `c`. -/
def connect (h : heap A U) (sig c : Nat) (slot : Option (A → U → U)) : heap A U :=
  let h1 : heap A U :=
    { h with conn := fun b => if b = c then ⟨none, none, true, slot⟩ else h.conn b,
             elem := fun b => if b = c then ⟨c, c⟩ else h.elem b }
  { h1 with elem := list.push_back h1.elem sig c }

/-- `signal::operator()(args...)`: the token is built at `tk`, and destroyed when the
function is left, also by an exception. -/
def emit (h : heap A U) (sig tk : Nat) (args : A) (u : U) (fuel : Nat) :
    Option (heap A U × U × Except slot_exn Unit) :=
  match token_ctor h tk sig fuel with
  | none => none
  | some h1 =>
    match emit_loop args tk fuel h1 u with
    | none => none
    | some (h2, u2, res) =>
      match token_dtor h2 tk fuel with
      | none => none
      | some h3 => some (h3, u2, res)

/-- The caller emitting `k` times in a row. -/
def emit_times (sig tk : Nat) (args : A) (fuel : Nat) : Nat → heap A U → U → Option (heap A U × U)
  | 0, h, u => some (h, u)
  | k + 1, h, u =>
    match emit h sig tk args u fuel with
    | some (h1, u1, .ok _) => emit_times sig tk args fuel k h1 u1
    | _ => none

end signal

/-- Following `next` from `x` visits the elements `cs`, none of which is the sentinel
`s`, and then reaches `s`. -/
def chain (m : Links) (s : Nat) : Nat → List Nat → Prop
  | x, [] => x = s
  | x, c :: rest => x = c ∧ c ≠ s ∧ chain m s (m c).next rest

/-- The signal at `sig` has the connections `cs` in its list, in this order, each with a
slot that is not empty. -/
def connected (h : heap A U) (sig : Nat) (cs : List Nat) : Prop :=
  chain h.elem sig (h.elem sig).next cs ∧ (h.elem sig).prev = cs.getLastD sig ∧
    ∀ c ∈ cs, ∃ f, (h.conn c).slot_ = some f

/-- Every slot of `cs` invoked once with `args`, in the order of `cs`, on the state `u`. -/
def run_slots (h : heap A U) (cs : List Nat) (args : A) (u : U) : U :=
  cs.foldl (fun v c =>
    match (h.conn c).slot_ with
    | some f => f args v
    | none => v) u

/-- A heap with no object yet. -/
def demo_heap0 : heap Nat (Nat × Nat) :=
  { elem := fun a => ⟨a, a⟩
    conn := fun _ => ⟨none, none, true, none⟩
    token := fun _ => ⟨none, 0, none⟩
    token_ := fun _ => none }

/-- The signal at address 1 with two slots connected at 2 and 3: the first adds its
argument to the first counter of the caller, the second to the second one. -/
def demo_heap : heap Nat (Nat × Nat) :=
  signal.connect
    (signal.connect (signal.ctor demo_heap0 1) 1 2 (some (fun n u => (u.1 + n, u.2))))
    1 3 (some (fun n u => (u.1, u.2 + n)))

end signals

/-! ## Heap order of a shape, a coarse comparator, swap, chains and runs of calls -/

namespace bimap_impl

/-- Heap order on the priorities of a shape: each node has a priority at least the one
of the root of each of its two subtrees. -/
def heap_shape (m : Mem) : shape → Prop
  | .nil => True
  | .node l a r =>
    (∀ c, l.root = some c → (m c).value ≤ (m a).value) ∧
      (∀ c, r.root = some c → (m c).value ≤ (m a).value) ∧ heap_shape m l ∧ heap_shape m r

end bimap_impl

namespace bimap

/-- A comparator on `unsigned` that orders by tens: a strict weak order whose equivalence
is coarser than `==`. -/
def coarse_less (a b : Nat) : Bool := decide (a / 10 < b / 10)

/-- A `bimap<unsigned, unsigned, coarse_less>` after `insert(10, 100)`. -/
def demo14 : bimap Nat Nat :=
  after_insert (bimap.ctor coarse_less nat_less 0 0 0) 10 100 1 0 0

end bimap

namespace bimap_impl

/-- Friend `swap(node& lhs, node& rhs)`: exchanges the left children. -/
def node_swap (m : Mem) (lhs rhs : Nat) : Mem :=
  let lhs_left := (m lhs).left
  set_left (set_left m lhs (m rhs).left) rhs lhs_left

end bimap_impl

namespace bimap

variable {L R : Type}

/-- Friend `swap(bimap& lhs, bimap& rhs)`: `lhs` and `rhs` as they are left. The two
bimaps live in one heap, which holds the objects `lhs.base :: lhs.mem.live` as `lhs`
sees them and every other object as `rhs` sees it; the records change owner with the
roots of the trees. -/
def swap (lhs rhs : bimap L R) : bimap L R × bimap L R :=
  let own := lhs.base :: lhs.mem.live
  let cur := node_swap (fun a => if a ∈ own then lhs.mem.cur a else rhs.mem.cur a)
    lhs.base rhs.base
  let opp := node_swap (fun a => if a ∈ own then lhs.mem.opp a else rhs.mem.opp a)
    lhs.base rhs.base
  let value := fun a => if a ∈ own then lhs.mem.value a else rhs.mem.value a
  let other := fun a => if a ∈ own then lhs.mem.other a else rhs.mem.other a
  ({ compare_left := rhs.compare_left
     compare_right := rhs.compare_right
     size_ := rhs.size_
     base := lhs.base
     mem := { cur := cur, opp := opp, value := value, other := other, live := rhs.mem.live } },
   { compare_left := lhs.compare_left
     compare_right := lhs.compare_right
     size_ := lhs.size_
     base := rhs.base
     mem := { cur := cur, opp := opp, value := value, other := other, live := lhs.mem.live } })

/-- A second `bimap<unsigned, unsigned>`, with its sentinel at address 20, after
`insert(7, 70)` and `insert(6, 60)`. -/
def demo15 : bimap Nat Nat :=
  after_insert (after_insert (bimap.ctor nat_less nat_less 20 0 0) 7 70 21 0 0) 6 60 22 1 1

end bimap

namespace bimap_impl

/-- The shape that is a chain of left children: the first address is the root, each
further address the left child of the one before it. -/
def shape.spine : List Nat → shape
  | [] => .nil
  | a :: rest => .node (shape.spine rest) a .nil

/-- Height of a shape: the number of nodes on its longest branch. -/
def shape.height : shape → Nat
  | .nil => 0
  | .node l _ r => max l.height r.height + 1

end bimap_impl

namespace bimap

variable {L R : Type}

/-- The caller inserting one after the other the pairs of a list; each entry carries the
pair, the address returned by `new node_t` and the two priorities drawn. -/
def insert_all (s : bimap L R) : List (L × R × Nat × Nat × Nat) → Option (bimap L R)
  | [] => some s
  | x :: xs =>
    match s.insert x.1 x.2.1 x.2.2.1 x.2.2.2.1 x.2.2.2.2 with
    | none => none
    | some (s', _) => insert_all s' xs

end bimap

namespace bimap

variable {L R : Type}

/-- A call made by the user of a bimap. -/
inductive call (L R : Type) where
  | insert (l : L) (r : R)
  | erase_left (k : L)
  | erase_right (k : R)
  | find_left (k : L)
  | find_right (k : R)
  | at_left (k : L)
  | at_right (k : R)

/-- What the user gets from a call: the iterator returned by `insert` or `find` with the
outcome of comparing it to the end iterator, the flag returned by `erase`, or the value
returned or the exception thrown by `at`. -/
inductive answer (L R : Type) where
  | position (found : Bool) (it : Nat)
  | erased (b : Bool)
  | right_value (v : Except map.exn R)
  | left_value (v : Except map.exn L)

/-- One call on the bimap `s`; should the call be an `insert` that allocates, `new`
returns the address `a` and the two nodes draw the priorities `p` and `q`. -/
def run_call [DecidableEq L] [DecidableEq R] (s : bimap L R) (a p q : Nat) :
    call L R → Option (bimap L R × answer L R)
  | .insert l r =>
    match s.insert l r a p q with
    | none => none
    | some (s', it) => some (s', .position (!bimap_iterator.eq s'.mem it s'.end_left) it)
  | .erase_left k =>
    match s.erase_left_value k with
    | none => none
    | some (s', b) => some (s', .erased b)
  | .erase_right k =>
    match s.erase_right_value k with
    | none => none
    | some (s', b) => some (s', .erased b)
  | .find_left k =>
    match s.find_left k with
    | none => none
    | some it => some (s, .position (!bimap_iterator.eq s.mem it s.end_left) it)
  | .find_right k =>
    match s.find_right k with
    | none => none
    | some it => some (s, .position (!bimap_iterator.eq s.mem.flipped it s.end_right) it)
  | .at_left k =>
    match s.at_left k with
    | none => none
    | some v => some (s, .right_value v)
  | .at_right k =>
    match s.at_right k with
    | none => none
    | some v => some (s, .left_value v)

/-- A sequence of calls, the `i`-th of which gets from `new` the address `addr i` and
draws the priorities `prio i`: the final bimap and the answers. -/
def run_calls [DecidableEq L] [DecidableEq R] (addr : Nat → Nat) (prio : Nat → Nat × Nat) :
    Nat → bimap L R → List (call L R) → Option (bimap L R × List (answer L R))
  | _, s, [] => some (s, [])
  | i, s, c :: cs =>
    match run_call s (addr i) (prio i).1 (prio i).2 c with
    | none => none
    | some (s', x) =>
      match run_calls addr prio (i + 1) s' cs with
      | none => none
      | some (s'', xs) => some (s'', x :: xs)

/-- Two bimaps hold the same records with the same pairs, under the same comparators:
they may differ in the priorities and in the links of the nodes only. -/
structure same_view (s1 s2 : bimap L R) : Prop where
  live : s1.mem.live = s2.mem.live
  value : s1.mem.value = s2.mem.value
  other : s1.mem.other = s2.mem.other
  size : s1.size_ = s2.size_
  cl : s1.compare_left = s2.compare_left
  cr : s1.compare_right = s2.compare_right
  base : s1.base = s2.base

end bimap

/-! # tuple: concatenation

A shallow embedding of `tuple/src/{traits,storage,tuple}.h` as far as `tuple_cat` needs
them. A parameter pack `Types...` is a list of types, `storage<Types...>` and a pack of
function arguments are heterogeneous lists indexed by their types, and the result type
`Res` of `tuple_cat_impl` is the index of the value that `func` returns. Values are
copied or moved into the result; the two are not told apart. -/

namespace impl

/-- The class `storage<Types...>`: empty, or a first element and the storage of the
rest. -/
inductive storage : List Type → Type 1 where
  | nil : storage []
  | cons {First : Type} {Rest : List Type} (first : First) (rest : storage Rest) :
      storage (First :: Rest)

/-- `storage::get<I>()`: `first` for `I == 0`, else `rest.get<I - 1>()`. -/
def storage.get : {Types : List Type} → storage Types → (I : Fin Types.length) → Types.get I
  | _ :: _, .cons first _, ⟨0, _⟩ => first
  | _ :: _, .cons _ rest, ⟨I + 1, h⟩ => rest.get ⟨I, Nat.lt_of_succ_lt_succ h⟩

/-- The pack `elems..., more...` of two packs of arguments. -/
def storage.append : {Types Others : List Type} → storage Types → storage Others →
    storage (Types ++ Others)
  | [], _, .nil, more => more
  | _ :: _, _, .cons first rest, more => .cons first (rest.append more)

/-- The pack expansion `f<Indices>()...` over `std::make_index_sequence<sizeof...(Types)>`. -/
def storage.expand : (Types : List Type) → ((I : Fin Types.length) → Types.get I) →
    storage Types
  | [], _ => .nil
  | _ :: Rest, f => .cons (f ⟨0, Nat.succ_pos _⟩) (storage.expand Rest (fun I => f I.succ))

/-- The elements of a storage, each with its type, first to last. -/
def storage.elements : {Types : List Type} → storage Types → List (Σ T : Type, T)
  | _, .nil => []
  | _, .cons first rest => ⟨_, first⟩ :: rest.elements

/-- The recursion of `return_value<tuple<Types1...>, tuple<Types2...>, Rest...>`, which
is `return_value<tuple<Types1..., Types2...>, Rest...>`, down to
`return_value<tuple<Types...>>`, which is `tuple<Types...>`. -/
def return_value.go : List Type → List (List Type) → List Type
  | Types, [] => Types
  | Types1, Types2 :: Rest => return_value.go (Types1 ++ Types2) Rest

/-- The element types of `return_value<Tuples...>::type`; `return_value<>` is `tuple<>`. -/
def return_value : List (List Type) → List Type
  | [] => []
  | Types :: Rest => return_value.go Types Rest

end impl

/-- The class `tuple<Types...>`, with its only member. -/
structure tuple (Types : List Type) : Type 1 where
  storage : impl.storage Types

/-- `tuple_size_v<tuple<Types...>>`. -/
def tuple_size_v (Types : List Type) : Nat := Types.length

/-- `get<N>(t)` on a tuple. -/
def tuple.get {Types : List Type} (t : tuple Types) (N : Fin Types.length) : Types.get N :=
  t.storage.get N

namespace impl

/-- A pack `Tuples&&... args` of tuples. -/
inductive pack : List (List Type) → Type 1 where
  | nil : pack []
  | cons {First : List Type} {Rest : List (List Type)} (first : tuple First) (rest : pack Rest) :
      pack (First :: Rest)

/-- The elements of the tuples of a pack, in the order of the arguments. -/
def pack.elements : {Tuples : List (List Type)} → pack Tuples → List (Σ T : Type, T)
  | _, .nil => []
  | _, .cons first rest => first.storage.elements ++ rest.elements

/-- `tuple_cat_impl<Res, Tuples...>::func(tuples..., elems...)`: without a tuple left,
`Res(elems...)`; else the call of `tuple_cat_impl<Res, Rest...>::func` with
`rest..., elems..., get<Indices>(first)...`. -/
def tuple_cat_impl.func : {Tuples : List (List Type)} → {Elements : List Type} →
    pack Tuples → storage Elements → tuple (return_value.go Elements Tuples)
  | _, _, .nil, elems => ⟨elems⟩
  | _, Elements, @pack.cons First Rest first rest, elems =>
    @tuple_cat_impl.func Rest (Elements ++ First) rest
      (elems.append (storage.expand First (fun I => first.get I)))

end impl

/-- `tuple_cat(args...)`, of type `return_value<Tuples...>::type`. -/
def tuple_cat : {Tuples : List (List Type)} → impl.pack Tuples →
    tuple (impl.return_value Tuples)
  | _, .nil => @impl.tuple_cat_impl.func [] [] .nil .nil
  | _, @impl.pack.cons First Rest first rest =>
    @impl.tuple_cat_impl.func (First :: Rest) [] (.cons first rest) .nil

/-- The tuple `{42, true}`. -/
def demo_tuple1 : tuple [Nat, Bool] := ⟨.cons 42 (.cons true .nil)⟩

/-- The tuple `{7}`. -/
def demo_tuple2 : tuple [Nat] := ⟨.cons 7 .nil⟩

/-! # bitset: a sequence of bits packed into words

A shallow embedding of `bitset/src/{bitset-constants,bitset-reference,bitset-iterator,
bitset-view}.h` and of `bitset/src/bitset.cpp`. A word is a natural number below
`2 ^ 64`; the array `data_` is the list of its words (empty for the null pointer), read
with `getD` and written with `set`. An iterator and a reference carry the contents of the
array they point into, and a function that writes through them returns the new contents.
A string is the list of its characters. Loops take a fuel argument, for which the
callers pass the size of the range. Iterators of one range satisfy `left_ <= right_`, and
their differences are taken in the natural numbers; the arithmetic on `size_t` that
wraps in the source is taken modulo `2 ^ 64`. A shift by 64 or more positions, undefined
in the source, gives 0 in `shl`. -/

namespace constants

/-- `constants::word_size_bits`. -/
def word_size_bits : Nat := 64

/-- `constants::max`, the word with all bits set. -/
def max : Nat := 2 ^ 64 - 1

/-- `constants::one`. -/
def one : Nat := 1

/-- `constants::npos`. -/
def npos : Nat := 2 ^ 64 - 1

end constants

namespace word_type

/-- `w << k` on `unsigned long long`. -/
def shl (w k : Nat) : Nat := (w <<< k) % 2 ^ 64

/-- `w >> k` on `unsigned long long`. -/
def shr (w k : Nat) : Nat := w >>> k

/-- `w--` on `unsigned long long`. -/
def dec (w : Nat) : Nat := (w + (2 ^ 64 - 1)) % 2 ^ 64

/-- `std::popcount(w)`: the number of bits set among the 64 bits of `w`. -/
def popcount (w : Nat) : Nat := ((List.range 64).filter (fun j => w.testBit j)).length

end word_type

/-- The class `bitset_reference<T>`: the word referred to and the position of the bit. -/
structure bitset_reference where
  element_ : Nat
  index_ : Nat

namespace bitset_reference

/-- `operator bool()`. -/
def to_bool (r : bitset_reference) : Bool := (word_type.shr r.element_ r.index_ &&& 1) != 0

/-- `flip()`: the word referred to, as it is left. -/
def flip (r : bitset_reference) : Nat := r.element_ ^^^ word_type.shl 1 r.index_

/-- `operator=(bool val)`: the word referred to, as it is left. -/
def assign (r : bitset_reference) (val : Bool) : Nat :=
  if r.to_bool != val then r.flip else r.element_

end bitset_reference

/-- The class `bitset_iterator<T>`: the array pointed into and the index of the bit. -/
structure bitset_iterator where
  data_ : List Nat
  index_ : Nat

namespace bitset_iterator

/-- `operator*()`. -/
def deref (it : bitset_iterator) : bitset_reference :=
  ⟨it.data_.getD (it.index_ / constants.word_size_bits) 0,
    it.index_ % constants.word_size_bits⟩

/-- `operator+(n)`. -/
def add (it : bitset_iterator) (n : Nat) : bitset_iterator := { it with index_ := it.index_ + n }

/-- `get(size)`: the `size` bits from the position of the iterator on, as a word. -/
def get (it : bitset_iterator) (size : Nat) : Nat :=
  let shift := it.index_ % constants.word_size_bits
  if size ≤ constants.word_size_bits - shift then
    word_type.shr
      (word_type.shl
        (word_type.shr (it.data_.getD (it.index_ / constants.word_size_bits) 0) shift)
        (constants.word_size_bits - size))
      (constants.word_size_bits - size)
  else
    let remainder := (size + (2 ^ 64 - constants.word_size_bits) + shift) % 2 ^ 64
    let delta := constants.word_size_bits - remainder
    word_type.shr (it.data_.getD (it.index_ / constants.word_size_bits) 0) shift ^^^
      word_type.shl
        (word_type.shr
          (word_type.shl (it.data_.getD (it.index_ / constants.word_size_bits + 1) 0) delta)
          delta)
        (constants.word_size_bits - shift)

/-- `set(value, size)`: the array as it is left. -/
def set (it : bitset_iterator) (value size : Nat) : List Nat :=
  let shift := it.index_ % constants.word_size_bits
  let i := it.index_ / constants.word_size_bits
  let mask := word_type.shl (word_type.shr (it.data_.getD i 0) shift) shift
  let mask :=
    if size < constants.word_size_bits - shift then
      word_type.shr (word_type.shl mask (constants.word_size_bits - shift - size))
        (constants.word_size_bits - shift - size)
    else mask
  let d1 := it.data_.set i (it.data_.getD i 0 ^^^ mask)
  let d2 := d1.set i (d1.getD i 0 ||| word_type.shl value shift)
  if constants.word_size_bits - shift < size then
    let delta := 2 * constants.word_size_bits - size - shift
    let mask := word_type.shr (word_type.shl (d2.getD (i + 1) 0) delta) delta
    let d3 := d2.set (i + 1) (d2.getD (i + 1) 0 ^^^ mask)
    d3.set (i + 1) (d3.getD (i + 1) 0 ||| word_type.shr value (constants.word_size_bits - shift))
  else d2

end bitset_iterator

/-- The class `bitset_view<T>`. -/
structure bitset_view where
  left_ : bitset_iterator
  right_ : bitset_iterator

namespace bitset_view

/-- `size()`. -/
def size (vw : bitset_view) : Nat := vw.right_.index_ - vw.left_.index_

/-- `begin()`. -/
def begin (vw : bitset_view) : bitset_iterator := vw.left_

/-- `end()`. -/
def end_ (vw : bitset_view) : bitset_iterator := vw.right_

/-- The loop of `iteration_with_operation(func)`, the iterator `it` of which points into
the array `d` at the index `it`: the array as it is left. -/
def iteration_with_operation_loop (func : Nat → Nat → Nat) (right : Nat) :
    Nat → List Nat → Nat → Option (List Nat)
  | 0, d, it => if it < right then none else some d
  | fuel + 1, d, it =>
    if it < right then
      let count := min constants.word_size_bits (right - it)
      iteration_with_operation_loop func right fuel
        (bitset_iterator.set ⟨d, it⟩ (func (bitset_iterator.get ⟨d, it⟩ count) count) count)
        (it + count)
    else some d

/-- `iteration_with_operation(func)`: the array as it is left. -/
def iteration_with_operation (vw : bitset_view) (func : Nat → Nat → Nat) : Option (List Nat) :=
  iteration_with_operation_loop func vw.end_.index_ vw.size vw.begin.data_ vw.begin.index_

/-- The loop of `iteration_with_bits_operation(bit_function, other)`. -/
def iteration_with_bits_operation_loop (bit_function : Nat → Nat → Nat) (other : bitset_view)
    (left right : Nat) : Nat → List Nat → Nat → Option (List Nat)
  | 0, d, it => if it < right then none else some d
  | fuel + 1, d, it =>
    if it < right then
      let count := min constants.word_size_bits (right - it)
      let it2 := other.begin.add (it - left)
      iteration_with_bits_operation_loop bit_function other left right fuel
        (bitset_iterator.set ⟨d, it⟩
          (bit_function (bitset_iterator.get ⟨d, it⟩ count) (it2.get count)) count)
        (it + count)
    else some d

/-- `iteration_with_bits_operation(bit_function, other)`: the array as it is left. -/
def iteration_with_bits_operation (vw : bitset_view) (bit_function : Nat → Nat → Nat)
    (other : bitset_view) : Option (List Nat) :=
  iteration_with_bits_operation_loop bit_function other vw.begin.index_ vw.end_.index_ vw.size
    vw.begin.data_ vw.begin.index_

/-- `operator&=(other)`. -/
def op_and (vw other : bitset_view) : Option (List Nat) :=
  vw.iteration_with_bits_operation (fun a b => a &&& b) other

/-- `operator|=(other)`. -/
def op_or (vw other : bitset_view) : Option (List Nat) :=
  vw.iteration_with_bits_operation (fun a b => a ||| b) other

/-- `operator^=(other)`. -/
def op_xor (vw other : bitset_view) : Option (List Nat) :=
  vw.iteration_with_bits_operation (fun a b => a ^^^ b) other

/-- `flip()`. -/
def flip (vw : bitset_view) : Option (List Nat) :=
  vw.iteration_with_operation (fun value count =>
    value ^^^ word_type.shr constants.max (constants.word_size_bits - count))

/-- `set()`. -/
def set (vw : bitset_view) : Option (List Nat) :=
  vw.iteration_with_operation (fun _ count =>
    word_type.shr constants.max (constants.word_size_bits - count))

/-- `reset()`. -/
def reset (vw : bitset_view) : Option (List Nat) :=
  vw.iteration_with_operation (fun _ _ => 0)

end bitset_view

/-- The class `bitset`. -/
structure bitset where
  data_ : List Nat
  size_ : Nat

namespace bitset

/-- The constructor `bitset()`. -/
def ctor : bitset := ⟨[], 0⟩

/-- The private constructor `bitset(size)`: zeroed words. -/
def ctor_size (size : Nat) : bitset :=
  if size > 0 then
    ⟨List.replicate
      ((size + constants.word_size_bits - 1) % 2 ^ 64 / constants.word_size_bits) 0, size⟩
  else ⟨[], size⟩

/-- `std::fill_n(first, n, value)` on an array. -/
def fill_n (d : List Nat) (n value : Nat) : List Nat :=
  (List.range n).foldl (fun d i => d.set i value) d

/-- The constructor `bitset(size, value)`. -/
def ctor_fill (size : Nat) (value : Bool) : bitset :=
  let b := ctor_size size
  if value then
    let d := fill_n b.data_ (b.size_ / constants.word_size_bits) constants.max
    if b.size_ % constants.word_size_bits ≠ 0 then
      let val := word_type.dec (word_type.shl constants.one (b.size_ % constants.word_size_bits))
      { b with data_ := d.set (b.size_ / constants.word_size_bits) val }
    else { b with data_ := d }
  else b

/-- `std::copy(first, first + count, dest)` between arrays. -/
def copy_n (src : List Nat) (count : Nat) (dest : List Nat) : List Nat :=
  (List.range count).foldl (fun d i => d.set i (src.getD i 0)) dest

/-- The copy constructor `bitset(other)`. -/
def ctor_copy (other : bitset) : bitset :=
  let b := ctor_size other.size_
  let count := (b.size_ + constants.word_size_bits - 1) % 2 ^ 64 / constants.word_size_bits
  { b with data_ := copy_n other.data_ count b.data_ }

/-- The loop of the constructor `bitset(str)`. -/
def ctor_string_loop : List Char → Nat → List Nat → List Nat
  | [], _, d => d
  | c :: rest, count, d =>
    let d1 :=
      if c = '1' then
        d.set (count / constants.word_size_bits)
          (d.getD (count / constants.word_size_bits) 0 ^^^
            word_type.shl constants.one (count % constants.word_size_bits))
      else d
    ctor_string_loop rest (count + 1) d1

/-- The constructor `bitset(str)`. -/
def ctor_string (str : List Char) : bitset :=
  let b := ctor_size str.length
  { b with data_ := ctor_string_loop str 0 b.data_ }

/-- The loop of the constructor `bitset(first, last)`. -/
def ctor_range_loop (first last : bitset_iterator) : Nat → List Nat → Nat → Option (List Nat)
  | 0, d, it => if it < last.index_ then none else some d
  | fuel + 1, d, it =>
    if it < last.index_ then
      let count := min constants.word_size_bits (last.index_ - it)
      ctor_range_loop first last fuel
        (d.set ((it - first.index_) / constants.word_size_bits)
          (bitset_iterator.get ⟨first.data_, it⟩ count))
        (it + count)
    else some d

/-- The constructor `bitset(first, last)`. -/
def ctor_range (first last : bitset_iterator) : Option bitset :=
  let b := ctor_size (last.index_ - first.index_)
  match ctor_range_loop first last b.size_ b.data_ first.index_ with
  | none => none
  | some d => some { b with data_ := d }

/-- The constructor `bitset(other)` from a view. -/
def ctor_view (other : bitset_view) : Option bitset :=
  ctor_range other.begin other.end_

/-- `size()`. -/
def size (b : bitset) : Nat := b.size_

/-- `operator[](index)`. -/
def at_ (b : bitset) (index : Nat) : bitset_reference :=
  ⟨b.data_.getD (index / constants.word_size_bits) 0, index % constants.word_size_bits⟩

/-- The statement `b[index] = val`. -/
def assign_at (b : bitset) (index : Nat) (val : Bool) : bitset :=
  { b with data_ := b.data_.set (index / constants.word_size_bits) ((b.at_ index).assign val) }

/-- `begin()`. -/
def begin (b : bitset) : bitset_iterator := ⟨b.data_, 0⟩

/-- `end()`. -/
def end_ (b : bitset) : bitset_iterator := ⟨b.data_, b.size⟩

/-- `subview(offset, count)`. -/
def subview (b : bitset) (offset count : Nat) : bitset_view :=
  if offset > b.size then ⟨b.end_, b.end_⟩
  else if count ≤ b.size - offset then ⟨b.begin.add offset, (b.begin.add offset).add count⟩
  else ⟨b.begin.add offset, b.end_⟩

/-- `operator const_view()`. -/
def to_view (b : bitset) : bitset_view := ⟨b.begin, b.end_⟩

/-- `operator&=(other)`. -/
def op_and (b : bitset) (other : bitset_view) : Option bitset :=
  ((b.subview 0 constants.npos).op_and other).map (fun d => { b with data_ := d })

/-- `operator|=(other)`. -/
def op_or (b : bitset) (other : bitset_view) : Option bitset :=
  ((b.subview 0 constants.npos).op_or other).map (fun d => { b with data_ := d })

/-- `operator^=(other)`. -/
def op_xor (b : bitset) (other : bitset_view) : Option bitset :=
  ((b.subview 0 constants.npos).op_xor other).map (fun d => { b with data_ := d })

/-- The loop of `iteration_for_shifts(count, size)`: the array of `copy` as it is left. -/
def iteration_for_shifts_loop (data : List Nat) (size : Nat) :
    Nat → List Nat → Nat → Option (List Nat)
  | 0, copy, ind => if ind < size then none else some copy
  | fuel + 1, copy, ind =>
    if ind < size then
      if ind + constants.word_size_bits ≤ size then
        iteration_for_shifts_loop data size fuel
          (copy.set (ind / constants.word_size_bits)
            (data.getD (ind / constants.word_size_bits) 0))
          (ind + constants.word_size_bits)
      else
        iteration_for_shifts_loop data size fuel
          (copy.set (ind / constants.word_size_bits)
            (copy.getD (ind / constants.word_size_bits) 0 ^^^
              (data.getD (ind / constants.word_size_bits) 0 &&&
                word_type.shl constants.one (ind % constants.word_size_bits))))
          (ind + 1)
    else some copy

/-- `iteration_for_shifts(count, size)`. -/
def iteration_for_shifts (b : bitset) (count size : Nat) : Option bitset :=
  let copy := ctor_fill count false
  match iteration_for_shifts_loop b.data_ size size copy.data_ 0 with
  | none => none
  | some d => some { copy with data_ := d }

/-- `operator<<=(count)`. -/
def op_shl (b : bitset) (count : Nat) : Option bitset :=
  b.iteration_for_shifts ((b.size + count) % 2 ^ 64) b.size

/-- `operator>>=(count)`. -/
def op_shr (b : bitset) (count : Nat) : Option bitset :=
  if b.size ≥ count then b.iteration_for_shifts (b.size - count) (b.size - count)
  else some ctor

/-- `flip()`. -/
def flip (b : bitset) : Option bitset :=
  (b.subview 0 constants.npos).flip.map (fun d => { b with data_ := d })

/-- `set()`. -/
def set (b : bitset) : Option bitset :=
  (b.subview 0 constants.npos).set.map (fun d => { b with data_ := d })

/-- `reset()`. -/
def reset (b : bitset) : Option bitset :=
  (b.subview 0 constants.npos).reset.map (fun d => { b with data_ := d })

/-- The loop of `count()`. -/
def count_loop (b : bitset) : Nat → Nat → Nat → Option Nat
  | 0, ind, ans => if ind < b.size then none else some ans
  | fuel + 1, ind, ans =>
    if ind < b.size then
      count_loop b fuel (ind + constants.word_size_bits)
        (ans + word_type.popcount (b.data_.getD (ind / constants.word_size_bits) 0))
    else some ans

/-- `count()`. -/
def count (b : bitset) : Option Nat := count_loop b b.size 0 0

end bitset

/-- The loop of `to_string(vw)`, over the iterators from `it` to `vw.end()`. -/
def to_string_loop (vw : bitset_view) : Nat → Nat → List Char → Option (List Char)
  | 0, it, ans => if it ≠ vw.end_.index_ then none else some ans
  | fuel + 1, it, ans =>
    if it ≠ vw.end_.index_ then
      to_string_loop vw fuel (it + 1)
        (ans ++ [if (bitset_iterator.deref ⟨vw.begin.data_, it⟩).to_bool then '1' else '0'])
    else some ans

/-- `to_string(vw)`. -/
def to_string (vw : bitset_view) : Option (List Char) :=
  to_string_loop vw vw.size vw.begin.index_ []

namespace bitset

/-- The bit at position `i` of an array of words. -/
def bit (d : List Nat) (i : Nat) : Bool :=
  (d.getD (i / constants.word_size_bits) 0).testBit (i % constants.word_size_bits)

/-- The words of an array are machine words. -/
def words_ok (d : List Nat) : Prop := ∀ w ∈ d, w < 2 ^ 64

/-- The invariant of a bitset: the array has the words that `size_` bits need, and the
bits at the positions from `size_` on are zero. -/
structure wf (b : bitset) : Prop where
  length : b.data_.length = (b.size_ + 63) / 64
  words : words_ok b.data_
  padding : ∀ i, b.size_ ≤ i → bit b.data_ i = false
  small : b.size_ + 63 < 2 ^ 64

/-- The bitsets built by the constructors and changed by `set`, `reset`, `flip`,
`operator[]` assignment, `<<=`, `>>=`, and by `&=`, `|=`, `^=` with a view of the same
size over an array of machine words. The constructors take the sizes for which the words
can be allocated; `<<=` takes every `count` of type `std::size_t`. -/
inductive reachable : bitset → Prop
  | ctor : reachable bitset.ctor
  | ctor_fill (size : Nat) (value : Bool) : size + 63 < 2 ^ 64 →
      reachable (bitset.ctor_fill size value)
  | ctor_copy {b : bitset} : reachable b → reachable (bitset.ctor_copy b)
  | ctor_string (str : List Char) : str.length + 63 < 2 ^ 64 →
      reachable (bitset.ctor_string str)
  | ctor_view {b : bitset} (other : bitset_view) : other.left_.index_ ≤ other.right_.index_ →
      other.right_.index_ + 63 < 2 ^ 64 → words_ok other.left_.data_ →
      bitset.ctor_view other = some b → reachable b
  | set {b b' : bitset} : reachable b → b.set = some b' → reachable b'
  | reset {b b' : bitset} : reachable b → b.reset = some b' → reachable b'
  | flip {b b' : bitset} : reachable b → b.flip = some b' → reachable b'
  | assign_at {b : bitset} (index : Nat) (val : Bool) : reachable b → index < b.size →
      reachable (b.assign_at index val)
  | op_shl {b b' : bitset} (count : Nat) : reachable b → count < 2 ^ 64 →
      b.op_shl count = some b' → reachable b'
  | op_shr {b b' : bitset} (count : Nat) : reachable b → b.op_shr count = some b' →
      reachable b'
  | op_and {b b' : bitset} (other : bitset_view) : reachable b → other.size = b.size →
      words_ok other.left_.data_ → b.op_and other = some b' → reachable b'
  | op_or {b b' : bitset} (other : bitset_view) : reachable b → other.size = b.size →
      words_ok other.left_.data_ → b.op_or other = some b' → reachable b'
  | op_xor {b b' : bitset} (other : bitset_view) : reachable b → other.size = b.size →
      words_ok other.left_.data_ → b.op_xor other = some b' → reachable b'

end bitset

/-! ## signal: slots that connect and disconnect during an emission -/

namespace signals

open intrusive

variable {A U : Type}

/-- A call that the target of a slot makes on a signal or on a connection:
`sig.connect(slot)`, the connection being built at the address `c`, or `c.disconnect()`. -/
inductive slot_call (A U : Type) where
  | connect (sig c : Nat) (slot : Option (A → U → U))
  | disconnect (c : Nat)

/-- The loop `for (it = _it; it != nullptr; it = it->prev)` of `connection::disconnect()`,
which steps forward each token standing at the connection `c`. -/
def advance_tokens (c : Nat) : Nat → heap A U → Option Nat → Option (heap A U)
  | _, h, none => some h
  | 0, _, some _ => none
  | fuel + 1, h, some t =>
    let h1 : heap A U :=
      if (h.token t).it = c then
        { h with token := fun x => if x = t then { h.token t with it := (h.elem c).next }
                                   else h.token x }
      else h
    advance_tokens c fuel h1 (h1.token t).prev

/-- `connection::disconnect()` on the connection at `c`. -/
def connection.disconnect (h : heap A U) (c fuel : Nat) : Option (heap A U) :=
  let h1 : heap A U :=
    { h with conn := fun b => if b = c then { h.conn c with slot_ := none } else h.conn b }
  match advance_tokens c fuel h1 (h1.conn c).it_ with
  | none => none
  | some h2 =>
    let h3 : heap A U :=
      { h2 with conn := fun b => if b = c then { h2.conn c with it_ := none } else h2.conn b }
    if (h3.conn c).need_unlink then some { h3 with elem := unlink h3.elem c } else some h3

/-- The calls made by the target of a slot, one after the other. -/
def run_slot_calls (fuel : Nat) : List (slot_call A U) → heap A U → Option (heap A U)
  | [], h => some h
  | .connect sig c slot :: rest, h => run_slot_calls fuel rest (signal.connect h sig c slot)
  | .disconnect c :: rest, h =>
    match connection.disconnect h c fuel with
    | none => none
    | some h1 => run_slot_calls fuel rest h1

/-- The loop of `signal::operator()` when the target of the slot of the connection at `c`,
invoked with `args` on the state `u` of the caller, also makes the calls `calls c args u`. -/
def emit_loop_calls (calls : Nat → A → U → List (slot_call A U)) (args : A) (tk : Nat) :
    Nat → heap A U → U → Option (heap A U × U × Except slot_exn Unit)
  | 0, h, u =>
    match (h.token tk).sig_ with
    | none => none
    | some sig => if (h.token tk).it ≠ list.end_ sig then none else some (h, u, .ok ())
  | fuel + 1, h, u =>
    match (h.token tk).sig_ with
    | none => none
    | some sig =>
      if (h.token tk).it ≠ list.end_ sig then
        let current := (h.token tk).it
        let h1 : heap A U :=
          { h with token := fun t => if t = tk then { h.token tk with it := (h.elem current).next }
                                     else h.token t }
        match (h1.conn current).slot_ with
        | none => some (h1, u, .error .bad_function_call)
        | some f =>
          match run_slot_calls fuel (calls current args u) h1 with
          | none => none
          | some h2 =>
            match (h2.token tk).sig_ with
            | none => some (h2, f args u, .ok ())
            | some _ => emit_loop_calls calls args tk fuel h2 (f args u)
      else some (h, u, .ok ())

/-- `signal::operator()(args...)` with slots that make calls. -/
def signal.emit_calls (calls : Nat → A → U → List (slot_call A U)) (h : heap A U)
    (sig tk : Nat) (args : A) (u : U) (fuel : Nat) :
    Option (heap A U × U × Except slot_exn Unit) :=
  match token_ctor h tk sig fuel with
  | none => none
  | some h1 =>
    match emit_loop_calls calls args tk fuel h1 u with
    | none => none
    | some (h2, u2, res) =>
      match token_dtor h2 tk fuel with
      | none => none
      | some h3 => some (h3, u2, res)

/-- A slot that appends the address `c` of its connection to the state of the caller,
which so lists the slots invoked, in the order of their invocation. -/
def trace_slot (c : Nat) : Option (Unit → List Nat → List Nat) :=
  some (fun _ u => u ++ [c])

/-- The signal at address 1 with the slots `trace_slot 2` and `trace_slot 3` connected at
the addresses 2 and 3. -/
def demo_trace2 : heap Unit (List Nat) :=
  signal.connect
    (signal.connect
      (signal.ctor
        { elem := fun a => ⟨a, a⟩
          conn := fun _ => ⟨none, none, true, none⟩
          token := fun _ => ⟨none, 0, none⟩
          token_ := fun _ => none } 1)
      1 2 (trace_slot 2))
    1 3 (trace_slot 3)

/-- As `demo_trace2`, with two more slots connected at the addresses 4 and 5. -/
def demo_trace4 : heap Unit (List Nat) :=
  signal.connect (signal.connect demo_trace2 1 4 (trace_slot 4)) 1 5 (trace_slot 5)

/-- No slot makes a call. -/
def calls_none (_ : Nat) (_ : Unit) (_ : List Nat) : List (slot_call Unit (List Nat)) := []

/-- The slot of the connection at 3 disconnects the connection at 4. -/
def calls_disconnect (c : Nat) (_ : Unit) (_ : List Nat) : List (slot_call Unit (List Nat)) :=
  if c = 3 then [.disconnect 4] else []

/-- The slot of the connection at 2 connects two slots, at the addresses 4 and 5. -/
def calls_connect (c : Nat) (_ : Unit) (_ : List Nat) : List (slot_call Unit (List Nat)) :=
  if c = 2 then [.connect 1 4 (trace_slot 4), .connect 1 5 (trace_slot 5)] else []

/-- The slot of the connection at 2 connects two slots, at the addresses 4 and 5, and the
slot of the connection at 3 disconnects the connection at 4. -/
def calls_connect_disconnect (c : Nat) (_ : Unit) (_ : List Nat) :
    List (slot_call Unit (List Nat)) :=
  if c = 2 then [.connect 1 4 (trace_slot 4), .connect 1 5 (trace_slot 5)]
  else if c = 3 then [.disconnect 4]
  else []

/-- The connections that the list of the signal at `sig` holds, read by following at
most `fuel` links. -/
def list_of (m : Links) (sig : Nat) : Nat → Nat → List Nat
  | 0, _ => []
  | fuel + 1, x => if x = sig then [] else x :: list_of m sig fuel (m x).next

end signals

/-! ## Pointers to the two bases of an object, and `flip` on them

In the definitions above a `node<Tag>*` is the address of the enclosing object and the
tag is the choice of the store. Here a pointer carries its tag, so that the two casts of
`flip` are steps of their own: `static_cast<const sentinel_node*>` leads from a base to
the object, defined for the objects of type `sentinel_node` only, and the conversion to
`const node<OtherTag>*` leads from the object to its other base. -/

namespace bimap_impl

/-- The tags `left_tag` and `right_tag`. -/
inductive tag where
  | left_tag
  | right_tag
deriving DecidableEq

/-- `opposite_tag<Tag>::type`. -/
def opposite_tag : tag → tag
  | .left_tag => .right_tag
  | .right_tag => .left_tag

/-- A pointer `const node<Tag>*`: the tag of the base pointed to, and the address of the
object (a record or the sentinel) that the base belongs to. -/
structure node_ptr where
  Tag : tag
  obj : Nat
deriving DecidableEq

/-- The conversion of a `const sentinel_node*` to `const node<Tag>*`: the pointer to that
base of the object. -/
def to_node (Tag : tag) (obj : Nat) : node_ptr := ⟨Tag, obj⟩

end bimap_impl

namespace bimap

variable {L R : Type}

/-- `bimap::left()`: `static_cast<const left_node&>(base)`. -/
def left (s : bimap L R) : node_ptr := to_node .left_tag s.base

/-- `bimap::right()`: `static_cast<const right_node&>(base)`. -/
def right (s : bimap L R) : node_ptr := to_node .right_tag s.base

/-- The node `*p` that a `const node<Tag>* p` points to, in the tree of its tag. -/
def node_at (s : bimap L R) (p : node_ptr) : node :=
  match p.Tag with
  | .left_tag => s.mem.cur p.obj
  | .right_tag => s.mem.opp p.obj

/-- `static_cast<const sentinel_node*>(node_)`: the object that the node pointed to is a
base of. The objects of type `sentinel_node` are the member `base` and the records
allocated and not deleted (a `bimap_node` derives from `sentinel_node`); for a pointer
into no such object the cast is undefined. -/
def to_sentinel_node (s : bimap L R) (node_ : node_ptr) : Option Nat :=
  if node_.obj = s.base ∨ node_.obj ∈ s.mem.live then some node_.obj else none

end bimap

namespace bimap_iterator

variable {L R : Type}

/-- `bimap_iterator<Tag, ..>::flip()` on the member `node_`: the cast to the object, then
the conversion to its base of the opposite tag. -/
def flip_node (s : bimap L R) (node_ : node_ptr) : Option node_ptr :=
  match s.to_sentinel_node node_ with
  | none => none
  | some obj => some (to_node (opposite_tag node_.Tag) obj)

/-- Friend `operator==` of two iterators of one tag, on their members `node_`:
`*lhs.node_ == *rhs.node_`. -/
def eq_node (s : bimap L R) (lhs rhs : node_ptr) : Bool :=
  node_eq (s.node_at lhs) (s.node_at rhs)

end bimap_iterator


/-! ## Lemmas on the store and on linked shapes -/

namespace bimap_impl

@[simp] theorem Mem.write_same (m : Mem) (a : Nat) (n : node) : (m.write a n) a = n := by
  simp [Mem.write]

@[simp] theorem Mem.write_ne (m : Mem) {a b : Nat} (n : node) (h : b ≠ a) :
    (m.write a n) b = m b := by
  simp [Mem.write, h]

theorem shape.root_mem {t : shape} {a : Nat} (h : t.root = some a) : a ∈ t.inorder := by
  cases t with
  | nil => simp [shape.root] at h
  | node l b r =>
    simp only [shape.root, Option.some.injEq] at h
    simp [shape.inorder, h]

theorem shape.length_inorder (t : shape) : t.inorder.length = t.size := by
  induction t with
  | nil => rfl
  | node l a r ihl ihr => simp [shape.inorder, shape.size, ihl, ihr]; omega

theorem shape.root_eq_none {t : shape} (h : t.root = none) : t = .nil := by
  cases t with
  | nil => rfl
  | node l b r => simp [shape.root] at h

theorem shape.head_inorder_of_root {t : shape} {a : Nat} (h : t.root = some a) :
    ∃ x, t.inorder.head? = some x := by
  cases t with
  | nil => simp [shape.root] at h
  | node l b r =>
    cases hl : l.inorder with
    | nil => exact ⟨b, by simp [shape.inorder, hl]⟩
    | cons x xs => exact ⟨x, by simp [shape.inorder, hl]⟩

/-- Frame rule: a shape stays linked when the store is unchanged on its nodes. -/
theorem linked_congr {m m' : Mem} :
    ∀ (t : shape) (p : Nat), (∀ a ∈ t.inorder, m' a = m a) → linked m p t → linked m' p t := by
  intro t
  induction t with
  | nil => intro p _ _; trivial
  | node l a r ihl ihr =>
    intro p hag h
    obtain ⟨h1, h2, h3, h4, h5⟩ := h
    have ha : m' a = m a := hag a (by simp [shape.inorder])
    refine ⟨by rw [ha]; exact h1, by rw [ha]; exact h2, by rw [ha]; exact h3, ?_, ?_⟩
    · exact ihl a (fun b hb => hag b (by simp [shape.inorder, hb])) h4
    · exact ihr a (fun b hb => hag b (by simp [shape.inorder, hb])) h5

/-- A linked shape can be hung below another parent by redirecting the parent link of
its root only. -/
theorem linked_reparent {m m' : Mem} {l : shape} {a : Nat} {r : shape} {p p' : Nat}
    (h : linked m p (.node l a r)) (hp : (m' a).pred = some p')
    (hl : (m' a).left = (m a).left) (hr : (m' a).right = (m a).right)
    (hag : ∀ b ∈ l.inorder ++ r.inorder, m' b = m b) :
    linked m' p' (.node l a r) := by
  obtain ⟨_, h2, h3, h4, h5⟩ := h
  refine ⟨hp, by rw [hl]; exact h2, by rw [hr]; exact h3, ?_, ?_⟩
  · exact linked_congr l a (fun b hb => hag b (by simp [hb])) h4
  · exact linked_congr r a (fun b hb => hag b (by simp [hb])) h5

theorem get_left_linked {m : Mem} :
    ∀ (t : shape) (p : Nat), linked m p t → ∀ fuel, t.size ≤ fuel →
      get_left m fuel t.root = some t.inorder.head? := by
  intro t
  induction t with
  | nil => intro p _ fuel _; cases fuel <;> simp [shape.root, get_left, shape.inorder]
  | node l a r ihl _ =>
    intro p h fuel hf
    obtain ⟨_, h2, _, h4, _⟩ := h
    cases fuel with
    | zero => simp [shape.size] at hf
    | succ f =>
      have hroot : (shape.node l a r).root = some a := rfl
      rw [hroot]
      cases hl : l.root with
      | none =>
        have := shape.root_eq_none hl
        subst this
        simp [shape.inorder, get_left, h2, hl]
      | some b =>
        have := ihl a h4 f (by simp [shape.size] at hf; omega)
        rw [hl] at this
        simp only [get_left, h2, hl, this]
        obtain ⟨x, hx⟩ := shape.head_inorder_of_root hl
        cases hli : l.inorder with
        | nil => simp [hli] at hx
        | cons y ys => simp [shape.inorder, hli]

end bimap_impl

namespace bimap_impl

theorem next_of_append_left {xs : List Nat} {x : Nat} (ys : List Nat) (d : Nat)
    (hx : x ∈ xs) : next_of (xs ++ ys) d x = next_of xs (ys.headD d) x := by
  induction xs with
  | nil => simp at hx
  | cons y xs ih =>
    by_cases hy : y = x
    · subst hy
      cases xs <;> simp [next_of]
    · have hx' : x ∈ xs := by
        rcases List.mem_cons.1 hx with h | h
        · exact absurd h.symm hy
        · exact h
      simp [next_of, hy, ih hx']

theorem next_of_append_right {xs : List Nat} {x : Nat} (ys : List Nat) (d : Nat)
    (hx : x ∉ xs) : next_of (xs ++ ys) d x = next_of ys d x := by
  induction xs with
  | nil => rfl
  | cons y xs ih =>
    have hy : y ≠ x := fun h => hx (by simp [h])
    have hx' : x ∉ xs := fun h => hx (by simp [h])
    simp [next_of, hy, ih hx']

theorem next_of_last {xs : List Nat} {x : Nat} (d : Nat) (hn : xs.Nodup)
    (hl : xs.getLast? = some x) : next_of xs d x = d := by
  induction xs with
  | nil => simp at hl
  | cons y xs ih =>
    cases xs with
    | nil =>
      simp at hl
      simp [next_of, hl]
    | cons z zs =>
      rw [List.getLast?_cons_cons] at hl
      have hmem : x ∈ z :: zs := List.mem_of_getLast?_eq_some hl
      have hy : y ≠ x := by
        intro h; subst h
        exact (List.nodup_cons.1 hn).1 hmem
      have := ih (List.nodup_cons.1 hn).2 hl
      rw [next_of]
      simp [hy, this]

theorem linked_root_pred {m : Mem} {t : shape} {p b : Nat} (h : linked m p t)
    (hb : t.root = some b) : (m b).pred = some p := by
  cases t with
  | nil => simp [shape.root] at hb
  | node l a r =>
    simp only [shape.root, Option.some.injEq] at hb
    subst hb
    exact h.1

/-- Climbing with `up_right` from the last node of a linked shape reaches its root. -/
theorem up_right_last {m : Mem} :
    ∀ (t : shape) (p : Nat), linked m p t → ∀ z, t.inorder.getLast? = some z →
      ∃ a d, t.root = some a ∧ d < t.size ∧ (m z).right = none ∧
        ∀ f, up_right m (f + d) z = up_right m f a := by
  intro t
  induction t with
  | nil => intro p _ z hz; simp [shape.inorder] at hz
  | node l a r _ ihr =>
    intro p h z hz
    obtain ⟨_, _, h3, _, h5⟩ := h
    cases hr : r.inorder with
    | nil =>
      have hrn : r = .nil := by
        cases r with
        | nil => rfl
        | node _ _ _ => simp [shape.inorder] at hr
      subst hrn
      simp [shape.inorder] at hz
      subst hz
      exact ⟨a, 0, rfl, by simp [shape.size], by simpa [shape.root] using h3, fun f => rfl⟩
    | cons y ys =>
      have hz' : r.inorder.getLast? = some z := by
        simp only [shape.inorder] at hz
        rw [hr] at hz ⊢
        rw [List.getLast?_append_cons, List.getLast?_cons_cons] at hz
        exact hz
      obtain ⟨b, d, hb, hd, hzr, hup⟩ := ihr a h5 z hz'
      refine ⟨a, d + 1, rfl, by simp [shape.size]; omega, hzr, fun f => ?_⟩
      have hpb : (m b).pred = some a := linked_root_pred h5 hb
      have : up_right m (f + 1) b = up_right m f a := by
        simp [up_right, hpb, h3, hb]
      rw [← this, ← hup (f + 1)]
      congr 1
      omega

theorem shape.inorder_ne_nil_of_root {t : shape} {b : Nat} (h : t.root = some b) :
    t.inorder ≠ [] := by
  cases t with
  | nil => simp [shape.root] at h
  | node l a r => simp [shape.inorder]

/-- Inside a linked shape `get_next` steps from a node that is not the last one to its
in-order successor. -/
theorem get_next_inner {m : Mem} :
    ∀ (t : shape) (p : Nat), linked m p t → t.inorder.Nodup →
      ∀ x ∈ t.inorder, t.inorder.getLast? ≠ some x → ∀ (d fuel : Nat), t.size ≤ fuel →
        get_next m fuel x = some (next_of t.inorder d x) := by
  intro t
  induction t with
  | nil => intro p _ _ x hx; simp [shape.inorder] at hx
  | node l a r ihl ihr =>
    intro p h hn x hx hlast d fuel hf
    obtain ⟨h1, h2, h3, h4, h5⟩ := h
    simp only [shape.inorder] at hx hlast hn ⊢
    simp only [shape.size] at hf
    have hnl : l.inorder.Nodup := (List.nodup_append.1 hn).1
    have hnr : r.inorder.Nodup := (List.nodup_cons.1 (List.nodup_append.1 hn).2.1).2
    have hal : a ∉ l.inorder := fun h => (List.nodup_append.1 hn).2.2 h (by simp)
    have har : a ∉ r.inorder := (List.nodup_cons.1 (List.nodup_append.1 hn).2.1).1
    have hdisj : ∀ y, y ∈ l.inorder → y ∉ r.inorder := fun y hy hy' =>
      (List.nodup_append.1 hn).2.2 hy (by simp [hy'])
    by_cases hxl : x ∈ l.inorder
    · rw [next_of_append_left _ _ hxl]
      simp only [List.headD_cons]
      by_cases hll : l.inorder.getLast? = some x
      · obtain ⟨b, k, hb, hk, hxr, hup⟩ := up_right_last l a h4 x hll
        rw [next_of_last a hnl hll]
        have hfk : fuel = (fuel - k - 1 + 1) + k := by omega
        have hpb : (m b).pred = some a := linked_root_pred h4 hb
        have hne : (m a).right ≠ some b := by
          rw [h3]
          intro hrb
          exact hdisj b (shape.root_mem hb) (shape.root_mem hrb)
        rw [get_next, hxr]
        have hgl : get_left m fuel none = some none := by cases fuel <;> rfl
        rw [hgl]
        simp only []
        rw [hfk, hup]
        simp [up_right, hpb, hne]
      · exact ihl a h4 hnl x hxl hll a fuel (by omega)
    · rw [next_of_append_right _ _ hxl]
      by_cases hxa : x = a
      · subst hxa
        simp only [next_of, if_true]
        cases hri : r.inorder with
        | nil => simp [hri] at hlast
        | cons y ys =>
          have := get_left_linked r x h5 fuel (by omega)
          rw [get_next, h3, this, hri]
          simp
      · have hxr : x ∈ r.inorder := by
          rcases List.mem_append.1 hx with h | h
          · exact absurd h hxl
          · rcases List.mem_cons.1 h with h | h
            · exact absurd h hxa
            · exact h
        have hlr : r.inorder.getLast? ≠ some x := by
          intro hc
          apply hlast
          cases hri : r.inorder with
          | nil => simp [hri] at hxr
          | cons y ys =>
            rw [hri] at hc
            rw [List.getLast?_append_cons, List.getLast?_cons_cons]
            exact hc
        have hax : ¬ a = x := fun h => hxa h.symm
        simp only [next_of, hax, if_false]
        exact ihr a h5 hnr x hxr hlr d fuel (by omega)

end bimap_impl

namespace bimap_impl

theorem linked_pred_some {m : Mem} :
    ∀ (t : shape) (p : Nat), linked m p t → ∀ x ∈ t.inorder, ∃ q, (m x).pred = some q := by
  intro t
  induction t with
  | nil => intro p _ x hx; simp [shape.inorder] at hx
  | node l a r ihl ihr =>
    intro p h x hx
    obtain ⟨h1, _, _, h4, h5⟩ := h
    simp only [shape.inorder, List.mem_append, List.mem_cons] at hx
    rcases hx with hx | hx | hx
    · exact ihl a h4 x hx
    · subst hx; exact ⟨p, h1⟩
    · exact ihr a h5 x hx

/-- Below a sentinel `get_next` is the in-order successor, the sentinel after the last
node. -/
theorem get_next_top {m : Mem} {t : shape} {base : Nat} (hl : linked m base t)
    (hn : (base :: t.inorder).Nodup) (hr : (m base).right = none) {x : Nat}
    (hx : x ∈ t.inorder) {fuel : Nat} (hf : t.size < fuel) :
    get_next m fuel x = some (next_of t.inorder base x) := by
  have hnt : t.inorder.Nodup := (List.nodup_cons.1 hn).2
  by_cases hlast : t.inorder.getLast? = some x
  · obtain ⟨a, k, ha, hk, hxr, hup⟩ := up_right_last t base hl x hlast
    rw [next_of_last base hnt hlast, get_next, hxr]
    have hgl : get_left m fuel none = some none := by cases fuel <;> rfl
    rw [hgl]
    simp only []
    have hfk : fuel = (fuel - k - 1 + 1) + k := by omega
    have hpa : (m a).pred = some base := linked_root_pred hl ha
    rw [hfk, hup]
    simp [up_right, hpa, hr]
  · exact get_next_inner t base hl hnt x hx hlast base fuel (by omega)

theorem node_eq_self (n : node) : node_eq n n = true := by
  simp [node_eq]

theorem node_eq_false_of_pred {n k : node} {q : Nat} (hn : n.pred = some q)
    (hk : k.pred = none) : node_eq n k = false := by
  simp [node_eq, hn, hk]

theorem view_ok.size_lt_fuel {A B : Type} {c : A → A → Bool} {h : store A B} {base : Nat}
    {t : shape} (hv : view_ok c h base t) : t.size < h.fuel := by
  rw [← shape.length_inorder, hv.perm.length_eq, store.fuel]
  omega

theorem view_ok.eq_end_false {A B : Type} {c : A → A → Bool} {h : store A B} {base : Nat}
    {t : shape} (hv : view_ok c h base t) {x : Nat} (hx : x ∈ t.inorder) :
    bimap_iterator.eq h x (map.end_ base) = false := by
  obtain ⟨q, hq⟩ := linked_pred_some t base hv.linked x hx
  exact node_eq_false_of_pred hq hv.pred

theorem view_ok.eq_end_true {A B : Type} (h : store A B) (base : Nat) :
    bimap_iterator.eq h (map.end_ base) (map.end_ base) = true :=
  node_eq_self _

theorem view_ok.inc {A B : Type} {c : A → A → Bool} {h : store A B} {base : Nat}
    {t : shape} (hv : view_ok c h base t) {x : Nat} (hx : x ∈ t.inorder) :
    bimap_iterator.inc h x = some (next_of t.inorder base x) :=
  get_next_top hv.linked hv.nodup hv.right hx hv.size_lt_fuel

theorem view_ok.begin {A B : Type} {c : A → A → Bool} {h : store A B} {base : Nat}
    {t : shape} (hv : view_ok c h base t) :
    map.begin h base = some (t.inorder.headD base) := by
  rw [map.begin, hv.left]
  cases hr : t.root with
  | none =>
    have := shape.root_eq_none hr
    subst this
    simp [shape.inorder, map.end_]
  | some b =>
    have := get_left_linked t base hv.linked h.fuel (le_of_lt hv.size_lt_fuel)
    rw [hr] at this
    simp only [this]
    obtain ⟨x, hx⟩ := shape.head_inorder_of_root hr
    cases hi : t.inorder with
    | nil => simp [hi] at hx
    | cons y ys => simp

theorem walk_suffix {A B : Type} {c : A → A → Bool} {h : store A B} {base : Nat}
    {t : shape} (hv : view_ok c h base t) :
    ∀ (suf pre : List Nat), t.inorder = pre ++ suf → ∀ fuel, suf.length ≤ fuel →
      map.walk h base fuel (suf.headD base) = some suf := by
  intro suf
  induction suf with
  | nil =>
    intro pre _ fuel _
    have he : bimap_iterator.eq h base (map.end_ base) = true := node_eq_self _
    cases fuel <;> simp [map.walk, he]
  | cons x rest ih =>
    intro pre hpre fuel hf
    have hx : x ∈ t.inorder := by rw [hpre]; simp
    have hn : t.inorder.Nodup := (List.nodup_cons.1 hv.nodup).2
    have hxpre : x ∉ pre := by
      rw [hpre] at hn
      intro hc
      exact (List.nodup_append.1 hn).2.2 hc (by simp)
    cases fuel with
    | zero => simp at hf
    | succ f =>
      have hnext : next_of t.inorder base x = rest.headD base := by
        rw [hpre, next_of_append_right _ _ hxpre]
        simp [next_of]
      have hrec := ih (pre ++ [x]) (by simp [hpre]) f (by simpa using hf)
      simp only [List.headD_cons, map.walk, hv.eq_end_false hx, hv.inc hx, hnext, hrec]
      simp

/-- The loop from `begin` to `end` visits the nodes of the shape in in-order. -/
theorem view_ok.walk {A B : Type} {c : A → A → Bool} {h : store A B} {base : Nat}
    {t : shape} (hv : view_ok c h base t) :
    map.walk h base h.fuel (t.inorder.headD base) = some t.inorder :=
  walk_suffix hv t.inorder [] rfl h.fuel (by
    rw [shape.length_inorder]; exact le_of_lt hv.size_lt_fuel)

end bimap_impl

namespace bimap_impl

theorem not_less_of_value {A : Type} {c : A → A → Bool} {value : Nat → Option A} {v : A}
    {a : Nat} {x : A} (hx : value a = some x) : not_less c value v a = !c x v := by
  simp [not_less, hx]

theorem value_of_not_less {A : Type} {c : A → A → Bool} {value : Nat → Option A} {v : A}
    {a : Nat} (h : not_less c value v a = true) : ∃ x, value a = some x ∧ c x v = false := by
  unfold not_less at h
  cases hx : value a with
  | none => simp [hx] at h
  | some x => exact ⟨x, rfl, by simpa [hx] using h⟩

/-- The descent of `lower_bound_impl` returns the first node in in-order whose value is
not less than `v`. -/
theorem lower_bound_impl_linked {A B : Type} {c : A → A → Bool}
    (htr : ∀ a b d, c a b = true → c b d = true → c a d = true) {h : store A B} (v : A) :
    ∀ (t : shape) (p : Nat), linked h.cur p t → (∀ a ∈ t.inorder, ∃ x, h.value a = some x) →
      t.inorder.Pairwise (lt_at c h.value) → ∀ fuel, t.size ≤ fuel →
        map.lower_bound_impl c h v fuel t.root =
          some (t.inorder.find? (not_less c h.value v)) := by
  intro t
  induction t with
  | nil =>
    intro p _ _ _ fuel _
    cases fuel <;> simp [shape.root, map.lower_bound_impl, shape.inorder]
  | node l a r ihl ihr =>
    intro p hl hv hs fuel hf
    obtain ⟨_, h2, h3, h4, h5⟩ := hl
    simp only [shape.inorder] at hv hs ⊢
    simp only [shape.size] at hf
    obtain ⟨x, hx⟩ := hv a (by simp)
    have hsl : l.inorder.Pairwise (lt_at c h.value) := (List.pairwise_append.1 hs).1
    have hsr : r.inorder.Pairwise (lt_at c h.value) :=
      (List.pairwise_cons.1 (List.pairwise_append.1 hs).2.1).2
    have hla : ∀ y ∈ l.inorder, lt_at c h.value y a := fun y hy =>
      (List.pairwise_append.1 hs).2.2 y hy a (by simp)
    have hroot : (shape.node l a r).root = some a := rfl
    cases fuel with
    | zero => omega
    | succ f =>
      rw [hroot, map.lower_bound_impl]
      simp only [hx]
      by_cases hxv : c x v = true
      · -- every node of the left subtree and the root are less than `v`
        have hlnone : l.inorder.find? (not_less c h.value v) = none := by
          rw [List.find?_eq_none]
          intro y hy
          obtain ⟨y', x', hy', hx', hlt⟩ := hla y hy
          rw [hx] at hx'
          cases hx'
          simp [not_less_of_value hy', htr y' x v hlt hxv]
        have ha : not_less c h.value v a = false := by
          simp [not_less_of_value hx, hxv]
        simp only [hxv, if_true, List.find?_append, hlnone, Option.none_or, List.find?_cons, ha]
        rw [h3]
        exact ihr a h5 (fun b hb => hv b (by simp [hb])) hsr f (by omega)
      · have hxv' : c x v = false := by simpa using hxv
        have ha : not_less c h.value v a = true := by
          simp [not_less_of_value hx, hxv']
        have hrec := ihl a h4 (fun b hb => hv b (by simp [hb])) hsl f (by omega)
        simp only [hxv', List.find?_append, List.find?_cons, ha]
        rw [h2, hrec]
        cases hfl : l.inorder.find? (not_less c h.value v) with
        | none => simp
        | some res =>
          have hres : not_less c h.value v res = true := by
            have := List.find?_some hfl
            exact this
          obtain ⟨y, hy, hyv⟩ := value_of_not_less hres
          simp [hy, hyv]

theorem view_ok.lower_bound {A B : Type} {c : A → A → Bool} (hc : strict_weak c)
    {h : store A B} {base : Nat} {t : shape} (hv : view_ok c h base t) (v : A) :
    map.lower_bound c h v base =
      some ((t.inorder.find? (not_less c h.value v)).getD base) := by
  have := lower_bound_impl_linked hc.trans v t base hv.linked hv.vals hv.sorted h.fuel
    (le_of_lt hv.size_lt_fuel)
  rw [map.lower_bound, hv.left, this]
  cases t.inorder.find? (not_less c h.value v) <;> simp [map.end_]

end bimap_impl

namespace bimap_impl

/-- Locating a node `x` in a linked shape: its subtree, its parent `px`, what stands
before and after the subtree in in-order, and how to rebuild the shape once the subtree
has been replaced by another one linked below `px`. -/
theorem locate {m : Mem} {x : Nat} :
    ∀ (t : shape) (p : Nat), linked m p t → (p :: t.inorder).Nodup → x ∈ t.inorder →
      ∃ (px : Nat) (l r : shape) (pre post : List Nat),
        linked m px (.node l x r) ∧
        t.inorder = pre ++ (l.inorder ++ x :: r.inorder) ++ post ∧
        (px = p ∨ px ∈ pre ∨ px ∈ post) ∧
        (px = p → t.root = some x) ∧
        (px ≠ p → (m px).left = some x ∨ ((m px).left ≠ some x ∧ (m px).right = some x)) ∧
        ∀ (m' : Mem) (sub : shape),
          linked m' px sub →
          (∀ y, y ∈ pre ∨ y ∈ post → y ≠ px → m' y = m y) →
          (px ≠ p → (m' px).pred = (m px).pred ∧
            ((m px).left = some x → (m' px).left = sub.root ∧ (m' px).right = (m px).right) ∧
            ((m px).left ≠ some x → (m' px).left = (m px).left ∧ (m' px).right = sub.root)) →
          ∃ t', linked m' p t' ∧ t'.inorder = pre ++ sub.inorder ++ post ∧
            t'.root = if px = p then sub.root else t.root := by
  intro t
  induction t with
  | nil => intro p _ _ hx; simp [shape.inorder] at hx
  | node L a R ihL ihR =>
    intro p h hn hx
    have h' := h
    obtain ⟨h1, h2, h3, h4, h5⟩ := h
    simp only [shape.inorder] at hn hx
    have hpn : p ∉ L.inorder ++ a :: R.inorder := (List.nodup_cons.1 hn).1
    have hnt : (L.inorder ++ a :: R.inorder).Nodup := (List.nodup_cons.1 hn).2
    have hnL : L.inorder.Nodup := (List.nodup_append.1 hnt).1
    have hnR : R.inorder.Nodup := (List.nodup_cons.1 (List.nodup_append.1 hnt).2.1).2
    have haL : a ∉ L.inorder := fun hc => (List.nodup_append.1 hnt).2.2 hc (by simp)
    have haR : a ∉ R.inorder := (List.nodup_cons.1 (List.nodup_append.1 hnt).2.1).1
    have hdisj : ∀ y, y ∈ L.inorder → y ∉ R.inorder := fun y hy hy' =>
      (List.nodup_append.1 hnt).2.2 hy (by simp [hy'])
    have hap : a ≠ p := fun hc => hpn (by simp [hc])
    by_cases hxa : x = a
    · subst hxa
      refine ⟨p, L, R, [], [], h', by simp [shape.inorder], Or.inl rfl, fun _ => rfl,
        fun hc => absurd rfl hc, ?_⟩
      intro m' sub hsub _ _
      exact ⟨sub, hsub, by simp, by simp⟩
    · by_cases hxL : x ∈ L.inorder
      · obtain ⟨px, l, r, pre, post, g1, g2, g3, g4, g5, g6⟩ :=
          ihL a h4 (List.nodup_cons.2 ⟨haL, hnL⟩) hxL
        have hpreL : ∀ y, y ∈ pre → y ∈ L.inorder := fun y hy => by rw [g2]; simp [hy]
        have hpostL : ∀ y, y ∈ post → y ∈ L.inorder := fun y hy => by rw [g2]; simp [hy]
        have hpxin : px = a ∨ px ∈ L.inorder := by
          rcases g3 with g | g | g
          · exact Or.inl g
          · exact Or.inr (hpreL _ g)
          · exact Or.inr (hpostL _ g)
        have hpxp : px ≠ p := by
          rcases hpxin with g | g
          · rw [g]; exact hap
          · intro hc; exact hpn (by rw [← hc]; simp [g])
        refine ⟨px, l, r, pre, post ++ a :: R.inorder, g1, ?_, ?_, fun hc => absurd hc hpxp,
          ?_, ?_⟩
        · simp only [shape.inorder]; rw [g2]; simp
        · rcases g3 with g | g | g
          · exact Or.inr (Or.inr (by simp [g]))
          · exact Or.inr (Or.inl g)
          · exact Or.inr (Or.inr (by simp [g]))
        · intro _
          by_cases hpa : px = a
          · left; rw [hpa, h2]; exact g4 hpa
          · exact g5 hpa
        · intro m' sub hsub hframe hslot
          obtain ⟨s1, s2, s3⟩ := hslot hpxp
          obtain ⟨tL, k1, k2, k3⟩ := g6 m' sub hsub
            (fun y hy hne => hframe y (by
              rcases hy with hy | hy
              · exact Or.inl hy
              · exact Or.inr (by simp [hy])) hne)
            (fun _ => ⟨s1, s2, s3⟩)
          have hma : px ≠ a → m' a = m a := fun hne =>
            hframe a (Or.inr (by simp)) (fun hc => hne hc.symm)
          have hR : linked m' a R := by
            refine linked_congr R a (fun y hy => hframe y (Or.inr (by simp [hy])) ?_) h5
            intro hc
            rcases hpxin with g | g
            · exact haR (by rw [← g, ← hc]; exact hy)
            · exact hdisj px g (by rw [← hc]; exact hy)
          refine ⟨.node tL a R, ⟨?_, ?_, ?_, k1, hR⟩, ?_, ?_⟩
          · by_cases hpa : px = a
            · rw [← hpa, s1, hpa, h1]
            · rw [hma hpa, h1]
          · by_cases hpa : px = a
            · have hl : (m px).left = some x := by rw [hpa, h2]; exact g4 hpa
              rw [← hpa, (s2 hl).1, k3, if_pos hpa]
            · rw [hma hpa, h2, k3, if_neg hpa]
          · by_cases hpa : px = a
            · have hl : (m px).left = some x := by rw [hpa, h2]; exact g4 hpa
              rw [← hpa, (s2 hl).2, hpa, h3]
            · rw [hma hpa, h3]
          · simp only [shape.inorder]; rw [k2]; simp
          · simp [shape.root, hpxp]
      · have hxR : x ∈ R.inorder := by
          rcases List.mem_append.1 hx with g | g
          · exact absurd g hxL
          · rcases List.mem_cons.1 g with g | g
            · exact absurd g hxa
            · exact g
        obtain ⟨px, l, r, pre, post, g1, g2, g3, g4, g5, g6⟩ :=
          ihR a h5 (List.nodup_cons.2 ⟨haR, hnR⟩) hxR
        have hpreR : ∀ y, y ∈ pre → y ∈ R.inorder := fun y hy => by rw [g2]; simp [hy]
        have hpostR : ∀ y, y ∈ post → y ∈ R.inorder := fun y hy => by rw [g2]; simp [hy]
        have hpxin : px = a ∨ px ∈ R.inorder := by
          rcases g3 with g | g | g
          · exact Or.inl g
          · exact Or.inr (hpreR _ g)
          · exact Or.inr (hpostR _ g)
        have hpxp : px ≠ p := by
          rcases hpxin with g | g
          · rw [g]; exact hap
          · intro hc; exact hpn (by rw [← hc]; simp [g])
        have hlx : (m a).left ≠ some x := by
          rw [h2]; intro hc
          exact hdisj x (shape.root_mem hc) hxR
        refine ⟨px, l, r, L.inorder ++ a :: pre, post, g1, ?_, ?_, fun hc => absurd hc hpxp,
          ?_, ?_⟩
        · simp only [shape.inorder]; rw [g2]; simp
        · rcases g3 with g | g | g
          · exact Or.inr (Or.inl (by simp [g]))
          · exact Or.inr (Or.inl (by simp [g]))
          · exact Or.inr (Or.inr g)
        · intro _
          by_cases hpa : px = a
          · right; rw [hpa]; exact ⟨hlx, by rw [h3]; exact g4 hpa⟩
          · exact g5 hpa
        · intro m' sub hsub hframe hslot
          obtain ⟨s1, s2, s3⟩ := hslot hpxp
          obtain ⟨tR, k1, k2, k3⟩ := g6 m' sub hsub
            (fun y hy hne => hframe y (by
              rcases hy with hy | hy
              · exact Or.inl (by simp [hy])
              · exact Or.inr hy) hne)
            (fun _ => ⟨s1, s2, s3⟩)
          have hma : px ≠ a → m' a = m a := fun hne =>
            hframe a (Or.inl (by simp)) (fun hc => hne hc.symm)
          have hL : linked m' a L := by
            refine linked_congr L a (fun y hy => hframe y (Or.inl (by simp [hy])) ?_) h4
            intro hc
            rcases hpxin with g | g
            · exact haL (by rw [← g, ← hc]; exact hy)
            · exact hdisj y hy (by rw [hc]; exact g)
          refine ⟨.node L a tR, ⟨?_, ?_, ?_, hL, k1⟩, ?_, ?_⟩
          · by_cases hpa : px = a
            · rw [← hpa, s1, hpa, h1]
            · rw [hma hpa, h1]
          · by_cases hpa : px = a
            · have hl : (m px).left ≠ some x := by rw [hpa]; exact hlx
              rw [← hpa, (s3 hl).1, hpa, h2]
            · rw [hma hpa, h2]
          · by_cases hpa : px = a
            · have hl : (m px).left ≠ some x := by rw [hpa]; exact hlx
              rw [← hpa, (s3 hl).2, k3, if_pos hpa]
            · rw [hma hpa, h3, k3, if_neg hpa]
          · simp only [shape.inorder]; rw [k2]; simp
          · simp [shape.root, hpxp]

end bimap_impl

namespace bimap_impl

theorem set_left_spec {m : Mem} {a : Nat} {q : Option Nat} (hq : ∀ c, q = some c → c ≠ a) :
    set_left m a q a = { m a with left := q } ∧
    (∀ c, q = some c → set_left m a q c = { m c with pred := some a }) ∧
    (∀ y, y ≠ a → q ≠ some y → set_left m a q y = m y) := by
  unfold set_left
  cases q with
  | none =>
    refine ⟨by simp [Mem.wleft, Mem.write], fun c hc => by simp at hc, fun y hy _ => ?_⟩
    simp [Mem.wleft, Mem.write, hy]
  | some c =>
    have hca : c ≠ a := hq c rfl
    refine ⟨by simp [Mem.wleft, Mem.wpred, Mem.write, hca, Ne.symm hca], fun c' hc' => ?_,
      fun y hy hyc => ?_⟩
    · simp at hc'; subst hc'
      simp [Mem.wleft, Mem.wpred, Mem.write, hca]
    · have : y ≠ c := fun h => hyc (by rw [h])
      simp [Mem.wleft, Mem.wpred, Mem.write, hy, this]

theorem set_right_spec {m : Mem} {a : Nat} {q : Option Nat} (hq : ∀ c, q = some c → c ≠ a) :
    set_right m a q a = { m a with right := q } ∧
    (∀ c, q = some c → set_right m a q c = { m c with pred := some a }) ∧
    (∀ y, y ≠ a → q ≠ some y → set_right m a q y = m y) := by
  unfold set_right
  cases q with
  | none =>
    refine ⟨by simp [Mem.wright, Mem.write], fun c hc => by simp at hc, fun y hy _ => ?_⟩
    simp [Mem.wright, Mem.write, hy]
  | some c =>
    have hca : c ≠ a := hq c rfl
    refine ⟨by simp [Mem.wright, Mem.wpred, Mem.write, hca, Ne.symm hca], fun c' hc' => ?_,
      fun y hy hyc => ?_⟩
    · simp at hc'; subst hc'
      simp [Mem.wright, Mem.wpred, Mem.write, hca]
    · have : y ≠ c := fun h => hyc (by rw [h])
      simp [Mem.wright, Mem.wpred, Mem.write, hy, this]

theorem shape.root_not_mem_children {l : shape} {a : Nat} {r : shape}
    (hn : (shape.node l a r).inorder.Nodup) : a ∉ l.inorder ++ r.inorder := by
  simp only [shape.inorder] at hn
  intro hc
  rcases List.mem_append.1 hc with h | h
  · exact (List.nodup_append.1 hn).2.2 h (by simp)
  · exact (List.nodup_cons.1 (List.nodup_append.1 hn).2.1).1 h

/-- Hanging a linked shape below `a` by `set_right` or `set_left`: only the parent link
of its root changes. -/
theorem linked_rehang {m m' : Mem} {t : shape} {p a : Nat} (h : linked m p t)
    (hn : t.inorder.Nodup)
    (hroot : ∀ c, t.root = some c → m' c = { m c with pred := some a })
    (hrest : ∀ y ∈ t.inorder, t.root ≠ some y → m' y = m y) : linked m' a t := by
  cases t with
  | nil => trivial
  | node l c r =>
    have hc := hroot c rfl
    have hcn := shape.root_not_mem_children hn
    refine linked_reparent h (by rw [hc]) (by rw [hc]) (by rw [hc]) ?_
    intro b hb
    refine hrest b ?_ ?_
    · simp only [shape.inorder]
      rcases List.mem_append.1 hb with g | g
      · simp [g]
      · simp [g]
    · simp only [shape.root, ne_eq, Option.some.injEq]
      intro hcb
      exact hcn (by rw [hcb]; exact hb)

/-- `merge` joins two linked shapes with disjoint nodes into one linked shape whose
in-order is the concatenation and whose root is one of the two roots; it touches only
their nodes and no priority, and keeps heap order. -/
theorem merge_spec {m : Mem} :
    ∀ (fuel : Nat) (tl tr : shape) (pl pr : Nat), tl.size + tr.size ≤ fuel →
      linked m pl tl → linked m pr tr → (tl.inorder ++ tr.inorder).Nodup →
      ∃ (m' : Mem) (t' : shape) (p' : Nat),
        merge m fuel tl.root tr.root = some (m', t'.root) ∧ linked m' p' t' ∧
        t'.inorder = tl.inorder ++ tr.inorder ∧
        (∀ y, y ∉ tl.inorder ++ tr.inorder → m' y = m y) ∧
        (∀ y, (m' y).value = (m y).value) ∧
        (t'.root = tl.root ∨ t'.root = tr.root) ∧
        (heap_shape m tl → heap_shape m tr → heap_shape m' t') := by
  have hcongr : ∀ (m1 m2 : Mem) (t : shape), (∀ y, (m2 y).value = (m1 y).value) →
      heap_shape m1 t → heap_shape m2 t := by
    intro m1 m2 t hv
    induction t with
    | nil => intro _; trivial
    | node l a r ihl ihr =>
      intro ⟨h1, h2, h3, h4⟩
      exact ⟨fun c hc => by rw [hv c, hv a]; exact h1 c hc,
        fun c hc => by rw [hv c, hv a]; exact h2 c hc, ihl h3, ihr h4⟩
  intro fuel
  induction fuel with
  | zero =>
    intro tl tr pl pr hf hl hr _
    have h1 : tl = .nil := by
      cases tl with
      | nil => rfl
      | node _ _ _ => simp only [shape.size] at hf; omega
    have h2 : tr = .nil := by
      cases tr with
      | nil => rfl
      | node _ _ _ => simp only [shape.size] at hf; omega
    subst h1 h2
    exact ⟨m, .nil, 0, by simp [shape.root, merge], trivial, by simp [shape.inorder],
      fun _ _ => rfl, fun _ => rfl, Or.inl rfl, fun _ _ => trivial⟩
  | succ f ih =>
    intro tl tr pl pr hf hl hr hn
    cases tl with
    | nil =>
      exact ⟨m, tr, pr, by simp [shape.root, merge], hr, by simp [shape.inorder],
        fun _ _ => rfl, fun _ => rfl, Or.inr rfl, fun _ h => h⟩
    | node l1 a l2 =>
      cases tr with
      | nil =>
        exact ⟨m, .node l1 a l2, pl, by simp [shape.root, merge], hl, by simp [shape.inorder],
          fun _ _ => rfl, fun _ => rfl, Or.inl rfl, fun h _ => h⟩
      | node r1 b r2 =>
        obtain ⟨a1, a2, a3, a4, a5⟩ := hl
        obtain ⟨b1, b2, b3, b4, b5⟩ := hr
        simp only [shape.size] at hf
        simp only [shape.inorder] at hn
        have hroots : merge m (f + 1) (shape.node l1 a l2).root (shape.node r1 b r2).root =
            merge m (f + 1) (some a) (some b) := rfl
        rw [hroots, merge]
        by_cases hv : (m a).value > (m b).value
        · simp only [hv, if_true]
          have hn' : (l2.inorder ++ (shape.node r1 b r2).inorder).Nodup := by
            simp only [shape.inorder]
            have := hn
            rw [List.append_assoc] at this
            have h2 := (List.nodup_append.1 this).2.1
            simpa using (List.nodup_cons.1 h2).2
          obtain ⟨m1, t1, p1, e1, e2, e3, e4, e5, e6, e7⟩ :=
            ih l2 (.node r1 b r2) a pr (by simp [shape.size]; omega) a5 ⟨b1, b2, b3, b4, b5⟩ hn'
          have hroot2 : (shape.node r1 b r2).root = some b := rfl
          rw [a3, ← hroot2, e1]
          have hat1 : a ∉ t1.inorder := by
            rw [e3]
            simp only [shape.inorder]
            intro hc
            have := hn
            simp only [List.append_assoc, List.cons_append] at this
            have h2 := (List.nodup_append.1 this).2.1
            exact (List.nodup_cons.1 h2).1 (by simpa using hc)
          have hq : ∀ c, t1.root = some c → c ≠ a := fun c hc hca =>
            hat1 (by rw [← hca]; exact shape.root_mem hc)
          obtain ⟨s1, s2, s3⟩ := set_right_spec (m := m1) hq
          have hm1a : m1 a = m a := e4 a (by rw [← e3]; exact hat1)
          have hvals : ∀ y, (set_right m1 a t1.root y).value = (m y).value := by
            intro y
            by_cases hya : y = a
            · subst hya; rw [s1]; exact e5 y
            · by_cases hyr : t1.root = some y
              · rw [s2 y hyr]; exact e5 y
              · rw [s3 y hya hyr]; exact e5 y
          refine ⟨set_right m1 a t1.root, .node l1 a t1, pl, rfl, ⟨?_, ?_, ?_, ?_, ?_⟩, ?_, ?_,
            hvals, Or.inl rfl, ?_⟩
          · rw [s1, hm1a]; exact a1
          · rw [s1, hm1a]; exact a2
          · rw [s1]
          · refine linked_congr l1 a (fun y hy => ?_) a4
            have hy1 : y ∉ l2.inorder ++ (shape.node r1 b r2).inorder := by
              simp only [shape.inorder]
              intro hc
              have := hn
              simp only [List.append_assoc, List.cons_append] at this
              exact (List.nodup_append.1 this).2.2 hy (by
                simp only [List.mem_cons, List.mem_append] at hc ⊢
                tauto)
            have hya : y ≠ a := by
              intro hc
              have := hn
              simp only [List.append_assoc, List.cons_append] at this
              exact (List.nodup_append.1 this).2.2 hy (by simp [hc])
            rw [s3 y hya, e4 y hy1]
            intro hc
            exact hy1 (by rw [← e3]; exact shape.root_mem hc)
          · exact linked_rehang e2 (by rw [e3]; exact hn') s2
              (fun y hy hyr => s3 y (fun hc => hat1 (by rw [← hc]; exact hy)) hyr)
          · simp only [shape.inorder]; rw [e3]; simp [shape.inorder]
          · intro y hy
            simp only [shape.inorder, List.mem_append, List.mem_cons, not_or] at hy
            have hya : y ≠ a := hy.1.2.1
            have hy1 : y ∉ l2.inorder ++ (shape.node r1 b r2).inorder := by
              simp only [shape.inorder, List.mem_append, List.mem_cons, not_or]
              tauto
            rw [s3 y hya, e4 y hy1]
            intro hc
            exact hy1 (by rw [← e3]; exact shape.root_mem hc)
          · intro ⟨g1, g2, g3, g4⟩ hhr
            have hh1 := e7 g4 hhr
            refine hcongr m _ _ hvals ⟨g1, ?_, g3, hcongr m1 m _ (fun y => (e5 y).symm) hh1⟩
            intro c hc
            rcases e6 with e6 | e6
            · exact g2 c (by rw [← e6]; exact hc)
            · rw [e6] at hc
              simp only [shape.root, Option.some.injEq] at hc
              subst hc
              omega
        · simp only [hv, if_false]
          have hn' : ((shape.node l1 a l2).inorder ++ r1.inorder).Nodup := by
            simp only [shape.inorder]
            have := hn
            rw [← List.append_assoc] at this
            exact (List.nodup_append.1 this).1
          obtain ⟨m1, t1, p1, e1, e2, e3, e4, e5, e6, e7⟩ :=
            ih (.node l1 a l2) r1 pl b (by simp [shape.size]; omega) ⟨a1, a2, a3, a4, a5⟩ b4 hn'
          have hroot1 : (shape.node l1 a l2).root = some a := rfl
          rw [b2, ← hroot1, e1]
          have hbt1 : b ∉ t1.inorder := by
            rw [e3]
            simp only [shape.inorder]
            intro hc
            have := hn
            rw [← List.append_assoc] at this
            have h2 := (List.nodup_append.1 this)
            exact h2.2.2 hc (by simp)
          have hq : ∀ c, t1.root = some c → c ≠ b := fun c hc hcb =>
            hbt1 (by rw [← hcb]; exact shape.root_mem hc)
          obtain ⟨s1, s2, s3⟩ := set_left_spec (m := m1) hq
          have hm1b : m1 b = m b := e4 b (by rw [← e3]; exact hbt1)
          have hvals : ∀ y, (set_left m1 b t1.root y).value = (m y).value := by
            intro y
            by_cases hyb : y = b
            · subst hyb; rw [s1]; exact e5 y
            · by_cases hyr : t1.root = some y
              · rw [s2 y hyr]; exact e5 y
              · rw [s3 y hyb hyr]; exact e5 y
          refine ⟨set_left m1 b t1.root, .node t1 b r2, pr, rfl, ⟨?_, ?_, ?_, ?_, ?_⟩, ?_, ?_,
            hvals, Or.inr rfl, ?_⟩
          · rw [s1, hm1b]; exact b1
          · rw [s1]
          · rw [s1, hm1b]; exact b3
          · exact linked_rehang e2 (by rw [e3]; exact hn') s2
              (fun y hy hyr => s3 y (fun hc => hbt1 (by rw [← hc]; exact hy)) hyr)
          · refine linked_congr r2 b (fun y hy => ?_) b5
            have hnr := (List.nodup_append.1 hn).2.1
            have hy1 : y ∉ (shape.node l1 a l2).inorder ++ r1.inorder := by
              simp only [shape.inorder]
              intro hc
              rcases List.mem_append.1 hc with g | g
              · exact (List.nodup_append.1 hn).2.2 g (by simp [hy])
              · exact (List.nodup_append.1 hnr).2.2 g (by simp [hy])
            have hyb : y ≠ b := by
              intro hc
              exact (List.nodup_cons.1 (List.nodup_append.1 hnr).2.1).1 (by rw [← hc]; exact hy)
            rw [s3 y hyb, e4 y hy1]
            intro hc
            exact hy1 (by rw [← e3]; exact shape.root_mem hc)
          · simp only [shape.inorder]; rw [e3]; simp [shape.inorder]
          · intro y hy
            simp only [shape.inorder, List.mem_append, List.mem_cons, not_or] at hy
            have hyb : y ≠ b := hy.2.2.1
            have hy1 : y ∉ (shape.node l1 a l2).inorder ++ r1.inorder := by
              simp only [shape.inorder, List.mem_append, List.mem_cons, not_or]
              tauto
            rw [s3 y hyb, e4 y hy1]
            intro hc
            exact hy1 (by rw [← e3]; exact shape.root_mem hc)
          · intro hhl ⟨g1, g2, g3, g4⟩
            have hh1 := e7 hhl g3
            refine hcongr m _ _ hvals ⟨?_, g2, hcongr m1 m _ (fun y => (e5 y).symm) hh1, g4⟩
            intro c hc
            rcases e6 with e6 | e6
            · rw [e6] at hc
              simp only [shape.root, Option.some.injEq] at hc
              subst hc
              omega
            · exact g1 c (by rw [← e6]; exact hc)

/-- `merge` joins two linked shapes with disjoint nodes into one linked shape whose
in-order is the concatenation; it touches only their nodes and no priority. -/
theorem merge_linked {m : Mem} :
    ∀ (fuel : Nat) (tl tr : shape) (pl pr : Nat), tl.size + tr.size ≤ fuel →
      linked m pl tl → linked m pr tr → (tl.inorder ++ tr.inorder).Nodup →
      ∃ (m' : Mem) (t' : shape) (p' : Nat),
        merge m fuel tl.root tr.root = some (m', t'.root) ∧ linked m' p' t' ∧
        t'.inorder = tl.inorder ++ tr.inorder ∧
        (∀ y, y ∉ tl.inorder ++ tr.inorder → m' y = m y) ∧
        (∀ y, (m' y).value = (m y).value) := by
  intro fuel tl tr pl pr hf hl hr hn
  obtain ⟨m', t', p', e1, e2, e3, e4, e5, _⟩ := merge_spec fuel tl tr pl pr hf hl hr hn
  exact ⟨m', t', p', e1, e2, e3, e4, e5⟩

end bimap_impl

namespace bimap_impl

theorem view_ok.side {A B : Type} {c : A → A → Bool} {h : store A B} {base : Nat}
    {t : shape} (hv : view_ok c h base t) : side_ok h.cur base t :=
  ⟨hv.pred, hv.right, hv.left, hv.linked, hv.nodup⟩

/-- Locating a node below a sentinel, with the recipe to rebuild the whole side after
its subtree has been replaced. -/
theorem side_ok.locate_node {m : Mem} {base : Nat} {t : shape} (hs : side_ok m base t) {x : Nat}
    (hx : x ∈ t.inorder) :
    ∃ (px : Nat) (l r : shape) (pre post : List Nat),
      bimap_impl.linked m px (.node l x r) ∧
      t.inorder = pre ++ (l.inorder ++ x :: r.inorder) ++ post ∧
      px ∉ l.inorder ++ x :: r.inorder ∧
      ((m px).left = some x ∨ ((m px).left ≠ some x ∧ (m px).right = some x)) ∧
      ∀ (m' : Mem) (sub : shape),
        bimap_impl.linked m' px sub →
        (∀ y, y ∈ pre ∨ y ∈ post ∨ y = base → y ≠ px → m' y = m y) →
        (m' px).pred = (m px).pred →
        ((m px).left = some x → (m' px).left = sub.root ∧ (m' px).right = (m px).right) →
        ((m px).left ≠ some x → (m' px).left = (m px).left ∧ (m' px).right = sub.root) →
        (base :: (pre ++ sub.inorder ++ post)).Nodup →
        ∃ t', side_ok m' base t' ∧ t'.inorder = pre ++ sub.inorder ++ post := by
  obtain ⟨px, l, r, pre, post, g1, g2, g3, g4, g5, g6⟩ :=
    bimap_impl.locate t base hs.linked hs.nodup hx
  have hnt : t.inorder.Nodup := (List.nodup_cons.1 hs.nodup).2
  have hbt : base ∉ t.inorder := (List.nodup_cons.1 hs.nodup).1
  have hpx : px ∉ l.inorder ++ x :: r.inorder := by
    rw [g2] at hnt hbt
    intro hc
    rcases g3 with g | g | g
    · exact hbt (by rw [← g]; exact List.mem_append.2 (Or.inl (List.mem_append.2 (Or.inr hc))))
    · exact (List.nodup_append.1 (List.nodup_append.1 hnt).1).2.2 g hc
    · exact (List.nodup_append.1 hnt).2.2 (List.mem_append.2 (Or.inr hc)) g
  have hslot : (m px).left = some x ∨ ((m px).left ≠ some x ∧ (m px).right = some x) := by
    by_cases hpb : px = base
    · left; rw [hpb, hs.left]; exact g4 hpb
    · exact g5 hpb
  refine ⟨px, l, r, pre, post, g1, g2, hpx, hslot, ?_⟩
  intro m' sub hsub hframe hpred hsl hsr hnd
  obtain ⟨t', k1, k2, k3⟩ := g6 m' sub hsub
    (fun y hy hne => hframe y (hy.elim Or.inl (fun h => Or.inr (Or.inl h))) hne) (fun _ => ⟨hpred, hsl, hsr⟩)
  refine ⟨t', ⟨?_, ?_, ?_, k1, by rw [k2]; exact hnd⟩, k2⟩
  · by_cases hpb : px = base
    · rw [← hpb, hpred, hpb, hs.pred]
    · rw [hframe base (Or.inr (Or.inr rfl)) (fun hc => hpb hc.symm), hs.pred]
  · by_cases hpb : px = base
    · have hl : (m px).left = some x := by rw [hpb, hs.left]; exact g4 hpb
      rw [← hpb, (hsl hl).2, hpb, hs.right]
    · rw [hframe base (Or.inr (Or.inr rfl)) (fun hc => hpb hc.symm), hs.right]
  · by_cases hpb : px = base
    · have hl : (m px).left = some x := by rw [hpb, hs.left]; exact g4 hpb
      rw [← hpb, (hsl hl).1, k3, if_pos hpb]
    · rw [hframe base (Or.inr (Or.inr rfl)) (fun hc => hpb hc.symm), hs.left, k3, if_neg hpb]

end bimap_impl

namespace bimap_impl

theorem clear_node_spec (m : Mem) (x : Nat) :
    clear_node m x x = ⟨(m x).value, none, none, none⟩ ∧
    (∀ y, y ≠ x → clear_node m x y = m y) := by
  unfold clear_node
  refine ⟨by simp [Mem.wleft, Mem.wpred, Mem.wright, Mem.write], fun y hy => ?_⟩
  simp [Mem.wleft, Mem.wpred, Mem.wright, Mem.write, hy]

/-- The effect of `erase` on the subtree of the erased node `x` and on its parent. -/
theorem erase_local {m : Mem} {px x : Nat} {l r : shape} {fuel : Nat}
    (h : linked m px (.node l x r)) (hnd : (px :: (l.inorder ++ x :: r.inorder)).Nodup)
    (hf : l.size + r.size ≤ fuel) :
    ∃ (m' : Mem) (sub : shape), erase m fuel x = some m' ∧ linked m' px sub ∧
      sub.inorder = l.inorder ++ r.inorder ∧
      (∀ y, y ∉ l.inorder ++ x :: r.inorder → y ≠ px → m' y = m y) ∧
      (m' px).pred = (m px).pred ∧
      ((m px).left = some x → (m' px).left = sub.root ∧ (m' px).right = (m px).right) ∧
      ((m px).left ≠ some x → (m' px).left = (m px).left ∧ (m' px).right = sub.root) ∧
      (∀ y, (m' y).value = (m y).value) ∧
      m' x = ⟨(m x).value, none, none, none⟩ := by
  obtain ⟨h1, h2, h3, h4, h5⟩ := h
  have hpx : px ∉ l.inorder ++ x :: r.inorder := (List.nodup_cons.1 hnd).1
  have hn : (l.inorder ++ x :: r.inorder).Nodup := (List.nodup_cons.1 hnd).2
  have hnlr : (l.inorder ++ r.inorder).Nodup := by
    refine List.nodup_append.2 ⟨(List.nodup_append.1 hn).1,
      (List.nodup_cons.1 (List.nodup_append.1 hn).2.1).2, fun y hy hy' => ?_⟩
    exact (List.nodup_append.1 hn).2.2 hy (by simp [hy'])
  have hxlr : x ∉ l.inorder ++ r.inorder := by
    intro hc
    rcases List.mem_append.1 hc with g | g
    · exact (List.nodup_append.1 hn).2.2 g (by simp)
    · exact (List.nodup_cons.1 (List.nodup_append.1 hn).2.1).1 g
  have hpxlr : px ∉ l.inorder ++ r.inorder := by
    intro hc
    apply hpx
    rcases List.mem_append.1 hc with g | g
    · simp [g]
    · simp [g]
  have hpxx : px ≠ x := fun hc => hpx (by simp [hc])
  obtain ⟨m1, t1, p1, e1, e2, e3, e4, e5⟩ := merge_linked fuel l r x x hf h4 h5 hnlr
  have hm1x : m1 x = m x := e4 x hxlr
  have hm1p : m1 px = m px := e4 px hpxlr
  have hq : ∀ c, t1.root = some c → c ≠ px := fun c hc hcp =>
    hpxlr (by rw [← e3, ← hcp]; exact shape.root_mem hc)
  have hqx : ∀ c, t1.root = some c → c ≠ x := fun c hc hcx =>
    hxlr (by rw [← e3, ← hcx]; exact shape.root_mem hc)
  have hnt1 : t1.inorder.Nodup := by rw [e3]; exact hnlr
  have c1 := fun (m : Mem) (x : Nat) => (clear_node_spec m x).1
  have c2 := fun (m : Mem) (x : Nat) => (clear_node_spec m x).2
  by_cases hl : (m px).left = some x
  · obtain ⟨s1, s2, s3⟩ := set_left_spec (m := m1) hq
    have he : erase m fuel x = some (clear_node (set_left m1 px t1.root) x) := by
      simp only [erase, h2, h3, e1, set_pred, hm1x, h1, hm1p, hl, if_true]
    refine ⟨_, t1, he, ?_, e3, ?_, ?_, ?_, ?_, ?_, ?_⟩
    · refine linked_rehang e2 hnt1 (fun c hc => ?_) (fun y hy hyr => ?_)
      · rw [c2 _ _ c (hqx c hc), s2 c hc]
      · have hyx : y ≠ x := fun hc => hxlr (by rw [← e3, ← hc]; exact hy)
        have hyp : y ≠ px := fun hc => hpxlr (by rw [← e3, ← hc]; exact hy)
        rw [c2 _ _ y hyx, s3 y hyp hyr]
    · intro y hy hyp
      have hyx : y ≠ x := fun hc => hy (by simp [hc])
      have hylr : y ∉ l.inorder ++ r.inorder := by
        intro hc; apply hy
        rcases List.mem_append.1 hc with g | g
        · simp [g]
        · simp [g]
      rw [c2 _ _ y hyx, s3 y hyp, e4 y hylr]
      intro hc
      exact hylr (by rw [← e3]; exact shape.root_mem hc)
    · rw [c2 _ _ px hpxx, s1, hm1p]
    · intro _
      rw [c2 _ _ px hpxx, s1, hm1p]
      exact ⟨rfl, rfl⟩
    · intro hc; exact absurd hl hc
    · intro y
      by_cases hyx : y = x
      · subst hyx
        rw [c1]
        show (set_left m1 px t1.root y).value = (m y).value
        rw [s3 y (Ne.symm hpxx) (fun hc => hqx y hc rfl), hm1x]
      · rw [c2 _ _ y hyx]
        by_cases hyp : y = px
        · subst hyp; rw [s1]; exact e5 y
        · by_cases hyr : t1.root = some y
          · rw [s2 y hyr]; exact e5 y
          · rw [s3 y hyp hyr]; exact e5 y
    · rw [c1]
      have hsx : set_left m1 px t1.root x = m1 x := by
        refine s3 x (Ne.symm hpxx) (fun hc => hqx x hc rfl)
      rw [hsx, hm1x]
  · obtain ⟨s1, s2, s3⟩ := set_right_spec (m := m1) hq
    have he : erase m fuel x = some (clear_node (set_right m1 px t1.root) x) := by
      simp only [erase, h2, h3, e1, set_pred, hm1x, h1, hm1p, hl, if_false]
    refine ⟨_, t1, he, ?_, e3, ?_, ?_, ?_, ?_, ?_, ?_⟩
    · refine linked_rehang e2 hnt1 (fun c hc => ?_) (fun y hy hyr => ?_)
      · rw [c2 _ _ c (hqx c hc), s2 c hc]
      · have hyx : y ≠ x := fun hc => hxlr (by rw [← e3, ← hc]; exact hy)
        have hyp : y ≠ px := fun hc => hpxlr (by rw [← e3, ← hc]; exact hy)
        rw [c2 _ _ y hyx, s3 y hyp hyr]
    · intro y hy hyp
      have hyx : y ≠ x := fun hc => hy (by simp [hc])
      have hylr : y ∉ l.inorder ++ r.inorder := by
        intro hc; apply hy
        rcases List.mem_append.1 hc with g | g
        · simp [g]
        · simp [g]
      rw [c2 _ _ y hyx, s3 y hyp, e4 y hylr]
      intro hc
      exact hylr (by rw [← e3]; exact shape.root_mem hc)
    · rw [c2 _ _ px hpxx, s1, hm1p]
    · intro hc; exact absurd hc hl
    · intro _
      rw [c2 _ _ px hpxx, s1, hm1p]
      exact ⟨rfl, rfl⟩
    · intro y
      by_cases hyx : y = x
      · subst hyx
        rw [c1]
        show (set_right m1 px t1.root y).value = (m y).value
        rw [s3 y (Ne.symm hpxx) (fun hc => hqx y hc rfl), hm1x]
      · rw [c2 _ _ y hyx]
        by_cases hyp : y = px
        · subst hyp; rw [s1]; exact e5 y
        · by_cases hyr : t1.root = some y
          · rw [s2 y hyr]; exact e5 y
          · rw [s3 y hyp hyr]; exact e5 y
    · rw [c1]
      have hsx : set_right m1 px t1.root x = m1 x := by
        refine s3 x (Ne.symm hpxx) (fun hc => hqx x hc rfl)
      rw [hsx, hm1x]

end bimap_impl

namespace bimap_impl

theorem set_new_right_spec {m : Mem} {x n px : Nat} (hpred : (m x).pred = some px)
    (hxn : x ≠ n) (hpx : px ≠ x) (hpn : px ≠ n) (hnl : (m n).left = none)
    (hc : ∀ c, (m x).left = some c → c ≠ x ∧ c ≠ n ∧ c ≠ px) :
    ∃ m', set_new_right m x n = some m' ∧
      m' x = { m x with left := none, pred := some n } ∧
      m' n = { m n with left := (m x).left, right := some x, pred := some px } ∧
      (∀ c, (m x).left = some c → m' c = { m c with pred := some n }) ∧
      m' px = (if (m px).left = some x then { m px with left := some n }
        else { m px with right := some n }) ∧
      (∀ y, y ≠ x → y ≠ n → y ≠ px → (m x).left ≠ some y → m' y = m y) := by
  unfold set_new_right
  cases hl : (m x).left with
  | none =>
    by_cases hs : (m px).left = some x
    · refine ⟨_, by simp [set_pred, hpred, hs]; rfl, ?_, ?_, ?_, ?_, ?_⟩
      · simp [set_left, Mem.wleft, Mem.wpred, Mem.wright, Mem.write, hxn, hpx, hpn,
          Ne.symm hxn, Ne.symm hpx, Ne.symm hpn, hl]
      · simp [set_left, Mem.wleft, Mem.wpred, Mem.wright, Mem.write, hxn, hpx, hpn,
          Ne.symm hxn, Ne.symm hpx, Ne.symm hpn, hl, hnl]
      · intro c hc'; simp at hc'
      · simp [set_left, Mem.wleft, Mem.wpred, Mem.wright, Mem.write, hxn, hpx, hpn,
          Ne.symm hxn, Ne.symm hpx, Ne.symm hpn, hl, hs]
      · intro y hyx hyn hyp _
        simp [set_left, Mem.wleft, Mem.wpred, Mem.wright, Mem.write, hyx, hyn, hyp]
    · refine ⟨_, by simp [set_pred, hpred, hs]; rfl, ?_, ?_, ?_, ?_, ?_⟩
      · simp [set_right, Mem.wleft, Mem.wpred, Mem.wright, Mem.write, hxn, hpx, hpn,
          Ne.symm hxn, Ne.symm hpx, Ne.symm hpn, hl]
      · simp [set_right, Mem.wleft, Mem.wpred, Mem.wright, Mem.write, hxn, hpx, hpn,
          Ne.symm hxn, Ne.symm hpx, Ne.symm hpn, hl, hnl]
      · intro c hc'; simp at hc'
      · simp [set_right, Mem.wleft, Mem.wpred, Mem.wright, Mem.write, hxn, hpx, hpn,
          Ne.symm hxn, Ne.symm hpx, Ne.symm hpn, hl, hs]
      · intro y hyx hyn hyp _
        simp [set_right, Mem.wleft, Mem.wpred, Mem.wright, Mem.write, hyx, hyn, hyp]
  | some c =>
    obtain ⟨hcx, hcn, hcp⟩ := hc c hl
    have hm1x : ((set_left m n (some c)).wleft x none x).pred = some px := by
      simp [set_left, Mem.wleft, Mem.wpred, Mem.wright, Mem.write, hxn, hcx, Ne.symm hcx, hpred]
    have hm1p : ((set_left m n (some c)).wleft x none px).left = (m px).left := by
      simp [set_left, Mem.wleft, Mem.wpred, Mem.wright, Mem.write, hpx, hpn, Ne.symm hcp]
    by_cases hs : (m px).left = some x
    · refine ⟨_, by simp only [set_pred, hm1x, hm1p, hs, if_true]; rfl, ?_, ?_, ?_, ?_, ?_⟩
      · simp [set_left, Mem.wleft, Mem.wpred, Mem.wright, Mem.write, hxn, hpx, hpn,
          Ne.symm hxn, Ne.symm hpx, Ne.symm hpn, hl, hcx, hcn, hcp, Ne.symm hcx, Ne.symm hcn,
          Ne.symm hcp]
      · simp [set_left, Mem.wleft, Mem.wpred, Mem.wright, Mem.write, hxn, hpx, hpn,
          Ne.symm hxn, Ne.symm hpx, Ne.symm hpn, hl, hcx, hcn, hcp, Ne.symm hcx, Ne.symm hcn,
          Ne.symm hcp]
      · intro c' hc'
        simp at hc'; subst hc'
        simp [set_left, Mem.wleft, Mem.wpred, Mem.wright, Mem.write, hxn, hpx, hpn,
          Ne.symm hxn, Ne.symm hpx, Ne.symm hpn, hl, hcx, hcn, hcp, Ne.symm hcx, Ne.symm hcn,
          Ne.symm hcp]
      · simp [set_left, Mem.wleft, Mem.wpred, Mem.wright, Mem.write, hxn, hpx, hpn,
          Ne.symm hxn, Ne.symm hpx, Ne.symm hpn, hl, hcx, hcn, hcp, Ne.symm hcx, Ne.symm hcn,
          Ne.symm hcp, hs]
      · intro y hyx hyn hyp hyc
        have : y ≠ c := fun h => hyc (by rw [h])
        simp [set_left, Mem.wleft, Mem.wpred, Mem.wright, Mem.write, hyx, hyn, hyp, this]
    · refine ⟨_, by simp only [set_pred, hm1x, hm1p, hs, if_false]; rfl, ?_, ?_, ?_, ?_, ?_⟩
      · simp [set_left, set_right, Mem.wleft, Mem.wpred, Mem.wright, Mem.write, hxn, hpx, hpn,
          Ne.symm hxn, Ne.symm hpx, Ne.symm hpn, hl, hcx, hcn, hcp, Ne.symm hcx, Ne.symm hcn,
          Ne.symm hcp]
      · simp [set_left, set_right, Mem.wleft, Mem.wpred, Mem.wright, Mem.write, hxn, hpx, hpn,
          Ne.symm hxn, Ne.symm hpx, Ne.symm hpn, hl, hcx, hcn, hcp, Ne.symm hcx, Ne.symm hcn,
          Ne.symm hcp]
      · intro c' hc'
        simp at hc'; subst hc'
        simp [set_left, set_right, Mem.wleft, Mem.wpred, Mem.wright, Mem.write, hxn, hpx, hpn,
          Ne.symm hxn, Ne.symm hpx, Ne.symm hpn, hl, hcx, hcn, hcp, Ne.symm hcx, Ne.symm hcn,
          Ne.symm hcp]
      · simp [set_left, set_right, Mem.wleft, Mem.wpred, Mem.wright, Mem.write, hxn, hpx, hpn,
          Ne.symm hxn, Ne.symm hpx, Ne.symm hpn, hl, hcx, hcn, hcp, Ne.symm hcx, Ne.symm hcn,
          Ne.symm hcp, hs]
      · intro y hyx hyn hyp hyc
        have : y ≠ c := fun h => hyc (by rw [h])
        simp [set_left, set_right, Mem.wleft, Mem.wpred, Mem.wright, Mem.write, hyx, hyn, hyp,
          this]

theorem set_new_left_spec {m : Mem} {x n : Nat} (hxn : x ≠ n) (hnl : (m n).left = none)
    (hc : ∀ c, (m x).left = some c → c ≠ x ∧ c ≠ n) :
    set_new_left m x n x = { m x with left := some n } ∧
    set_new_left m x n n = { m n with left := (m x).left, pred := some x } ∧
    (∀ c, (m x).left = some c → set_new_left m x n c = { m c with pred := some n }) ∧
    (∀ y, y ≠ x → y ≠ n → (m x).left ≠ some y → set_new_left m x n y = m y) := by
  unfold set_new_left
  cases hl : (m x).left with
  | none =>
    refine ⟨?_, ?_, ?_, ?_⟩
    · simp [Mem.wleft, Mem.wpred, Mem.write, hxn, hl]
    · simp [Mem.wleft, Mem.wpred, Mem.write, hxn, hl, Ne.symm hxn, hnl]
    · intro c hc'; simp at hc'
    · intro y hyx hyn _
      simp [Mem.wleft, Mem.wpred, Mem.write, hyx, hyn]
  | some c =>
    obtain ⟨hcx, hcn⟩ := hc c hl
    refine ⟨?_, ?_, ?_, ?_⟩
    · simp [Mem.wleft, Mem.wpred, Mem.write, hxn, hl, hcx, hcn, Ne.symm hcx, Ne.symm hcn]
    · simp [Mem.wleft, Mem.wpred, Mem.write, hxn, hl, Ne.symm hxn, hcx, hcn, Ne.symm hcx,
        Ne.symm hcn]
    · intro c' hc'
      simp at hc'
      subst hc'
      simp [Mem.wleft, Mem.wpred, Mem.write, hxn, hl, Ne.symm hxn, hcx, hcn, Ne.symm hcx,
        Ne.symm hcn]
    · intro y hyx hyn hyc
      have : y ≠ c := fun h => hyc (by rw [h])
      simp [Mem.wleft, Mem.wpred, Mem.write, hyx, hyn, this]

end bimap_impl

namespace bimap_impl

theorem erase_mid {pre l r post : List Nat} {x : Nat} (h1 : x ∉ pre) (h2 : x ∉ l) :
    (pre ++ (l ++ x :: r) ++ post).erase x = pre ++ (l ++ r) ++ post := by
  rw [List.append_assoc, List.erase_append_right _ h1, List.append_assoc,
    List.erase_append_right _ h2]
  simp

theorem insert_before_not_mem {xs : List Nat} {x : Nat} (n : Nat) (h : x ∉ xs) :
    insert_before xs x n = xs ++ [n] := by
  induction xs with
  | nil => rfl
  | cons y ys ih =>
    have hy : y ≠ x := fun hc => h (by simp [hc])
    have hx' : x ∉ ys := fun hc => h (by simp [hc])
    simp [insert_before, hy, ih hx']

theorem insert_before_append_right {xs : List Nat} {x : Nat} (ys : List Nat) (n : Nat)
    (h : x ∉ xs) : insert_before (xs ++ ys) x n = xs ++ insert_before ys x n := by
  induction xs with
  | nil => rfl
  | cons y zs ih =>
    have hyx : y ≠ x := fun hc => h (by simp [hc])
    have hx' : x ∉ zs := fun hc => h (by simp [hc])
    simp [insert_before, hyx, ih hx']

theorem insert_before_cons_self (xs : List Nat) (x n : Nat) :
    insert_before (x :: xs) x n = n :: x :: xs := by
  simp [insert_before]

theorem insert_before_mid {pre l r post : List Nat} {x : Nat} (n : Nat) (h1 : x ∉ pre)
    (h2 : x ∉ l) :
    insert_before (pre ++ (l ++ x :: r) ++ post) x n = pre ++ (l ++ n :: x :: r) ++ post := by
  rw [List.append_assoc, insert_before_append_right _ _ h1, List.append_assoc,
    insert_before_append_right _ _ h2]
  simp [insert_before]

/-- Erasing a node below a sentinel removes it from the in-order sequence and keeps the
side well linked. -/
theorem side_ok.erase_node {m : Mem} {base : Nat} {t : shape} (hs : side_ok m base t) {x : Nat}
    (hx : x ∈ t.inorder) {fuel : Nat} (hf : t.size ≤ fuel) :
    ∃ (m' : Mem) (t' : shape), bimap_impl.erase m fuel x = some m' ∧ side_ok m' base t' ∧
      t'.inorder = t.inorder.erase x ∧ (∀ y, (m' y).value = (m y).value) := by
  obtain ⟨px, l, r, pre, post, g1, g2, hpx, _, hre⟩ := hs.locate_node hx
  have hnt : t.inorder.Nodup := (List.nodup_cons.1 hs.nodup).2
  have hbt : base ∉ t.inorder := (List.nodup_cons.1 hs.nodup).1
  have hnmid : (l.inorder ++ x :: r.inorder).Nodup := by
    rw [g2] at hnt
    exact (List.nodup_append.1 (List.nodup_append.1 hnt).1).2.1
  have hxpre : x ∉ pre := by
    rw [g2] at hnt
    intro hc
    exact (List.nodup_append.1 (List.nodup_append.1 hnt).1).2.2 hc (by simp)
  have hxl : x ∉ l.inorder := fun hc => (List.nodup_append.1 hnmid).2.2 hc (by simp)
  have hsz : l.size + r.size ≤ fuel := by
    have := congrArg List.length g2
    simp only [List.length_append, List.length_cons, shape.length_inorder] at this
    omega
  obtain ⟨m', sub, e1, e2, e3, e4, e5, e6, e7, e8, _⟩ :=
    erase_local g1 (List.nodup_cons.2 ⟨hpx, hnmid⟩) hsz
  have hlist : pre ++ sub.inorder ++ post = t.inorder.erase x := by
    rw [e3, g2, erase_mid hxpre hxl]
  have hframe : ∀ y, y ∈ pre ∨ y ∈ post ∨ y = base → y ≠ px → m' y = m y := by
    intro y hy hyp
    refine e4 y ?_ hyp
    intro hc
    rcases hy with g | g | g
    · rw [g2] at hnt
      exact (List.nodup_append.1 (List.nodup_append.1 hnt).1).2.2 g hc
    · rw [g2] at hnt
      exact (List.nodup_append.1 hnt).2.2 (List.mem_append.2 (Or.inr hc)) g
    · apply hbt
      rw [g2, ← g]
      exact List.mem_append.2 (Or.inl (List.mem_append.2 (Or.inr hc)))
  have hnd : (base :: (pre ++ sub.inorder ++ post)).Nodup := by
    rw [hlist]
    exact List.nodup_cons.2 ⟨fun hc => hbt (List.mem_of_mem_erase hc), hnt.erase x⟩
  obtain ⟨t', k1, k2⟩ := hre m' sub e2 hframe e5 e6 e7 hnd
  exact ⟨m', t', e1, k1, by rw [k2, hlist], e8⟩

end bimap_impl

namespace bimap_impl

/-- Linking the new node `n` below the sentinel `base` makes it the root, the old tree
becoming its left child. -/
theorem side_ok.set_new_node_base {m : Mem} {base : Nat} {t : shape} (hs : side_ok m base t)
    {n : Nat} (hn : n ∉ base :: t.inorder) (hnl : (m n).left = none)
    (hnr : (m n).right = none) :
    ∃ (m' : Mem) (t' : shape), bimap_impl.set_new_node m base n = some m' ∧
      side_ok m' base t' ∧ t'.inorder = insert_before t.inorder base n ∧
      (∀ y, (m' y).value = (m y).value) := by
  have hnb : n ≠ base := fun hc => hn (by simp [hc])
  have hnt : n ∉ t.inorder := fun hc => hn (by simp [hc])
  have hbt : base ∉ t.inorder := (List.nodup_cons.1 hs.nodup).1
  have hndt : t.inorder.Nodup := (List.nodup_cons.1 hs.nodup).2
  have hc : ∀ c, (m base).left = some c → c ≠ base ∧ c ≠ n := by
    intro c hc
    rw [hs.left] at hc
    have := shape.root_mem hc
    exact ⟨fun h => hbt (by rw [← h]; exact this), fun h => hnt (by rw [← h]; exact this)⟩
  obtain ⟨s1, s2, s3, s4⟩ := set_new_left_spec (m := m) (Ne.symm hnb) hnl hc
  refine ⟨set_new_left m base n, .node t n .nil, by simp [bimap_impl.set_new_node, hs.pred],
    ⟨?_, ?_, ?_, ⟨?_, ?_, ?_, ?_, trivial⟩, ?_⟩, ?_, ?_⟩
  · rw [s1]; exact hs.pred
  · rw [s1]; exact hs.right
  · rw [s1]; rfl
  · rw [s2]
  · rw [s2]; exact hs.left
  · rw [s2]; exact hnr
  · refine linked_rehang hs.linked hndt (fun c hc' => s3 c (by rw [hs.left]; exact hc'))
      (fun y hy hyr => s4 y (fun h => hbt (by rw [← h]; exact hy))
        (fun h => hnt (by rw [← h]; exact hy)) (by rw [hs.left]; exact hyr))
  · simp only [shape.inorder, List.append_nil]
    refine List.nodup_cons.2 ⟨?_, ?_⟩
    · simp only [List.mem_append, List.mem_singleton, not_or]
      exact ⟨hbt, Ne.symm hnb⟩
    · exact List.nodup_append.2 ⟨hndt, by simp, fun y hy hy' => hnt (by
        simp only [List.mem_singleton] at hy'; rw [← hy']; exact hy)⟩
  · rw [insert_before_not_mem n hbt]; simp [shape.inorder]
  · intro y
    by_cases hyb : y = base
    · subst hyb; rw [s1]
    · by_cases hyn : y = n
      · subst hyn; rw [s2]
      · by_cases hyr : (m base).left = some y
        · rw [s3 y hyr]
        · rw [s4 y hyb hyn hyr]

theorem set_new_left_local {m : Mem} {px x n : Nat} {l r : shape}
    (h : linked m px (.node l x r)) (hnd : (l.inorder ++ x :: r.inorder).Nodup)
    (hn : n ∉ l.inorder ++ x :: r.inorder) (hnl : (m n).left = none)
    (hnr : (m n).right = none) :
    linked (set_new_left m x n) px (.node (.node l n .nil) x r) ∧
    (∀ y, y ∉ l.inorder ++ x :: r.inorder → y ≠ n → set_new_left m x n y = m y) ∧
    (∀ y, (set_new_left m x n y).value = (m y).value) := by
  obtain ⟨h1, h2, h3, h4, h5⟩ := h
  have hxn : x ≠ n := fun hc => hn (by simp [hc])
  have hxl : x ∉ l.inorder := fun hc => (List.nodup_append.1 hnd).2.2 hc (by simp)
  have hxr : x ∉ r.inorder := (List.nodup_cons.1 (List.nodup_append.1 hnd).2.1).1
  have hnl' : n ∉ l.inorder := fun hc => hn (by simp [hc])
  have hnr' : n ∉ r.inorder := fun hc => hn (by simp [hc])
  have hdisj : ∀ y, y ∈ l.inorder → y ∉ r.inorder := fun y hy hy' =>
    (List.nodup_append.1 hnd).2.2 hy (by simp [hy'])
  have hc : ∀ c, (m x).left = some c → c ≠ x ∧ c ≠ n := by
    intro c hc
    rw [h2] at hc
    have := shape.root_mem hc
    exact ⟨fun h => hxl (by rw [← h]; exact this), fun h => hnl' (by rw [← h]; exact this)⟩
  obtain ⟨s1, s2, s3, s4⟩ := set_new_left_spec (m := m) hxn hnl hc
  refine ⟨⟨?_, ?_, ?_, ⟨?_, ?_, ?_, ?_, trivial⟩, ?_⟩, ?_, ?_⟩
  · rw [s1]; exact h1
  · rw [s1]; rfl
  · rw [s1]; exact h3
  · rw [s2]
  · rw [s2]; exact h2
  · rw [s2]; exact hnr
  · refine linked_rehang h4 (List.nodup_append.1 hnd).1 (fun c hc' => s3 c (by rw [h2]; exact hc'))
      (fun y hy hyr => s4 y (fun h => hxl (by rw [← h]; exact hy))
        (fun h => hnl' (by rw [← h]; exact hy)) (by rw [h2]; exact hyr))
  · refine linked_congr r x (fun y hy => s4 y (fun h => hxr (by rw [← h]; exact hy))
      (fun h => hnr' (by rw [← h]; exact hy)) ?_) h5
    rw [h2]
    intro hc'
    exact hdisj y (shape.root_mem hc') hy
  · intro y hy hyn
    refine s4 y (fun h => hy (by simp [h])) hyn ?_
    rw [h2]
    intro hc'
    exact hy (by simp [shape.root_mem hc'])
  · intro y
    by_cases hyx : y = x
    · subst hyx; rw [s1]
    · by_cases hyn : y = n
      · subst hyn; rw [s2]
      · by_cases hyr : (m x).left = some y
        · rw [s3 y hyr]
        · rw [s4 y hyx hyn hyr]

theorem set_new_right_local {m : Mem} {px x n : Nat} {l r : shape}
    (h : linked m px (.node l x r)) (hnd : (px :: (l.inorder ++ x :: r.inorder)).Nodup)
    (hn : n ∉ px :: (l.inorder ++ x :: r.inorder)) (hnl : (m n).left = none) :
    ∃ m', set_new_right m x n = some m' ∧
      linked m' px (.node l n (.node .nil x r)) ∧
      (∀ y, y ∉ l.inorder ++ x :: r.inorder → y ≠ n → y ≠ px → m' y = m y) ∧
      (m' px).pred = (m px).pred ∧
      ((m px).left = some x → (m' px).left = some n ∧ (m' px).right = (m px).right) ∧
      ((m px).left ≠ some x → (m' px).left = (m px).left ∧ (m' px).right = some n) ∧
      (∀ y, (m' y).value = (m y).value) := by
  obtain ⟨h1, h2, h3, h4, h5⟩ := h
  have hpx : px ∉ l.inorder ++ x :: r.inorder := (List.nodup_cons.1 hnd).1
  have hnd' : (l.inorder ++ x :: r.inorder).Nodup := (List.nodup_cons.1 hnd).2
  have hnp : n ≠ px := fun hc => hn (by simp [hc])
  have hn' : n ∉ l.inorder ++ x :: r.inorder := fun hc => hn (List.mem_cons_of_mem _ hc)
  have hxn : x ≠ n := fun hc => hn' (by simp [hc])
  have hpxx : px ≠ x := fun hc => hpx (by simp [hc])
  have hxl : x ∉ l.inorder := fun hc => (List.nodup_append.1 hnd').2.2 hc (by simp)
  have hxr : x ∉ r.inorder := (List.nodup_cons.1 (List.nodup_append.1 hnd').2.1).1
  have hnl' : n ∉ l.inorder := fun hc => hn' (by simp [hc])
  have hnr' : n ∉ r.inorder := fun hc => hn' (by simp [hc])
  have hpl : px ∉ l.inorder := fun hc => hpx (by simp [hc])
  have hpr : px ∉ r.inorder := fun hc => hpx (by simp [hc])
  have hdisj : ∀ y, y ∈ l.inorder → y ∉ r.inorder := fun y hy hy' =>
    (List.nodup_append.1 hnd').2.2 hy (by simp [hy'])
  have hc : ∀ c, (m x).left = some c → c ≠ x ∧ c ≠ n ∧ c ≠ px := by
    intro c hc
    rw [h2] at hc
    have := shape.root_mem hc
    exact ⟨fun h => hxl (by rw [← h]; exact this), fun h => hnl' (by rw [← h]; exact this),
      fun h => hpl (by rw [← h]; exact this)⟩
  obtain ⟨m', s0, s1, s2, s3, s4, s5⟩ :=
    set_new_right_spec (m := m) h1 hxn hpxx (Ne.symm hnp) hnl hc
  refine ⟨m', s0, ⟨?_, ?_, ?_, ?_, ⟨?_, ?_, ?_, trivial, ?_⟩⟩, ?_, ?_, ?_, ?_, ?_⟩
  · rw [s2]
  · rw [s2]; exact h2
  · rw [s2]; rfl
  · refine linked_rehang h4 (List.nodup_append.1 hnd').1 (fun c hc' => s3 c (by rw [h2]; exact hc'))
      (fun y hy hyr => s5 y (fun h => hxl (by rw [← h]; exact hy))
        (fun h => hnl' (by rw [← h]; exact hy)) (fun h => hpl (by rw [← h]; exact hy))
        (by rw [h2]; exact hyr))
  · rw [s1]
  · rw [s1]; rfl
  · rw [s1]; exact h3
  · refine linked_congr r x (fun y hy => s5 y (fun h => hxr (by rw [← h]; exact hy))
      (fun h => hnr' (by rw [← h]; exact hy)) (fun h => hpr (by rw [← h]; exact hy)) ?_) h5
    rw [h2]
    intro hc'
    exact hdisj y (shape.root_mem hc') hy
  · intro y hy hyn hyp
    refine s5 y (fun h => hy (by simp [h])) hyn hyp ?_
    rw [h2]
    intro hc'
    exact hy (by simp [shape.root_mem hc'])
  · rw [s4]; split <;> rfl
  · intro hl
    rw [s4, if_pos hl]
    exact ⟨rfl, rfl⟩
  · intro hl
    rw [s4, if_neg hl]
    exact ⟨rfl, rfl⟩
  · intro y
    by_cases hyx : y = x
    · subst hyx; rw [s1]
    · by_cases hyn : y = n
      · subst hyn; rw [s2]
      · by_cases hyp : y = px
        · subst hyp; rw [s4]; split <;> rfl
        · by_cases hyr : (m x).left = some y
          · rw [s3 y hyr]
          · rw [s5 y hyx hyn hyp hyr]

end bimap_impl

namespace bimap_impl

theorem insert_before_perm (xs : List Nat) (x n : Nat) :
    (insert_before xs x n).Perm (n :: xs) := by
  induction xs with
  | nil => simp [insert_before]
  | cons y ys ih =>
    by_cases hy : y = x
    · simp [insert_before, hy]
    · simp only [insert_before, hy, if_false]
      exact (List.Perm.cons y ih).trans (List.Perm.swap n y ys)

/-- Linking the new node `n` at a node `x` of the tree puts it right before `x` in
in-order, whichever of `set_new_left` and `set_new_right` the priorities select. -/
theorem side_ok.set_new_node_at {m : Mem} {base : Nat} {t : shape} (hs : side_ok m base t)
    {x n : Nat} (hx : x ∈ t.inorder) (hn : n ∉ base :: t.inorder) (hnl : (m n).left = none)
    (hnr : (m n).right = none) :
    ∃ (m' : Mem) (t' : shape), bimap_impl.set_new_node m x n = some m' ∧
      side_ok m' base t' ∧ t'.inorder = insert_before t.inorder x n ∧
      (∀ y, (m' y).value = (m y).value) := by
  obtain ⟨px, l, r, pre, post, g1, g2, hpx, hslot, hre⟩ := hs.locate_node hx
  have hnt : t.inorder.Nodup := (List.nodup_cons.1 hs.nodup).2
  have hbt : base ∉ t.inorder := (List.nodup_cons.1 hs.nodup).1
  have hnb : n ≠ base := fun hc => hn (by simp [hc])
  have hnt' : n ∉ t.inorder := fun hc => hn (by simp [hc])
  have hnmid : (l.inorder ++ x :: r.inorder).Nodup := by
    rw [g2] at hnt
    exact (List.nodup_append.1 (List.nodup_append.1 hnt).1).2.1
  have hxpre : x ∉ pre := by
    rw [g2] at hnt
    intro hc
    exact (List.nodup_append.1 (List.nodup_append.1 hnt).1).2.2 hc (by simp)
  have hxl : x ∉ l.inorder := fun hc => (List.nodup_append.1 hnmid).2.2 hc (by simp)
  have hnsub : n ∉ l.inorder ++ x :: r.inorder := by
    intro hc; apply hnt'; rw [g2]
    exact List.mem_append.2 (Or.inl (List.mem_append.2 (Or.inr hc)))
  have hpxin : px = base ∨ px ∈ t.inorder := by
    obtain ⟨q1, _⟩ := g1
    by_cases hpb : px = base
    · exact Or.inl hpb
    · right
      obtain ⟨px', l', r', pre', post', k1, k2, k3, _, _, _⟩ :=
        bimap_impl.locate t base hs.linked hs.nodup hx
      have : px' = px := by
        have := k1.1
        rw [q1] at this
        exact (Option.some.inj this).symm
      subst this
      rcases k3 with k | k | k
      · exact absurd k hpb
      · rw [k2]; simp [k]
      · rw [k2]; simp [k]
  have hnpx : n ≠ px := by
    rcases hpxin with g | g
    · rw [g]; exact hnb
    · intro hc; exact hnt' (by rw [hc]; exact g)
  have hout : ∀ y, y ∈ pre ∨ y ∈ post ∨ y = base → y ∉ l.inorder ++ x :: r.inorder ∧ y ≠ n := by
    intro y hy
    rcases hy with g | g | g
    · refine ⟨fun hc => ?_, fun hc => hnt' (by rw [← hc, g2]; simp [g])⟩
      rw [g2] at hnt
      exact (List.nodup_append.1 (List.nodup_append.1 hnt).1).2.2 g hc
    · refine ⟨fun hc => ?_, fun hc => hnt' (by rw [← hc, g2]; simp [g])⟩
      rw [g2] at hnt
      exact (List.nodup_append.1 hnt).2.2 (List.mem_append.2 (Or.inr hc)) g
    · refine ⟨fun hc => hbt ?_, fun hc => hnb (by rw [← hc, g])⟩
      rw [g2, ← g]
      exact List.mem_append.2 (Or.inl (List.mem_append.2 (Or.inr hc)))
  have hlist : pre ++ (l.inorder ++ n :: x :: r.inorder) ++ post =
      insert_before t.inorder x n := by
    rw [g2, insert_before_mid n hxpre hxl]
  have hnd : (base :: (pre ++ (l.inorder ++ n :: x :: r.inorder) ++ post)).Nodup := by
    rw [hlist]
    have hp := insert_before_perm t.inorder x n
    refine List.nodup_cons.2 ⟨fun hc => ?_, hp.nodup_iff.2 (List.nodup_cons.2 ⟨hnt', hnt⟩)⟩
    rcases List.mem_cons.1 (hp.mem_iff.1 hc) with g | g
    · exact hnb g.symm
    · exact hbt g
  have hpred : ∃ q, (m x).pred = some q := ⟨px, g1.1⟩
  obtain ⟨q, hq⟩ := hpred
  by_cases hv : (m x).value > (m n).value
  · have hrun : bimap_impl.set_new_node m x n = some (set_new_left m x n) := by
      simp [bimap_impl.set_new_node, hv]
    obtain ⟨e1, e2, e3⟩ := set_new_left_local g1 hnmid hnsub hnl hnr
    have hpxsame : set_new_left m x n px = m px := e2 px hpx (Ne.symm hnpx)
    obtain ⟨t', k1, k2⟩ := hre (set_new_left m x n) (.node (.node l n .nil) x r) e1
      (fun y hy _ => e2 y (hout y hy).1 (hout y hy).2)
      (by rw [hpxsame])
      (fun hl => by rw [hpxsame]; exact ⟨hl, rfl⟩)
      (fun hl => by
        rw [hpxsame]
        rcases hslot with g | g
        · exact absurd g hl
        · exact ⟨rfl, g.2⟩)
      (by simpa [shape.inorder] using hnd)
    refine ⟨_, t', hrun, k1, ?_, e3⟩
    rw [k2, ← hlist]
    simp [shape.inorder]
  · have hrun : bimap_impl.set_new_node m x n = set_new_right m x n := by
      simp [bimap_impl.set_new_node, hv, hq]
    obtain ⟨m', e0, e1, e2, e3, e4, e5, e6⟩ :=
      set_new_right_local g1 (List.nodup_cons.2 ⟨hpx, hnmid⟩)
        (by
          intro hc
          rcases List.mem_cons.1 hc with g | g
          · exact hnpx g
          · exact hnsub g) hnl
    obtain ⟨t', k1, k2⟩ := hre m' (.node l n (.node .nil x r)) e1
      (fun y hy hyp => e2 y (hout y hy).1 (hout y hy).2 hyp) e3 e4 e5
      (by simpa [shape.inorder] using hnd)
    refine ⟨m', t', by rw [hrun, e0], k1, ?_, e6⟩
    rw [k2, ← hlist]
    simp [shape.inorder]

/-- Linking a new node at the position returned by `lower_bound`: a node of the tree or
the sentinel. -/
theorem side_ok.set_new_node {m : Mem} {base : Nat} {t : shape} (hs : side_ok m base t)
    {x n : Nat} (hx : x = base ∨ x ∈ t.inorder) (hn : n ∉ base :: t.inorder)
    (hnl : (m n).left = none) (hnr : (m n).right = none) :
    ∃ (m' : Mem) (t' : shape), bimap_impl.set_new_node m x n = some m' ∧
      side_ok m' base t' ∧ t'.inorder = insert_before t.inorder x n ∧
      (∀ y, (m' y).value = (m y).value) := by
  rcases hx with hx | hx
  · subst hx; exact hs.set_new_node_base hn hnl hnr
  · exact hs.set_new_node_at hx hn hnl hnr

end bimap_impl

namespace bimap_impl

/-! ## Searching a sorted side -/

/-- In a sorted sequence a node whose value is equivalent to `v` is the first node
whose value is not less than `v`. -/
theorem find_first_of_equiv {A : Type} {c : A → A → Bool} (hc : strict_weak c)
    {value : Nat → Option A} {xs : List Nat} (hs : xs.Pairwise (lt_at c value)) {v : A}
    {a : Nat} {x : A} (ha : a ∈ xs) (hx : value a = some x) (h1 : c x v = false)
    (h2 : c v x = false) : xs.find? (not_less c value v) = some a := by
  obtain ⟨as, bs, rfl⟩ := List.append_of_mem ha
  rw [List.find?_eq_some]
  refine ⟨by simp [not_less_of_value hx, h1], as, bs, rfl, fun b hb => ?_⟩
  obtain ⟨y, x', hy, hx', hlt⟩ := (List.pairwise_append.1 hs).2.2 b hb a (by simp)
  rw [hx] at hx'
  cases hx'
  have hyv : c y v = true := by
    by_contra hne
    have hyv : c y v = false := by simpa using hne
    have hvy : c v y = false := by
      by_contra hne'
      have hvy : c v y = true := by simpa using hne'
      have := hc.trans v y x hvy hlt
      rw [h2] at this
      exact Bool.false_ne_true this
    have := (hc.incomp y v x hyv hvy h2 h1).1
    rw [hlt] at this
    exact Bool.false_ne_true this.symm
  simp [not_less_of_value hy, hyv]

/-- The position returned by `lower_bound`. -/
theorem lower_bound_cases {A : Type} (c : A → A → Bool) (value : Nat → Option A) (v : A)
    (xs : List Nat) :
    (xs.find? (not_less c value v) = none ∧ (∀ b ∈ xs, not_less c value v b = false)) ∨
    (∃ a as bs x, xs.find? (not_less c value v) = some a ∧ xs = as ++ a :: bs ∧
      value a = some x ∧ c x v = false ∧ ∀ b ∈ as, not_less c value v b = false) := by
  cases hf : xs.find? (not_less c value v) with
  | none =>
    left
    refine ⟨rfl, fun b hb => ?_⟩
    have := List.find?_eq_none.1 hf b hb
    simpa using this
  | some a =>
    right
    obtain ⟨hp, as, bs, hxs, has⟩ := List.find?_eq_some.1 hf
    obtain ⟨x, hx, hxv⟩ := value_of_not_less hp
    exact ⟨a, as, bs, x, rfl, hxs, hx, hxv, fun b hb => by simpa using has b hb⟩

theorem lt_at_congr {A : Type} {c : A → A → Bool} {value value' : Nat → Option A}
    {xs : List Nat} (h : ∀ a ∈ xs, value' a = value a) (hs : xs.Pairwise (lt_at c value)) :
    xs.Pairwise (lt_at c value') := by
  refine List.Pairwise.imp_of_mem ?_ hs
  intro a b ha hb hab
  obtain ⟨x, y, hx, hy, hxy⟩ := hab
  exact ⟨x, y, by rw [h a ha, hx], by rw [h b hb, hy], hxy⟩

/-- Putting a new node with value `v` at the lower bound of `v` keeps the sequence
sorted, provided the node found there (if any) is greater than `v`. -/
theorem sorted_insert_before {A : Type} {c : A → A → Bool} (hc : strict_weak c)
    {value : Nat → Option A} {xs : List Nat} (hs : xs.Pairwise (lt_at c value))
    (hvals : ∀ a ∈ xs, ∃ x, value a = some x) {v : A} {n base : Nat} (hn : n ∉ xs)
    (hb : base ∉ xs)
    (hgt : ∀ a x, xs.find? (not_less c value v) = some a → value a = some x → c v x = true) :
    (insert_before xs ((xs.find? (not_less c value v)).getD base) n).Pairwise
      (lt_at c (fun b => if b = n then some v else value b)) := by
  have hcongr : ∀ a ∈ xs, (fun b => if b = n then some v else value b) a = value a := by
    intro a ha
    have : a ≠ n := fun h => hn (by rw [← h]; exact ha)
    simp [this]
  have hs' := lt_at_congr hcongr hs
  have hless : ∀ b ∈ xs, not_less c value v b = false →
      lt_at c (fun b => if b = n then some v else value b) b n := by
    intro b hb' hnl
    obtain ⟨y, hy⟩ := hvals b hb'
    have hbn : b ≠ n := fun h => hn (by rw [← h]; exact hb')
    refine ⟨y, v, by simp [hbn, hy], by simp, ?_⟩
    simpa [not_less_of_value hy] using hnl
  rcases lower_bound_cases c value v xs with ⟨hf, hall⟩ | ⟨a, as, bs, x, hf, hxs, hx, hxv, has⟩
  · rw [hf, Option.getD_none, insert_before_not_mem n hb]
    refine List.pairwise_append.2 ⟨hs', by simp, fun b hb' y hy => ?_⟩
    simp only [List.mem_singleton] at hy
    subst hy
    exact hless b hb' (hall b hb')
  · rw [hf, Option.getD_some]
    have haas : a ∉ as := by
      intro hmem
      have := has a hmem
      simp [not_less_of_value hx, hxv] at this
    rw [hxs, insert_before_append_right _ _ haas, insert_before_cons_self]
    rw [hxs] at hs'
    have hax : c v x = true := hgt a x hf hx
    have han : a ≠ n := fun h => hn (by rw [← h, hxs]; simp)
    refine List.pairwise_append.2 ⟨(List.pairwise_append.1 hs').1, ?_, ?_⟩
    · refine List.pairwise_cons.2 ⟨?_, (List.pairwise_append.1 hs').2.1⟩
      intro b hb'
      rcases List.mem_cons.1 hb' with g | g
      · subst g
        exact ⟨v, x, by simp, by simp [han, hx], hax⟩
      · obtain ⟨x', y, hx', hy, hxy⟩ :=
          (List.pairwise_cons.1 (List.pairwise_append.1 hs').2.1).1 b g
        simp only [han, if_false] at hx'
        rw [hx] at hx'
        cases hx'
        exact ⟨v, y, by simp, hy, hc.trans v x y hax hxy⟩
    · intro b hb' y hy
      rcases List.mem_cons.1 hy with g | g
      · subst g
        exact hless b (by rw [hxs]; simp [hb']) (has b hb')
      · exact (List.pairwise_append.1 hs').2.2 b hb' y g

end bimap_impl

namespace bimap_impl

theorem view_ok.congr_store {A B : Type} {c : A → A → Bool} {h h' : store A B} {base : Nat}
    {t : shape} (hv : view_ok c h base t) (h1 : h'.cur = h.cur) (h2 : h'.value = h.value)
    (h3 : h'.live = h.live) : view_ok c h' base t := by
  obtain ⟨a1, a2, a3, a4, a5, a6, a7, a8⟩ := hv
  exact ⟨by rw [h1]; exact a1, by rw [h1]; exact a2, by rw [h1]; exact a3, by rw [h1]; exact a4,
    a5, by rw [h3]; exact a6, by rw [h2]; exact a7, by rw [h2]; exact a8⟩

theorem view_ok.mem_live {A B : Type} {c : A → A → Bool} {h : store A B} {base : Nat}
    {t : shape} (hv : view_ok c h base t) {a : Nat} : a ∈ t.inorder ↔ a ∈ h.live :=
  hv.perm.mem_iff

theorem view_ok.lower_bound_mem {A B : Type} (c : A → A → Bool) (h : store A B) (base : Nat)
    (t : shape) (v : A) :
    (t.inorder.find? (not_less c h.value v)).getD base = base ∨
      (t.inorder.find? (not_less c h.value v)).getD base ∈ t.inorder := by
  cases hf : t.inorder.find? (not_less c h.value v) with
  | none => left; rfl
  | some a => right; exact List.mem_of_find?_eq_some hf

/-- `find` returns the record whose value is equivalent to the one searched. -/
theorem view_ok.find_of_equiv {A B : Type} {c : A → A → Bool} (hc : strict_weak c)
    {h : store A B} {base : Nat} {t : shape} (hv : view_ok c h base t) {v : A} {a : Nat}
    {x : A} (ha : a ∈ h.live) (hx : h.value a = some x) (h1 : c x v = false)
    (h2 : c v x = false) : map.find c h v base = some a := by
  have hat : a ∈ t.inorder := hv.mem_live.2 ha
  have hf := find_first_of_equiv hc hv.sorted hat hx h1 h2
  rw [map.find, hv.lower_bound hc, hf]
  simp [hv.eq_end_false hat, bimap_iterator.deref, hx, h1, h2]

/-- `find` returns the end iterator when no record has an equivalent value. -/
theorem view_ok.find_of_not_taken {A B : Type} {c : A → A → Bool} (hc : strict_weak c)
    {h : store A B} {base : Nat} {t : shape} (hv : view_ok c h base t) {v : A}
    (hnt : ¬ ∃ a ∈ h.live, ∃ x, h.value a = some x ∧ c x v = false ∧ c v x = false) :
    map.find c h v base = some base := by
  rw [map.find, hv.lower_bound hc]
  rcases lower_bound_cases c h.value v t.inorder with ⟨hf, _⟩ | ⟨a, as, bs, x, hf, hxs, hx, hxv, _⟩
  · rw [hf]
    simp [map.end_, node_eq_self, bimap_iterator.eq]
  · have hat : a ∈ t.inorder := by rw [hxs]; simp
    have hvx : c v x = true := by
      by_contra hne
      exact hnt ⟨a, hv.mem_live.1 hat, x, hx, hxv, by simpa using hne⟩
    rw [hf]
    simp [hv.eq_end_false hat, bimap_iterator.deref, hx, hvx, map.end_]

/-- `find` returns an iterator different from the end only at a record with an
equivalent value. -/
theorem view_ok.find_cases {A B : Type} {c : A → A → Bool} (hc : strict_weak c)
    {h : store A B} {base : Nat} {t : shape} (hv : view_ok c h base t) (v : A) :
    map.find c h v base = some base ∨
      ∃ a ∈ h.live, ∃ x, h.value a = some x ∧ c x v = false ∧ c v x = false ∧
        map.find c h v base = some a := by
  by_cases hnt : ∃ a ∈ h.live, ∃ x, h.value a = some x ∧ c x v = false ∧ c v x = false
  · obtain ⟨a, ha, x, hx, h1, h2⟩ := hnt
    exact Or.inr ⟨a, ha, x, hx, h1, h2, hv.find_of_equiv hc ha hx h1 h2⟩
  · exact Or.inl (hv.find_of_not_taken hc hnt)

/-- The lower bound of a value held by a live record is that record. -/
theorem view_ok.lower_bound_of_mem {A B : Type} {c : A → A → Bool} (hc : strict_weak c)
    {h : store A B} {base : Nat} {t : shape} (hv : view_ok c h base t) {v : A} {a : Nat}
    (ha : a ∈ h.live) (hx : h.value a = some v) : map.lower_bound c h v base = some a := by
  rw [hv.lower_bound hc,
    find_first_of_equiv hc hv.sorted (hv.mem_live.2 ha) hx (hc.irrefl v) (hc.irrefl v)]
  rfl

/-- The values of two distinct live records are not equivalent. -/
theorem view_ok.value_inj {A B : Type} {c : A → A → Bool} (hc : strict_weak c)
    {h : store A B} {base : Nat} {t : shape} (hv : view_ok c h base t) {a b : Nat} {x y : A}
    (ha : a ∈ h.live) (hb : b ∈ h.live) (hx : h.value a = some x) (hy : h.value b = some y)
    (h1 : c x y = false) (h2 : c y x = false) : a = b := by
  have e1 := find_first_of_equiv hc hv.sorted (hv.mem_live.2 ha) hx h1 h2
  have e2 := find_first_of_equiv hc hv.sorted (hv.mem_live.2 hb) hy (hc.irrefl y) (hc.irrefl y)
  rw [e1] at e2
  exact Option.some.inj e2

/-- A value that no live record holds has a lower bound holding another value. -/
theorem view_ok.lower_bound_of_not_mem {A B : Type} {c : A → A → Bool} (hc : strict_weak c)
    {h : store A B} {base : Nat} {t : shape} (hv : view_ok c h base t) {v : A}
    (hnm : ∀ a ∈ h.live, h.value a ≠ some v) :
    map.lower_bound c h v base = some base ∨
      ∃ a ∈ h.live, ∃ x, h.value a = some x ∧ x ≠ v ∧ map.lower_bound c h v base = some a := by
  rw [hv.lower_bound hc]
  rcases lower_bound_cases c h.value v t.inorder with ⟨hf, _⟩ | ⟨a, as, bs, x, hf, hxs, hx, _, _⟩
  · left; rw [hf]; rfl
  · right
    have hat : a ∈ t.inorder := by rw [hxs]; simp
    have hal := hv.mem_live.1 hat
    refine ⟨a, hal, x, hx, fun hxv => hnm a hal (by rw [hx, hxv]), by rw [hf]; rfl⟩

end bimap_impl

namespace bimap_impl

theorem side_ok.congr_mem {m m' : Mem} {base : Nat} {t : shape} (hs : side_ok m base t)
    (h : ∀ y ∈ base :: t.inorder, m' y = m y) : side_ok m' base t := by
  have hb : m' base = m base := h base (by simp)
  exact ⟨by rw [hb]; exact hs.pred, by rw [hb]; exact hs.right, by rw [hb]; exact hs.left,
    linked_congr t base (fun a ha => h a (by simp [ha])) hs.linked, hs.nodup⟩

/-- `at` returns the paired value of the record holding the key. -/
theorem view_ok.at_of_mem {A B : Type} [DecidableEq A] {c : A → A → Bool}
    (hc : strict_weak c) {h : store A B} {base : Nat} {t : shape} (hv : view_ok c h base t)
    {v : A} {w : B} {a : Nat} (ha : a ∈ h.live) (hx : h.value a = some v)
    (hw : h.other a = some w) : map.at_ c h v base = some (.ok w) := by
  rw [map.at_, hv.lower_bound_of_mem hc ha hx]
  simp [hv.eq_end_false (hv.mem_live.2 ha), bimap_iterator.deref, hx, bimap_iterator.flip,
    store.flipped, hw]

/-- `at` throws `out_of_range` when no record holds the key. -/
theorem view_ok.at_of_not_mem {A B : Type} [DecidableEq A] {c : A → A → Bool}
    (hc : strict_weak c) {h : store A B} {base : Nat} {t : shape} (hv : view_ok c h base t)
    {v : A} (hnm : ∀ a ∈ h.live, h.value a ≠ some v) :
    map.at_ c h v base = some (.error .out_of_range) := by
  rcases hv.lower_bound_of_not_mem hc hnm with hlb | ⟨a, ha, x, hx, hxv, hlb⟩
  · rw [map.at_, hlb]
    simp [bimap_iterator.eq, map.end_, node_eq_self]
  · rw [map.at_, hlb]
    simp [hv.eq_end_false (hv.mem_live.2 ha), bimap_iterator.deref, hx, hxv]

/-- `map::erase(iterator)` unlinks the record from both trees and returns the successor
of the iterator. -/
theorem view_ok.erase_both {A B : Type} {c : A → A → Bool} {c' : B → B → Bool} {h : store A B}
    {base : Nat} {t t' : shape} (hv : view_ok c h base t) (hv' : view_ok c' h.flipped base t')
    {it : Nat} (hit : it ∈ h.live) :
    ∃ (h1 : store A B) (t1 t1' : shape),
      map.erase h it = some (h1, next_of t.inorder base it) ∧
      view_ok c h1 base t1 ∧ view_ok c' h1.flipped base t1' ∧
      t1.inorder = t.inorder.erase it ∧ t1'.inorder = t'.inorder.erase it ∧
      h1.live = h.live.erase it ∧ h1.value = h.value ∧ h1.other = h.other := by
  have hit1 : it ∈ t.inorder := hv.mem_live.2 hit
  have hit2 : it ∈ t'.inorder := hv'.mem_live.2 hit
  obtain ⟨m1, t1, e1, e2, e3, _⟩ := hv.side.erase_node hit1 (le_of_lt hv.size_lt_fuel)
  obtain ⟨m2, t2, f1, f2, f3, _⟩ := hv'.side.erase_node hit2 (le_of_lt hv'.size_lt_fuel)
  have f1' : bimap_impl.erase h.opp h.fuel it = some m2 := f1
  refine ⟨{ h with cur := m1, opp := m2, live := h.live.erase it }, t1, t2, ?_, ?_, ?_, e3, f3,
    rfl, rfl, rfl⟩
  · simp only [map.erase, hv.inc hit1, e1, bimap_iterator.flip, f1']
  · refine ⟨e2.pred, e2.right, e2.left, e2.linked, e2.nodup, ?_, ?_, ?_⟩
    · rw [e3]; exact hv.perm.erase it
    · intro a ha
      rw [e3] at ha
      exact hv.vals a (List.mem_of_mem_erase ha)
    · rw [e3]; exact hv.sorted.sublist (List.erase_sublist it t.inorder)
  · refine ⟨f2.pred, f2.right, f2.left, f2.linked, f2.nodup, ?_, ?_, ?_⟩
    · rw [f3]; exact hv'.perm.erase it
    · intro a ha
      rw [f3] at ha
      exact hv'.vals a (List.mem_of_mem_erase ha)
    · rw [f3]; exact hv'.sorted.sublist (List.erase_sublist it t'.inorder)

/-- Linking a freshly allocated record at the lower bound of its value, when no record
holds an equivalent value, keeps the side well formed. -/
theorem view_ok.insert_node {A B : Type} {c : A → A → Bool} (hc : strict_weak c) {h : store A B}
    {base : Nat} {t : shape} (hv : view_ok c h base t) {v : A} {a : Nat} (p : Nat)
    (ha : a ∉ base :: h.live)
    (hnt : ¬ ∃ b ∈ h.live, ∃ x, h.value b = some x ∧ c x v = false ∧ c v x = false) :
    ∃ (lb : Nat) (m' : Mem) (t' : shape),
      map.lower_bound c h v base = some lb ∧
      set_new_node (h.cur.write a ⟨p, none, none, none⟩) lb a = some m' ∧
      t'.inorder = insert_before t.inorder lb a ∧
      ∀ h' : store A B, h'.cur = m' →
        h'.value = (fun b => if b = a then some v else h.value b) →
        h'.live = a :: h.live → view_ok c h' base t' := by
  have hab : a ≠ base := fun hc' => ha (by simp [hc'])
  have hat : a ∉ t.inorder := fun hc' => ha (List.mem_cons_of_mem _ (hv.mem_live.1 hc'))
  have hbt : base ∉ t.inorder := (List.nodup_cons.1 hv.nodup).1
  have hnin : a ∉ base :: t.inorder := by
    intro hc'
    rcases List.mem_cons.1 hc' with g | g
    · exact hab g
    · exact hat g
  have hs1 : side_ok (h.cur.write a ⟨p, none, none, none⟩) base t :=
    hv.side.congr_mem (fun y hy => Mem.write_ne _ _ (fun hya => hnin (by rw [← hya]; exact hy)))
  obtain ⟨m', t', e1, e2, e3, _⟩ :=
    hs1.set_new_node (view_ok.lower_bound_mem c h base t v)
      hnin (by simp) (by simp)
  refine ⟨_, m', t', hv.lower_bound hc v, e1, e3, ?_⟩
  intro h' k1 k2 k3
  have hp := insert_before_perm t.inorder
    ((t.inorder.find? (not_less c h.value v)).getD base) a
  refine ⟨by rw [k1]; exact e2.pred, by rw [k1]; exact e2.right, by rw [k1]; exact e2.left,
    by rw [k1]; exact e2.linked, e2.nodup, ?_, ?_, ?_⟩
  · rw [e3, k3]
    exact hp.trans (List.Perm.cons a hv.perm)
  · intro b hb
    rw [e3] at hb
    rw [k2]
    rcases List.mem_cons.1 (hp.mem_iff.1 hb) with g | g
    · exact ⟨v, by simp [g]⟩
    · have hba : b ≠ a := fun hc' => hat (by rw [← hc']; exact g)
      simpa [hba] using hv.vals b g
  · rw [e3, k2]
    refine sorted_insert_before hc hv.sorted hv.vals hat hbt ?_
    intro b x hf hx
    have hbt' : b ∈ t.inorder := List.mem_of_find?_eq_some hf
    have hnl : not_less c h.value v b = true := List.find?_some hf
    have hxv : c x v = false := by simpa [not_less_of_value hx] using hnl
    by_contra hne
    exact hnt ⟨b, hv.mem_live.1 hbt', x, hx, hxv, by simpa using hne⟩

end bimap_impl

/-! ## Well-formedness is kept by the operations of `bimap` -/

namespace bimap

variable {L R : Type}

theorem length_lt_of_addr {xs : List Nat} {N : Nat} (hN : 0 < N) (hn : xs.Nodup)
    (h : ∀ a ∈ xs, 0 < a ∧ a < N) : xs.length < N := by
  have hsub : xs.toFinset ⊆ Finset.Ico 1 N := by
    intro a ha
    have := h a (List.mem_toFinset.1 ha)
    exact Finset.mem_Ico.2 ⟨this.1, this.2⟩
  have hcard := Finset.card_le_card hsub
  rw [List.toFinset_card_of_nodup hn, Nat.card_Ico] at hcard
  omega

theorem size_max_pos : 0 < size_max := by
  unfold size_max; positivity

theorem wf_at.live_nodup {s : bimap L R} {tl tr : shape} (h : wf_at s tl tr) :
    s.mem.live.Nodup :=
  h.left.perm.nodup_iff.1 (List.nodup_cons.1 h.left.nodup).2

theorem wf_at.base_not_live {s : bimap L R} {tl tr : shape} (h : wf_at s tl tr) :
    s.base ∉ s.mem.live :=
  fun hc => (List.nodup_cons.1 h.left.nodup).1 (h.left.mem_live.2 hc)

/-- A freshly constructed bimap is well formed. -/
theorem wf_ctor (cl : L → L → Bool) (cr : R → R → Bool) (base p q : Nat) :
    wf_at (bimap.ctor cl cr base p q) .nil .nil := by
  refine ⟨⟨?_, ?_, ?_, trivial, ?_, ?_, ?_, ?_⟩, ⟨?_, ?_, ?_, trivial, ?_, ?_, ?_, ?_⟩, rfl, ?_⟩ <;>
    simp [bimap.ctor, shape.root, shape.inorder, store.flipped]

/-- `insert` of a pair whose two values are not taken links a new record into both trees
and returns the iterator to it. -/
theorem wf_at.insert_fresh {s : bimap L R} {tl tr : shape} (h : wf_at s tl tr)
    (hcl : strict_weak s.compare_left) (hcr : strict_weak s.compare_right) {l : L} {r : R}
    {a : Nat} (p q : Nat) (ha : s.fresh a) (hl : ¬ s.left_taken l) (hr : ¬ s.right_taken r) :
    ∃ (s' : bimap L R) (tl' tr' : shape) (lbl lbr : Nat),
      s.insert l r a p q = some (s', a) ∧ wf_at s' tl' tr' ∧
      s.lower_bound_left l = some lbl ∧ s.lower_bound_right r = some lbr ∧
      tl'.inorder = insert_before tl.inorder lbl a ∧
      tr'.inorder = insert_before tr.inorder lbr a ∧
      s'.mem.live = a :: s.mem.live ∧
      s'.mem.value = (fun b => if b = a then some l else s.mem.value b) ∧
      s'.mem.other = (fun b => if b = a then some r else s.mem.other b) ∧
      s'.size_ = s.size_ + 1 ∧ s'.compare_left = s.compare_left ∧
      s'.compare_right = s.compare_right ∧ s'.base = s.base := by
  obtain ⟨ha0, ha1, hab, hal⟩ := ha
  have hnin : a ∉ s.base :: s.mem.live := by
    intro hc
    rcases List.mem_cons.1 hc with g | g
    · exact hab g
    · exact hal g
  obtain ⟨lbl, ml, tl', e1, e2, e3, e4⟩ := h.left.insert_node hcl (v := l) p hnin hl
  obtain ⟨lbr, mr, tr', f1, f2, f3, f4⟩ := h.right.insert_node hcr (v := r) q hnin hr
  have hfl : s.find_left l = some s.base := h.left.find_of_not_taken hcl hl
  have hfr : s.find_right r = some s.base := h.right.find_of_not_taken hcr hr
  have hlen : (a :: s.mem.live).length < size_max := by
    refine length_lt_of_addr size_max_pos (List.nodup_cons.2 ⟨hal, h.live_nodup⟩) ?_
    intro b hb
    rcases List.mem_cons.1 hb with g | g
    · rw [g]; exact ⟨ha0, ha1⟩
    · exact h.addr b g
  have hsz : (s.size_ + 1) % size_max = s.size_ + 1 := by
    apply Nat.mod_eq_of_lt
    rw [h.size]
    simpa using hlen
  refine ⟨{ s with mem := { s.mem.alloc a p q l r with cur := ml, opp := mr },
                   size_ := (s.size_ + 1) % size_max }, tl', tr', lbl, lbr, ?_, ?_, e1, f1, e3, f3,
    rfl, rfl, rfl, hsz, rfl, rfl, rfl⟩
  · have e1' : s.lower_bound_left l = some lbl := e1
    have f1' : s.lower_bound_right r = some lbr := f1
    have e2' : set_new_node (s.mem.alloc a p q l r).cur lbl a = some ml := e2
    have f2' : set_new_node (s.mem.alloc a p q l r).opp lbr a = some mr := f2
    simp only [bimap.insert, bimap.insert_impl, hfl, hfr, bimap.end_left, bimap.end_right,
      map.end_, bimap_iterator.eq, node_eq_self, if_true, e1', f1', bimap.insert_node, e2', f2']
  · refine ⟨e4 _ rfl rfl rfl, f4 _ rfl rfl rfl, ?_, ?_⟩
    · show (s.size_ + 1) % size_max = (a :: s.mem.live).length
      rw [hsz, h.size]; rfl
    · intro b hb
      rcases List.mem_cons.1 hb with g | g
      · rw [g]; exact ⟨ha0, ha1⟩
      · exact h.addr b g

/-- `insert` of a pair one of whose values is taken returns `end_left()` and changes
nothing. -/
theorem wf_at.insert_taken {s : bimap L R} {tl tr : shape} (h : wf_at s tl tr)
    (hcl : strict_weak s.compare_left) (hcr : strict_weak s.compare_right) {l : L} {r : R}
    (a p q : Nat) (ht : s.left_taken l ∨ s.right_taken r) :
    s.insert l r a p q = some (s, s.end_left) := by
  rcases h.left.find_cases hcl l with hfl | ⟨b, hb, x, hx, h1, h2, hfl⟩
  · have hfl' : s.find_left l = some s.base := hfl
    have hrt : s.right_taken r := by
      rcases ht with g | g
      · exfalso
        obtain ⟨b, hb, x, hx, h1, h2⟩ := g
        have := h.left.find_of_equiv hcl hb hx h1 h2
        rw [hfl] at this
        have hbb : s.base = b := Option.some.inj this
        exact h.base_not_live (by rw [hbb]; exact hb)
      · exact g
    obtain ⟨b, hb, y, hy, h1, h2⟩ := hrt
    have hfr : s.find_right r = some b := h.right.find_of_equiv hcr hb hy h1 h2
    have hne : bimap_iterator.eq s.mem.flipped b s.base = false :=
      h.right.eq_end_false (h.right.mem_live.2 hb)
    simp only [bimap.insert, bimap.insert_impl, hfl', hfr, bimap.end_left, bimap.end_right,
      map.end_, bimap_iterator.eq, node_eq_self, if_true]
    simp only [bimap_iterator.eq, map.end_] at hne
    simp [hne]
  · have hfl' : s.find_left l = some b := hfl
    have hne : bimap_iterator.eq s.mem b s.base = false :=
      h.left.eq_end_false (h.left.mem_live.2 hb)
    simp only [bimap.insert, bimap.insert_impl, hfl', bimap.end_left, map.end_]
    simp [hne]

end bimap

namespace bimap

variable {L R : Type}

theorem dec_size_eq {n : Nat} (h1 : 0 < n) (h2 : n < size_max) :
    (n + (size_max - 1)) % size_max + 1 = n := by
  unfold size_max at *
  omega

/-- `erase_left(it)` at a record unlinks it from both trees and returns the iterator that
followed it in left order. -/
theorem wf_at.erase_left {s : bimap L R} {tl tr : shape} (h : wf_at s tl tr) {it : Nat}
    (hit : it ∈ s.mem.live) :
    ∃ (s' : bimap L R) (tl' tr' : shape),
      s.erase_left it = some (s', next_of tl.inorder s.base it) ∧ wf_at s' tl' tr' ∧
      tl'.inorder = tl.inorder.erase it ∧ tr'.inorder = tr.inorder.erase it ∧
      s'.mem.live = s.mem.live.erase it ∧ s'.mem.value = s.mem.value ∧
      s'.mem.other = s.mem.other ∧ s'.size_ + 1 = s.size_ ∧
      s'.compare_left = s.compare_left ∧ s'.compare_right = s.compare_right ∧
      s'.base = s.base := by
  obtain ⟨h1, t1, t1', e1, e2, e3, e4, e5, e6, e7, e8⟩ := h.left.erase_both h.right hit
  have hlen : s.mem.live.length < size_max :=
    length_lt_of_addr size_max_pos h.live_nodup h.addr
  have hpos : 0 < s.mem.live.length := List.length_pos_of_mem hit
  have hsz : (s.size_ + (size_max - 1)) % size_max + 1 = s.size_ :=
    dec_size_eq (by rw [h.size]; exact hpos) (by rw [h.size]; exact hlen)
  refine ⟨{ s with mem := h1, size_ := (s.size_ + (size_max - 1)) % size_max }, t1, t1', ?_,
    ⟨e2, e3, ?_, ?_⟩, e4, e5, e6, e7, e8, hsz, rfl, rfl, rfl⟩
  · simp only [bimap.erase_left, e1, dec_size]
  · show (s.size_ + (size_max - 1)) % size_max = h1.live.length
    rw [e6, List.length_erase_of_mem hit]
    have := h.size
    omega
  · intro a ha
    have : a ∈ s.mem.live := by
      have ha' : a ∈ h1.live := ha
      rw [e6] at ha'
      exact List.mem_of_mem_erase ha'
    exact h.addr a this

/-- `erase_right(it)` at a record unlinks it from both trees and returns the iterator that
followed it in right order. -/
theorem wf_at.erase_right {s : bimap L R} {tl tr : shape} (h : wf_at s tl tr) {it : Nat}
    (hit : it ∈ s.mem.live) :
    ∃ (s' : bimap L R) (tl' tr' : shape),
      s.erase_right it = some (s', next_of tr.inorder s.base it) ∧ wf_at s' tl' tr' ∧
      tl'.inorder = tl.inorder.erase it ∧ tr'.inorder = tr.inorder.erase it ∧
      s'.mem.live = s.mem.live.erase it ∧ s'.mem.value = s.mem.value ∧
      s'.mem.other = s.mem.other ∧ s'.size_ + 1 = s.size_ ∧
      s'.compare_left = s.compare_left ∧ s'.compare_right = s.compare_right ∧
      s'.base = s.base := by
  have hleft : view_ok s.compare_left s.mem.flipped.flipped s.base tl := h.left
  obtain ⟨h1, t1, t1', e1, e2, e3, e4, e5, e6, e7, e8⟩ :=
    h.right.erase_both hleft hit
  have hlen : s.mem.live.length < size_max :=
    length_lt_of_addr size_max_pos h.live_nodup h.addr
  have hpos : 0 < s.mem.live.length := List.length_pos_of_mem hit
  have hsz : (s.size_ + (size_max - 1)) % size_max + 1 = s.size_ :=
    dec_size_eq (by rw [h.size]; exact hpos) (by rw [h.size]; exact hlen)
  have e6' : h1.live = s.mem.live.erase it := e6
  refine ⟨{ s with mem := h1.flipped, size_ := (s.size_ + (size_max - 1)) % size_max }, t1', t1,
    ?_, ⟨e3, e2, ?_, ?_⟩, e5, e4, e6', e8, e7, hsz, rfl, rfl, rfl⟩
  · simp only [bimap.erase_right, e1, dec_size]
  · show (s.size_ + (size_max - 1)) % size_max = h1.live.length
    rw [e6', List.length_erase_of_mem hit]
    have := h.size
    omega
  · intro a ha
    have : a ∈ s.mem.live := by
      have ha' : a ∈ h1.live := ha
      rw [e6'] at ha'
      exact List.mem_of_mem_erase ha'
    exact h.addr a this

/-- `erase_left(value)` of a value held by the record `a` erases that record. -/
theorem wf_at.erase_left_value_of_mem [DecidableEq L] {s : bimap L R} {tl tr : shape}
    (h : wf_at s tl tr) (hcl : strict_weak s.compare_left) {v : L} {a : Nat}
    (ha : a ∈ s.mem.live) (hv : s.mem.value a = some v) :
    s.erase_left_value v = (s.erase_left a).map (fun x => (x.1, true)) := by
  obtain ⟨s', tl', tr', e1, _⟩ := h.erase_left ha
  have hlb := h.left.lower_bound_of_mem hcl ha hv
  have hne := h.left.eq_end_false (h.left.mem_live.2 ha)
  rw [e1]
  simp only [bimap.erase_left] at e1
  cases hme : map.erase s.mem a with
  | none => simp [hme] at e1
  | some res =>
    obtain ⟨h1, ans⟩ := res
    simp [bimap.erase_left_value, map.erase_value, hlb, hne, bimap_iterator.deref, hv, hme] at e1 ⊢
    exact e1.1

/-- `erase_left(value)` of a value that no record holds returns false and changes
nothing. -/
theorem wf_at.erase_left_value_of_not_mem [DecidableEq L] {s : bimap L R} {tl tr : shape}
    (h : wf_at s tl tr) (hcl : strict_weak s.compare_left) {v : L}
    (hv : ∀ a ∈ s.mem.live, s.mem.value a ≠ some v) :
    s.erase_left_value v = some (s, false) := by
  rcases h.left.lower_bound_of_not_mem hcl hv with hlb | ⟨a, ha, x, hx, hxv, hlb⟩
  · simp [bimap.erase_left_value, map.erase_value, hlb, bimap_iterator.eq, map.end_,
      node_eq_self]
  · have hne := h.left.eq_end_false (h.left.mem_live.2 ha)
    simp [bimap.erase_left_value, map.erase_value, hlb, hne, bimap_iterator.deref, hx, hxv]

/-- `erase_right(value)` of a value held by the record `a` erases that record. -/
theorem wf_at.erase_right_value_of_mem [DecidableEq R] {s : bimap L R} {tl tr : shape}
    (h : wf_at s tl tr) (hcr : strict_weak s.compare_right) {v : R} {a : Nat}
    (ha : a ∈ s.mem.live) (hv : s.mem.other a = some v) :
    s.erase_right_value v = (s.erase_right a).map (fun x => (x.1, true)) := by
  obtain ⟨s', tl', tr', e1, _⟩ := h.erase_right ha
  have hlb := h.right.lower_bound_of_mem hcr (v := v) (a := a) ha hv
  have hne := h.right.eq_end_false (h.right.mem_live.2 ha)
  rw [e1]
  simp only [bimap.erase_right] at e1
  cases hme : map.erase s.mem.flipped a with
  | none => simp [hme] at e1
  | some res =>
    obtain ⟨h1, ans⟩ := res
    have hv' : s.mem.flipped.value a = some v := hv
    simp [bimap.erase_right_value, map.erase_value, hlb, hne, bimap_iterator.deref, hv',
      hme] at e1 ⊢
    exact e1.1

/-- `erase_right(value)` of a value that no record holds returns false and changes
nothing. -/
theorem wf_at.erase_right_value_of_not_mem [DecidableEq R] {s : bimap L R} {tl tr : shape}
    (h : wf_at s tl tr) (hcr : strict_weak s.compare_right) {v : R}
    (hv : ∀ a ∈ s.mem.live, s.mem.other a ≠ some v) :
    s.erase_right_value v = some (s, false) := by
  rcases h.right.lower_bound_of_not_mem hcr (v := v) hv with hlb | ⟨a, ha, x, hx, hxv, hlb⟩
  · simp [bimap.erase_right_value, map.erase_value, hlb, bimap_iterator.eq, map.end_,
      node_eq_self]
    rfl
  · have hne := h.right.eq_end_false (h.right.mem_live.2 ha)
    simp [bimap.erase_right_value, map.erase_value, hlb, hne, bimap_iterator.deref, hx, hxv]
    rfl

end bimap

namespace bimap

variable {L R : Type}

theorem insert_compare {s s' : bimap L R} {l : L} {r : R} {a p q it : Nat}
    (h : s.insert l r a p q = some (s', it)) :
    s'.compare_left = s.compare_left ∧ s'.compare_right = s.compare_right := by
  simp only [bimap.insert, bimap.insert_impl, bimap.insert_node] at h
  repeat' split at h
  all_goals first
    | (simp at h; done)
    | (simp only [Option.some.injEq, Prod.mk.injEq] at h
       obtain ⟨rfl, _⟩ := h
       exact ⟨rfl, rfl⟩)

theorem erase_left_compare {s s' : bimap L R} {it ans : Nat}
    (h : s.erase_left it = some (s', ans)) :
    s'.compare_left = s.compare_left ∧ s'.compare_right = s.compare_right := by
  simp only [bimap.erase_left, bimap.dec_size] at h
  repeat' split at h
  all_goals first
    | (simp at h; done)
    | (simp only [Option.some.injEq, Prod.mk.injEq] at h
       obtain ⟨rfl, _⟩ := h
       exact ⟨rfl, rfl⟩)

theorem erase_right_compare {s s' : bimap L R} {it ans : Nat}
    (h : s.erase_right it = some (s', ans)) :
    s'.compare_left = s.compare_left ∧ s'.compare_right = s.compare_right := by
  simp only [bimap.erase_right, bimap.dec_size] at h
  repeat' split at h
  all_goals first
    | (simp at h; done)
    | (simp only [Option.some.injEq, Prod.mk.injEq] at h
       obtain ⟨rfl, _⟩ := h
       exact ⟨rfl, rfl⟩)

theorem erase_left_value_compare [DecidableEq L] {s s' : bimap L R} {v : L} {b : Bool}
    (h : s.erase_left_value v = some (s', b)) :
    s'.compare_left = s.compare_left ∧ s'.compare_right = s.compare_right := by
  simp only [bimap.erase_left_value, bimap.dec_size] at h
  repeat' split at h
  all_goals first
    | (simp at h; done)
    | (simp only [Option.some.injEq, Prod.mk.injEq] at h
       obtain ⟨rfl, _⟩ := h
       exact ⟨rfl, rfl⟩)

theorem erase_right_value_compare [DecidableEq R] {s s' : bimap L R} {v : R} {b : Bool}
    (h : s.erase_right_value v = some (s', b)) :
    s'.compare_left = s.compare_left ∧ s'.compare_right = s.compare_right := by
  simp only [bimap.erase_right_value, bimap.dec_size] at h
  repeat' split at h
  all_goals first
    | (simp at h; done)
    | (simp only [Option.some.injEq, Prod.mk.injEq] at h
       obtain ⟨rfl, _⟩ := h
       exact ⟨rfl, rfl⟩)

/-- Every reachable bimap with strict weak orders as comparators is well formed. -/
theorem reachable.wf [DecidableEq L] [DecidableEq R] {s : bimap L R} (hr : reachable s) :
    strict_weak s.compare_left → strict_weak s.compare_right → wf s := by
  induction hr with
  | ctor cl cr base p q => intro _ _; exact ⟨_, _, wf_ctor cl cr base p q⟩
  | @insert s s' it l r a p q _ hf hi ih =>
    intro hcl hcr
    obtain ⟨c1, c2⟩ := insert_compare hi
    rw [c1] at hcl
    rw [c2] at hcr
    obtain ⟨tl, tr, hw⟩ := ih hcl hcr
    by_cases ht : s.left_taken l ∨ s.right_taken r
    · have := hw.insert_taken hcl hcr a p q ht
      rw [this] at hi
      simp only [Option.some.injEq, Prod.mk.injEq] at hi
      rw [← hi.1]
      exact ⟨tl, tr, hw⟩
    · simp only [not_or] at ht
      obtain ⟨s1, tl', tr', _, _, e1, e2, _⟩ := hw.insert_fresh hcl hcr p q hf ht.1 ht.2
      rw [e1] at hi
      simp only [Option.some.injEq, Prod.mk.injEq] at hi
      rw [← hi.1]
      exact ⟨tl', tr', e2⟩
  | @erase_left s s' ans it _ hit he ih =>
    intro hcl hcr
    obtain ⟨c1, c2⟩ := erase_left_compare he
    rw [c1] at hcl
    rw [c2] at hcr
    obtain ⟨tl, tr, hw⟩ := ih hcl hcr
    obtain ⟨s1, tl', tr', e1, e2, _⟩ := hw.erase_left hit
    rw [e1] at he
    simp only [Option.some.injEq, Prod.mk.injEq] at he
    rw [← he.1]
    exact ⟨tl', tr', e2⟩
  | @erase_right s s' ans it _ hit he ih =>
    intro hcl hcr
    obtain ⟨c1, c2⟩ := erase_right_compare he
    rw [c1] at hcl
    rw [c2] at hcr
    obtain ⟨tl, tr, hw⟩ := ih hcl hcr
    obtain ⟨s1, tl', tr', e1, e2, _⟩ := hw.erase_right hit
    rw [e1] at he
    simp only [Option.some.injEq, Prod.mk.injEq] at he
    rw [← he.1]
    exact ⟨tl', tr', e2⟩
  | @erase_left_value s s' b v _ he ih =>
    intro hcl hcr
    obtain ⟨c1, c2⟩ := erase_left_value_compare he
    rw [c1] at hcl
    rw [c2] at hcr
    obtain ⟨tl, tr, hw⟩ := ih hcl hcr
    by_cases hm : ∃ a ∈ s.mem.live, s.mem.value a = some v
    · obtain ⟨a, ha, hv⟩ := hm
      obtain ⟨s1, tl', tr', e1, e2, _⟩ := hw.erase_left ha
      rw [hw.erase_left_value_of_mem hcl ha hv, e1] at he
      simp only [Option.map_some', Option.some.injEq, Prod.mk.injEq] at he
      rw [← he.1]
      exact ⟨tl', tr', e2⟩
    · have hm' : ∀ a ∈ s.mem.live, s.mem.value a ≠ some v := fun a ha hv => hm ⟨a, ha, hv⟩
      rw [hw.erase_left_value_of_not_mem hcl hm'] at he
      simp only [Option.some.injEq, Prod.mk.injEq] at he
      rw [← he.1]
      exact ⟨tl, tr, hw⟩
  | @erase_right_value s s' b v _ he ih =>
    intro hcl hcr
    obtain ⟨c1, c2⟩ := erase_right_value_compare he
    rw [c1] at hcl
    rw [c2] at hcr
    obtain ⟨tl, tr, hw⟩ := ih hcl hcr
    by_cases hm : ∃ a ∈ s.mem.live, s.mem.other a = some v
    · obtain ⟨a, ha, hv⟩ := hm
      obtain ⟨s1, tl', tr', e1, e2, _⟩ := hw.erase_right ha
      rw [hw.erase_right_value_of_mem hcr ha hv, e1] at he
      simp only [Option.map_some', Option.some.injEq, Prod.mk.injEq] at he
      rw [← he.1]
      exact ⟨tl', tr', e2⟩
    · have hm' : ∀ a ∈ s.mem.live, s.mem.other a ≠ some v := fun a ha hv => hm ⟨a, ha, hv⟩
      rw [hw.erase_right_value_of_not_mem hcr hm'] at he
      simp only [Option.some.injEq, Prod.mk.injEq] at he
      rw [← he.1]
      exact ⟨tl, tr, hw⟩

end bimap

/-! ## Observing a well-formed bimap -/

namespace bimap

variable {L R : Type}

theorem sorted_values {A : Type} {c : A → A → Bool} {value : Nat → Option A} :
    ∀ (xs : List Nat), (∀ a ∈ xs, ∃ x, value a = some x) → xs.Pairwise (lt_at c value) →
      ∃ vs : List A, xs.map value = vs.map some ∧ vs.Pairwise (fun x y => c x y = true) := by
  intro xs
  induction xs with
  | nil => intro _ _; exact ⟨[], rfl, List.Pairwise.nil⟩
  | cons a as ih =>
    intro hv hs
    obtain ⟨x, hx⟩ := hv a (by simp)
    obtain ⟨vs, e1, e2⟩ := ih (fun b hb => hv b (by simp [hb])) (List.pairwise_cons.1 hs).2
    refine ⟨x :: vs, by simp [hx, e1], List.pairwise_cons.2 ⟨?_, e2⟩⟩
    intro y hy
    have hmem : some y ∈ as.map value := by rw [e1]; exact List.mem_map_of_mem _ hy
    obtain ⟨b, hb, hby⟩ := List.mem_map.1 hmem
    obtain ⟨x', y', hx', hy', hlt⟩ := (List.pairwise_cons.1 hs).1 b hb
    rw [hx] at hx'
    rw [hby] at hy'
    cases hx'
    cases hy'
    exact hlt

theorem wf_at.walk_left {s : bimap L R} {tl tr : shape} (h : wf_at s tl tr) :
    s.walk_left = some tl.inorder := by
  rw [bimap.walk_left, bimap.begin_left, h.left.begin]
  exact h.left.walk

theorem wf_at.walk_right {s : bimap L R} {tl tr : shape} (h : wf_at s tl tr) :
    s.walk_right = some tr.inorder := by
  rw [bimap.walk_right, bimap.begin_right, h.right.begin]
  exact h.right.walk

theorem nat_less_strict_weak : strict_weak nat_less := by
  refine ⟨fun a => by simp [nat_less], fun a b c h1 h2 => ?_, fun a b c h1 h2 h3 h4 => ?_⟩
  · simp only [nat_less, decide_eq_true_eq] at h1 h2 ⊢
    omega
  · simp only [nat_less, decide_eq_false_iff_not] at h1 h2 h3 h4 ⊢
    omega

theorem demo1_reachable : reachable demo1 :=
  reachable.insert 4 40 4 0 0 (reachable.ctor nat_less nat_less 0 0 0)
    (by unfold fresh; decide) (rfl : demo0.insert 4 40 4 0 0 = some (demo1, 4))

theorem demo2_reachable : reachable demo2 :=
  reachable.insert 3 30 3 1 1 demo1_reachable
    (by unfold fresh; decide) (rfl : demo1.insert 3 30 3 1 1 = some (demo2, 3))

theorem demo3_reachable : reachable demo3 :=
  reachable.insert 2 20 2 0 0 demo2_reachable
    (by unfold fresh; decide) (rfl : demo2.insert 2 20 2 0 0 = some (demo3, 2))

theorem demo4_reachable : reachable demo4 :=
  reachable.insert 1 10 1 1 1 demo3_reachable
    (by unfold fresh; decide) (rfl : demo3.insert 1 10 1 1 1 = some (demo4, 1))

/-! ## The claims -/

/-- Claim C1: in every bimap reachable by `insert` and by `erase_left` / `erase_right`
(called with a key or with an iterator at a record), whatever priorities the nodes drew,
the loop from `begin_left()` to `end_left()` terminates and visits left values that
increase strictly under the left comparator, and the loop from `begin_right()` to
`end_right()` visits right values that increase strictly under the right comparator. -/
theorem walks_strictly_increasing [DecidableEq L] [DecidableEq R] (s : bimap L R)
    (hr : reachable s) (hcl : strict_weak s.compare_left)
    (hcr : strict_weak s.compare_right) :
    ∃ (itl itr : List Nat) (ls : List L) (rs : List R),
      s.walk_left = some itl ∧ s.left_values itl = ls.map some ∧
      ls.Pairwise (fun x y => s.compare_left x y = true) ∧
      s.walk_right = some itr ∧ s.right_values itr = rs.map some ∧
      rs.Pairwise (fun x y => s.compare_right x y = true) := by
  obtain ⟨tl, tr, hw⟩ := hr.wf hcl hcr
  obtain ⟨ls, l1, l2⟩ := sorted_values tl.inorder hw.left.vals hw.left.sorted
  obtain ⟨rs, r1, r2⟩ := sorted_values tr.inorder hw.right.vals hw.right.sorted
  exact ⟨tl.inorder, tr.inorder, ls, rs, hw.walk_left, l1, l2, hw.walk_right, r1, r2⟩

theorem walks_strictly_increasing_witness :
    reachable demo4 ∧ strict_weak demo4.compare_left ∧ strict_weak demo4.compare_right ∧
    ∃ (itl itr : List Nat) (ls : List Nat) (rs : List Nat),
      demo4.walk_left = some itl ∧ demo4.left_values itl = ls.map some ∧
      ls.Pairwise (fun x y => demo4.compare_left x y = true) ∧
      demo4.walk_right = some itr ∧ demo4.right_values itr = rs.map some ∧
      rs.Pairwise (fun x y => demo4.compare_right x y = true) :=
  ⟨demo4_reachable, nat_less_strict_weak, nat_less_strict_weak,
    walks_strictly_increasing demo4 demo4_reachable nat_less_strict_weak nat_less_strict_weak⟩

/-- Claim C3: in every bimap reachable by `insert` and by `erase_left` / `erase_right`
(called with a key or with an iterator at a record), the left tree and the right tree
hold exactly the live records, each exactly once: the two loops visit duplicate-free
permutations of one another. -/
theorem trees_hold_same_records [DecidableEq L] [DecidableEq R] (s : bimap L R)
    (hr : reachable s) (hcl : strict_weak s.compare_left)
    (hcr : strict_weak s.compare_right) :
    ∃ (itl itr : List Nat),
      s.walk_left = some itl ∧ s.walk_right = some itr ∧ itl.Nodup ∧ itr.Nodup ∧
      itl.Perm itr ∧ itl.Perm s.mem.live := by
  obtain ⟨tl, tr, hw⟩ := hr.wf hcl hcr
  exact ⟨tl.inorder, tr.inorder, hw.walk_left, hw.walk_right,
    (List.nodup_cons.1 hw.left.nodup).2, (List.nodup_cons.1 hw.right.nodup).2,
    hw.left.perm.trans hw.right.perm.symm, hw.left.perm⟩

theorem trees_hold_same_records_witness :
    reachable demo4 ∧ strict_weak demo4.compare_left ∧ strict_weak demo4.compare_right ∧
    ∃ (itl itr : List Nat),
      demo4.walk_left = some itl ∧ demo4.walk_right = some itr ∧ itl.Nodup ∧ itr.Nodup ∧
      itl.Perm itr ∧ itl.Perm demo4.mem.live :=
  ⟨demo4_reachable, nat_less_strict_weak, nat_less_strict_weak,
    trees_hold_same_records demo4 demo4_reachable nat_less_strict_weak nat_less_strict_weak⟩

end bimap

namespace bimap

variable {L R : Type}

theorem wf_at.at_left_of_record [DecidableEq L] {s : bimap L R} {tl tr : shape}
    (h : wf_at s tl tr) (hcl : strict_weak s.compare_left) {a : Nat} {l : L} {r : R}
    (hrec : s.has_record a l r) : s.at_left l = some (.ok r) :=
  h.left.at_of_mem hcl hrec.1 hrec.2.1 hrec.2.2

theorem wf_at.at_right_of_record [DecidableEq R] {s : bimap L R} {tl tr : shape}
    (h : wf_at s tl tr) (hcr : strict_weak s.compare_right) {a : Nat} {l : L} {r : R}
    (hrec : s.has_record a l r) : s.at_right r = some (.ok l) :=
  h.right.at_of_mem hcr hrec.1 hrec.2.2 hrec.2.1

theorem wf_at.record_of_left_key {s : bimap L R} {tl tr : shape} (h : wf_at s tl tr) {k : L}
    (hk : s.left_key k) : ∃ a r, s.has_record a k r := by
  obtain ⟨a, ha, hv⟩ := hk
  obtain ⟨r, hr⟩ := h.right.vals a (h.right.mem_live.2 ha)
  exact ⟨a, r, ha, hv, hr⟩

theorem wf_at.record_of_right_key {s : bimap L R} {tl tr : shape} (h : wf_at s tl tr) {k : R}
    (hk : s.right_key k) : ∃ a l, s.has_record a l k := by
  obtain ⟨a, ha, hv⟩ := hk
  obtain ⟨l, hl⟩ := h.left.vals a (h.left.mem_live.2 ha)
  exact ⟨a, l, ha, hl, hv⟩

/-- After the record `a` has been erased no live record holds a left value equivalent
to the one it held. -/
theorem wf_at.left_free_after_erase {s : bimap L R} {tl tr : shape} (h : wf_at s tl tr)
    (hcl : strict_weak s.compare_left) {a : Nat} {l : L} (ha : a ∈ s.mem.live)
    (hv : s.mem.value a = some l) :
    ¬ ∃ b ∈ s.mem.live.erase a, ∃ x, s.mem.value b = some x ∧
      s.compare_left x l = false ∧ s.compare_left l x = false := by
  rintro ⟨b, hb, x, hx, h1, h2⟩
  have hb' := (h.live_nodup.mem_erase_iff).1 hb
  exact hb'.1 (h.left.value_inj hcl hb'.2 ha hx hv h1 h2)

/-- After the record `a` has been erased no live record holds a right value equivalent
to the one it held. -/
theorem wf_at.right_free_after_erase {s : bimap L R} {tl tr : shape} (h : wf_at s tl tr)
    (hcr : strict_weak s.compare_right) {a : Nat} {r : R} (ha : a ∈ s.mem.live)
    (hv : s.mem.other a = some r) :
    ¬ ∃ b ∈ s.mem.live.erase a, ∃ y, s.mem.other b = some y ∧
      s.compare_right y r = false ∧ s.compare_right r y = false := by
  rintro ⟨b, hb, y, hy, h1, h2⟩
  have hb' := (h.live_nodup.mem_erase_iff).1 hb
  exact hb'.1 (h.right.value_inj hcr hb'.2 ha hy hv h1 h2)

/-- Erasing by left key on a well-formed bimap. -/
theorem wf_at.erase_left_value_spec [DecidableEq L] {s : bimap L R} {tl tr : shape}
    (h : wf_at s tl tr) (hcl : strict_weak s.compare_left) (k : L) :
    ∃ (s' : bimap L R) (b : Bool), s.erase_left_value k = some (s', b) ∧
      (b = true ↔ s.left_key k) ∧ (b = true → s'.size + 1 = s.size) ∧
      (b = false → s' = s) ∧ s'.erase_left_value k = some (s', false) := by
  by_cases hk : s.left_key k
  · obtain ⟨a, ha, hv⟩ := hk
    obtain ⟨s', tl', tr', e1, e2, _, _, e5, e6, _, e8, e9, _, _⟩ := h.erase_left ha
    have hrun : s.erase_left_value k = some (s', true) := by
      rw [h.erase_left_value_of_mem hcl ha hv, e1]; rfl
    have hcl' : strict_weak s'.compare_left := by rw [e9]; exact hcl
    have hfree : ∀ b ∈ s'.mem.live, s'.mem.value b ≠ some k := by
      intro b hb hbv
      rw [e5] at hb
      rw [e6] at hbv
      exact h.left_free_after_erase hcl ha hv
        ⟨b, hb, k, hbv, hcl.irrefl k, hcl.irrefl k⟩
    exact ⟨s', true, hrun, ⟨fun _ => ⟨a, ha, hv⟩, fun _ => rfl⟩, fun _ => e8,
      fun hc => by simp at hc, e2.erase_left_value_of_not_mem hcl' hfree⟩
  · have hk' : ∀ a ∈ s.mem.live, s.mem.value a ≠ some k := fun a ha hv => hk ⟨a, ha, hv⟩
    have hrun := h.erase_left_value_of_not_mem hcl hk'
    exact ⟨s, false, hrun, ⟨fun hc => by simp at hc, fun hc => absurd hc hk⟩,
      fun hc => by simp at hc, fun _ => rfl, hrun⟩

/-- Erasing by right key on a well-formed bimap. -/
theorem wf_at.erase_right_value_spec [DecidableEq R] {s : bimap L R} {tl tr : shape}
    (h : wf_at s tl tr) (hcr : strict_weak s.compare_right) (k : R) :
    ∃ (s' : bimap L R) (b : Bool), s.erase_right_value k = some (s', b) ∧
      (b = true ↔ s.right_key k) ∧ (b = true → s'.size + 1 = s.size) ∧
      (b = false → s' = s) ∧ s'.erase_right_value k = some (s', false) := by
  by_cases hk : s.right_key k
  · obtain ⟨a, ha, hv⟩ := hk
    obtain ⟨s', tl', tr', e1, e2, _, _, e5, _, e7, e8, _, e10, _⟩ := h.erase_right ha
    have hrun : s.erase_right_value k = some (s', true) := by
      rw [h.erase_right_value_of_mem hcr ha hv, e1]; rfl
    have hcr' : strict_weak s'.compare_right := by rw [e10]; exact hcr
    have hfree : ∀ b ∈ s'.mem.live, s'.mem.other b ≠ some k := by
      intro b hb hbv
      rw [e5] at hb
      rw [e7] at hbv
      exact h.right_free_after_erase hcr ha hv
        ⟨b, hb, k, hbv, hcr.irrefl k, hcr.irrefl k⟩
    exact ⟨s', true, hrun, ⟨fun _ => ⟨a, ha, hv⟩, fun _ => rfl⟩, fun _ => e8,
      fun hc => by simp at hc, e2.erase_right_value_of_not_mem hcr' hfree⟩
  · have hk' : ∀ a ∈ s.mem.live, s.mem.other a ≠ some k := fun a ha hv => hk ⟨a, ha, hv⟩
    have hrun := h.erase_right_value_of_not_mem hcr hk'
    exact ⟨s, false, hrun, ⟨fun hc => by simp at hc, fun hc => absurd hc hk⟩,
      fun hc => by simp at hc, fun _ => rfl, hrun⟩

end bimap

namespace bimap

variable {L R : Type}

/-- Claim C4: on a reachable bimap, `insert(l, r)` of a pair whose left value is not
taken (no record holds an equivalent left value) and whose right value is not taken
returns an iterator `it` that differs from `end_left()`, with `*it == l` and
`*it.flip() == r`, and `size()` grows by exactly one. -/
theorem insert_new_pair [DecidableEq L] [DecidableEq R] (s : bimap L R) (hr : reachable s)
    (hcl : strict_weak s.compare_left) (hcr : strict_weak s.compare_right) (l : L) (r : R)
    (a p q : Nat) (ha : s.fresh a) (hl : ¬ s.left_taken l) (hrt : ¬ s.right_taken r) :
    ∃ (s' : bimap L R) (it : Nat), s.insert l r a p q = some (s', it) ∧
      it ≠ s'.end_left ∧ bimap_iterator.eq s'.mem it s'.end_left = false ∧
      bimap_iterator.deref s'.mem it = some l ∧
      bimap_iterator.deref s'.mem.flipped (bimap_iterator.flip it) = some r ∧
      s'.size = s.size + 1 := by
  obtain ⟨tl, tr, hw⟩ := hr.wf hcl hcr
  obtain ⟨s', tl', tr', lbl, lbr, e1, e2, _, _, _, _, e7, e8, e9, e10, _, _, _⟩ :=
    hw.insert_fresh hcl hcr p q ha hl hrt
  have hal : a ∈ s'.mem.live := by rw [e7]; simp
  refine ⟨s', a, e1, ?_, e2.left.eq_end_false (e2.left.mem_live.2 hal), ?_, ?_, e10⟩
  · intro hc
    exact e2.base_not_live (by
      have : s'.base = a := hc.symm
      rw [this]; exact hal)
  · simp [bimap_iterator.deref, e8]
  · simp [bimap_iterator.deref, bimap_iterator.flip, store.flipped, e9]

theorem insert_new_pair_witness :
    reachable demo1 ∧ strict_weak demo1.compare_left ∧ strict_weak demo1.compare_right ∧
    demo1.fresh 3 ∧ ¬ demo1.left_taken 3 ∧ ¬ demo1.right_taken 30 ∧
    ∃ (s' : bimap Nat Nat) (it : Nat), demo1.insert 3 30 3 1 1 = some (s', it) ∧
      it ≠ s'.end_left ∧ bimap_iterator.eq s'.mem it s'.end_left = false ∧
      bimap_iterator.deref s'.mem it = some 3 ∧
      bimap_iterator.deref s'.mem.flipped (bimap_iterator.flip it) = some 30 ∧
      s'.size = demo1.size + 1 := by
  have hfresh : demo1.fresh 3 := by unfold fresh; decide
  have hlive : demo1.mem.live = [4] := rfl
  have hl : ¬ demo1.left_taken 3 := by
    rintro ⟨a, ha, x, hx, h1, h2⟩
    rw [hlive] at ha
    have h4 : a = 4 := by simpa using ha
    subst h4
    have hv : demo1.mem.value 4 = some 4 := rfl
    rw [hv] at hx
    cases hx
    revert h2
    decide
  have hrt : ¬ demo1.right_taken 30 := by
    rintro ⟨a, ha, y, hy, h1, h2⟩
    rw [hlive] at ha
    have h4 : a = 4 := by simpa using ha
    subst h4
    have hv : demo1.mem.other 4 = some 40 := rfl
    rw [hv] at hy
    cases hy
    revert h2
    decide
  exact ⟨demo1_reachable, nat_less_strict_weak, nat_less_strict_weak, hfresh, hl, hrt,
    insert_new_pair demo1 demo1_reachable nat_less_strict_weak nat_less_strict_weak 3 30 3 1 1
      hfresh hl hrt⟩

/-- Claim C5: on a reachable bimap, `insert(l, r)` of a pair whose left value is taken or
whose right value is taken (some record holds an equivalent value, in particular an equal
one, even when the other component is new) returns `end_left()` and leaves the whole
state as it was, hence `size()` and both sequences of pairs. -/
theorem insert_taken_pair [DecidableEq L] [DecidableEq R] (s : bimap L R) (hr : reachable s)
    (hcl : strict_weak s.compare_left) (hcr : strict_weak s.compare_right) (l : L) (r : R)
    (a p q : Nat) (ht : s.left_taken l ∨ s.right_taken r) :
    s.insert l r a p q = some (s, s.end_left) := by
  obtain ⟨tl, tr, hw⟩ := hr.wf hcl hcr
  exact hw.insert_taken hcl hcr a p q ht

theorem insert_taken_pair_witness :
    reachable demo1 ∧ strict_weak demo1.compare_left ∧ strict_weak demo1.compare_right ∧
    (demo1.left_taken 4 ∨ demo1.right_taken 99) ∧
    demo1.insert 4 99 7 0 0 = some (demo1, demo1.end_left) := by
  have ht : demo1.left_taken 4 ∨ demo1.right_taken 99 :=
    Or.inl ⟨4, by decide, 4, rfl, rfl, rfl⟩
  exact ⟨demo1_reachable, nat_less_strict_weak, nat_less_strict_weak, ht,
    insert_taken_pair demo1 demo1_reachable nat_less_strict_weak nat_less_strict_weak 4 99 7 0 0
      ht⟩

/-- Claim C6: on a reachable bimap, for every live record holding the pair `(l, r)`
(a record is live from the `insert` that allocated it until the `erase` that deletes
it), `at_left(l)` returns `r` and `at_right(r)` returns `l`. -/
theorem at_round_trip [DecidableEq L] [DecidableEq R] (s : bimap L R) (hr : reachable s)
    (hcl : strict_weak s.compare_left) (hcr : strict_weak s.compare_right) (a : Nat) (l : L)
    (r : R) (hrec : s.has_record a l r) :
    s.at_left l = some (.ok r) ∧ s.at_right r = some (.ok l) := by
  obtain ⟨tl, tr, hw⟩ := hr.wf hcl hcr
  exact ⟨hw.at_left_of_record hcl hrec, hw.at_right_of_record hcr hrec⟩

theorem at_round_trip_witness :
    reachable demo4 ∧ strict_weak demo4.compare_left ∧ strict_weak demo4.compare_right ∧
    demo4.has_record 2 2 20 ∧
    demo4.at_left 2 = some (.ok 20) ∧ demo4.at_right 20 = some (.ok 2) := by
  have hrec : demo4.has_record 2 2 20 := ⟨by decide, rfl, rfl⟩
  exact ⟨demo4_reachable, nat_less_strict_weak, nat_less_strict_weak, hrec,
    at_round_trip demo4 demo4_reachable nat_less_strict_weak nat_less_strict_weak 2 2 20 hrec⟩

/-- Claim C7: on a reachable bimap, for every live record holding `(l, r)`, both
`find_left(l)` and `find_right(r)` return the iterator at that record, so that
`find_left(l).flip()` references the record of `find_right(r)` and compares equal to it,
and `find_right(r).flip()` references the record of `find_left(l)` and compares equal to
it. -/
theorem find_flip [DecidableEq L] [DecidableEq R] (s : bimap L R) (hr : reachable s)
    (hcl : strict_weak s.compare_left) (hcr : strict_weak s.compare_right) (a : Nat) (l : L)
    (r : R) (hrec : s.has_record a l r) :
    ∃ (itl itr : Nat), s.find_left l = some itl ∧ s.find_right r = some itr ∧
      itl = a ∧ itr = a ∧
      bimap_iterator.flip itl = itr ∧
      bimap_iterator.eq s.mem.flipped (bimap_iterator.flip itl) itr = true ∧
      bimap_iterator.flip itr = itl ∧
      bimap_iterator.eq s.mem (bimap_iterator.flip itr) itl = true := by
  obtain ⟨tl, tr, hw⟩ := hr.wf hcl hcr
  obtain ⟨ha, hl, hrv⟩ := hrec
  refine ⟨a, a, hw.left.find_of_equiv hcl ha hl (hcl.irrefl l) (hcl.irrefl l),
    hw.right.find_of_equiv hcr ha hrv (hcr.irrefl r) (hcr.irrefl r), rfl, rfl, rfl,
    node_eq_self _, rfl, node_eq_self _⟩

theorem find_flip_witness :
    reachable demo4 ∧ strict_weak demo4.compare_left ∧ strict_weak demo4.compare_right ∧
    demo4.has_record 2 2 20 ∧
    ∃ (itl itr : Nat), demo4.find_left 2 = some itl ∧ demo4.find_right 20 = some itr ∧
      itl = 2 ∧ itr = 2 ∧
      bimap_iterator.flip itl = itr ∧
      bimap_iterator.eq demo4.mem.flipped (bimap_iterator.flip itl) itr = true ∧
      bimap_iterator.flip itr = itl ∧
      bimap_iterator.eq demo4.mem (bimap_iterator.flip itr) itl = true := by
  have hrec : demo4.has_record 2 2 20 := ⟨by decide, rfl, rfl⟩
  exact ⟨demo4_reachable, nat_less_strict_weak, nat_less_strict_weak, hrec,
    find_flip demo4 demo4_reachable nat_less_strict_weak nat_less_strict_weak 2 2 20 hrec⟩

/-- Claim C8: on a reachable bimap, `erase_left(k)` returns true exactly when some record
has the left value `k`; `size()` drops by exactly one when it returns true and the state
is unchanged when it returns false; a second `erase_left(k)` returns false and changes
nothing. The same holds for `erase_right`. -/
theorem erase_by_key [DecidableEq L] [DecidableEq R] (s : bimap L R) (hr : reachable s)
    (hcl : strict_weak s.compare_left) (hcr : strict_weak s.compare_right) :
    (∀ k : L, ∃ (s' : bimap L R) (b : Bool), s.erase_left_value k = some (s', b) ∧
      (b = true ↔ s.left_key k) ∧ (b = true → s'.size + 1 = s.size) ∧
      (b = false → s' = s) ∧ s'.erase_left_value k = some (s', false)) ∧
    (∀ k : R, ∃ (s' : bimap L R) (b : Bool), s.erase_right_value k = some (s', b) ∧
      (b = true ↔ s.right_key k) ∧ (b = true → s'.size + 1 = s.size) ∧
      (b = false → s' = s) ∧ s'.erase_right_value k = some (s', false)) := by
  obtain ⟨tl, tr, hw⟩ := hr.wf hcl hcr
  exact ⟨fun k => hw.erase_left_value_spec hcl k, fun k => hw.erase_right_value_spec hcr k⟩

theorem erase_by_key_witness :
    reachable demo4 ∧ strict_weak demo4.compare_left ∧ strict_weak demo4.compare_right ∧
    (∃ (s' : bimap Nat Nat) (b : Bool), demo4.erase_left_value 2 = some (s', b) ∧
      (b = true ↔ demo4.left_key 2) ∧ (b = true → s'.size + 1 = demo4.size) ∧
      (b = false → s' = demo4) ∧ s'.erase_left_value 2 = some (s', false)) ∧
    (∃ (s' : bimap Nat Nat) (b : Bool), demo4.erase_right_value 20 = some (s', b) ∧
      (b = true ↔ demo4.right_key 20) ∧ (b = true → s'.size + 1 = demo4.size) ∧
      (b = false → s' = demo4) ∧ s'.erase_right_value 20 = some (s', false)) :=
  ⟨demo4_reachable, nat_less_strict_weak, nat_less_strict_weak,
    (erase_by_key demo4 demo4_reachable nat_less_strict_weak nat_less_strict_weak).1 2,
    (erase_by_key demo4 demo4_reachable nat_less_strict_weak nat_less_strict_weak).2 20⟩

end bimap

namespace bimap

variable {L R : Type}

/-- Claim C9: on a reachable bimap holding the record `(l, r)` at address `a`,
`erase_left(l)` succeeds and afterwards the record is gone from both sides
(`find_left(l) == end_left()` and `find_right(r) == end_right()`), while every other
record `(l', r')` is still live with `at_left(l') == r'` and `at_right(r') == l'`, and
both loops visit the remaining records in the order they had before. -/
theorem erase_left_frame [DecidableEq L] [DecidableEq R] (s : bimap L R) (hr : reachable s)
    (hcl : strict_weak s.compare_left) (hcr : strict_weak s.compare_right) (a : Nat) (l : L)
    (r : R) (hrec : s.has_record a l r) :
    ∃ (s' : bimap L R) (itl itr : List Nat),
      s.erase_left_value l = some (s', true) ∧
      s'.find_left l = some s'.end_left ∧ s'.find_right r = some s'.end_right ∧
      a ∉ s'.mem.live ∧ ¬ s'.left_key l ∧ ¬ s'.right_key r ∧
      (∀ a' l' r', a' ≠ a → s.has_record a' l' r' →
        s'.has_record a' l' r' ∧ s'.at_left l' = some (.ok r') ∧
          s'.at_right r' = some (.ok l')) ∧
      s.walk_left = some itl ∧ s'.walk_left = some (itl.erase a) ∧
      s.walk_right = some itr ∧ s'.walk_right = some (itr.erase a) := by
  obtain ⟨tl, tr, hw⟩ := hr.wf hcl hcr
  obtain ⟨ha, hl, hrv⟩ := hrec
  obtain ⟨s', tl', tr', e1, e2, e3, e4, e5, e6, e7, _, e9, e10, e11⟩ := hw.erase_left ha
  have hrun : s.erase_left_value l = some (s', true) := by
    rw [hw.erase_left_value_of_mem hcl ha hl, e1]; rfl
  have hcl' : strict_weak s'.compare_left := by rw [e9]; exact hcl
  have hcr' : strict_weak s'.compare_right := by rw [e10]; exact hcr
  have hfl : ¬ ∃ b ∈ s'.mem.live, ∃ x, s'.mem.value b = some x ∧
      s'.compare_left x l = false ∧ s'.compare_left l x = false := by
    rw [e5, e6, e9]
    exact hw.left_free_after_erase hcl ha hl
  have hfr : ¬ ∃ b ∈ s'.mem.flipped.live, ∃ y, s'.mem.flipped.value b = some y ∧
      s'.compare_right y r = false ∧ s'.compare_right r y = false := by
    show ¬ ∃ b ∈ s'.mem.live, ∃ y, s'.mem.other b = some y ∧
      s'.compare_right y r = false ∧ s'.compare_right r y = false
    rw [e5, e7, e10]
    exact hw.right_free_after_erase hcr ha hrv
  refine ⟨s', tl.inorder, tr.inorder, hrun, e2.left.find_of_not_taken hcl' hfl,
    e2.right.find_of_not_taken hcr' hfr, ?_, ?_, ?_, ?_, hw.walk_left, ?_, hw.walk_right, ?_⟩
  · rw [e5]
    exact fun hc => ((hw.live_nodup.mem_erase_iff).1 hc).1 rfl
  · rintro ⟨b, hb, hbv⟩
    exact hfl ⟨b, hb, l, hbv, hcl'.irrefl l, hcl'.irrefl l⟩
  · rintro ⟨b, hb, hbv⟩
    exact hfr ⟨b, hb, r, hbv, hcr'.irrefl r, hcr'.irrefl r⟩
  · intro a' l' r' hne hrec'
    have hrec2 : s'.has_record a' l' r' := by
      refine ⟨?_, by rw [e6]; exact hrec'.2.1, by rw [e7]; exact hrec'.2.2⟩
      rw [e5]
      exact (hw.live_nodup.mem_erase_iff).2 ⟨hne, hrec'.1⟩
    exact ⟨hrec2, e2.at_left_of_record hcl' hrec2, e2.at_right_of_record hcr' hrec2⟩
  · rw [e2.walk_left, e3]
  · rw [e2.walk_right, e4]

theorem erase_left_frame_witness :
    reachable demo4 ∧ strict_weak demo4.compare_left ∧ strict_weak demo4.compare_right ∧
    demo4.has_record 2 2 20 ∧
    ∃ (s' : bimap Nat Nat) (itl itr : List Nat),
      demo4.erase_left_value 2 = some (s', true) ∧
      s'.find_left 2 = some s'.end_left ∧ s'.find_right 20 = some s'.end_right ∧
      2 ∉ s'.mem.live ∧ ¬ s'.left_key 2 ∧ ¬ s'.right_key 20 ∧
      (∀ a' l' r', a' ≠ 2 → demo4.has_record a' l' r' →
        s'.has_record a' l' r' ∧ s'.at_left l' = some (.ok r') ∧
          s'.at_right r' = some (.ok l')) ∧
      demo4.walk_left = some itl ∧ s'.walk_left = some (itl.erase 2) ∧
      demo4.walk_right = some itr ∧ s'.walk_right = some (itr.erase 2) := by
  have hrec : demo4.has_record 2 2 20 := ⟨by decide, rfl, rfl⟩
  exact ⟨demo4_reachable, nat_less_strict_weak, nat_less_strict_weak, hrec,
    erase_left_frame demo4 demo4_reachable nat_less_strict_weak nat_less_strict_weak 2 2 20
      hrec⟩

/-- Claim C10: on a reachable bimap, `at_left(k)` throws `out_of_range` exactly when no
record has the left value `k`, and otherwise returns the right value paired with `k`;
being a const member it yields a result only and no new state. The same holds for
`at_right`. -/
theorem at_out_of_range [DecidableEq L] [DecidableEq R] (s : bimap L R) (hr : reachable s)
    (hcl : strict_weak s.compare_left) (hcr : strict_weak s.compare_right) :
    (∀ k : L, (s.at_left k = some (.error .out_of_range) ↔ ¬ s.left_key k) ∧
      (∀ a r, s.has_record a k r → s.at_left k = some (.ok r))) ∧
    (∀ k : R, (s.at_right k = some (.error .out_of_range) ↔ ¬ s.right_key k) ∧
      (∀ a l, s.has_record a l k → s.at_right k = some (.ok l))) := by
  obtain ⟨tl, tr, hw⟩ := hr.wf hcl hcr
  refine ⟨fun k => ⟨⟨fun he hk => ?_, fun hk => ?_⟩, fun a r hrec =>
    hw.at_left_of_record hcl hrec⟩, fun k => ⟨⟨fun he hk => ?_, fun hk => ?_⟩, fun a l hrec =>
    hw.at_right_of_record hcr hrec⟩⟩
  · obtain ⟨a, r, hrec⟩ := hw.record_of_left_key hk
    rw [hw.at_left_of_record hcl hrec] at he
    simp at he
  · exact hw.left.at_of_not_mem hcl (fun a ha hv => hk ⟨a, ha, hv⟩)
  · obtain ⟨a, l, hrec⟩ := hw.record_of_right_key hk
    rw [hw.at_right_of_record hcr hrec] at he
    simp at he
  · exact hw.right.at_of_not_mem hcr (fun a ha hv => hk ⟨a, ha, hv⟩)

theorem at_out_of_range_witness :
    reachable demo4 ∧ strict_weak demo4.compare_left ∧ strict_weak demo4.compare_right ∧
    ((demo4.at_left 5 = some (.error .out_of_range) ↔ ¬ demo4.left_key 5) ∧
      (∀ a r, demo4.has_record a 5 r → demo4.at_left 5 = some (.ok r))) ∧
    ((demo4.at_right 20 = some (.error .out_of_range) ↔ ¬ demo4.right_key 20) ∧
      (∀ a l, demo4.has_record a l 20 → demo4.at_right 20 = some (.ok l))) :=
  ⟨demo4_reachable, nat_less_strict_weak, nat_less_strict_weak,
    (at_out_of_range demo4 demo4_reachable nat_less_strict_weak nat_less_strict_weak).1 5,
    (at_out_of_range demo4 demo4_reachable nat_less_strict_weak nat_less_strict_weak).2 20⟩

/-- Claim C2, at a failing input: `demo4` is reached by four calls of `insert`, and the
range `[first, last)` from the record of key 1 to the record of key 4 holds three
records, as `std::distance` counts; yet `erase_left(first, last)` stops after the first
erasure, because the records of keys 2 and 4 are then two leaves below the same parent
and `operator==` compares links. `size()` ends as 1 while both trees still hold the
three records 2, 3 and 4. -/
theorem range_erase_breaks_size :
    reachable demo4 ∧ demo4.size = 4 ∧ demo4.walk_left = some [1, 2, 3, 4] ∧
    map.distance demo4.mem demo4.mem.fuel 1 4 = some 3 ∧
    demo4.erase_left_range 1 4 = some (demo5, 4) ∧
    demo5.size = 1 ∧ demo5.walk_left = some [2, 3, 4] ∧ demo5.walk_right = some [2, 3, 4] ∧
    demo5.mem.live = [2, 3, 4] :=
  ⟨demo4_reachable, rfl, rfl, rfl, rfl, rfl, rfl, rfl, rfl⟩

end bimap

namespace bimap

/-- On the bimap holding the single pair `(5, 0)`, `at_left_or_default(3)` takes the record
of key 5 as the left anchor, erases that record (it holds the default right value 0) and
then links the new record `(3, 0)` below the erased one: `size()` is 1 and the right
tree holds the new record, while the left tree holds no record. -/
theorem at_left_or_default_stale_anchor :
    ((after_insert demo0 5 0 1 3 3).at_left_or_default 3 2 1 1).map
        (fun x => (x.1.size, x.1.walk_left, x.1.walk_right)) =
      some (1, some [], some [2]) := by
  decide

end bimap

/-! ## Stepping backwards -/

namespace bimap_impl

theorem prev_of_append_left {xs : List Nat} {x : Nat} (ys : List Nat) (hx : x ∈ xs) :
    ∀ d, prev_of (xs ++ ys) d x = prev_of xs d x := by
  induction xs with
  | nil => simp at hx
  | cons y xs ih =>
    intro d
    by_cases hy : y = x
    · simp [prev_of, hy]
    · have hx' : x ∈ xs := by
        rcases List.mem_cons.1 hx with h | h
        · exact absurd h.symm hy
        · exact h
      simp [prev_of, hy, ih hx']

theorem getLastD_shift (y d : Nat) (xs : List Nat) :
    (y :: xs).getLastD d = xs.getLastD y := by
  induction xs generalizing y d with
  | nil => rfl
  | cons z zs _ =>
    simp only [List.getLastD_eq_getLast?, List.getLast?_cons_cons]
    rw [List.getLast?_eq_getLast _ (List.cons_ne_nil z zs)]
    rfl

theorem prev_of_append_right {xs : List Nat} {x : Nat} (ys : List Nat) (hx : x ∉ xs) :
    ∀ d, prev_of (xs ++ ys) d x = prev_of ys (xs.getLastD d) x := by
  induction xs with
  | nil => intro d; rfl
  | cons y xs ih =>
    intro d
    have hy : y ≠ x := fun h => hx (by simp [h])
    have hx' : x ∉ xs := fun h => hx (by simp [h])
    have h1 : prev_of (y :: xs ++ ys) d x = prev_of (xs ++ ys) y x := by
      simp [prev_of, hy]
    rw [h1, ih hx' y, getLastD_shift]

theorem shape.last_inorder_of_root {t : shape} {a : Nat} (h : t.root = some a) :
    ∃ x, t.inorder.getLast? = some x := by
  cases t with
  | nil => simp [shape.root] at h
  | node l b r =>
    cases hr : r.inorder with
    | nil => exact ⟨b, by simp [shape.inorder, hr]⟩
    | cons x xs =>
      exact ⟨(x :: xs).getLast (by simp), by
        simp only [shape.inorder, hr]
        rw [List.getLast?_append_cons, List.getLast?_cons_cons]
        exact List.getLast?_eq_getLast _ _⟩

theorem get_right_linked {m : Mem} :
    ∀ (t : shape) (p : Nat), linked m p t → ∀ fuel, t.size ≤ fuel →
      get_right m fuel t.root = some t.inorder.getLast? := by
  intro t
  induction t with
  | nil => intro p _ fuel _; cases fuel <;> simp [shape.root, get_right, shape.inorder]
  | node l a r _ ihr =>
    intro p h fuel hf
    obtain ⟨_, _, h3, _, h5⟩ := h
    cases fuel with
    | zero => simp [shape.size] at hf
    | succ f =>
      have hroot : (shape.node l a r).root = some a := rfl
      rw [hroot]
      cases hr : r.root with
      | none =>
        have := shape.root_eq_none hr
        subst this
        simp [shape.inorder, get_right, h3, hr]
      | some b =>
        have := ihr a h5 f (by simp [shape.size] at hf; omega)
        rw [hr] at this
        simp only [get_right, h3, hr, this]
        obtain ⟨x, hx⟩ := shape.last_inorder_of_root hr
        cases hri : r.inorder with
        | nil => simp [hri] at hx
        | cons y ys =>
          simp only [shape.inorder, hri]
          rw [List.getLast?_append_cons, List.getLast?_cons_cons]

/-- Climbing with `up_left` from the first node of a linked shape reaches its root. -/
theorem up_left_first {m : Mem} :
    ∀ (t : shape) (p : Nat), linked m p t → ∀ z, t.inorder.head? = some z →
      ∃ a d, t.root = some a ∧ d < t.size ∧ (m z).left = none ∧
        ∀ f, up_left m (f + d) z = up_left m f a := by
  intro t
  induction t with
  | nil => intro p _ z hz; simp [shape.inorder] at hz
  | node l a r ihl _ =>
    intro p h z hz
    obtain ⟨_, h2, _, h4, _⟩ := h
    cases hl : l.inorder with
    | nil =>
      have hln : l = .nil := by
        cases l with
        | nil => rfl
        | node _ _ _ => simp [shape.inorder] at hl
      subst hln
      simp [shape.inorder] at hz
      subst hz
      exact ⟨a, 0, rfl, by simp [shape.size], by simpa [shape.root] using h2, fun f => rfl⟩
    | cons y ys =>
      have hz' : l.inorder.head? = some z := by
        simp only [shape.inorder, hl] at hz
        rw [hl]
        simpa using hz
      obtain ⟨b, d, hb, hd, hzl, hup⟩ := ihl a h4 z hz'
      refine ⟨a, d + 1, rfl, by simp [shape.size]; omega, hzl, fun f => ?_⟩
      have hpb : (m b).pred = some a := linked_root_pred h4 hb
      have : up_left m (f + 1) b = up_left m f a := by
        simp [up_left, hpb, h2, hb]
      rw [← this, ← hup (f + 1)]
      congr 1
      omega

/-- Inside a linked shape `get_prev` steps from a node that is not the first one to its
in-order predecessor. -/
theorem get_prev_inner {m : Mem} :
    ∀ (t : shape) (p : Nat), linked m p t → t.inorder.Nodup →
      ∀ x ∈ t.inorder, t.inorder.head? ≠ some x → ∀ (d fuel : Nat), t.size ≤ fuel →
        get_prev m fuel x = some (prev_of t.inorder d x) := by
  intro t
  induction t with
  | nil => intro p _ _ x hx; simp [shape.inorder] at hx
  | node l a r ihl ihr =>
    intro p h hn x hx hfirst d fuel hf
    obtain ⟨h1, h2, h3, h4, h5⟩ := h
    simp only [shape.inorder] at hx hfirst hn ⊢
    simp only [shape.size] at hf
    have hnl : l.inorder.Nodup := (List.nodup_append.1 hn).1
    have hnr : r.inorder.Nodup := (List.nodup_cons.1 (List.nodup_append.1 hn).2.1).2
    have hal : a ∉ l.inorder := fun h => (List.nodup_append.1 hn).2.2 h (by simp)
    have har : a ∉ r.inorder := (List.nodup_cons.1 (List.nodup_append.1 hn).2.1).1
    have hdisj : ∀ y, y ∈ l.inorder → y ∉ r.inorder := fun y hy hy' =>
      (List.nodup_append.1 hn).2.2 hy (by simp [hy'])
    by_cases hxl : x ∈ l.inorder
    · rw [prev_of_append_left _ hxl]
      have hfl : l.inorder.head? ≠ some x := by
        intro hc
        apply hfirst
        cases hli : l.inorder with
        | nil => simp [hli] at hxl
        | cons y ys =>
          rw [hli] at hc
          simpa using hc
      exact ihl a h4 hnl x hxl hfl d fuel (by omega)
    · rw [prev_of_append_right _ hxl]
      by_cases hxa : x = a
      · subst hxa
        simp only [prev_of, if_true]
        cases hli : l.inorder with
        | nil => simp [hli] at hfirst
        | cons y ys =>
          have := get_right_linked l x h4 fuel (by omega)
          rw [get_prev, h2, this, hli]
          have hlast : (y :: ys).getLast? = some ((y :: ys).getLastD d) := by
            rw [List.getLast?_eq_getLast _ (by simp), List.getLastD_eq_getLast?,
              List.getLast?_eq_getLast _ (by simp)]
            rfl
          rw [hlast]
      · have hxr : x ∈ r.inorder := by
          rcases List.mem_append.1 hx with h | h
          · exact absurd h hxl
          · rcases List.mem_cons.1 h with h | h
            · exact absurd h hxa
            · exact h
        have hax : ¬ a = x := fun h => hxa h.symm
        simp only [prev_of, hax, if_false]
        by_cases hrr : r.inorder.head? = some x
        · obtain ⟨b, k, hb, hk, hxl', hup⟩ := up_left_first r a h5 x hrr
          have hprev : prev_of r.inorder a x = a := by
            cases hri : r.inorder with
            | nil => simp [hri] at hxr
            | cons y ys =>
              rw [hri] at hrr
              have : y = x := by simpa using hrr
              simp [prev_of, this]
          rw [hprev]
          have hfk : fuel = (fuel - k - 1 + 1) + k := by omega
          have hpb : (m b).pred = some a := linked_root_pred h5 hb
          have hne : (m a).left ≠ some b := by
            rw [h2]
            intro hlb
            exact hdisj b (shape.root_mem hlb) (shape.root_mem hb)
          rw [get_prev, hxl']
          have hgr : get_right m fuel none = some none := by cases fuel <;> rfl
          rw [hgr]
          simp only []
          rw [hfk, hup]
          simp [up_left, hpb, hne]
        · exact ihr a h5 hnr x hxr hrr a fuel (by omega)

end bimap_impl

namespace bimap_impl

theorem view_ok.dec {A B : Type} {c : A → A → Bool} {h : store A B} {base : Nat}
    {t : shape} (hv : view_ok c h base t) {x : Nat} (hx : x ∈ t.inorder)
    (hfirst : t.inorder.head? ≠ some x) (d : Nat) :
    bimap_iterator.dec h x = some (prev_of t.inorder d x) :=
  get_prev_inner t base hv.linked (List.nodup_cons.1 hv.nodup).2 x hx hfirst d h.fuel
    (le_of_lt hv.size_lt_fuel)

theorem view_ok.dec_end {A B : Type} {c : A → A → Bool} {h : store A B} {base : Nat}
    {t : shape} (hv : view_ok c h base t) {z : Nat} (hz : t.inorder.getLast? = some z) :
    bimap_iterator.dec h base = some z := by
  have := get_right_linked t base hv.linked h.fuel (le_of_lt hv.size_lt_fuel)
  rw [bimap_iterator.dec, get_prev, hv.left, this, hz]

/-- On the in-order sequence `++` steps to the next record and `--` back to the previous
one; `++` at the last record gives the end iterator and `--` at the end iterator gives
the last record. -/
theorem view_ok.steps {A B : Type} {c : A → A → Bool} {h : store A B} {base : Nat}
    {t : shape} (hv : view_ok c h base t) :
    (∀ pre x y post, t.inorder = pre ++ x :: y :: post →
      bimap_iterator.inc h x = some y ∧ bimap_iterator.dec h y = some x) ∧
    (∀ pre x, t.inorder = pre ++ [x] →
      bimap_iterator.inc h x = some (map.end_ base) ∧
        bimap_iterator.dec h (map.end_ base) = some x) := by
  have hn : t.inorder.Nodup := (List.nodup_cons.1 hv.nodup).2
  constructor
  · intro pre x y post he
    have hxpre : x ∉ pre := by
      rw [he] at hn
      exact fun hc => (List.nodup_append.1 hn).2.2 hc (by simp)
    have hy : y ∉ pre ++ [x] := by
      have he' : t.inorder = (pre ++ [x]) ++ y :: post := by rw [he]; simp
      rw [he'] at hn
      exact fun hc => (List.nodup_append.1 hn).2.2 hc (by simp)
    constructor
    · rw [hv.inc (by rw [he]; simp), he, next_of_append_right _ _ hxpre]
      simp [next_of]
    · have he' : t.inorder = (pre ++ [x]) ++ y :: post := by rw [he]; simp
      have hfirst : t.inorder.head? ≠ some y := by
        intro hc
        apply hy
        rw [he] at hc
        cases pre with
        | nil =>
          have : x = y := by simpa using hc
          simp [this]
        | cons z zs =>
          have : z = y := by simpa using hc
          simp [this]
      rw [hv.dec (by rw [he]; simp) hfirst base, he', prev_of_append_right _ hy]
      simp [prev_of]
  · intro pre x he
    have hxpre : x ∉ pre := by
      rw [he] at hn
      exact fun hc => (List.nodup_append.1 hn).2.2 hc (by simp)
    constructor
    · rw [hv.inc (by rw [he]; simp), he, next_of_append_right _ _ hxpre]
      simp [next_of, map.end_]
    · exact hv.dec_end (by rw [he]; simp)

theorem greater_of_value {A : Type} {c : A → A → Bool} {value : Nat → Option A} {v : A}
    {a : Nat} {x : A} (hx : value a = some x) : greater c value v a = c v x := by
  simp [greater, hx]

theorem strict_weak.asymm {A : Type} {c : A → A → Bool} (hc : strict_weak c) {a b : A}
    (h : c a b = true) : c b a = false := by
  by_contra hne
  have hba : c b a = true := by simpa using hne
  have := hc.trans a b a h hba
  rw [hc.irrefl a] at this
  exact Bool.false_ne_true this

/-- A value greater than one equivalent to `v` is greater than `v`. -/
theorem strict_weak.lt_of_equiv_of_lt {A : Type} {c : A → A → Bool} (hc : strict_weak c)
    {v x y : A} (h1 : c x v = false) (h2 : c v x = false) (hxy : c x y = true) :
    c v y = true := by
  by_contra hne
  have hvy : c v y = false := by simpa using hne
  have hyv : c y v = false := by
    by_contra hne'
    have hyv : c y v = true := by simpa using hne'
    have := hc.trans x y v hxy hyv
    rw [h1] at this
    exact Bool.false_ne_true this
  have := (hc.incomp x v y h1 h2 hvy hyv).1
  rw [hxy] at this
  exact Bool.false_ne_true this.symm

/-- `upper_bound` returns the first record in in-order whose value is greater than `v`;
it is the lower bound advanced by one when some record holds a value equivalent to `v`,
and the lower bound itself otherwise. -/
theorem view_ok.upper_bound {A B : Type} {c : A → A → Bool} (hc : strict_weak c)
    {h : store A B} {base : Nat} {t : shape} (hv : view_ok c h base t) (v : A) :
    map.upper_bound c h v base =
        some ((t.inorder.find? (greater c h.value v)).getD base) ∧
    ((∃ a ∈ h.live, ∃ x, h.value a = some x ∧ c x v = false ∧ c v x = false) →
      ∃ lb, map.lower_bound c h v base = some lb ∧ lb ∈ h.live ∧
        map.upper_bound c h v base = bimap_iterator.inc h lb) ∧
    ((¬ ∃ a ∈ h.live, ∃ x, h.value a = some x ∧ c x v = false ∧ c v x = false) →
      map.upper_bound c h v base = map.lower_bound c h v base) := by
  have hn : t.inorder.Nodup := (List.nodup_cons.1 hv.nodup).2
  have hlb := hv.lower_bound hc v
  have hless : ∀ b ∈ t.inorder, not_less c h.value v b = false →
      greater c h.value v b = false := by
    intro b hb hnl
    obtain ⟨y, hy⟩ := hv.vals b hb
    have : c y v = true := by simpa [not_less_of_value hy] using hnl
    rw [greater_of_value hy]
    exact hc.asymm this
  rcases lower_bound_cases c h.value v t.inorder with
    ⟨hf, hall⟩ | ⟨a, as, bs, x, hf, hxs, hx, hxv, has⟩
  · have hrun : map.upper_bound c h v base = some base := by
      rw [map.upper_bound, hlb, hf]
      simp [map.end_, bimap_iterator.eq, node_eq_self]
    have hg : t.inorder.find? (greater c h.value v) = none := by
      rw [List.find?_eq_none]
      intro b hb
      simp [hless b hb (hall b hb)]
    refine ⟨by rw [hrun, hg]; rfl, ?_, ?_⟩
    · rintro ⟨a, ha, x, hx, h1, h2⟩
      have := find_first_of_equiv hc hv.sorted (hv.mem_live.2 ha) hx h1 h2
      rw [hf] at this
      cases this
    · intro _
      rw [hrun, hlb, hf]; rfl
  · have hat : a ∈ t.inorder := by rw [hxs]; simp
    have hne := hv.eq_end_false hat
    have hasg : ∀ b ∈ as, greater c h.value v b = false := fun b hb =>
      hless b (by rw [hxs]; simp [hb]) (has b hb)
    have hasnone : as.find? (greater c h.value v) = none := by
      rw [List.find?_eq_none]
      intro b hb
      simp [hasg b hb]
    have hlb' : map.lower_bound c h v base = some a := by rw [hlb, hf]; rfl
    by_cases hvx : c v x = true
    · have hrun : map.upper_bound c h v base = some a := by
        rw [map.upper_bound, hlb']
        simp [hne, bimap_iterator.deref, hx, hvx]
      have hg : t.inorder.find? (greater c h.value v) = some a := by
        rw [hxs, List.find?_append, hasnone]
        simp [List.find?_cons, greater_of_value hx, hvx]
      refine ⟨by rw [hrun, hg]; rfl, ?_, ?_⟩
      · rintro ⟨a', ha', x', hx', h1, h2⟩
        have := find_first_of_equiv hc hv.sorted (hv.mem_live.2 ha') hx' h1 h2
        rw [hf] at this
        cases this
        rw [hx] at hx'
        cases hx'
        rw [hvx] at h2
        exact absurd h2 (by simp)
      · intro _
        rw [hrun, hlb']
    · have hvx' : c v x = false := by simpa using hvx
      have hrun : map.upper_bound c h v base = bimap_iterator.inc h a := by
        rw [map.upper_bound, hlb']
        simp [hne, bimap_iterator.deref, hx, hvx', hxv]
      have haas : a ∉ as := by
        rw [hxs] at hn
        exact fun hc' => (List.nodup_append.1 hn).2.2 hc' (by simp)
      have hinc : bimap_iterator.inc h a = some (bs.headD base) := by
        rw [hv.inc hat, hxs, next_of_append_right _ _ haas]
        simp [next_of]
      have hbs : ∀ b ∈ bs, greater c h.value v b = true := by
        intro b hb
        have hs := hv.sorted
        rw [hxs] at hs
        obtain ⟨x', y, hx', hy, hxy⟩ :=
          (List.pairwise_cons.1 (List.pairwise_append.1 hs).2.1).1 b hb
        rw [hx] at hx'
        cases hx'
        rw [greater_of_value hy]
        exact hc.lt_of_equiv_of_lt hxv hvx' hxy
      have hg : (t.inorder.find? (greater c h.value v)).getD base = bs.headD base := by
        rw [hxs, List.find?_append, hasnone]
        simp only [Option.none_or, List.find?_cons, greater_of_value hx, hvx']
        cases bs with
        | nil => rfl
        | cons b bs' => simp [List.find?_cons, hbs b (by simp)]
      refine ⟨by rw [hrun, hinc, hg], ?_, ?_⟩
      · intro _
        exact ⟨a, hlb', hv.mem_live.1 hat, hrun⟩
      · intro hnt
        exact absurd ⟨a, hv.mem_live.1 hat, x, hx, hxv, hvx'⟩ hnt

end bimap_impl

namespace bimap_impl

theorem view_ok.at_or_default_of_mem {A B : Type} [DecidableEq A] {c : A → A → Bool}
    (hc : strict_weak c) {h : store A B} {base : Nat} {t : shape} (hv : view_ok c h base t)
    {v : A} {a : Nat} (ha : a ∈ h.live) (hx : h.value a = some v) :
    map.at_or_default c h v base = some true := by
  rw [map.at_or_default, hv.lower_bound_of_mem hc ha hx]
  simp [hv.eq_end_false (hv.mem_live.2 ha), bimap_iterator.deref, hx]

theorem view_ok.at_or_default_of_not_mem {A B : Type} [DecidableEq A] {c : A → A → Bool}
    (hc : strict_weak c) {h : store A B} {base : Nat} {t : shape} (hv : view_ok c h base t)
    {v : A} (hnm : ∀ a ∈ h.live, h.value a ≠ some v) :
    map.at_or_default c h v base = some false := by
  rcases hv.lower_bound_of_not_mem hc hnm with hlb | ⟨a, ha, x, hx, hxv, hlb⟩
  · rw [map.at_or_default, hlb]
    simp [bimap_iterator.eq, map.end_, node_eq_self]
  · rw [map.at_or_default, hlb]
    simp [hv.eq_end_false (hv.mem_live.2 ha), bimap_iterator.deref, hx, hxv]

end bimap_impl

namespace bimap_impl

/-- Advancing the iterator at a record never gives the iterator at that record. -/
theorem view_ok.inc_ne_self {A B : Type} {c : A → A → Bool} {h : store A B} {base : Nat}
    {t : shape} (hv : view_ok c h base t) {x : Nat} (hx : x ∈ h.live) :
    bimap_iterator.inc h x ≠ some x := by
  have hx' : x ∈ t.inorder := hv.mem_live.2 hx
  have hnd := List.nodup_cons.1 hv.nodup
  obtain ⟨pre, rest, e⟩ := List.append_of_mem hx'
  cases rest with
  | nil =>
    rw [(hv.steps.2 pre x e).1]
    intro hc
    have hb : base = x := Option.some.inj hc
    exact hnd.1 (hb ▸ hx')
  | cons y post =>
    rw [(hv.steps.1 pre x y post e).1]
    intro hc
    have hy : y = x := Option.some.inj hc
    have hn := hnd.2
    rw [e, hy] at hn
    have h2 := (List.nodup_append.1 hn).2.1
    exact (List.nodup_cons.1 h2).1 (by simp)

end bimap_impl

/-! ## The claims on searching, iterators and priorities -/

namespace bimap

variable {L R : Type}

/-- Claim C11: on a reachable bimap and for every strict weak order, `find_left(v)`
returns the iterator at the record whose left value is equivalent to `v` (neither
compares less than the other), such a record being unique, and `end_left()` when no
record has an equivalent left value. The same holds for `find_right`. -/
theorem find_equivalent_record [DecidableEq L] [DecidableEq R] (s : bimap L R)
    (hr : reachable s) (hcl : strict_weak s.compare_left)
    (hcr : strict_weak s.compare_right) :
    (∀ v : L,
      (∀ a x, a ∈ s.mem.live → s.mem.value a = some x → s.compare_left x v = false →
        s.compare_left v x = false →
        s.find_left v = some a ∧
          ∀ b y, b ∈ s.mem.live → s.mem.value b = some y → s.compare_left y v = false →
            s.compare_left v y = false → b = a) ∧
      (¬ s.left_taken v → s.find_left v = some s.end_left)) ∧
    (∀ v : R,
      (∀ a x, a ∈ s.mem.live → s.mem.other a = some x → s.compare_right x v = false →
        s.compare_right v x = false →
        s.find_right v = some a ∧
          ∀ b y, b ∈ s.mem.live → s.mem.other b = some y → s.compare_right y v = false →
            s.compare_right v y = false → b = a) ∧
      (¬ s.right_taken v → s.find_right v = some s.end_right)) := by
  obtain ⟨tl, tr, hw⟩ := hr.wf hcl hcr
  refine ⟨fun v => ⟨fun a x ha hx h1 h2 => ⟨hw.left.find_of_equiv hcl ha hx h1 h2,
    fun b y hb hy h3 h4 => ?_⟩, fun hnt => hw.left.find_of_not_taken hcl hnt⟩,
    fun v => ⟨fun a x ha hx h1 h2 => ⟨hw.right.find_of_equiv hcr ha hx h1 h2,
    fun b y hb hy h3 h4 => ?_⟩, fun hnt => hw.right.find_of_not_taken hcr hnt⟩⟩
  · have e1 := hw.left.find_of_equiv hcl ha hx h1 h2
    have e2 := hw.left.find_of_equiv hcl hb hy h3 h4
    rw [e1] at e2
    exact (Option.some.inj e2).symm
  · have e1 := hw.right.find_of_equiv hcr ha hx h1 h2
    have e2 := hw.right.find_of_equiv hcr hb hy h3 h4
    rw [e1] at e2
    exact (Option.some.inj e2).symm

theorem find_equivalent_record_witness :
    reachable demo4 ∧ strict_weak demo4.compare_left ∧ strict_weak demo4.compare_right ∧
    ((∀ a x, a ∈ demo4.mem.live → demo4.mem.value a = some x →
        demo4.compare_left x 2 = false → demo4.compare_left 2 x = false →
        demo4.find_left 2 = some a ∧
          ∀ b y, b ∈ demo4.mem.live → demo4.mem.value b = some y →
            demo4.compare_left y 2 = false → demo4.compare_left 2 y = false → b = a) ∧
      (¬ demo4.left_taken 2 → demo4.find_left 2 = some demo4.end_left)) ∧
    ((∀ a x, a ∈ demo4.mem.live → demo4.mem.other a = some x →
        demo4.compare_right x 25 = false → demo4.compare_right 25 x = false →
        demo4.find_right 25 = some a ∧
          ∀ b y, b ∈ demo4.mem.live → demo4.mem.other b = some y →
            demo4.compare_right y 25 = false → demo4.compare_right 25 y = false → b = a) ∧
      (¬ demo4.right_taken 25 → demo4.find_right 25 = some demo4.end_right)) :=
  ⟨demo4_reachable, nat_less_strict_weak, nat_less_strict_weak,
    (find_equivalent_record demo4 demo4_reachable nat_less_strict_weak nat_less_strict_weak).1 2,
    (find_equivalent_record demo4 demo4_reachable nat_less_strict_weak nat_less_strict_weak).2
      25⟩

/-- Claim C12: on a reachable bimap, `lower_bound_left(v)` returns the iterator at the
first record visited by the left loop whose left value is not less than `v`, and
`end_left()` when every left value is less than `v`. The same holds for
`lower_bound_right`. -/
theorem lower_bound_first_not_less [DecidableEq L] [DecidableEq R] (s : bimap L R)
    (hr : reachable s) (hcl : strict_weak s.compare_left)
    (hcr : strict_weak s.compare_right) :
    ∃ (itl itr : List Nat), s.walk_left = some itl ∧ s.walk_right = some itr ∧
      (∀ v : L, s.lower_bound_left v =
        some ((itl.find? (not_less s.compare_left s.mem.value v)).getD s.end_left)) ∧
      (∀ v : R, s.lower_bound_right v =
        some ((itr.find? (not_less s.compare_right s.mem.other v)).getD s.end_right)) := by
  obtain ⟨tl, tr, hw⟩ := hr.wf hcl hcr
  exact ⟨tl.inorder, tr.inorder, hw.walk_left, hw.walk_right,
    fun v => hw.left.lower_bound hcl v, fun v => hw.right.lower_bound hcr v⟩

theorem lower_bound_first_not_less_witness :
    reachable demo4 ∧ strict_weak demo4.compare_left ∧ strict_weak demo4.compare_right ∧
    ∃ (itl itr : List Nat), demo4.walk_left = some itl ∧ demo4.walk_right = some itr ∧
      (∀ v : Nat, demo4.lower_bound_left v =
        some ((itl.find? (not_less demo4.compare_left demo4.mem.value v)).getD
          demo4.end_left)) ∧
      (∀ v : Nat, demo4.lower_bound_right v =
        some ((itr.find? (not_less demo4.compare_right demo4.mem.other v)).getD
          demo4.end_right)) :=
  ⟨demo4_reachable, nat_less_strict_weak, nat_less_strict_weak,
    lower_bound_first_not_less demo4 demo4_reachable nat_less_strict_weak
      nat_less_strict_weak⟩

/-- Claim C13: on a reachable bimap, `upper_bound_left(v)` returns the iterator at the
first record visited by the left loop whose left value is greater than `v`, and
`end_left()` when there is none; it is `lower_bound_left(v)` advanced by one when some
record holds a left value equivalent to `v`, and otherwise it is `lower_bound_left(v)`
itself, which differs from its advance whenever it is at a record. The same holds for
`upper_bound_right`. -/
theorem upper_bound_first_greater [DecidableEq L] [DecidableEq R] (s : bimap L R)
    (hr : reachable s) (hcl : strict_weak s.compare_left)
    (hcr : strict_weak s.compare_right) :
    ∃ (itl itr : List Nat), s.walk_left = some itl ∧ s.walk_right = some itr ∧
      (∀ v : L,
        s.upper_bound_left v =
          some ((itl.find? (greater s.compare_left s.mem.value v)).getD s.end_left) ∧
        (s.left_taken v → ∃ lb, s.lower_bound_left v = some lb ∧ lb ∈ s.mem.live ∧
          s.upper_bound_left v = bimap_iterator.inc s.mem lb) ∧
        (¬ s.left_taken v → s.upper_bound_left v = s.lower_bound_left v ∧
          ∀ lb ∈ s.mem.live, s.lower_bound_left v = some lb →
            s.upper_bound_left v ≠ bimap_iterator.inc s.mem lb)) ∧
      (∀ v : R,
        s.upper_bound_right v =
          some ((itr.find? (greater s.compare_right s.mem.other v)).getD s.end_right) ∧
        (s.right_taken v → ∃ lb, s.lower_bound_right v = some lb ∧ lb ∈ s.mem.live ∧
          s.upper_bound_right v = bimap_iterator.inc s.mem.flipped lb) ∧
        (¬ s.right_taken v → s.upper_bound_right v = s.lower_bound_right v ∧
          ∀ lb ∈ s.mem.live, s.lower_bound_right v = some lb →
            s.upper_bound_right v ≠ bimap_iterator.inc s.mem.flipped lb)) := by
  obtain ⟨tl, tr, hw⟩ := hr.wf hcl hcr
  refine ⟨tl.inorder, tr.inorder, hw.walk_left, hw.walk_right, fun v => ?_, fun v => ?_⟩
  · obtain ⟨h1, h2, h3⟩ := hw.left.upper_bound hcl v
    refine ⟨h1, h2, fun hn => ⟨h3 hn, fun lb hlb e hc => ?_⟩⟩
    have e3 : s.upper_bound_left v = s.lower_bound_left v := h3 hn
    rw [e3, e] at hc
    exact hw.left.inc_ne_self hlb hc.symm
  · obtain ⟨h1, h2, h3⟩ := hw.right.upper_bound hcr v
    refine ⟨h1, h2, fun hn => ⟨h3 hn, fun lb hlb e hc => ?_⟩⟩
    have e3 : s.upper_bound_right v = s.lower_bound_right v := h3 hn
    rw [e3, e] at hc
    exact hw.right.inc_ne_self hlb hc.symm

theorem upper_bound_first_greater_witness :
    reachable demo4 ∧ strict_weak demo4.compare_left ∧ strict_weak demo4.compare_right ∧
    ∃ (itl itr : List Nat), demo4.walk_left = some itl ∧ demo4.walk_right = some itr ∧
      (∀ v : Nat,
        demo4.upper_bound_left v =
          some ((itl.find? (greater demo4.compare_left demo4.mem.value v)).getD
            demo4.end_left) ∧
        (demo4.left_taken v → ∃ lb, demo4.lower_bound_left v = some lb ∧
          lb ∈ demo4.mem.live ∧ demo4.upper_bound_left v = bimap_iterator.inc demo4.mem lb) ∧
        (¬ demo4.left_taken v → demo4.upper_bound_left v = demo4.lower_bound_left v ∧
          ∀ lb ∈ demo4.mem.live, demo4.lower_bound_left v = some lb →
            demo4.upper_bound_left v ≠ bimap_iterator.inc demo4.mem lb)) ∧
      (∀ v : Nat,
        demo4.upper_bound_right v =
          some ((itr.find? (greater demo4.compare_right demo4.mem.other v)).getD
            demo4.end_right) ∧
        (demo4.right_taken v → ∃ lb, demo4.lower_bound_right v = some lb ∧
          lb ∈ demo4.mem.live ∧
          demo4.upper_bound_right v = bimap_iterator.inc demo4.mem.flipped lb) ∧
        (¬ demo4.right_taken v → demo4.upper_bound_right v = demo4.lower_bound_right v ∧
          ∀ lb ∈ demo4.mem.live, demo4.lower_bound_right v = some lb →
            demo4.upper_bound_right v ≠ bimap_iterator.inc demo4.mem.flipped lb)) :=
  ⟨demo4_reachable, nat_less_strict_weak, nat_less_strict_weak,
    upper_bound_first_greater demo4 demo4_reachable nat_less_strict_weak
      nat_less_strict_weak⟩

/-- Claim C14, at a failing input: in `demo3`, reached by three calls of `insert`, the
records of keys 2 and 4 are two leaves below the record of key 3, and the iterators at
these two distinct records compare equal, on the left side and on the right side. -/
theorem iterator_eq_distinct_records :
    reachable demo3 ∧ demo3.walk_left = some [2, 3, 4] ∧
    demo3.has_record 2 2 20 ∧ demo3.has_record 4 4 40 ∧
    bimap_iterator.eq demo3.mem 2 4 = true ∧
    bimap_iterator.eq demo3.mem.flipped 2 4 = true :=
  ⟨demo3_reachable, rfl, ⟨by decide, rfl, rfl⟩, ⟨by decide, rfl, rfl⟩, rfl, rfl⟩

/-- Claim C15: on a reachable bimap, `++` at a record gives the iterator at the next
record of the left loop, and `end_left()` at the last record; `--` at a record that is
not the first gives the iterator at the previous record, and `--` at `end_left()` of a
non-empty bimap gives the iterator at the last record. The same holds for right
iterators. -/
theorem iterator_steps [DecidableEq L] [DecidableEq R] (s : bimap L R) (hr : reachable s)
    (hcl : strict_weak s.compare_left) (hcr : strict_weak s.compare_right) :
    ∃ (itl itr : List Nat), s.walk_left = some itl ∧ s.walk_right = some itr ∧
      (∀ pre x y post, itl = pre ++ x :: y :: post →
        bimap_iterator.inc s.mem x = some y ∧ bimap_iterator.dec s.mem y = some x) ∧
      (∀ pre x, itl = pre ++ [x] →
        bimap_iterator.inc s.mem x = some s.end_left ∧
          bimap_iterator.dec s.mem s.end_left = some x) ∧
      (∀ pre x y post, itr = pre ++ x :: y :: post →
        bimap_iterator.inc s.mem.flipped x = some y ∧
          bimap_iterator.dec s.mem.flipped y = some x) ∧
      (∀ pre x, itr = pre ++ [x] →
        bimap_iterator.inc s.mem.flipped x = some s.end_right ∧
          bimap_iterator.dec s.mem.flipped s.end_right = some x) := by
  obtain ⟨tl, tr, hw⟩ := hr.wf hcl hcr
  exact ⟨tl.inorder, tr.inorder, hw.walk_left, hw.walk_right, hw.left.steps.1,
    hw.left.steps.2, hw.right.steps.1, hw.right.steps.2⟩

theorem iterator_steps_witness :
    reachable demo4 ∧ strict_weak demo4.compare_left ∧ strict_weak demo4.compare_right ∧
    ∃ (itl itr : List Nat), demo4.walk_left = some itl ∧ demo4.walk_right = some itr ∧
      (∀ pre x y post, itl = pre ++ x :: y :: post →
        bimap_iterator.inc demo4.mem x = some y ∧ bimap_iterator.dec demo4.mem y = some x) ∧
      (∀ pre x, itl = pre ++ [x] →
        bimap_iterator.inc demo4.mem x = some demo4.end_left ∧
          bimap_iterator.dec demo4.mem demo4.end_left = some x) ∧
      (∀ pre x y post, itr = pre ++ x :: y :: post →
        bimap_iterator.inc demo4.mem.flipped x = some y ∧
          bimap_iterator.dec demo4.mem.flipped y = some x) ∧
      (∀ pre x, itr = pre ++ [x] →
        bimap_iterator.inc demo4.mem.flipped x = some demo4.end_right ∧
          bimap_iterator.dec demo4.mem.flipped demo4.end_right = some x) :=
  ⟨demo4_reachable, nat_less_strict_weak, nat_less_strict_weak,
    iterator_steps demo4 demo4_reachable nat_less_strict_weak nat_less_strict_weak⟩

end bimap

namespace bimap

variable {L R : Type}

theorem demo6_reachable : reachable demo6 :=
  reachable.insert 1 10 1 1 1 (reachable.ctor nat_less nat_less 0 0 0)
    (by unfold fresh; decide) (rfl : demo0.insert 1 10 1 1 1 = some (demo6, 1))

theorem demo7_reachable : reachable demo7 :=
  reachable.insert 2 20 2 0 0 demo6_reachable
    (by unfold fresh; decide) (rfl : demo6.insert 2 20 2 0 0 = some (demo7, 2))

/-- Claim C16: on a reachable bimap, `erase_left(it)` with `it` at the record `x` returns
the iterator at the record that followed `x` in the left loop before the call
(`end_left()` when `x` was the last); afterwards both loops visit what they visited
before without `x`, the live records are the former ones without `x`, the values of the
records are unchanged, and `size()` is smaller by one. The same holds for
`erase_right(it)`, which returns the follower in the right loop. -/
theorem erase_at_iterator [DecidableEq L] [DecidableEq R] (s : bimap L R) (hr : reachable s)
    (hcl : strict_weak s.compare_left) (hcr : strict_weak s.compare_right) (x : Nat)
    (hx : x ∈ s.mem.live) :
    ∃ (itl itr : List Nat), s.walk_left = some itl ∧ s.walk_right = some itr ∧
      x ∈ itl ∧ x ∈ itr ∧
      (∃ s' : bimap L R, s.erase_left x = some (s', next_of itl s.end_left x) ∧
        s'.walk_left = some (itl.erase x) ∧ s'.walk_right = some (itr.erase x) ∧
        s'.mem.live = s.mem.live.erase x ∧ x ∉ s'.mem.live ∧
        s'.mem.value = s.mem.value ∧ s'.mem.other = s.mem.other ∧
        s'.size + 1 = s.size) ∧
      (∃ s' : bimap L R, s.erase_right x = some (s', next_of itr s.end_right x) ∧
        s'.walk_left = some (itl.erase x) ∧ s'.walk_right = some (itr.erase x) ∧
        s'.mem.live = s.mem.live.erase x ∧ x ∉ s'.mem.live ∧
        s'.mem.value = s.mem.value ∧ s'.mem.other = s.mem.other ∧
        s'.size + 1 = s.size) := by
  obtain ⟨tl, tr, hw⟩ := hr.wf hcl hcr
  have hnot : x ∉ s.mem.live.erase x := fun hc =>
    ((hw.live_nodup.mem_erase_iff).1 hc).1 rfl
  refine ⟨tl.inorder, tr.inorder, hw.walk_left, hw.walk_right,
    hw.left.perm.mem_iff.2 hx, hw.right.perm.mem_iff.2 hx, ?_, ?_⟩
  · obtain ⟨s', tl', tr', e1, e2, e3, e4, e5, e6, e7, e8, _, _, _⟩ := hw.erase_left hx
    refine ⟨s', e1, ?_, ?_, e5, by rw [e5]; exact hnot, e6, e7, e8⟩
    · rw [e2.walk_left, e3]
    · rw [e2.walk_right, e4]
  · obtain ⟨s', tl', tr', e1, e2, e3, e4, e5, e6, e7, e8, _, _, _⟩ := hw.erase_right hx
    refine ⟨s', e1, ?_, ?_, e5, by rw [e5]; exact hnot, e6, e7, e8⟩
    · rw [e2.walk_left, e3]
    · rw [e2.walk_right, e4]

theorem erase_at_iterator_witness :
    reachable demo4 ∧ strict_weak demo4.compare_left ∧ strict_weak demo4.compare_right ∧
    2 ∈ demo4.mem.live ∧
    ∃ (itl itr : List Nat), demo4.walk_left = some itl ∧ demo4.walk_right = some itr ∧
      2 ∈ itl ∧ 2 ∈ itr ∧
      (∃ s' : bimap Nat Nat, demo4.erase_left 2 = some (s', next_of itl demo4.end_left 2) ∧
        s'.walk_left = some (itl.erase 2) ∧ s'.walk_right = some (itr.erase 2) ∧
        s'.mem.live = demo4.mem.live.erase 2 ∧ 2 ∉ s'.mem.live ∧
        s'.mem.value = demo4.mem.value ∧ s'.mem.other = demo4.mem.other ∧
        s'.size + 1 = demo4.size) ∧
      (∃ s' : bimap Nat Nat, demo4.erase_right 2 = some (s', next_of itr demo4.end_right 2) ∧
        s'.walk_left = some (itl.erase 2) ∧ s'.walk_right = some (itr.erase 2) ∧
        s'.mem.live = demo4.mem.live.erase 2 ∧ 2 ∉ s'.mem.live ∧
        s'.mem.value = demo4.mem.value ∧ s'.mem.other = demo4.mem.other ∧
        s'.size + 1 = demo4.size) :=
  ⟨demo4_reachable, nat_less_strict_weak, nat_less_strict_weak, by decide,
    erase_at_iterator demo4 demo4_reachable nat_less_strict_weak nat_less_strict_weak 2
      (by decide)⟩

/-- Claim C17, at a failing input: in `demo3` the left loop visits the records of keys
2, 3, 4, so the range from the iterator at 2 to the iterator at 4 holds two records; the
two iterators compare equal, `std::distance` counts 0, and `erase_left(first, last)`
erases nothing: all three records stay and `size()` stays 3. -/
theorem range_erase_skips_records :
    reachable demo3 ∧ demo3.size = 3 ∧ demo3.walk_left = some [2, 3, 4] ∧
    demo3.find_left 2 = some 2 ∧ demo3.find_left 4 = some 4 ∧
    bimap_iterator.eq demo3.mem 2 4 = true ∧
    map.distance demo3.mem demo3.mem.fuel 2 4 = some 0 ∧
    demo3.erase_left_range 2 4 = some (demo8, 4) ∧
    demo8.size = 3 ∧ demo8.walk_left = some [2, 3, 4] ∧ demo8.walk_right = some [2, 3, 4] ∧
    demo8.mem.live = [2, 3, 4] :=
  ⟨demo3_reachable, rfl, rfl, rfl, rfl, rfl, rfl, rfl, rfl, rfl, rfl, rfl⟩

/-- Claim C18, at a failing input: after `insert(1, 10)` whose nodes drew the priority 1
and `insert(2, 20)` whose nodes drew the priority 0, the node of the second record is the
parent of the node of the first one in the left tree and in the right tree, with a
smaller priority than its child. -/
theorem insert_breaks_heap_order :
    reachable demo7 ∧ demo7.mem.live = [2, 1] ∧
    (demo7.mem.cur 2).left = some 1 ∧ (demo7.mem.cur 2).value = 0 ∧
    (demo7.mem.cur 1).value = 1 ∧ ¬ heap_ordered demo7.mem.cur 2 ∧
    (demo7.mem.opp 2).left = some 1 ∧ (demo7.mem.opp 2).value = 0 ∧
    (demo7.mem.opp 1).value = 1 ∧ ¬ heap_ordered demo7.mem.opp 2 := by
  refine ⟨demo7_reachable, rfl, rfl, rfl, rfl, ?_, rfl, rfl, rfl, ?_⟩
  · intro h
    have h1 := h 1 (Or.inl rfl)
    revert h1
    decide
  · intro h
    have h1 := h 1 (Or.inl rfl)
    revert h1
    decide

/-- Claim C19: on a reachable bimap holding a record with the pair `(k, r)`,
`at_left_or_default(k)` returns `r` and `at_right_or_default(r)` returns `k`, and the
state after the call is the state before it, hence with the same `size()` and the same
two sequences of pairs. -/
theorem at_or_default_present [DecidableEq L] [DecidableEq R] [Inhabited L] [Inhabited R]
    (s : bimap L R) (hr : reachable s) (hcl : strict_weak s.compare_left)
    (hcr : strict_weak s.compare_right) (x : Nat) (k : L) (r : R) (a p q : Nat)
    (hrec : s.has_record x k r) :
    s.at_left_or_default k a p q = some (s, .ok r) ∧
    s.at_right_or_default r a p q = some (s, .ok k) := by
  obtain ⟨tl, tr, hw⟩ := hr.wf hcl hcr
  have h1 : map.at_or_default s.compare_left s.mem k s.base = some true :=
    hw.left.at_or_default_of_mem hcl hrec.1 hrec.2.1
  have h2 : map.at_or_default s.compare_right s.mem.flipped r s.base = some true :=
    hw.right.at_or_default_of_mem hcr hrec.1 hrec.2.2
  constructor
  · simp only [at_left_or_default, h1, hw.at_left_of_record hcl hrec]
  · simp only [at_right_or_default, h2, hw.at_right_of_record hcr hrec]

theorem at_or_default_present_witness :
    reachable demo4 ∧ strict_weak demo4.compare_left ∧ strict_weak demo4.compare_right ∧
    demo4.has_record 2 2 20 ∧
    demo4.at_left_or_default 2 9 0 0 = some (demo4, .ok 20) ∧
    demo4.at_right_or_default 20 9 0 0 = some (demo4, .ok 2) := by
  have hrec : demo4.has_record 2 2 20 := ⟨by decide, rfl, rfl⟩
  exact ⟨demo4_reachable, nat_less_strict_weak, nat_less_strict_weak, hrec,
    at_or_default_present demo4 demo4_reachable nat_less_strict_weak nat_less_strict_weak
      2 2 20 9 0 0 hrec⟩

/-- On a reachable bimap, when no record holds a left value equivalent to `k` and none
holds a right value equivalent to the default-constructed right value `d`,
`at_left_or_default(k)` returns `d`, `size()` grows by exactly one, afterwards
`at_left(k)` is `d` and `at_right(d)` is `k`, and every record present before still
holds its pair, found by `at_left` and `at_right`. -/
theorem at_left_or_default_of_not_taken [DecidableEq L] [DecidableEq R] [Inhabited R]
    (s : bimap L R) (hr : reachable s) (hcl : strict_weak s.compare_left)
    (hcr : strict_weak s.compare_right) (k : L) (a p q : Nat) (ha : s.fresh a)
    (hl : ¬ s.left_taken k) (hd : ¬ s.right_taken (default : R)) :
    ∃ s' : bimap L R, s.at_left_or_default k a p q = some (s', .ok default) ∧
      s'.size = s.size + 1 ∧ s'.has_record a k default ∧
      s'.at_left k = some (.ok default) ∧ s'.at_right default = some (.ok k) ∧
      ∀ b l r, s.has_record b l r →
        s'.has_record b l r ∧ s'.at_left l = some (.ok r) ∧ s'.at_right r = some (.ok l) := by
  obtain ⟨tl, tr, hw⟩ := hr.wf hcl hcr
  obtain ⟨s', tl', tr', lbl, lbr, e1, e2, _, _, _, _, e7, e8, e9, e10, e11, e12, _⟩ :=
    hw.insert_fresh hcl hcr (r := (default : R)) p q ha hl hd
  have hcl' : strict_weak s'.compare_left := by rw [e11]; exact hcl
  have hcr' : strict_weak s'.compare_right := by rw [e12]; exact hcr
  have h1 : map.at_or_default s.compare_left s.mem k s.base = some false :=
    hw.left.at_or_default_of_not_mem hcl
      (fun b hb hv => hl ⟨b, hb, k, hv, hcl.irrefl k, hcl.irrefl k⟩)
  have h2 : map.at_or_default s.compare_right s.mem.flipped default s.base = some false :=
    hw.right.at_or_default_of_not_mem hcr
      (fun b hb hv => hd ⟨b, hb, default, hv, hcr.irrefl _, hcr.irrefl _⟩)
  have hnew : s'.has_record a k default := by
    refine ⟨by rw [e7]; simp, by rw [e8]; simp, by rw [e9]; simp⟩
  have hder : bimap_iterator.deref s'.mem.flipped (bimap_iterator.flip a) =
      some (default : R) := hnew.2.2
  refine ⟨s', ?_, e10, hnew, e2.at_left_of_record hcl' hnew, e2.at_right_of_record hcr' hnew,
    fun b l r hb => ?_⟩
  · simp only [at_left_or_default, h1, h2, e1, hder]
  · have hne : b ≠ a := fun hc => ha.2.2.2 (hc ▸ hb.1)
    have hold : s'.has_record b l r := by
      refine ⟨by rw [e7]; exact List.mem_cons_of_mem _ hb.1, ?_, ?_⟩
      · rw [e8]; simp [hne, hb.2.1]
      · rw [e9]; simp [hne, hb.2.2]
    exact ⟨hold, e2.at_left_of_record hcl' hold, e2.at_right_of_record hcr' hold⟩

theorem at_left_or_default_of_not_taken_demo :
    reachable demo1 ∧ strict_weak demo1.compare_left ∧ strict_weak demo1.compare_right ∧
    demo1.fresh 3 ∧ ¬ demo1.left_taken 3 ∧ ¬ demo1.right_taken (default : Nat) ∧
    ∃ s' : bimap Nat Nat, demo1.at_left_or_default 3 3 1 1 = some (s', .ok default) ∧
      s'.size = demo1.size + 1 ∧ s'.has_record 3 3 default ∧
      s'.at_left 3 = some (.ok default) ∧ s'.at_right default = some (.ok 3) ∧
      ∀ b l r, demo1.has_record b l r →
        s'.has_record b l r ∧ s'.at_left l = some (.ok r) ∧ s'.at_right r = some (.ok l) := by
  have hfresh : demo1.fresh 3 := by unfold fresh; decide
  have hlive : demo1.mem.live = [4] := rfl
  have hl : ¬ demo1.left_taken 3 := by
    rintro ⟨a, ha, x, hx, h1, h2⟩
    rw [hlive] at ha
    have h4 : a = 4 := by simpa using ha
    subst h4
    have hv : demo1.mem.value 4 = some 4 := rfl
    rw [hv] at hx
    cases hx
    revert h2
    decide
  have hd : ¬ demo1.right_taken (default : Nat) := by
    rintro ⟨a, ha, y, hy, h1, h2⟩
    rw [hlive] at ha
    have h4 : a = 4 := by simpa using ha
    subst h4
    have hv : demo1.mem.other 4 = some 40 := rfl
    rw [hv] at hy
    cases hy
    revert h2
    decide
  exact ⟨demo1_reachable, nat_less_strict_weak, nat_less_strict_weak, hfresh, hl, hd,
    at_left_or_default_of_not_taken demo1 demo1_reachable nat_less_strict_weak nat_less_strict_weak
      3 3 1 1 hfresh hl hd⟩

end bimap

/-! ## The claims on `at_*_or_default` with the default value in use, and on a throwing
constructor -/

namespace bimap

variable {L R : Type}

theorem demo9_reachable : reachable demo9 :=
  reachable.insert 5 0 1 3 3 (reachable.ctor nat_less nat_less 0 0 0)
    (by unfold fresh; decide) (rfl : demo0.insert 5 0 1 3 3 = some (demo9, 1))

theorem demo11_reachable : reachable demo11 :=
  reachable.insert 0 5 1 3 3 (reachable.ctor nat_less nat_less 0 0 0)
    (by unfold fresh; decide) (rfl : demo0.insert 0 5 1 3 3 = some (demo11, 1))

/-- Claim C21, at a failing input: on the bimap holding the single pair `(5, 0)`, with 0
the default-constructed right value, the key 3 is absent and its lower bound is the
record of `(5, 0)`, which `at_left_or_default(3)` erases before it links the new record
below it. The call returns 0, but afterwards the left tree is empty: `find_left(3)` is
`end_left()` and `at_left(3)` throws `out_of_range`. -/
theorem at_left_or_default_loses_new_pair :
    reachable demo9 ∧ demo9.has_record 1 5 default ∧
    (∀ a ∈ demo9.mem.live, demo9.mem.value a ≠ some 3) ∧
    demo9.lower_bound_left 3 = some 1 ∧
    demo9.at_left_or_default 3 2 1 1 = some (demo10, .ok default) ∧
    demo10.find_left 3 = some demo10.end_left ∧
    demo10.at_left 3 = some (.error .out_of_range) ∧
    demo10.walk_left = some [] ∧ demo10.walk_right = some [2] ∧ demo10.size = 1 :=
  ⟨demo9_reachable, ⟨by decide, rfl, rfl⟩, by decide, rfl, rfl, rfl, rfl, rfl, rfl, rfl⟩

/-- Claim C23, at a failing input: on the bimap holding the single pair `(0, 5)`, with 0
the default-constructed left value, the lower bound of the right key 3 is the record
of `(0, 5)`, which `at_right_or_default(3)` erases before it links the new record below
it. The call returns 0, but afterwards the right tree is empty: `find_right(3)` is
`end_right()` and `at_right(3)` throws `out_of_range`. -/
theorem at_right_or_default_loses_new_pair :
    reachable demo11 ∧ demo11.has_record 1 default 5 ∧
    demo11.lower_bound_right 3 = some 1 ∧
    demo11.at_right_or_default 3 2 1 1 = some (demo12, .ok default) ∧
    demo12.find_right 3 = some demo12.end_right ∧
    demo12.at_right 3 = some (.error .out_of_range) ∧
    demo12.at_left default = some (.ok 3) ∧
    demo12.walk_left = some [2] ∧ demo12.walk_right = some [] ∧ demo12.size = 1 :=
  ⟨demo11_reachable, ⟨by decide, rfl, rfl⟩, rfl, rfl, rfl, rfl, rfl, rfl, rfl, rfl⟩

/-- With a record built by `new`, `insert_impl_new` is `insert`. -/
theorem insert_impl_new_built {E : Type} (s : bimap L R) (l : L) (r : R) (a p q : Nat) :
    s.insert_impl_new l r (new_result.built a p q : new_result E) =
      (s.insert l r a p q).map (fun x => (x.1, .ok x.2)) := by
  simp only [insert_impl_new, insert, insert_impl]
  repeat' split
  all_goals simp_all

/-- Claim C27: on a reachable bimap, when `new node_t` throws during `insert(l, r)` (the
constructor of the left or of the right value failing), the exception leaves `insert`
and the bimap is the one before the call, field by field, hence with the same `size()`,
the same two sequences of pairs and no record linked on one side only. The expression
is reached when neither value is taken; otherwise `insert` returns `end_left()` without
constructing anything. -/
theorem insert_throwing_ctor {E : Type} [DecidableEq L] [DecidableEq R] (s : bimap L R)
    (hr : reachable s) (hcl : strict_weak s.compare_left)
    (hcr : strict_weak s.compare_right) (l : L) (r : R) (e : E) :
    (¬ s.left_taken l → ¬ s.right_taken r →
      s.insert_impl_new l r (.thrown e) = some (s, .error e)) ∧
    (s.left_taken l ∨ s.right_taken r →
      s.insert_impl_new l r (.thrown e) = some (s, .ok s.end_left)) ∧
    ∃ res, s.insert_impl_new l r (.thrown e) = some (s, res) := by
  obtain ⟨tl, tr, hw⟩ := hr.wf hcl hcr
  have h1 : ¬ s.left_taken l → ¬ s.right_taken r →
      s.insert_impl_new l r (.thrown e) = some (s, .error e) := by
    intro hl hrt
    have hfl : s.find_left l = some s.base := hw.left.find_of_not_taken hcl hl
    have hfr : s.find_right r = some s.base := hw.right.find_of_not_taken hcr hrt
    have e1 : s.lower_bound_left l = some _ := hw.left.lower_bound hcl l
    have f1 : s.lower_bound_right r = some _ := hw.right.lower_bound hcr r
    simp only [insert_impl_new, hfl, hfr, bimap.end_left, bimap.end_right, map.end_,
      bimap_iterator.eq, node_eq_self, if_true, e1, f1]
  have h2 : s.left_taken l ∨ s.right_taken r →
      s.insert_impl_new l r (.thrown e) = some (s, .ok s.end_left) := by
    intro ht
    rcases hw.left.find_cases hcl l with hfl | ⟨b, hb, x, hx, g1, g2, hfl⟩
    · have hfl' : s.find_left l = some s.base := hfl
      have hrt : s.right_taken r := by
        rcases ht with g | g
        · exfalso
          obtain ⟨b, hb, x, hx, g1, g2⟩ := g
          have := hw.left.find_of_equiv hcl hb hx g1 g2
          rw [hfl] at this
          have hbb : s.base = b := Option.some.inj this
          exact hw.base_not_live (by rw [hbb]; exact hb)
        · exact g
      obtain ⟨b, hb, y, hy, g1, g2⟩ := hrt
      have hfr : s.find_right r = some b := hw.right.find_of_equiv hcr hb hy g1 g2
      have hne : bimap_iterator.eq s.mem.flipped b s.base = false :=
        hw.right.eq_end_false (hw.right.mem_live.2 hb)
      simp only [insert_impl_new, hfl', hfr, bimap.end_left, bimap.end_right,
        map.end_, bimap_iterator.eq, node_eq_self, if_true]
      simp only [bimap_iterator.eq, map.end_] at hne
      simp [hne]
    · have hfl' : s.find_left l = some b := hfl
      have hne : bimap_iterator.eq s.mem b s.base = false :=
        hw.left.eq_end_false (hw.left.mem_live.2 hb)
      simp only [insert_impl_new, hfl', bimap.end_left, map.end_]
      simp [hne]
  refine ⟨h1, h2, ?_⟩
  by_cases ht : s.left_taken l ∨ s.right_taken r
  · exact ⟨_, h2 ht⟩
  · simp only [not_or] at ht
    exact ⟨_, h1 ht.1 ht.2⟩

theorem insert_throwing_ctor_witness :
    reachable demo1 ∧ strict_weak demo1.compare_left ∧ strict_weak demo1.compare_right ∧
    (¬ demo1.left_taken 3 → ¬ demo1.right_taken 30 →
      demo1.insert_impl_new 3 30 (new_result.thrown 7 : new_result Nat) =
        some (demo1, .error 7)) ∧
    (demo1.left_taken 3 ∨ demo1.right_taken 30 →
      demo1.insert_impl_new 3 30 (new_result.thrown 7 : new_result Nat) =
        some (demo1, .ok demo1.end_left)) ∧
    ∃ res, demo1.insert_impl_new 3 30 (new_result.thrown 7 : new_result Nat) =
      some (demo1, res) :=
  ⟨demo1_reachable, nat_less_strict_weak, nat_less_strict_weak,
    insert_throwing_ctor demo1 demo1_reachable nat_less_strict_weak nat_less_strict_weak
      3 30 7⟩

end bimap

/-! ## The claims on `function` -/

namespace function

/-- Claim C28: a default-constructed `function` converts to `false`; and for every
signature, a `function` that converts to `false` throws `bad_function_call` when invoked
with any arguments, and so does a `function` copy-constructed or move-constructed from
it, which converts to `false` as well. -/
theorem empty_function_throws {T A R E : Type} (ops : target_ops T A R E) (w : world T)
    (x y a : Nat) (args : A) (hx : to_bool w x = false) :
    (∀ w0 : world T, to_bool (ctor w0 x) x = false) ∧
    call ops w x args = some (.error .bad_function_call) ∧
    (∃ w1, copy_ctor ops w y x a = some (w1, .ok ()) ∧ to_bool w1 y = false ∧
      call ops w1 y args = some (.error .bad_function_call)) ∧
    (∃ w1, move_ctor ops w y x = some w1 ∧ to_bool w1 y = false ∧
      call ops w1 y args = some (.error .bad_function_call) ∧ to_bool w1 x = false) := by
  have hc : (w.obj x).control = .void_model := by
    simpa [to_bool] using hx
  refine ⟨fun w0 => by simp [to_bool, ctor], by simp [call, model_call, hc], ?_, ?_⟩
  · refine ⟨w.set_control y .void_model, ?_, ?_, ?_⟩
    · by_cases hyx : x = y
      · subst hyx
        simp [copy_ctor, model_copy, world.set_control, hc]
      · simp [copy_ctor, model_copy, world.set_control, hc, hyx]
    · simp [to_bool, world.set_control]
    · simp [call, model_call, world.set_control]
  · refine ⟨(w.set_control y .void_model).set_control x .void_model, ?_, ?_, ?_, ?_⟩
    · by_cases hyx : x = y
      · subst hyx
        simp [move_ctor, model_move, world.set_control, hc]
      · simp [move_ctor, model_move, world.set_control, hc, hyx]
    · by_cases hyx : y = x <;> simp [to_bool, world.set_control, hyx]
    · by_cases hyx : y = x <;> simp [call, model_call, world.set_control, hyx]
    · simp [to_bool, world.set_control]

theorem empty_function_throws_witness :
    to_bool (ctor demo_world 5) 5 = false ∧
    ((∀ w0 : world demo_target, to_bool (ctor w0 5) 5 = false) ∧
    call demo_ops (ctor demo_world 5) 5 () = some (.error .bad_function_call) ∧
    (∃ w1, copy_ctor demo_ops (ctor demo_world 5) 6 5 200 = some (w1, .ok ()) ∧
      to_bool w1 6 = false ∧ call demo_ops w1 6 () = some (.error .bad_function_call)) ∧
    (∃ w1, move_ctor demo_ops (ctor demo_world 5) 6 5 = some w1 ∧ to_bool w1 6 = false ∧
      call demo_ops w1 6 () = some (.error .bad_function_call) ∧ to_bool w1 5 = false)) :=
  ⟨rfl, empty_function_throws demo_ops (ctor demo_world 5) 5 6 200 () rfl⟩

/-- Claim C29: let the object `f` hold the target `t`, in its buffer or on the heap, and
let the object `g`, another object, hold a target whose copy constructor throws `e`.
Then the copy assignment `f = g` throws `e`, the object `f` and the heap are what they
were, and invoking `f` afterwards returns what it returned before, the result of `t`. -/
theorem copy_assign_throwing {T A R E : Type} (ops : target_ops T A R E) (w : world T)
    (f g tmp a : Nat) (t u : T) (e : E) (args : A) (hf : holds w f t) (hg : holds w g u)
    (hu : ops.copy u = .error e) (hfg : f ≠ g) (htmp : tmp ≠ f) :
    ∃ w1, assign_copy ops w f g tmp a = some (w1, .error (.target e)) ∧
      w1.obj f = w.obj f ∧ w1.heap = w.heap ∧ holds w1 f t ∧
      call ops w f args = some (.ok (ops.call t args)) ∧
      call ops w1 f args = some (.ok (ops.call t args)) := by
  have hcall : ∀ w' : world T, w'.obj f = w.obj f → w'.heap = w.heap →
      call ops w' f args = some (.ok (ops.call t args)) := by
    intro w' h1 h2
    rcases hf with ⟨c1, c2⟩ | ⟨c1, p, c2, c3⟩
    · simp [call, model_call, h1, c1, c2]
    · simp [call, model_call, h1, h2, c1, c2, c3]
  have hholds : ∀ w' : world T, w'.obj f = w.obj f → w'.heap = w.heap → holds w' f t := by
    intro w' h1 h2
    unfold holds
    rw [h1, h2]
    exact hf
  let w1 := w.set_control tmp (w.obj g).control
  have hobj : w1.obj f = w.obj f := by
    have : f ≠ tmp := fun h => htmp h.symm
    simp [w1, world.set_control, this]
  have hrun : assign_copy ops w f g tmp a = some (w1, .error (.target e)) := by
    rcases hg with ⟨c1, c2⟩ | ⟨c1, p, c2, c3⟩
    · by_cases hgt : g = tmp
      · subst hgt
        simp [assign_copy, hfg, copy_ctor, model_copy, world.set_control, c1, c2, hu, w1]
      · simp [assign_copy, hfg, copy_ctor, model_copy, world.set_control, c1, c2, hu, hgt, w1]
    · by_cases hgt : g = tmp
      · subst hgt
        simp [assign_copy, hfg, copy_ctor, model_copy, world.set_control, c1, c2, c3, hu, w1]
      · simp [assign_copy, hfg, copy_ctor, model_copy, world.set_control, c1, c2, c3, hu, hgt,
          w1]
  exact ⟨w1, hrun, hobj, rfl, hholds w1 hobj rfl, hcall w rfl rfl, hcall w1 hobj rfl⟩

theorem copy_assign_throwing_witness :
    holds demo_world 1 (.large_func 42) ∧ holds demo_world 2 .throwing_copy ∧
    demo_ops.copy .throwing_copy = .error () ∧ (1 : Nat) ≠ 2 ∧ (3 : Nat) ≠ 1 ∧
    ∃ w1, assign_copy demo_ops demo_world 1 2 3 102 = some (w1, .error (.target ())) ∧
      w1.obj 1 = demo_world.obj 1 ∧ w1.heap = demo_world.heap ∧
      holds w1 1 (.large_func 42) ∧
      call demo_ops demo_world 1 () = some (.ok (demo_ops.call (.large_func 42) ())) ∧
      call demo_ops w1 1 () = some (.ok (demo_ops.call (.large_func 42) ())) := by
  have hf : holds demo_world 1 (.large_func 42) := Or.inr ⟨rfl, 100, rfl, rfl⟩
  have hg : holds demo_world 2 .throwing_copy := Or.inl ⟨rfl, rfl⟩
  exact ⟨hf, hg, rfl, by decide, by decide,
    copy_assign_throwing demo_ops demo_world 1 2 3 102 (.large_func 42) .throwing_copy () ()
      hf hg rfl (by decide) (by decide)⟩

end function

/-! ## Erasing next to an allocated record, and replacing a record in place -/

namespace bimap_impl

/-- The parent of a node of the tree is the sentinel or a node of the tree. -/
theorem side_ok.pred_mem {m : Mem} {base : Nat} {t : shape} (hs : side_ok m base t) {x : Nat}
    (hx : x ∈ t.inorder) : ∃ px, (m x).pred = some px ∧ px ∈ base :: t.inorder := by
  obtain ⟨px, l, r, pre, post, g1, g2, g3, _⟩ :=
    bimap_impl.locate t base hs.linked hs.nodup hx
  refine ⟨px, g1.1, ?_⟩
  rcases g3 with g | g | g
  · simp [g]
  · rw [g2]; simp [g]
  · rw [g2]; simp [g]

/-- Erasing a node below a sentinel writes no node outside the tree. -/
theorem side_ok.erase_node_frame {m : Mem} {base : Nat} {t : shape} (hs : side_ok m base t)
    {x : Nat} (hx : x ∈ t.inorder) {fuel : Nat} (hf : t.size ≤ fuel) :
    ∃ (m' : Mem) (t' : shape), bimap_impl.erase m fuel x = some m' ∧ side_ok m' base t' ∧
      t'.inorder = t.inorder.erase x ∧ (∀ y, y ∉ base :: t.inorder → m' y = m y) := by
  obtain ⟨px, l, r, pre, post, g1, g2, hpx, _, hre⟩ := hs.locate_node hx
  obtain ⟨px', hp1, hp2⟩ := hs.pred_mem hx
  have hpp : px' = px := by
    have := g1.1
    rw [hp1] at this
    exact Option.some.inj this
  rw [hpp] at hp2
  have hnt : t.inorder.Nodup := (List.nodup_cons.1 hs.nodup).2
  have hbt : base ∉ t.inorder := (List.nodup_cons.1 hs.nodup).1
  have hnmid : (l.inorder ++ x :: r.inorder).Nodup := by
    rw [g2] at hnt
    exact (List.nodup_append.1 (List.nodup_append.1 hnt).1).2.1
  have hxpre : x ∉ pre := by
    rw [g2] at hnt
    intro hc
    exact (List.nodup_append.1 (List.nodup_append.1 hnt).1).2.2 hc (by simp)
  have hxl : x ∉ l.inorder := fun hc => (List.nodup_append.1 hnmid).2.2 hc (by simp)
  have hsz : l.size + r.size ≤ fuel := by
    have := congrArg List.length g2
    simp only [List.length_append, List.length_cons, shape.length_inorder] at this
    omega
  obtain ⟨m', sub, e1, e2, e3, e4, e5, e6, e7, e8, _⟩ :=
    erase_local g1 (List.nodup_cons.2 ⟨hpx, hnmid⟩) hsz
  have hlist : pre ++ sub.inorder ++ post = t.inorder.erase x := by
    rw [e3, g2, erase_mid hxpre hxl]
  have hframe : ∀ y, y ∈ pre ∨ y ∈ post ∨ y = base → y ≠ px → m' y = m y := by
    intro y hy hyp
    refine e4 y ?_ hyp
    intro hc
    rcases hy with g | g | g
    · rw [g2] at hnt
      exact (List.nodup_append.1 (List.nodup_append.1 hnt).1).2.2 g hc
    · rw [g2] at hnt
      exact (List.nodup_append.1 hnt).2.2 (List.mem_append.2 (Or.inr hc)) g
    · apply hbt
      rw [g2, ← g]
      exact List.mem_append.2 (Or.inl (List.mem_append.2 (Or.inr hc)))
  have hnd : (base :: (pre ++ sub.inorder ++ post)).Nodup := by
    rw [hlist]
    exact List.nodup_cons.2 ⟨fun hc => hbt (List.mem_of_mem_erase hc), hnt.erase x⟩
  obtain ⟨t', k1, k2⟩ := hre m' sub e2 hframe e5 e6 e7 hnd
  refine ⟨m', t', e1, k1, by rw [k2, hlist], fun y hy => ?_⟩
  refine e4 y (fun hc => hy ?_) (fun hc => hy (hc ▸ hp2))
  rw [g2]
  exact List.mem_cons_of_mem _ (List.mem_append.2 (Or.inl (List.mem_append.2 (Or.inr hc))))

end bimap_impl

namespace bimap

variable {L R : Type}

end bimap

namespace bimap

variable {L R : Type}

end bimap

/-! ## The move constructor -/

namespace bimap_impl

/-- Moving the sentinel: the tree hangs below the new sentinel and the old one is
cleared. -/
theorem side_ok.node_move {m : Mem} {base : Nat} {t : shape} (hs : side_ok m base t)
    {this : Nat} (hn : this ∉ base :: t.inorder) :
    side_ok (bimap_impl.node_move m this base) this t ∧
      (bimap_impl.node_move m this base) base = ⟨(m base).value, none, none, none⟩ := by
  have hnb : this ≠ base := fun hc => hn (by simp [hc])
  have hnt : this ∉ t.inorder := fun hc => hn (by simp [hc])
  have hbt : base ∉ t.inorder := (List.nodup_cons.1 hs.nodup).1
  have hntn : t.inorder.Nodup := (List.nodup_cons.1 hs.nodup).2
  have hnd : (this :: t.inorder).Nodup := List.nodup_cons.2 ⟨hnt, hntn⟩
  cases t with
  | nil =>
    have hl : (m base).left = none := hs.left
    have hm : bimap_impl.node_move m this base =
        clear_node (m.write this ⟨(m base).value, none, none, none⟩) base := by
      simp [bimap_impl.node_move, hl, hs.right, hs.pred]
    rw [hm]
    refine ⟨⟨?_, ?_, ?_, trivial, hnd⟩, ?_⟩
    · simp [clear_node, Mem.wleft, Mem.wright, Mem.wpred, Mem.write, hnb]
    · simp [clear_node, Mem.wleft, Mem.wright, Mem.wpred, Mem.write, hnb]
    · simp [clear_node, Mem.wleft, Mem.wright, Mem.wpred, Mem.write, hnb, shape.root]
    · simp [clear_node, Mem.wleft, Mem.wright, Mem.wpred, Mem.write, hnb.symm]
  | node l a r =>
    have hl : (m base).left = some a := hs.left
    have hat : a ∈ (shape.node l a r).inorder := by simp [shape.inorder]
    have han : a ≠ this := fun hc => hnt (hc ▸ hat)
    have hab : a ≠ base := fun hc => hbt (hc ▸ hat)
    have hm : bimap_impl.node_move m this base =
        clear_node ((m.write this ⟨(m base).value, some a, none, none⟩).wpred a (some this))
          base := by
      simp [bimap_impl.node_move, hl, hs.right, hs.pred, Mem.wpred, Mem.write, han.symm]
    rw [hm]
    have hother : ∀ b, b ≠ this → b ≠ a → b ≠ base →
        clear_node ((m.write this ⟨(m base).value, some a, none, none⟩).wpred a (some this))
          base b = m b := by
      intro b h1 h2 h3
      simp [clear_node, Mem.wleft, Mem.wright, Mem.wpred, Mem.write, h1, h2, h3]
    have hmid : (l.inorder ++ a :: r.inorder).Nodup := hntn
    refine ⟨⟨?_, ?_, ?_, ?_, hnd⟩, ?_⟩
    · simp [clear_node, Mem.wleft, Mem.wright, Mem.wpred, Mem.write, hnb, han.symm]
    · simp [clear_node, Mem.wleft, Mem.wright, Mem.wpred, Mem.write, hnb, han.symm]
    · simp [clear_node, Mem.wleft, Mem.wright, Mem.wpred, Mem.write, hnb, han.symm,
        shape.root]
    · refine linked_reparent hs.linked ?_ ?_ ?_ ?_
      · simp [clear_node, Mem.wleft, Mem.wright, Mem.wpred, Mem.write, hab, han]
      · simp [clear_node, Mem.wleft, Mem.wright, Mem.wpred, Mem.write, hab, han]
      · simp [clear_node, Mem.wleft, Mem.wright, Mem.wpred, Mem.write, hab, han]
      · intro b hb
        have hbin : b ∈ (shape.node l a r).inorder := by
          simp only [shape.inorder, List.mem_append, List.mem_cons] at hb ⊢
          rcases hb with g | g
          · exact Or.inl g
          · exact Or.inr (Or.inr g)
        refine hother b (fun hc => hnt (hc ▸ hbin)) ?_ (fun hc => hbt (hc ▸ hbin))
        intro hc
        subst hc
        rcases List.mem_append.1 hb with g | g
        · exact (List.nodup_append.1 hmid).2.2 g (by simp)
        · exact (List.nodup_cons.1 (List.nodup_append.1 hmid).2.1).1 g
    · simp [clear_node, Mem.wleft, Mem.wright, Mem.wpred, Mem.write, hnb.symm, hab.symm]

end bimap_impl

namespace bimap

variable {L R : Type}

/-- The bimap built by the move constructor is well formed over the same two shapes. -/
theorem wf_at.move_ctor {s : bimap L R} {tl tr : shape} (h : wf_at s tl tr) {base : Nat}
    (hb : base ∉ s.base :: s.mem.live) : wf_at (s.move_ctor base).1 tl tr := by
  have hbl : base ∉ s.base :: tl.inorder := by
    intro hc
    rcases List.mem_cons.1 hc with g | g
    · exact hb (by simp [g])
    · exact hb (List.mem_cons_of_mem _ (h.left.mem_live.1 g))
  have hbr : base ∉ s.base :: tr.inorder := by
    intro hc
    rcases List.mem_cons.1 hc with g | g
    · exact hb (by simp [g])
    · exact hb (List.mem_cons_of_mem _ (h.right.mem_live.1 g))
  have sl := (h.left.side.node_move hbl).1
  have sr := (h.right.side.node_move hbr).1
  exact ⟨⟨sl.pred, sl.right, sl.left, sl.linked, sl.nodup, h.left.perm, h.left.vals,
      h.left.sorted⟩,
    ⟨sr.pred, sr.right, sr.left, sr.linked, sr.nodup, h.right.perm, h.right.vals,
      h.right.sorted⟩, h.size, h.addr⟩

/-- Claim C25: for a reachable bimap `src`, the bimap built by the move constructor, with
its sentinel at a new address, has the `size()` of `src`, its two loops visit the
records the loops of `src` visited, holding the same pairs, and it is well formed;
`src` is left empty: `size()` is 0, `empty()` holds, `begin_left()` is `end_left()` and
compares equal to it, and its two loops visit nothing. -/
theorem move_ctor_transfers [DecidableEq L] [DecidableEq R] (src : bimap L R)
    (hr : reachable src) (hcl : strict_weak src.compare_left)
    (hcr : strict_weak src.compare_right) (base : Nat)
    (hb : base ∉ src.base :: src.mem.live) :
    ∃ (itl itr : List Nat), src.walk_left = some itl ∧ src.walk_right = some itr ∧
      (src.move_ctor base).1.size = src.size ∧
      (src.move_ctor base).1.walk_left = some itl ∧
      (src.move_ctor base).1.walk_right = some itr ∧
      (src.move_ctor base).1.pairs itl = src.pairs itl ∧
      (src.move_ctor base).1.pairs itr = src.pairs itr ∧
      wf (src.move_ctor base).1 ∧
      (src.move_ctor base).2.size = 0 ∧ (src.move_ctor base).2.empty = true ∧
      (src.move_ctor base).2.begin_left = some (src.move_ctor base).2.end_left ∧
      (∀ it, (src.move_ctor base).2.begin_left = some it →
        bimap_iterator.eq (src.move_ctor base).2.mem it (src.move_ctor base).2.end_left = true) ∧
      (src.move_ctor base).2.walk_left = some [] ∧
      (src.move_ctor base).2.walk_right = some [] := by
  obtain ⟨tl, tr, hw⟩ := hr.wf hcl hcr
  have hw' := hw.move_ctor hb
  have hbl : base ∉ src.base :: tl.inorder := by
    intro hc
    rcases List.mem_cons.1 hc with g | g
    · exact hb (by simp [g])
    · exact hb (List.mem_cons_of_mem _ (hw.left.mem_live.1 g))
  have hbr : base ∉ src.base :: tr.inorder := by
    intro hc
    rcases List.mem_cons.1 hc with g | g
    · exact hb (by simp [g])
    · exact hb (List.mem_cons_of_mem _ (hw.right.mem_live.1 g))
  have cl := (hw.left.side.node_move hbl).2
  have cr := (hw.right.side.node_move hbr).2
  have cl' : (src.move_ctor base).2.mem.cur (src.move_ctor base).2.base =
      ⟨(src.mem.cur src.base).value, none, none, none⟩ := cl
  have cr' : (src.move_ctor base).2.mem.opp (src.move_ctor base).2.base =
      ⟨(src.mem.opp src.base).value, none, none, none⟩ := cr
  have hbegin : (src.move_ctor base).2.begin_left = some (src.move_ctor base).2.end_left := by
    simp [begin_left, map.begin, cl', end_left]
  have hbeginr : (src.move_ctor base).2.begin_right =
      some (src.move_ctor base).2.end_right := by
    simp [begin_right, map.begin, store.flipped, cr', end_right]
  have hfuel : (src.move_ctor base).2.mem.fuel = 1 := rfl
  refine ⟨tl.inorder, tr.inorder, hw.walk_left, hw.walk_right, rfl, hw'.walk_left,
    hw'.walk_right, rfl, rfl, ⟨tl, tr, hw'⟩, rfl, ?_, hbegin, ?_, ?_, ?_⟩
  · simp [empty, cl']
  · intro it hit
    rw [hbegin] at hit
    rw [← Option.some.inj hit]
    exact node_eq_self _
  · rw [walk_left, hbegin, hfuel]
    simp [map.walk, end_left, map.end_, bimap_iterator.eq, node_eq_self]
  · rw [walk_right, hbeginr, hfuel]
    simp [map.walk, end_right, map.end_, bimap_iterator.eq, node_eq_self]

theorem move_ctor_transfers_witness :
    reachable demo4 ∧ strict_weak demo4.compare_left ∧ strict_weak demo4.compare_right ∧
    9 ∉ demo4.base :: demo4.mem.live ∧
    ∃ (itl itr : List Nat), demo4.walk_left = some itl ∧ demo4.walk_right = some itr ∧
      (demo4.move_ctor 9).1.size = demo4.size ∧
      (demo4.move_ctor 9).1.walk_left = some itl ∧
      (demo4.move_ctor 9).1.walk_right = some itr ∧
      (demo4.move_ctor 9).1.pairs itl = demo4.pairs itl ∧
      (demo4.move_ctor 9).1.pairs itr = demo4.pairs itr ∧
      wf (demo4.move_ctor 9).1 ∧
      (demo4.move_ctor 9).2.size = 0 ∧ (demo4.move_ctor 9).2.empty = true ∧
      (demo4.move_ctor 9).2.begin_left = some (demo4.move_ctor 9).2.end_left ∧
      (∀ it, (demo4.move_ctor 9).2.begin_left = some it →
        bimap_iterator.eq (demo4.move_ctor 9).2.mem it (demo4.move_ctor 9).2.end_left = true) ∧
      (demo4.move_ctor 9).2.walk_left = some [] ∧
      (demo4.move_ctor 9).2.walk_right = some [] :=
  ⟨demo4_reachable, nat_less_strict_weak, nat_less_strict_weak, by decide,
    move_ctor_transfers demo4 demo4_reachable nat_less_strict_weak nat_less_strict_weak 9
      (by decide)⟩

end bimap

/-! ## Comparison of two bimaps -/

namespace bimap_impl

/-- One step of a loop over a side: the iterator at a record differs from the end and
its increment is the next record, or the end after the last one. -/
theorem view_ok.step_suffix {A B : Type} {c : A → A → Bool} {h : store A B} {base : Nat}
    {t : shape} (hv : view_ok c h base t) {pre rest : List Nat} {x : Nat}
    (hpre : t.inorder = pre ++ x :: rest) :
    bimap_iterator.eq h x (map.end_ base) = false ∧
      bimap_iterator.inc h x = some (rest.headD base) := by
  have hx : x ∈ t.inorder := by rw [hpre]; simp
  have hn : t.inorder.Nodup := (List.nodup_cons.1 hv.nodup).2
  have hxpre : x ∉ pre := by
    rw [hpre] at hn
    intro hc
    exact (List.nodup_append.1 hn).2.2 hc (by simp)
  have hnext : next_of t.inorder base x = rest.headD base := by
    rw [hpre, next_of_append_right _ _ hxpre]
    simp [next_of]
  exact ⟨hv.eq_end_false hx, by rw [hv.inc hx, hnext]⟩

end bimap_impl

namespace bimap

variable {L R : Type}

/-- The loop of `operator==` over the remaining records of both sides: it ends, and
returns `true` exactly when the records it pairs hold equivalent values. -/
theorem eq_loop_spec {a b : bimap L R} {ta ra tb rb : shape} (ha : wf_at a ta ra)
    (hb : wf_at b tb rb) :
    ∀ (sa pa sb pb : List Nat) (fuel : Nat), ta.inorder = pa ++ sa → tb.inorder = pb ++ sb →
      sa.length ≤ fuel →
      ∃ res : Bool, eq_loop a b fuel (sa.headD a.base) (sb.headD b.base) = some res ∧
        (res = true ↔ ∀ z ∈ List.zip sa sb, same_pair a b z.1 z.2) := by
  intro sa
  induction sa with
  | nil =>
    intro pa sb pb fuel _ _ _
    have he : bimap_iterator.eq a.mem a.base a.end_left = true := node_eq_self _
    refine ⟨true, ?_, by simp⟩
    cases fuel <;> simp [eq_loop, he]
  | cons x xs ih =>
    intro pa sb pb fuel hpa hpb hf
    cases sb with
    | nil =>
      have he : bimap_iterator.eq b.mem b.base b.end_left = true := node_eq_self _
      refine ⟨true, ?_, by simp⟩
      cases fuel <;> simp [eq_loop, he]
    | cons y ys =>
      cases fuel with
      | zero => simp at hf
      | succ f =>
        obtain ⟨ea, ia⟩ := ha.left.step_suffix hpa
        obtain ⟨eb, ib⟩ := hb.left.step_suffix hpb
        have hxa : x ∈ ta.inorder := by rw [hpa]; simp
        have hyb : y ∈ tb.inorder := by rw [hpb]; simp
        obtain ⟨l1, hl1⟩ := ha.left.vals x hxa
        obtain ⟨l2, hl2⟩ := hb.left.vals y hyb
        obtain ⟨r1, hr1⟩ := ha.right.vals x (ha.right.mem_live.2 (ha.left.mem_live.1 hxa))
        obtain ⟨r2, hr2⟩ := hb.right.vals y (hb.right.mem_live.2 (hb.left.mem_live.1 hyb))
        have hr1' : a.mem.other x = some r1 := hr1
        have hr2' : b.mem.other y = some r2 := hr2
        obtain ⟨res, hres, hiff⟩ := ih (pa ++ [x]) ys (pb ++ [y]) f (by simp [hpa])
          (by simp [hpb]) (by simpa using hf)
        have ea' : bimap_iterator.eq a.mem x a.end_left = false := ea
        have eb' : bimap_iterator.eq b.mem y b.end_left = false := eb
        by_cases hcmp : (a.compare_left l1 l2 || a.compare_left l2 l1 ||
            a.compare_right r1 r2 || a.compare_right r2 r1) = true
        · refine ⟨false, ?_, ?_⟩
          · simp only [List.headD_cons, eq_loop, ea', eb', bimap_iterator.deref,
              bimap_iterator.flip, hl1, hl2, store.flipped, hr1', hr2', hcmp]
            simp
          · constructor
            · intro hc; simp at hc
            · intro hall
              exfalso
              obtain ⟨l1', l2', r1', r2', g1, g2, g3, g4, g5, g6, g7, g8⟩ :=
                hall (x, y) (by simp)
              simp only at g1 g2 g3 g4
              rw [hl1] at g1
              rw [hl2] at g2
              rw [hr1'] at g3
              rw [hr2'] at g4
              cases g1; cases g2; cases g3; cases g4
              simp [g5, g6, g7, g8] at hcmp
        · have hcmp' : (a.compare_left l1 l2 || a.compare_left l2 l1 ||
              a.compare_right r1 r2 || a.compare_right r2 r1) = false := by
            simpa using hcmp
          refine ⟨res, ?_, ?_⟩
          · simp only [List.headD_cons, eq_loop, ea', eb', bimap_iterator.deref,
              bimap_iterator.flip, hl1, hl2, store.flipped, hr1', hr2', hcmp', ia, ib]
            simpa using hres
          · have hsame : same_pair a b x y := by
              simp only [Bool.or_eq_false_iff] at hcmp'
              exact ⟨l1, l2, r1, r2, hl1, hl2, hr1', hr2', hcmp'.1.1.1, hcmp'.1.1.2,
                hcmp'.1.2, hcmp'.2⟩
            rw [hiff]
            constructor
            · intro hall z hz
              rcases List.mem_cons.1 (by simpa using hz) with g | g
              · rw [g]; exact hsame
              · exact hall z g
            · intro hall z hz
              exact hall z (by simp [hz])

/-- The value of `a == b` on two well-formed bimaps. -/
theorem wf_at.op_eq_spec {a b : bimap L R} {ta ra tb rb : shape} (hwa : wf_at a ta ra)
    (hwb : wf_at b tb rb) :
    ∃ res : Bool, a.op_eq b = some res ∧ a.op_ne b = some (!res) ∧
      (res = true ↔ a.size = b.size ∧ List.Forall₂ (same_pair a b) ta.inorder tb.inorder) := by
  have hla : ta.inorder.length = a.size := by
    rw [hwa.left.perm.length_eq]; exact hwa.size.symm
  have hlb : tb.inorder.length = b.size := by
    rw [hwb.left.perm.length_eq]; exact hwb.size.symm
  by_cases hsz : a.size = b.size
  · obtain ⟨res, hres, hiff⟩ := eq_loop_spec hwa hwb ta.inorder [] tb.inorder [] a.mem.fuel
      rfl rfl (le_of_lt (by rw [shape.length_inorder]; exact hwa.left.size_lt_fuel))
    have hrun : a.op_eq b = some res := by
      have e1 : a.begin_left = some (ta.inorder.headD a.base) := hwa.left.begin
      have e2 : b.begin_left = some (tb.inorder.headD b.base) := hwb.left.begin
      simp only [op_eq, hsz, ne_eq, not_true_eq_false, if_false, e1, e2, hres]
    refine ⟨res, hrun, by simp [op_ne, hrun], ?_⟩
    rw [hiff, List.forall₂_iff_zip]
    constructor
    · intro h
      exact ⟨hsz, by rw [hla, hlb, hsz], fun {x y} hxy => h (x, y) hxy⟩
    · rintro ⟨_, _, h⟩ z hz
      exact h hz
  · have hrun : a.op_eq b = some false := by simp [op_eq, hsz]
    refine ⟨false, hrun, by simp [op_ne, hrun], ?_⟩
    constructor
    · intro h; simp at h
    · rintro ⟨h, _⟩; exact absurd h hsz

/-- Claim C26: for two reachable bimaps `a` and `b`, `a == b` returns, and it returns
`true` exactly when `a.size() == b.size()` and the records visited by the two left loops
hold, position by position, equivalent left values and equivalent right values under
the comparators of `a` (those of `b` when both are built with the same ones); `a != b`
returns the negation. -/
theorem op_eq_iff [DecidableEq L] [DecidableEq R] (a b : bimap L R) (ha : reachable a)
    (hb : reachable b) (hal : strict_weak a.compare_left) (har : strict_weak a.compare_right)
    (hbl : strict_weak b.compare_left) (hbr : strict_weak b.compare_right) :
    ∃ (ita itb : List Nat) (res : Bool), a.walk_left = some ita ∧ b.walk_left = some itb ∧
      a.op_eq b = some res ∧ a.op_ne b = some (!res) ∧
      (res = true ↔ a.size = b.size ∧ List.Forall₂ (same_pair a b) ita itb) := by
  obtain ⟨ta, ra, hwa⟩ := ha.wf hal har
  obtain ⟨tb, rb, hwb⟩ := hb.wf hbl hbr
  obtain ⟨res, h1, h2, h3⟩ := hwa.op_eq_spec hwb
  exact ⟨ta.inorder, tb.inorder, res, hwa.walk_left, hwb.walk_left, h1, h2, h3⟩

theorem op_eq_iff_witness :
    reachable demo4 ∧ reachable demo3 ∧ strict_weak demo4.compare_left ∧
    strict_weak demo4.compare_right ∧ strict_weak demo3.compare_left ∧
    strict_weak demo3.compare_right ∧
    ∃ (ita itb : List Nat) (res : Bool), demo4.walk_left = some ita ∧
      demo3.walk_left = some itb ∧ demo4.op_eq demo3 = some res ∧
      demo4.op_ne demo3 = some (!res) ∧
      (res = true ↔ demo4.size = demo3.size ∧ List.Forall₂ (same_pair demo4 demo3) ita itb) :=
  ⟨demo4_reachable, demo3_reachable, nat_less_strict_weak, nat_less_strict_weak,
    nat_less_strict_weak, nat_less_strict_weak,
    op_eq_iff demo4 demo3 demo4_reachable demo3_reachable nat_less_strict_weak
      nat_less_strict_weak nat_less_strict_weak nat_less_strict_weak⟩

end bimap

/-! ## The copy constructor -/

namespace bimap_impl

/-- Two lists sorted by a strict order on a key are equal when they are permutations of
one another. -/
theorem sorted_perm_unique {α A : Type} {c : A → A → Bool} (hc : strict_weak c)
    (key : α → Option A) {l1 l2 : List α} (hp : l1.Perm l2)
    (h1 : l1.Pairwise (fun u w => ∃ x y, key u = some x ∧ key w = some y ∧ c x y = true))
    (h2 : l2.Pairwise (fun u w => ∃ x y, key u = some x ∧ key w = some y ∧ c x y = true)) :
    l1 = l2 := by
  haveI : IsAntisymm α
      (fun u w => ∃ x y, key u = some x ∧ key w = some y ∧ c x y = true) :=
    ⟨fun u w g1 g2 => by
      exfalso
      obtain ⟨x, y, e1, e2, e3⟩ := g1
      obtain ⟨y', x', f1, f2, f3⟩ := g2
      rw [e1] at f2
      rw [e2] at f1
      cases f1; cases f2
      have := hc.trans x y x e3 f3
      rw [hc.irrefl x] at this
      exact Bool.false_ne_true this⟩
  exact List.eq_of_perm_of_sorted hp h1 h2

end bimap_impl

namespace bimap_impl

theorem shape.inorder_spine (l : List Nat) : (shape.spine l).inorder = l.reverse := by
  induction l with
  | nil => rfl
  | cons a rest ih => simp [shape.spine, shape.inorder, ih]

theorem shape.height_spine (l : List Nat) : (shape.spine l).height = l.length := by
  induction l with
  | nil => rfl
  | cons a rest ih => simp [shape.spine, shape.height, ih]

/-- A store links at most one shape below a given root. -/
theorem linked_unique {m : Mem} :
    ∀ (t t' : shape) (p p' : Nat), linked m p t → linked m p' t' → t.root = t'.root →
      t = t' := by
  intro t
  induction t with
  | nil =>
    intro t' p p' _ _ hr
    cases t' with
    | nil => rfl
    | node _ _ _ => simp [shape.root] at hr
  | node l a r ihl ihr =>
    intro t' p p' h h' hr
    cases t' with
    | nil => simp [shape.root] at hr
    | node l' a' r' =>
      simp only [shape.root, Option.some.injEq] at hr
      subst hr
      obtain ⟨_, h2, h3, h4, h5⟩ := h
      obtain ⟨_, g2, g3, g4, g5⟩ := h'
      rw [ihl l' a a h4 g4 (by rw [← h2, ← g2]), ihr r' a a h5 g5 (by rw [← h3, ← g3])]

/-- Linking a new node at the sentinel: it becomes the root, with the former tree as
its left child. -/
theorem side_ok.set_new_node_last {m : Mem} {base : Nat} {t : shape} (hs : side_ok m base t)
    {n : Nat} (hn : n ∉ base :: t.inorder) (hnl : (m n).left = none)
    (hnr : (m n).right = none) :
    bimap_impl.set_new_node m base n = some (set_new_left m base n) ∧
      side_ok (set_new_left m base n) base (.node t n .nil) := by
  have hnb : n ≠ base := fun hc => hn (by simp [hc])
  have hnt : n ∉ t.inorder := fun hc => hn (by simp [hc])
  have hbt : base ∉ t.inorder := (List.nodup_cons.1 hs.nodup).1
  have hndt : t.inorder.Nodup := (List.nodup_cons.1 hs.nodup).2
  have hc : ∀ c, (m base).left = some c → c ≠ base ∧ c ≠ n := by
    intro c hc
    rw [hs.left] at hc
    have := shape.root_mem hc
    exact ⟨fun h => hbt (by rw [← h]; exact this), fun h => hnt (by rw [← h]; exact this)⟩
  obtain ⟨s1, s2, s3, s4⟩ := set_new_left_spec (m := m) (Ne.symm hnb) hnl hc
  refine ⟨by simp [bimap_impl.set_new_node, hs.pred],
    ⟨?_, ?_, ?_, ⟨?_, ?_, ?_, ?_, trivial⟩, ?_⟩⟩
  · rw [s1]; exact hs.pred
  · rw [s1]; exact hs.right
  · rw [s1]; rfl
  · rw [s2]
  · rw [s2]; exact hs.left
  · rw [s2]; exact hnr
  · refine linked_rehang hs.linked hndt (fun c hc' => s3 c (by rw [hs.left]; exact hc'))
      (fun y hy hyr => s4 y (fun h => hbt (by rw [← h]; exact hy))
        (fun h => hnt (by rw [← h]; exact hy)) (by rw [hs.left]; exact hyr))
  · simp only [shape.inorder, List.append_nil]
    refine List.nodup_cons.2 ⟨?_, ?_⟩
    · simp only [List.mem_append, List.mem_singleton, not_or]
      exact ⟨hbt, Ne.symm hnb⟩
    · exact List.nodup_append.2 ⟨hndt, by simp, fun y hy hy' => hnt (by
        simp only [List.mem_singleton] at hy'; rw [← hy']; exact hy)⟩

/-- Inserting a value greater than every stored one: the lower bound is the sentinel,
and the new node becomes the root with the former tree as its left child. -/
theorem view_ok.insert_node_last {A B : Type} {c : A → A → Bool} (hc : strict_weak c) {h : store A B}
    {base : Nat} {t : shape} (hv : view_ok c h base t) {v : A} {a : Nat} (p : Nat)
    (ha : a ∉ base :: h.live) (hlt : ∀ b ∈ h.live, ∃ x, h.value b = some x ∧ c x v = true) :
    map.lower_bound c h v base = some base ∧
      set_new_node (h.cur.write a ⟨p, none, none, none⟩) base a =
        some (set_new_left (h.cur.write a ⟨p, none, none, none⟩) base a) ∧
      ∀ h' : store A B, h'.cur = set_new_left (h.cur.write a ⟨p, none, none, none⟩) base a →
        h'.value = (fun b => if b = a then some v else h.value b) →
        h'.live = a :: h.live → view_ok c h' base (.node t a .nil) := by
  have hnt : ¬ ∃ b ∈ h.live, ∃ x, h.value b = some x ∧ c x v = false ∧ c v x = false := by
    rintro ⟨b, hb, x, hx, h1, _⟩
    obtain ⟨y, hy, h3⟩ := hlt b hb
    rw [hx] at hy
    cases hy
    rw [h1] at h3
    exact Bool.false_ne_true h3
  have hab : a ≠ base := fun hc' => ha (by simp [hc'])
  have hat : a ∉ t.inorder := fun hc' => ha (List.mem_cons_of_mem _ (hv.mem_live.1 hc'))
  have hnin : a ∉ base :: t.inorder := by
    intro hc'
    rcases List.mem_cons.1 hc' with g | g
    · exact hab g
    · exact hat g
  have hs1 : side_ok (h.cur.write a ⟨p, none, none, none⟩) base t :=
    hv.side.congr_mem (fun y hy => Mem.write_ne _ _ (fun hya => hnin (by rw [← hya]; exact hy)))
  obtain ⟨k1, k2⟩ := hs1.set_new_node_last hnin (by simp) (by simp)
  obtain ⟨lb, m', t', e1, e2, e3, e4⟩ := hv.insert_node hc p ha hnt
  have hlb : map.lower_bound c h v base = some base := by
    rw [hv.lower_bound hc v]
    have hnone : t.inorder.find? (not_less c h.value v) = none := by
      rw [List.find?_eq_none]
      intro b hb
      obtain ⟨x, hx, h3⟩ := hlt b (hv.mem_live.1 hb)
      simp [not_less_of_value hx, h3]
    rw [hnone]
    rfl
  rw [hlb] at e1
  have hlb' : lb = base := (Option.some.inj e1).symm
  subst hlb'
  rw [k1] at e2
  have hm' : m' = set_new_left (h.cur.write a ⟨p, none, none, none⟩) lb a :=
    (Option.some.inj e2).symm
  subst hm'
  refine ⟨hlb, k1, ?_⟩
  intro h' g1 g2 g3
  have hv' := e4 h' g1 g2 g3
  have hroot : t'.root = (shape.node t a .nil).root := by
    rw [← hv'.left, g1, k2.left]
  have ht' : t' = .node t a .nil :=
    linked_unique t' _ lb lb (by rw [← g1]; exact hv'.linked) k2.linked hroot
  rw [← ht']
  exact hv'

end bimap_impl

namespace bimap

variable {L R : Type}

/-- `insert` of a pair whose left value is greater than every stored one and whose right
value is not taken: the new node becomes the root of the left tree, with the former
left tree as its left child and no right child. -/
theorem wf_at.insert_last {s : bimap L R} {tl tr : shape} (h : wf_at s tl tr)
    (hcl : strict_weak s.compare_left) (hcr : strict_weak s.compare_right) {l : L} {r : R}
    {a : Nat} (p q : Nat) (ha : s.fresh a)
    (hl : ∀ b ∈ s.mem.live, ∃ x, s.mem.value b = some x ∧ s.compare_left x l = true)
    (hr : ¬ s.right_taken r) :
    ∃ (s' : bimap L R) (tr' : shape),
      s.insert l r a p q = some (s', a) ∧ wf_at s' (.node tl a .nil) tr' ∧
      s'.mem.live = a :: s.mem.live ∧
      s'.mem.value = (fun b => if b = a then some l else s.mem.value b) ∧
      s'.mem.other = (fun b => if b = a then some r else s.mem.other b) ∧
      s'.size_ = s.size_ + 1 ∧ s'.compare_left = s.compare_left ∧
      s'.compare_right = s.compare_right ∧ s'.base = s.base := by
  have hlt : ¬ s.left_taken l := by
    rintro ⟨b, hb, x, hx, h1, _⟩
    obtain ⟨y, hy, h3⟩ := hl b hb
    rw [hx] at hy
    cases hy
    rw [h1] at h3
    exact Bool.false_ne_true h3
  obtain ⟨ha0, ha1, hab, hal⟩ := ha
  have hnin : a ∉ s.base :: s.mem.live := by
    intro hc
    rcases List.mem_cons.1 hc with g | g
    · exact hab g
    · exact hal g
  obtain ⟨e1, e2, e4⟩ := h.left.insert_node_last hcl (v := l) p hnin hl
  obtain ⟨lbr, mr, tr', f1, f2, f3, f4⟩ := h.right.insert_node hcr (v := r) q hnin hr
  have hfl : s.find_left l = some s.base := h.left.find_of_not_taken hcl hlt
  have hfr : s.find_right r = some s.base := h.right.find_of_not_taken hcr hr
  have hlen : (a :: s.mem.live).length < size_max := by
    refine length_lt_of_addr size_max_pos (List.nodup_cons.2 ⟨hal, h.live_nodup⟩) ?_
    intro b hb
    rcases List.mem_cons.1 hb with g | g
    · rw [g]; exact ⟨ha0, ha1⟩
    · exact h.addr b g
  have hsz : (s.size_ + 1) % size_max = s.size_ + 1 := by
    apply Nat.mod_eq_of_lt
    rw [h.size]
    simpa using hlen
  refine ⟨{ s with mem := { s.mem.alloc a p q l r with
                     cur := set_new_left (s.mem.cur.write a ⟨p, none, none, none⟩) s.base a,
                     opp := mr },
                   size_ := (s.size_ + 1) % size_max }, tr', ?_, ?_, rfl, rfl, rfl, hsz, rfl,
    rfl, rfl⟩
  · have e1' : s.lower_bound_left l = some s.base := e1
    have f1' : s.lower_bound_right r = some lbr := f1
    have e2' : set_new_node (s.mem.alloc a p q l r).cur s.base a =
        some (set_new_left (s.mem.cur.write a ⟨p, none, none, none⟩) s.base a) := e2
    have f2' : set_new_node (s.mem.alloc a p q l r).opp lbr a = some mr := f2
    simp only [bimap.insert, bimap.insert_impl, hfl, hfr, bimap.end_left, bimap.end_right,
      map.end_, bimap_iterator.eq, node_eq_self, if_true, e1', f1', bimap.insert_node, e2', f2']
  · refine ⟨e4 _ rfl rfl rfl, f4 _ rfl rfl rfl, ?_, ?_⟩
    · show (s.size_ + 1) % size_max = (a :: s.mem.live).length
      rw [hsz, h.size]; rfl
    · intro b hb
      rcases List.mem_cons.1 hb with g | g
      · rw [g]; exact ⟨ha0, ha1⟩
      · exact h.addr b g

/-- Inserting pairs with strictly increasing left values, all greater than the stored
ones, grows the left tree into a chain of left children. -/
theorem wf_at.insert_all_spine :
    ∀ (xs : List (L × R × Nat × Nat × Nat)) (s : bimap L R) (tr : shape),
      wf_at s (shape.spine s.mem.live) tr →
      strict_weak s.compare_left → strict_weak s.compare_right →
      xs.Pairwise (fun x y => s.compare_left x.1 y.1 = true) →
      xs.Pairwise (fun x y => s.compare_right x.2.1 y.2.1 = true ∨
        s.compare_right y.2.1 x.2.1 = true) →
      (xs.map (fun x => x.2.2.1)).Nodup →
      (∀ x ∈ xs, s.fresh x.2.2.1) →
      (∀ x ∈ xs, ∀ b ∈ s.mem.live, ∃ v, s.mem.value b = some v ∧
        s.compare_left v x.1 = true) →
      (∀ x ∈ xs, ¬ s.right_taken x.2.1) →
      ∃ (s' : bimap L R) (tr' : shape), s.insert_all xs = some s' ∧
        wf_at s' (shape.spine s'.mem.live) tr' ∧
        s'.mem.live = (xs.map (fun x => x.2.2.1)).reverse ++ s.mem.live ∧
        s'.base = s.base ∧ s'.compare_left = s.compare_left ∧
        s'.compare_right = s.compare_right := by
  intro xs
  induction xs with
  | nil =>
    intro s tr hw _ _ _ _ _ _ _ _
    exact ⟨s, tr, rfl, hw, by simp, rfl, rfl, rfl⟩
  | cons x rest ih =>
    intro s tr hw hcl hcr hinc hdis hnd hfr hgt hnt
    obtain ⟨s1, tr1, e1, e2, e3, e4, e5, _, e7, e8, e9⟩ :=
      hw.insert_last hcl hcr x.2.2.2.1 x.2.2.2.2 (hfr x (by simp)) (hgt x (by simp))
        (hnt x (by simp))
    have hinc' := List.pairwise_cons.1 hinc
    have hdis' := List.pairwise_cons.1 hdis
    have hnd' : x.2.2.1 ∉ rest.map (fun x => x.2.2.1) ∧ (rest.map (fun x => x.2.2.1)).Nodup :=
      List.nodup_cons.1 hnd
    have hw1 : wf_at s1 (shape.spine s1.mem.live) tr1 := by
      rw [e3]; exact e2
    have hfr1 : ∀ y ∈ rest, s1.fresh y.2.2.1 := by
      intro y hy
      obtain ⟨g1, g2, g3, g4⟩ := hfr y (by simp [hy])
      refine ⟨g1, g2, by rw [e9]; exact g3, ?_⟩
      rw [e3]
      intro hc
      rcases List.mem_cons.1 hc with g | g
      · exact hnd'.1 (List.mem_map.2 ⟨y, hy, g⟩)
      · exact g4 g
    have hgt1 : ∀ y ∈ rest, ∀ b ∈ s1.mem.live, ∃ v, s1.mem.value b = some v ∧
        s1.compare_left v y.1 = true := by
      intro y hy b hb
      rw [e3] at hb
      rw [e4, e7]
      rcases List.mem_cons.1 hb with g | g
      · exact ⟨x.1, by simp [g], hinc'.1 y hy⟩
      · obtain ⟨v, hv, hlt⟩ := hgt y (by simp [hy]) b g
        have hba : b ≠ x.2.2.1 := fun hc => (hfr x (by simp)).2.2.2 (hc ▸ g)
        exact ⟨v, by simp [hba, hv], hlt⟩
    have hnt1 : ∀ y ∈ rest, ¬ s1.right_taken y.2.1 := by
      intro y hy
      rintro ⟨b, hb, w, hw', g1, g2⟩
      rw [e3] at hb
      rw [e5] at hw'
      rw [e8] at g1 g2
      rcases List.mem_cons.1 hb with g | g
      · simp only [g, if_true, Option.some.injEq] at hw'
        subst hw'
        rcases hdis'.1 y hy with k | k
        · rw [g1] at k; exact Bool.false_ne_true k
        · rw [g2] at k; exact Bool.false_ne_true k
      · have hba : b ≠ x.2.2.1 := fun hc => (hfr x (by simp)).2.2.2 (hc ▸ g)
        simp only [hba, if_false] at hw'
        exact hnt y (by simp [hy]) ⟨b, g, w, hw', g1, g2⟩
    obtain ⟨s2, tr2, k1, k2, k3, k4, k5, k6⟩ := ih s1 tr1 hw1 (by rw [e7]; exact hcl)
      (by rw [e8]; exact hcr) (by rw [e7]; exact hinc'.2) (by rw [e8]; exact hdis'.2)
      hnd'.2 hfr1 hgt1 hnt1
    refine ⟨s2, tr2, ?_, k2, ?_, by rw [k4, e9], by rw [k5, e7], by rw [k6, e8]⟩
    · simp only [insert_all, e1]
      exact k1
    · rw [k3, e3]
      simp

end bimap

namespace bimap

variable {L R : Type}

theorem pairs_congr {s s' : bimap L R} {its : List Nat}
    (h : ∀ b ∈ its, s'.mem.value b = s.mem.value b ∧ s'.mem.other b = s.mem.other b) :
    s'.pairs its = s.pairs its := by
  refine List.map_congr_left (fun b hb => ?_)
  simp only [bimap_iterator.deref, bimap_iterator.flip, store.flipped, (h b hb).1, (h b hb).2]

theorem mem_pairs {s : bimap L R} {its : List Nat} {z : Option L × Option R}
    (h : z ∈ s.pairs its) : ∃ b ∈ its, s.mem.value b = z.1 ∧ s.mem.other b = z.2 := by
  obtain ⟨b, hb, rfl⟩ := List.mem_map.1 h
  exact ⟨b, hb, rfl, rfl⟩

theorem wf_at.pairs_sorted_left {s : bimap L R} {tl tr : shape} (h : wf_at s tl tr) :
    (s.pairs tl.inorder).Pairwise
      (fun u w => ∃ x y, Prod.fst u = some x ∧ Prod.fst w = some y ∧
        s.compare_left x y = true) := by
  rw [bimap.pairs, List.pairwise_map]
  refine List.Pairwise.imp ?_ h.left.sorted
  rintro a b ⟨x, y, hx, hy, hxy⟩
  exact ⟨x, y, hx, hy, hxy⟩

theorem wf_at.pairs_sorted_right {s : bimap L R} {tl tr : shape} (h : wf_at s tl tr) :
    (s.pairs tr.inorder).Pairwise
      (fun u w => ∃ x y, Prod.snd u = some x ∧ Prod.snd w = some y ∧
        s.compare_right x y = true) := by
  rw [bimap.pairs, List.pairwise_map]
  refine List.Pairwise.imp ?_ h.right.sorted
  rintro a b ⟨x, y, hx, hy, hxy⟩
  exact ⟨x, y, hx, hy, hxy⟩

/-- The loop of the copy constructor inserts the remaining records of `b1` one by one,
each into a new record. -/
theorem copy_loop_spec [DecidableEq L] [DecidableEq R] {b1 : bimap L R} {t1 r1 : shape}
    (hw1 : wf_at b1 t1 r1) (hcl : strict_weak b1.compare_left)
    (hcr : strict_weak b1.compare_right) (alloc : Nat → Nat × Nat × Nat) (base : Nat)
    (hfresh : ∀ i < t1.inorder.length,
      0 < (alloc i).1 ∧ (alloc i).1 < size_max ∧ (alloc i).1 ≠ base)
    (hinj : ∀ i j, i < t1.inorder.length → j < t1.inorder.length →
      (alloc i).1 = (alloc j).1 → i = j) :
    ∀ (suf pre : List Nat) (s : bimap L R) (fuel : Nat), t1.inorder = pre ++ suf →
      suf.length ≤ fuel → reachable s → s.compare_left = b1.compare_left →
      s.compare_right = b1.compare_right → s.base = base →
      (∀ a ∈ s.mem.live, ∃ j < pre.length, a = (alloc j).1) →
      (s.pairs s.mem.live).Perm (b1.pairs pre) →
      (∃ tr, wf_at s (shape.spine s.mem.live) tr) →
      ∃ s', copy_loop b1 alloc fuel pre.length (suf.headD b1.base) s = some s' ∧
        reachable s' ∧ s'.compare_left = b1.compare_left ∧
        s'.compare_right = b1.compare_right ∧ s'.base = base ∧
        (∀ a ∈ s'.mem.live, ∃ j < t1.inorder.length, a = (alloc j).1) ∧
        (s'.pairs s'.mem.live).Perm (b1.pairs t1.inorder) ∧
        ∃ tr, wf_at s' (shape.spine s'.mem.live) tr := by
  intro suf
  induction suf with
  | nil =>
    intro pre s fuel hpre _ hr c1 c2 c3 hlive hperm hsp
    have he : bimap_iterator.eq b1.mem b1.base b1.end_left = true := node_eq_self _
    have hpre' : t1.inorder = pre := by simpa using hpre
    refine ⟨s, ?_, hr, c1, c2, c3, by rw [hpre']; exact hlive, by rw [hpre']; exact hperm,
      hsp⟩
    cases fuel <;> simp [copy_loop, he]
  | cons x rest ih =>
    intro pre s fuel hpre hf hr c1 c2 c3 hlive hperm hsp
    cases fuel with
    | zero => simp at hf
    | succ f =>
      obtain ⟨ex, ix⟩ := hw1.left.step_suffix hpre
      have ex' : bimap_iterator.eq b1.mem x b1.end_left = false := ex
      have hx1 : x ∈ t1.inorder := by rw [hpre]; simp
      have hxl : x ∈ b1.mem.live := hw1.left.mem_live.1 hx1
      have hn1 : t1.inorder.Nodup := (List.nodup_cons.1 hw1.left.nodup).2
      have hxpre : x ∉ pre := by
        rw [hpre] at hn1
        intro hc
        exact (List.nodup_append.1 hn1).2.2 hc (by simp)
      obtain ⟨l, hl⟩ := hw1.left.vals x hx1
      obtain ⟨r, hrv⟩ := hw1.right.vals x (hw1.right.mem_live.2 hxl)
      have hrv' : b1.mem.other x = some r := hrv
      have hi : pre.length < t1.inorder.length := by
        rw [hpre]; simp
      have hcl' : strict_weak s.compare_left := by rw [c1]; exact hcl
      have hcr' : strict_weak s.compare_right := by rw [c2]; exact hcr
      obtain ⟨tr, hws⟩ := hsp
      have hfr : s.fresh (alloc pre.length).1 := by
        obtain ⟨g1, g2, g3⟩ := hfresh pre.length hi
        refine ⟨g1, g2, by rw [c3]; exact g3, fun hc => ?_⟩
        obtain ⟨j, hj, hja⟩ := hlive _ hc
        have := hinj pre.length j hi (lt_trans hj hi) hja
        omega
      have hpremem : ∀ z ∈ pre, z ∈ b1.mem.live := by
        intro z hz
        exact hw1.left.mem_live.1 (by rw [hpre]; simp [hz])
      have hlt : ¬ s.left_taken l := by
        rintro ⟨b, hb, y, hy, g1, g2⟩
        have hmem : (s.mem.value b, s.mem.other b) ∈ s.pairs s.mem.live :=
          List.mem_map.2 ⟨b, hb, rfl⟩
        obtain ⟨z, hz, hzv, _⟩ := mem_pairs (hperm.mem_iff.1 hmem)
        simp only at hzv
        rw [hy] at hzv
        rw [c1] at g1 g2
        have := hw1.left.value_inj hcl (hpremem z hz) hxl hzv hl g1 g2
        exact hxpre (this ▸ hz)
      have hrt : ¬ s.right_taken r := by
        rintro ⟨b, hb, y, hy, g1, g2⟩
        have hmem : (s.mem.value b, s.mem.other b) ∈ s.pairs s.mem.live :=
          List.mem_map.2 ⟨b, hb, rfl⟩
        obtain ⟨z, hz, _, hzv⟩ := mem_pairs (hperm.mem_iff.1 hmem)
        simp only at hzv
        rw [hy] at hzv
        rw [c2] at g1 g2
        have hzv' : b1.mem.flipped.value z = some y := hzv
        have := hw1.right.value_inj hcr (hpremem z hz) hxl hzv' hrv g1 g2
        exact hxpre (this ▸ hz)
      have hgt : ∀ b ∈ s.mem.live, ∃ v, s.mem.value b = some v ∧
          s.compare_left v l = true := by
        intro b hb
        have hmem : (s.mem.value b, s.mem.other b) ∈ s.pairs s.mem.live :=
          List.mem_map.2 ⟨b, hb, rfl⟩
        obtain ⟨z, hz, hzv, _⟩ := mem_pairs (hperm.mem_iff.1 hmem)
        simp only at hzv
        have hsorted := hw1.left.sorted
        rw [hpre] at hsorted
        obtain ⟨u, w, g1, g2, g3⟩ := (List.pairwise_append.1 hsorted).2.2 z hz x (by simp)
        rw [hl] at g2
        cases g2
        exact ⟨u, by rw [← hzv]; exact g1, by rw [c1]; exact g3⟩
      obtain ⟨s', tr', e1, e2, e7, e8, e9, _, e11, e12, e13⟩ :=
        hws.insert_last hcl' hcr' (alloc pre.length).2.1 (alloc pre.length).2.2 hfr hgt hrt
      have hr' : reachable s' := reachable.insert l r _ _ _ hr hfr e1
      have hlive' : ∀ a ∈ s'.mem.live, ∃ j < (pre ++ [x]).length, a = (alloc j).1 := by
        intro a ha
        rw [e7] at ha
        rw [List.length_append, List.length_singleton]
        rcases List.mem_cons.1 ha with g | g
        · exact ⟨pre.length, by omega, g⟩
        · obtain ⟨j, hj, hja⟩ := hlive a g
          exact ⟨j, by omega, hja⟩
      have hperm' : (s'.pairs s'.mem.live).Perm (b1.pairs (pre ++ [x])) := by
        have hold : s'.pairs s.mem.live = s.pairs s.mem.live := by
          refine pairs_congr (fun b hb => ?_)
          have hba : b ≠ (alloc pre.length).1 := fun hc => hfr.2.2.2 (hc ▸ hb)
          rw [e8, e9]
          simp [hba]
        have hhead : s'.pairs s'.mem.live = (some l, some r) :: s.pairs s.mem.live := by
          rw [e7, ← hold]
          simp [bimap.pairs, bimap_iterator.deref, bimap_iterator.flip, store.flipped, e8, e9]
        have htail : b1.pairs (pre ++ [x]) = b1.pairs pre ++ [(some l, some r)] := by
          simp [bimap.pairs, bimap_iterator.deref, bimap_iterator.flip, store.flipped, hl, hrv']
        rw [hhead, htail]
        exact (List.Perm.cons _ hperm).trans (List.perm_append_singleton _ _).symm
      have hlen : (pre ++ [x]).length = pre.length + 1 := by simp
      obtain ⟨s2, k1, k2⟩ := ih (pre ++ [x]) s' f (by simp [hpre]) (by simpa using hf) hr'
        (by rw [e11, c1]) (by rw [e12, c2]) (by rw [e13, c3]) hlive' hperm'
        ⟨tr', by rw [e7]; exact e2⟩
      rw [hlen] at k1
      refine ⟨s2, ?_, k2⟩
      simp only [List.headD_cons, copy_loop, ex', bimap_iterator.deref, bimap_iterator.flip,
        hl, store.flipped, hrv', e1, ix]
      simpa using k1

end bimap

namespace bimap

variable {L R : Type}

/-- Erasing a record writes no node outside the records and the sentinel of the bimap. -/
theorem wf_at.erase_writes_own {s : bimap L R} {tl tr : shape} (h : wf_at s tl tr) {it : Nat}
    (hit : it ∈ s.mem.live) :
    ∃ (h1 : store L R) (ans : Nat), map.erase s.mem it = some (h1, ans) ∧
      h1.value = s.mem.value ∧ h1.other = s.mem.other ∧
      ∀ y, y ∉ s.base :: s.mem.live → h1.cur y = s.mem.cur y ∧ h1.opp y = s.mem.opp y := by
  have hit1 : it ∈ tl.inorder := h.left.mem_live.2 hit
  have hit2 : it ∈ tr.inorder := h.right.mem_live.2 hit
  obtain ⟨m1, t1, e1, _, _, e4⟩ :=
    h.left.side.erase_node_frame hit1 (le_of_lt h.left.size_lt_fuel)
  obtain ⟨m2, t2, f1, _, _, f4⟩ :=
    h.right.side.erase_node_frame hit2 (le_of_lt h.right.size_lt_fuel)
  have f1' : bimap_impl.erase s.mem.opp s.mem.fuel it = some m2 := f1
  refine ⟨{ s.mem with cur := m1, opp := m2, live := s.mem.live.erase it },
    next_of tl.inorder s.base it, ?_, rfl, rfl,
    fun y hy => ⟨e4 y ?_, f4 y ?_⟩⟩
  · simp only [map.erase, h.left.inc hit1, e1, bimap_iterator.flip, f1']
  · intro hc
    rcases List.mem_cons.1 hc with g | g
    · exact hy (by simp [g])
    · exact hy (List.mem_cons_of_mem _ (h.left.mem_live.1 g))
  · intro hc
    rcases List.mem_cons.1 hc with g | g
    · exact hy (by simp [g])
    · exact hy (List.mem_cons_of_mem _ (h.right.mem_live.1 g))

/-- Erasing by left key writes no node outside the records and the sentinel of the
bimap. -/
theorem wf_at.erase_left_value_writes_own [DecidableEq L] {s : bimap L R} {tl tr : shape}
    (h : wf_at s tl tr) (hcl : strict_weak s.compare_left) {k : L} {s' : bimap L R} {b : Bool}
    (he : s.erase_left_value k = some (s', b)) :
    ∀ y, y ∉ s.base :: s.mem.live →
      s'.mem.cur y = s.mem.cur y ∧ s'.mem.opp y = s.mem.opp y := by
  by_cases hm : ∃ a ∈ s.mem.live, s.mem.value a = some k
  · obtain ⟨a, ha, hv⟩ := hm
    obtain ⟨h1, ans, e1, _, _, e4⟩ := h.erase_writes_own ha
    rw [h.erase_left_value_of_mem hcl ha hv] at he
    simp only [bimap.erase_left, e1, Option.map_some', Option.some.injEq, Prod.mk.injEq] at he
    rw [← he.1]
    exact e4
  · have hm' : ∀ a ∈ s.mem.live, s.mem.value a ≠ some k := fun a ha hv => hm ⟨a, ha, hv⟩
    rw [h.erase_left_value_of_not_mem hcl hm'] at he
    simp only [Option.some.injEq, Prod.mk.injEq] at he
    rw [← he.1]
    exact fun y _ => ⟨rfl, rfl⟩

/-- Erasing by right key writes no node outside the records and the sentinel of the
bimap. -/
theorem wf_at.erase_right_value_writes_own [DecidableEq R] {s : bimap L R} {tl tr : shape}
    (h : wf_at s tl tr) (hcr : strict_weak s.compare_right) {k : R} {s' : bimap L R} {b : Bool}
    (he : s.erase_right_value k = some (s', b)) :
    ∀ y, y ∉ s.base :: s.mem.live →
      s'.mem.cur y = s.mem.cur y ∧ s'.mem.opp y = s.mem.opp y := by
  by_cases hm : ∃ a ∈ s.mem.live, s.mem.other a = some k
  · obtain ⟨a, ha, hv⟩ := hm
    have hit1 : a ∈ tl.inorder := h.left.mem_live.2 ha
    have hit2 : a ∈ tr.inorder := h.right.mem_live.2 ha
    obtain ⟨m1, t1, e1, _, _, e4⟩ :=
      h.left.side.erase_node_frame hit1 (le_of_lt h.left.size_lt_fuel)
    obtain ⟨m2, t2, f1, _, _, f4⟩ :=
      h.right.side.erase_node_frame hit2 (le_of_lt h.right.size_lt_fuel)
    have e1' : bimap_impl.erase s.mem.flipped.opp s.mem.flipped.fuel a = some m1 := e1
    have f1' : bimap_impl.erase s.mem.flipped.cur s.mem.flipped.fuel a = some m2 := f1
    rw [h.erase_right_value_of_mem hcr ha hv] at he
    simp only [bimap.erase_right, map.erase, h.right.inc hit2, f1', bimap_iterator.flip, e1',
      Option.map_some', Option.some.injEq, Prod.mk.injEq] at he
    rw [← he.1]
    intro y hy
    refine ⟨e4 y ?_, f4 y ?_⟩
    · intro hc
      rcases List.mem_cons.1 hc with g | g
      · exact hy (by simp [g])
      · exact hy (List.mem_cons_of_mem _ (h.left.mem_live.1 g))
    · intro hc
      rcases List.mem_cons.1 hc with g | g
      · exact hy (by simp [g])
      · exact hy (List.mem_cons_of_mem _ (h.right.mem_live.1 g))
  · have hm' : ∀ a ∈ s.mem.live, s.mem.other a ≠ some k := fun a ha hv => hm ⟨a, ha, hv⟩
    rw [h.erase_right_value_of_not_mem hcr hm'] at he
    simp only [Option.some.injEq, Prod.mk.injEq] at he
    rw [← he.1]
    exact fun y _ => ⟨rfl, rfl⟩

end bimap

namespace bimap

variable {L R : Type}

theorem forall₂_same_pair {a b : bimap L R} (hcl : strict_weak a.compare_left)
    (hcr : strict_weak a.compare_right) :
    ∀ (l1 l2 : List Nat), a.pairs l1 = b.pairs l2 →
      (∀ y ∈ l2, (∃ v, b.mem.value y = some v) ∧ ∃ w, b.mem.other y = some w) →
      List.Forall₂ (same_pair a b) l1 l2 := by
  intro l1
  induction l1 with
  | nil =>
    intro l2 h _
    cases l2 with
    | nil => exact List.Forall₂.nil
    | cons y ys => simp [bimap.pairs] at h
  | cons x xs ih =>
    intro l2 h hv
    cases l2 with
    | nil => simp [bimap.pairs] at h
    | cons y ys =>
      simp only [bimap.pairs, List.map_cons, List.cons.injEq, Prod.mk.injEq,
        bimap_iterator.deref, bimap_iterator.flip, store.flipped] at h
      obtain ⟨⟨v, hv1⟩, ⟨w, hw1⟩⟩ := hv y (by simp)
      refine List.Forall₂.cons ?_ (ih ys h.2 (fun z hz => hv z (by simp [hz])))
      exact ⟨v, v, w, w, by rw [h.1.1, hv1], hv1, by rw [h.1.2, hw1], hw1, hcl.irrefl v,
        hcl.irrefl v, hcr.irrefl w, hcr.irrefl w⟩

/-- Claim C24: for a reachable bimap `b1`, the copy constructor, whose `new` returns
addresses that are pairwise distinct and in use neither by `b1` nor by the new sentinel,
returns a bimap `b2` with the `size()` of `b1` and the same sequence of pairs in left
order and in right order, so that `b2 == b1` is `true`; `b2` is itself reachable by
`insert`, none of its records and neither its sentinel is a record or the sentinel of
`b1`, and erasing a left or a right key from `b1` writes none of them. -/
theorem copy_ctor_spec [DecidableEq L] [DecidableEq R] (b1 : bimap L R) (hr : reachable b1)
    (hcl : strict_weak b1.compare_left) (hcr : strict_weak b1.compare_right)
    (base p q : Nat) (alloc : Nat → Nat × Nat × Nat)
    (hfresh : ∀ i < b1.size, 0 < (alloc i).1 ∧ (alloc i).1 < size_max ∧ (alloc i).1 ≠ base)
    (hinj : ∀ i j, i < b1.size → j < b1.size → (alloc i).1 = (alloc j).1 → i = j)
    (hsep : base ∉ b1.base :: b1.mem.live ∧
      ∀ i < b1.size, (alloc i).1 ∉ b1.base :: b1.mem.live) :
    ∃ (b2 : bimap L R) (it1 ir1 it2 ir2 : List Nat),
      b1.copy_ctor base p q alloc = some b2 ∧ reachable b2 ∧
      b1.walk_left = some it1 ∧ b1.walk_right = some ir1 ∧
      b2.walk_left = some it2 ∧ b2.walk_right = some ir2 ∧
      b2.size = b1.size ∧ b2.pairs it2 = b1.pairs it1 ∧ b2.pairs ir2 = b1.pairs ir1 ∧
      b2.op_eq b1 = some true ∧
      (∀ y ∈ b2.base :: b2.mem.live, y ∉ b1.base :: b1.mem.live) ∧
      (∀ (k : L) (b1' : bimap L R) (r : Bool), b1.erase_left_value k = some (b1', r) →
        ∀ y ∈ b2.base :: b2.mem.live,
          b1'.mem.cur y = b1.mem.cur y ∧ b1'.mem.opp y = b1.mem.opp y) ∧
      (∀ (k : R) (b1' : bimap L R) (r : Bool), b1.erase_right_value k = some (b1', r) →
        ∀ y ∈ b2.base :: b2.mem.live,
          b1'.mem.cur y = b1.mem.cur y ∧ b1'.mem.opp y = b1.mem.opp y) := by
  obtain ⟨t1, r1, hw1⟩ := hr.wf hcl hcr
  have hn : t1.inorder.length = b1.size := by
    rw [hw1.left.perm.length_eq]; exact hw1.size.symm
  obtain ⟨b2, k1, k2, c1, c2, c3, k6, k7, _⟩ :=
    copy_loop_spec hw1 hcl hcr alloc base (by rw [hn]; exact hfresh) (by rw [hn]; exact hinj)
      t1.inorder [] (bimap.ctor b1.compare_left b1.compare_right base p q) b1.mem.fuel rfl
      (le_of_lt (by rw [shape.length_inorder]; exact hw1.left.size_lt_fuel))
      (reachable.ctor _ _ base p q) rfl rfl rfl (by intro a ha; simp [bimap.ctor] at ha)
      (by simp [bimap.pairs, bimap.ctor]) ⟨.nil, wf_ctor _ _ base p q⟩
  have hrun : b1.copy_ctor base p q alloc = some b2 := by
    have e1 : b1.begin_left = some (t1.inorder.headD b1.base) := hw1.left.begin
    simp only [copy_ctor, e1]
    exact k1
  have hcl2 : strict_weak b2.compare_left := by rw [c1]; exact hcl
  have hcr2 : strict_weak b2.compare_right := by rw [c2]; exact hcr
  obtain ⟨t2, r2, hw2⟩ := k2.wf hcl2 hcr2
  have hsize : b2.size = b1.size := by
    have h1 : b2.size = b2.mem.live.length := hw2.size
    have h2 := k7.length_eq
    simp only [bimap.pairs, List.length_map] at h2
    rw [h1, h2, hn]
  have hpl : (b2.pairs t2.inorder).Perm (b1.pairs t1.inorder) :=
    (List.Perm.map _ hw2.left.perm).trans k7
  have hpr : (b2.pairs r2.inorder).Perm (b1.pairs r1.inorder) := by
    have g1 : (b2.pairs r2.inorder).Perm (b2.pairs b2.mem.live) :=
      List.Perm.map _ hw2.right.perm
    have g2 : (b1.pairs t1.inorder).Perm (b1.pairs r1.inorder) :=
      List.Perm.map _ (hw1.left.perm.trans hw1.right.perm.symm)
    exact (g1.trans k7).trans g2
  have hsl := hw2.pairs_sorted_left
  have hsr := hw2.pairs_sorted_right
  rw [c1] at hsl
  rw [c2] at hsr
  have hel : b2.pairs t2.inorder = b1.pairs t1.inorder :=
    sorted_perm_unique hcl Prod.fst hpl hsl hw1.pairs_sorted_left
  have her : b2.pairs r2.inorder = b1.pairs r1.inorder :=
    sorted_perm_unique hcr Prod.snd hpr hsr hw1.pairs_sorted_right
  have hdis : ∀ y ∈ b2.base :: b2.mem.live, y ∉ b1.base :: b1.mem.live := by
    intro y hy
    rcases List.mem_cons.1 hy with g | g
    · rw [g, c3]; exact hsep.1
    · obtain ⟨j, hj, hja⟩ := k6 y g
      rw [hja]
      exact hsep.2 j (by rw [← hn]; exact hj)
  obtain ⟨res, o1, _, o3⟩ := hw2.op_eq_spec hw1
  have hres : res = true := by
    rw [o3]
    refine ⟨hsize, forall₂_same_pair hcl2 hcr2 _ _ hel (fun y hy => ?_)⟩
    exact ⟨hw1.left.vals y hy,
      hw1.right.vals y (hw1.right.mem_live.2 (hw1.left.mem_live.1 hy))⟩
  rw [hres] at o1
  exact ⟨b2, t1.inorder, r1.inorder, t2.inorder, r2.inorder, hrun, k2, hw1.walk_left,
    hw1.walk_right, hw2.walk_left, hw2.walk_right, hsize, hel, her, o1, hdis,
    fun k b1' r he y hy => hw1.erase_left_value_writes_own hcl he y (hdis y hy),
    fun k b1' r he y hy => hw1.erase_right_value_writes_own hcr he y (hdis y hy)⟩

theorem copy_ctor_spec_witness :
    reachable demo4 ∧ strict_weak demo4.compare_left ∧ strict_weak demo4.compare_right ∧
    (∀ i < demo4.size,
      0 < (demo_alloc i).1 ∧ (demo_alloc i).1 < size_max ∧ (demo_alloc i).1 ≠ 10) ∧
    (∀ i j, i < demo4.size → j < demo4.size → (demo_alloc i).1 = (demo_alloc j).1 → i = j) ∧
    (10 ∉ demo4.base :: demo4.mem.live ∧
      ∀ i < demo4.size, (demo_alloc i).1 ∉ demo4.base :: demo4.mem.live) ∧
    ∃ (b2 : bimap Nat Nat) (it1 ir1 it2 ir2 : List Nat),
      demo4.copy_ctor 10 0 0 demo_alloc = some b2 ∧ reachable b2 ∧
      demo4.walk_left = some it1 ∧ demo4.walk_right = some ir1 ∧
      b2.walk_left = some it2 ∧ b2.walk_right = some ir2 ∧
      b2.size = demo4.size ∧ b2.pairs it2 = demo4.pairs it1 ∧
      b2.pairs ir2 = demo4.pairs ir1 ∧ b2.op_eq demo4 = some true ∧
      (∀ y ∈ b2.base :: b2.mem.live, y ∉ demo4.base :: demo4.mem.live) ∧
      (∀ (k : Nat) (b1' : bimap Nat Nat) (r : Bool),
        demo4.erase_left_value k = some (b1', r) →
        ∀ y ∈ b2.base :: b2.mem.live,
          b1'.mem.cur y = demo4.mem.cur y ∧ b1'.mem.opp y = demo4.mem.opp y) ∧
      (∀ (k : Nat) (b1' : bimap Nat Nat) (r : Bool),
        demo4.erase_right_value k = some (b1', r) →
        ∀ y ∈ b2.base :: b2.mem.live,
          b1'.mem.cur y = demo4.mem.cur y ∧ b1'.mem.opp y = demo4.mem.opp y) := by
  have hsz : demo4.size = 4 := rfl
  have hlive : demo4.base :: demo4.mem.live = [0, 1, 2, 3, 4] := rfl
  have h1 : ∀ i < demo4.size,
      0 < (demo_alloc i).1 ∧ (demo_alloc i).1 < size_max ∧ (demo_alloc i).1 ≠ 10 := by
    intro i hi
    rw [hsz] at hi
    have h64 : (2 : Nat) ^ 64 = 18446744073709551616 := by norm_num
    show 0 < i + 11 ∧ i + 11 < 2 ^ 64 ∧ i + 11 ≠ 10
    rw [h64]
    exact ⟨by omega, by omega, by omega⟩
  have h2 : ∀ i j, i < demo4.size → j < demo4.size →
      (demo_alloc i).1 = (demo_alloc j).1 → i = j := by
    intro i j _ _ h
    have h' : i + 11 = j + 11 := h
    omega
  have h3 : 10 ∉ demo4.base :: demo4.mem.live ∧
      ∀ i < demo4.size, (demo_alloc i).1 ∉ demo4.base :: demo4.mem.live := by
    rw [hlive]
    refine ⟨by decide, fun i _ => ?_⟩
    show i + 11 ∉ [0, 1, 2, 3, 4]
    intro hc
    simp only [List.mem_cons, List.mem_singleton, List.not_mem_nil, or_false] at hc
    omega
  exact ⟨demo4_reachable, nat_less_strict_weak, nat_less_strict_weak, h1, h2, h3,
    copy_ctor_spec demo4 demo4_reachable nat_less_strict_weak nat_less_strict_weak 10 0 0
      demo_alloc h1 h2 h3⟩

end bimap

/-! ## The claims on `signal` -/

namespace signals

open intrusive

variable {A U : Type}

theorem chain_congr {m m' : Links} {s : Nat} :
    ∀ (cs : List Nat) (x : Nat), (∀ c ∈ cs, (m' c).next = (m c).next) → chain m s x cs →
      chain m' s x cs := by
  intro cs
  induction cs with
  | nil => intro x _ h; exact h
  | cons c rest ih =>
    intro x hm h
    obtain ⟨h1, h2, h3⟩ := h
    refine ⟨h1, h2, ?_⟩
    rw [hm c (by simp)]
    exact ih _ (fun d hd => hm d (by simp [hd])) h3

theorem chain_unique {m : Links} {s : Nat} :
    ∀ (l1 l2 : List Nat) (x : Nat), chain m s x l1 → chain m s x l2 → l1 = l2 := by
  intro l1
  induction l1 with
  | nil =>
    intro l2 x h1 h2
    cases l2 with
    | nil => rfl
    | cons c rest =>
      obtain ⟨g1, g2, _⟩ := h2
      have h1' : x = s := h1
      exact absurd (g1.symm.trans h1') g2
  | cons c rest ih =>
    intro l2 x h1 h2
    obtain ⟨g1, g2, g3⟩ := h1
    cases l2 with
    | nil =>
      have h2' : x = s := h2
      exact absurd (g1.symm.trans h2') g2
    | cons d rest2 =>
      obtain ⟨k1, _, k3⟩ := h2
      have hcd : c = d := g1.symm.trans k1
      subst hcd
      rw [ih rest2 _ g3 k3]

theorem chain_suffix {m : Links} {s : Nat} :
    ∀ (pre suf : List Nat) (x : Nat), chain m s x (pre ++ suf) →
      ∃ y, chain m s y suf := by
  intro pre
  induction pre with
  | nil => intro suf x h; exact ⟨x, h⟩
  | cons c rest ih =>
    intro suf x h
    obtain ⟨_, _, h3⟩ := h
    exact ih suf _ h3

/-- The connections met on the way round the list are pairwise distinct. -/
theorem chain_nodup {m : Links} {s : Nat} :
    ∀ (cs : List Nat) (x : Nat), chain m s x cs → cs.Nodup := by
  intro cs
  induction cs with
  | nil => intro _ _; exact List.nodup_nil
  | cons c rest ih =>
    intro x h
    have h' := h
    obtain ⟨h1, h2, h3⟩ := h
    refine List.nodup_cons.2 ⟨fun hc => ?_, ih _ h3⟩
    obtain ⟨as, bs, hab⟩ := List.append_of_mem hc
    rw [hab] at h3
    obtain ⟨y, hy⟩ := chain_suffix as (c :: bs) _ h3
    have hyc : y = c := hy.1
    rw [hyc] at hy
    have hfull : chain m s c (c :: rest) := ⟨rfl, h2, h'.2.2⟩
    have := chain_unique _ _ c hfull hy
    have hlen := congrArg List.length this
    rw [hab] at hlen
    simp at hlen
    omega

theorem run_slots_congr {h h' : heap A U} (hs : ∀ c, (h'.conn c).slot_ = (h.conn c).slot_)
    (cs : List Nat) (args : A) (u : U) : run_slots h' cs args u = run_slots h cs args u := by
  unfold run_slots
  induction cs generalizing u with
  | nil => rfl
  | cons c rest ih => simp only [List.foldl_cons, hs c, ih]

/-- The loop of the token over the list ends and changes neither the links nor the
slots. -/
theorem set_tokens_spec {sig : Nat} (v : Option Nat) :
    ∀ (cs : List Nat) (h : heap A U) (x fuel : Nat), chain h.elem sig x cs →
      cs.length ≤ fuel →
      ∃ h', set_tokens sig v fuel h x = some h' ∧ h'.elem = h.elem ∧ h'.token = h.token ∧
        h'.token_ = h.token_ ∧ ∀ c, (h'.conn c).slot_ = (h.conn c).slot_ := by
  intro cs
  induction cs with
  | nil =>
    intro h x fuel hx _
    have hx' : x = sig := hx
    refine ⟨h, ?_, rfl, rfl, rfl, fun _ => rfl⟩
    cases fuel <;> simp [set_tokens, list.end_, hx']
  | cons c rest ih =>
    intro h x fuel hx hf
    obtain ⟨h1, h2, h3⟩ := hx
    cases fuel with
    | zero => simp at hf
    | succ f =>
      subst h1
      obtain ⟨h', e1, e2, e3, e4, e5⟩ :=
        ih { h with conn := fun c => if c = x then { h.conn x with it_ := v, strong_it := v }
                                     else h.conn c } (h.elem x).next f h3 (by simpa using hf)
      refine ⟨h', ?_, e2, e3, e4, fun c => ?_⟩
      · simp only [set_tokens, list.end_, h2, if_false]
        exact e1
      · rw [e5 c]
        by_cases hcx : c = x
        · simp [hcx]
        · simp [hcx]

/-- The loop of the emission invokes the slots met from the position of the token to
the end of the list, once each and in this order. -/
theorem emit_loop_spec {sig : Nat} (args : A) (tk : Nat) :
    ∀ (cs : List Nat) (h : heap A U) (u : U) (fuel : Nat), (h.token tk).sig_ = some sig →
      chain h.elem sig (h.token tk).it cs → (∀ c ∈ cs, ∃ f, (h.conn c).slot_ = some f) →
      cs.length ≤ fuel →
      ∃ h', emit_loop args tk fuel h u = some (h', run_slots h cs args u, .ok ()) ∧
        h'.elem = h.elem ∧ h'.conn = h.conn ∧ h'.token_ = h.token_ ∧
        (h'.token tk).sig_ = some sig ∧ (h'.token tk).prev = (h.token tk).prev := by
  intro cs
  induction cs with
  | nil =>
    intro h u fuel hs hx _ _
    have hx' : (h.token tk).it = sig := hx
    refine ⟨h, ?_, rfl, rfl, rfl, hs, rfl⟩
    cases fuel <;> simp [emit_loop, hs, list.end_, hx', run_slots]
  | cons c rest ih =>
    intro h u fuel hs hx hsl hf
    obtain ⟨h1, h2, h3⟩ := hx
    obtain ⟨f, hfc⟩ := hsl c (by simp)
    cases fuel with
    | zero => simp at hf
    | succ n =>
      have hne : (h.token tk).it ≠ list.end_ sig := by rw [h1]; exact h2
      obtain ⟨h', e1, e2, e3, e4, e5, e6⟩ :=
        ih { h with token := fun t => if t = tk then
                                         ⟨some sig, (h.elem (h.token tk).it).next,
                                           (h.token tk).prev⟩
                                       else h.token t }
          (f args u) n (by simp) (by simpa [h1] using h3)
          (fun d hd => hsl d (by simp [hd])) (by simpa using hf)
      refine ⟨h', ?_, e2, e3, e4, e5, by simpa using e6⟩
      have hrun : run_slots h (c :: rest) args u = run_slots h rest args (f args u) := by
        simp [run_slots, hfc]
      rw [hrun]
      have hfc' : (h.conn (h.token tk).it).slot_ = some f := by rw [h1]; exact hfc
      simp only [emit_loop, hs, hne, if_true, hfc', ne_eq, not_false_eq_true]
      exact e1

/-- One emission on a signal whose list holds the connections `cs`. -/
theorem emit_spec {h : heap A U} {sig : Nat} {cs : List Nat} (hc : connected h sig cs)
    (tk : Nat) (args : A) (u : U) {fuel : Nat} (hf : cs.length ≤ fuel) :
    ∃ h', signal.emit h sig tk args u fuel = some (h', run_slots h cs args u, .ok ()) ∧
      connected h' sig cs ∧ (∀ c, (h'.conn c).slot_ = (h.conn c).slot_) ∧
      h'.token_ = h.token_ := by
  obtain ⟨c1, c2, c3⟩ := hc
  obtain ⟨h3, a1, a2, a3, a4, a5⟩ := set_tokens_spec (some tk) cs
    ({ elem := h.elem, conn := h.conn,
       token := fun t => if t = tk then ⟨some sig, list.begin h.elem sig, h.token_ sig⟩
                         else h.token t,
       token_ := fun s => if s = sig then some tk else h.token_ s } : heap A U)
    (h.elem sig).next fuel c1 hf
  have b0 : (h3.token tk).sig_ = some sig := by rw [a3]; simp
  have b1 : chain h3.elem sig (h3.token tk).it cs := by
    rw [a2, a3]
    simpa [list.begin] using c1
  obtain ⟨h4, d1, d2, d3, d4, d5, d6⟩ := emit_loop_spec args tk cs h3 u fuel b0 b1
    (fun c hcm => by rw [a5 c]; exact c3 c hcm) hf
  have hprev : (h4.token tk).prev = h.token_ sig := by rw [d6, a3]; simp
  obtain ⟨h6, g1, g2, g3, g4, g5⟩ := set_tokens_spec (h4.token tk).prev cs
    ({ h4 with token_ := fun s => if s = sig then (h4.token tk).prev else h4.token_ s } :
      heap A U)
    (h.elem sig).next fuel (by
      show chain h4.elem sig (h.elem sig).next cs
      rw [d2, a2]; exact c1) hf
  have hslots : ∀ c, (h6.conn c).slot_ = (h.conn c).slot_ := by
    intro c
    rw [g5 c]
    show (h4.conn c).slot_ = (h.conn c).slot_
    rw [d3, a5 c]
  have helem : h6.elem = h.elem := by
    rw [g2]
    show h4.elem = h.elem
    rw [d2, a2]
  refine ⟨h6, ?_, ⟨by rw [helem]; exact c1, by rw [helem]; exact c2,
    fun c hcm => by rw [hslots c]; exact c3 c hcm⟩, hslots, ?_⟩
  · have hr : run_slots h3 cs args u = run_slots h cs args u := run_slots_congr a5 cs args u
    rw [hr] at d1
    have a1' : token_ctor h tk sig fuel = some h3 := a1
    have g1' : token_dtor h4 tk fuel = some h6 := by
      simp only [token_dtor, d5]
      have : list.begin h4.elem sig = (h.elem sig).next := by
        rw [d2, a2]; rfl
      rw [← this] at g1
      exact g1
    simp only [signal.emit, a1', d1, g1']
  · rw [g4]
    funext s
    show (if s = sig then (h4.token tk).prev else h4.token_ s) = h.token_ s
    rw [hprev, d4, a4]
    by_cases hs : s = sig
    · simp [hs]
    · simp [hs]

end signals

namespace signals

open intrusive

variable {A U : Type}

/-- A freshly constructed signal has an empty list. -/
theorem connected_ctor (h : heap A U) (sig : Nat) : connected (signal.ctor h sig) sig [] := by
  refine ⟨?_, ?_, fun c hc => by simp at hc⟩
  · show ((signal.ctor h sig).elem sig).next = sig
    simp [signal.ctor]
  · simp [signal.ctor]

/-- Appending an element to a chain: the former last element points to it and it
points to the sentinel. -/
theorem chain_snoc {m m' : Links} {s c : Nat} (hcs : c ≠ s) (hc : (m' c).next = s) :
    ∀ (cs : List Nat) (x : Nat), chain m s x cs → cs.Nodup →
      (∀ d ∈ cs, d ≠ cs.getLastD s → (m' d).next = (m d).next) →
      (cs ≠ [] → (m' (cs.getLastD s)).next = c) →
      chain m' s (if cs = [] then c else x) (cs ++ [c]) := by
  intro cs
  induction cs with
  | nil =>
    intro x _ _ _ _
    exact ⟨rfl, hcs, hc⟩
  | cons d rest ih =>
    intro x hx hn hfr hl
    obtain ⟨h1, h2, h3⟩ := hx
    have hn' := List.nodup_cons.1 hn
    simp only [List.cons_ne_nil, if_false, List.cons_append]
    refine ⟨h1, h2, ?_⟩
    cases hr : rest with
    | nil =>
      subst hr
      have := hl (by simp)
      simp only [List.getLastD_cons, List.getLastD_nil] at this
      rw [this]
      exact ⟨rfl, hcs, hc⟩
    | cons e rest2 =>
      have hne : rest ≠ [] := by rw [hr]; simp
      have hlast : (d :: rest).getLastD s = rest.getLastD s := by
        rw [hr]; simp [List.getLastD_cons]
      have hmem : rest.getLastD s ∈ rest := by
        rw [hr]
        simp only [List.getLastD_cons]
        rw [List.getLastD_eq_getLast?]
        have hh : (e :: rest2).getLast? = some ((e :: rest2).getLast (by simp)) :=
          List.getLast?_eq_getLast _ _
        have hh2 : rest2.getLast?.getD e = (e :: rest2).getLast (by simp) := by
          cases rest2 with
          | nil => rfl
          | cons z zs =>
            rw [List.getLast?_eq_getLast _ (by simp)]
            simp
        rw [hh2]
        exact List.getLast_mem _
      have hd : d ≠ (d :: rest).getLastD s := by
        rw [hlast]
        intro hc'
        exact hn'.1 (hc' ▸ hmem)
      rw [hfr d (by simp) hd]
      have := ih (m d).next h3 hn'.2
        (fun z hz hzl => hfr z (by simp [hz]) (by rw [hlast]; exact hzl))
        (fun _ => by
          have := hl (by simp)
          rw [hlast] at this
          exact this)
      rw [← hr]
      simpa [hne] using this

/-- The links written by `link`. -/
theorem link_spec (m : Links) {c s last : Nat} (hprev : (m s).prev = last) (hc : c ≠ s)
    (hlc : last ≠ c) :
    (link m c s c).next = s ∧ (link m c s last).next = c ∧ (link m c s s).prev = c ∧
      ∀ d, d ≠ c → d ≠ last → (link m c s d).next = (m d).next := by
  refine ⟨?_, ?_, ?_, fun d h1 h2 => ?_⟩
  · simp [link, Links.wnext, Links.wprev]
  · simp only [link, Links.wnext, Links.wprev, hprev, if_true]
    by_cases h3 : last = s
    · simp [hlc, h3, hc.symm]
    · simp [hlc, h3]
  · simp [link, Links.wnext, Links.wprev, hc.symm]
  · simp only [link, Links.wnext, Links.wprev, hprev, if_true]
    by_cases h3 : d = s
    · subst h3
      have h4 : ¬ c = d := fun hh => h1 hh.symm
      simp [h1, h2, h4]
    · simp [h1, h2, h3]

/-- `connect` appends the new connection to the list of the signal. -/
theorem connected.connect {h : heap A U} {sig : Nat} {cs : List Nat}
    (hc : connected h sig cs) {c : Nat} (hcs : c ≠ sig) (hcn : c ∉ cs) (f : A → U → U) :
    connected (signal.connect h sig c (some f)) sig (cs ++ [c]) ∧
      ∀ d, d ≠ c → (signal.connect h sig c (some f)).conn d = h.conn d := by
  obtain ⟨c1, c2, c3⟩ := hc
  have hnd := chain_nodup cs _ c1
  -- the store of the list elements once the connection has been built
  let m0 : Links := fun b => if b = c then ⟨c, c⟩ else h.elem b
  have hm0c : m0 c = ⟨c, c⟩ := by simp [m0]
  have hm0 : ∀ b, b ≠ c → m0 b = h.elem b := fun b hb => by simp [m0, hb]
  have hunl : unlink m0 c = m0 := by
    funext b
    by_cases hb : b = c
    · subst hb
      simp [unlink, link_on_this, Links.wnext, Links.wprev, hm0c]
    · simp [unlink, link_on_this, Links.wnext, Links.wprev, hm0c, hb]
  have hlastne : cs.getLastD sig ≠ c := by
    intro hx
    cases cs with
    | nil => exact hcs (by simpa using hx.symm)
    | cons e rest =>
      apply hcn
      rw [← hx, List.getLastD_cons, List.getLastD_eq_getLast?]
      cases rest with
      | nil => simp
      | cons z zs =>
        rw [List.getLast?_eq_getLast _ (by simp)]
        simp only [Option.getD_some]
        exact List.mem_cons_of_mem _ (List.getLast_mem _)
  have helem : (signal.connect h sig c (some f)).elem = link m0 c sig := by
    show list.push_back m0 sig c = link m0 c sig
    simp [list.push_back, list.insert, list.end_, hcs.symm, hunl]
  have hprev0 : (m0 sig).prev = cs.getLastD sig := by rw [hm0 sig hcs.symm]; exact c2
  obtain ⟨hnextc, hnextl, hprevs, hnext0⟩ := link_spec m0 hprev0 hcs hlastne
  have hnext : ∀ d, d ≠ c → d ≠ cs.getLastD sig → (link m0 c sig d).next = (h.elem d).next := by
    intro d h1 h2
    rw [hnext0 d h1 h2, hm0 d h1]
  have hchain := @chain_snoc h.elem (link m0 c sig) sig c hcs hnextc cs
    (h.elem sig).next c1 hnd
    (fun d hd hdl => hnext d (fun hx => hcn (hx ▸ hd)) hdl) (fun _ => hnextl)
  refine ⟨⟨?_, ?_, ?_⟩, fun d hd => ?_⟩
  · rw [helem]
    cases hcs' : cs with
    | nil =>
      subst hcs'
      have : (link m0 c sig sig).next = c := by simpa using hnextl
      rw [this]
      simpa using hchain
    | cons e rest =>
      have hne : cs ≠ [] := by rw [hcs']; simp
      have hsl : sig ≠ cs.getLastD sig := by
        intro hx
        have hmem : cs.getLastD sig ∈ cs := by
          rw [hcs', List.getLastD_cons, List.getLastD_eq_getLast?]
          cases rest with
          | nil => simp
          | cons z zs =>
            rw [List.getLast?_eq_getLast _ (by simp)]
            simp only [Option.getD_some]
            exact List.mem_cons_of_mem _ (List.getLast_mem _)
        rw [← hx, hcs'] at hmem
        rw [hcs'] at c1
        obtain ⟨g1, g2, g3⟩ := c1
        rcases List.mem_cons.1 hmem with g | g
        · exact g2 g.symm
        · obtain ⟨as, bs, hab⟩ := List.append_of_mem g
          rw [hab] at g3
          obtain ⟨y, hy⟩ := chain_suffix as (sig :: bs) _ g3
          exact hy.2.1 rfl
      rw [hnext sig hcs.symm hsl, ← hcs']
      simpa [hne] using hchain
  · rw [helem, hprevs]
    simp [List.getLastD_eq_getLast?]
  · intro d hd
    rcases List.mem_append.1 hd with g | g
    · have hdc : d ≠ c := fun hx => hcn (hx ▸ g)
      obtain ⟨f', hf'⟩ := c3 d g
      exact ⟨f', by simp [signal.connect, hdc, hf']⟩
    · have hdc : d = c := by simpa using g
      exact ⟨f, by simp [signal.connect, hdc]⟩
  · simp [signal.connect, hd]

/-- Successive emissions on a signal whose list holds the connections `cs`. -/
theorem emit_times_spec {sig : Nat} {cs : List Nat} (tk : Nat) (args : A) {fuel : Nat}
    (hf : cs.length ≤ fuel) :
    ∀ (k : Nat) (h : heap A U) (u : U), connected h sig cs →
      ∃ hk, signal.emit_times sig tk args fuel k h u =
          some (hk, (run_slots h cs args)^[k] u) ∧
        connected hk sig cs ∧ ∀ c, (hk.conn c).slot_ = (h.conn c).slot_ := by
  intro k
  induction k with
  | zero => intro h u hc; exact ⟨h, rfl, hc, fun _ => rfl⟩
  | succ k ih =>
    intro h u hc
    obtain ⟨h1, e1, e2, e3, _⟩ := emit_spec hc tk args u hf
    obtain ⟨hk, k1, k2, k3⟩ := ih h1 (run_slots h cs args u) e2
    have hfun : run_slots h1 cs args = run_slots h cs args :=
      funext (fun v => run_slots_congr e3 cs args v)
    rw [hfun] at k1
    refine ⟨hk, ?_, k2, fun c => by rw [k3 c, e3 c]⟩
    simp only [signal.emit_times, e1, Function.iterate_succ, Function.comp_apply]
    exact k1

/-- Claim C30: let the list of a signal hold the connections `cs`, each with a slot that
is not empty, the slots acting on the state of the caller only (they neither connect nor
disconnect, and do not throw). Then the connections of `cs` are pairwise distinct, and
one emission with the arguments `args` returns normally after invoking the slot of each
connection of `cs` once with `args`, in the order of `cs`; the signal holds the same
connections afterwards, so that `k` successive emissions invoke each slot `k` times. -/
theorem emission_invokes_each_slot (h : heap A U) (sig tk : Nat) (cs : List Nat) (args : A)
    (u : U) (fuel k : Nat) (hc : connected h sig cs) (hf : cs.length ≤ fuel) :
    cs.Nodup ∧
    (∃ h', signal.emit h sig tk args u fuel = some (h', run_slots h cs args u, .ok ()) ∧
      connected h' sig cs ∧ ∀ c, (h'.conn c).slot_ = (h.conn c).slot_) ∧
    (∃ hk, signal.emit_times sig tk args fuel k h u =
        some (hk, (run_slots h cs args)^[k] u) ∧ connected hk sig cs) := by
  refine ⟨chain_nodup cs _ hc.1, ?_, ?_⟩
  · obtain ⟨h', e1, e2, e3, _⟩ := emit_spec hc tk args u hf
    exact ⟨h', e1, e2, e3⟩
  · obtain ⟨hk, k1, k2, _⟩ := emit_times_spec tk args hf k h u hc
    exact ⟨hk, k1, k2⟩

theorem demo_heap_connected : connected demo_heap 1 [2, 3] := by
  have h1 := (connected_ctor demo_heap0 1).connect (c := 2) (by decide) (by simp)
    (fun n u => (u.1 + n, u.2))
  have h2 := h1.1.connect (c := 3) (by decide) (by simp) (fun n u => (u.1, u.2 + n))
  exact h2.1

theorem emission_invokes_each_slot_witness :
    connected demo_heap 1 [2, 3] ∧ [2, 3].length ≤ 5 ∧
    run_slots demo_heap [2, 3] 7 (0, 0) = (7, 7) ∧
    (run_slots demo_heap [2, 3] 7)^[3] (0, 0) = (21, 21) ∧
    ([2, 3].Nodup ∧
    (∃ h', signal.emit demo_heap 1 9 7 (0, 0) 5 =
        some (h', run_slots demo_heap [2, 3] 7 (0, 0), .ok ()) ∧
      connected h' 1 [2, 3] ∧ ∀ c, (h'.conn c).slot_ = (demo_heap.conn c).slot_) ∧
    (∃ hk, signal.emit_times 1 9 7 5 3 demo_heap (0, 0) =
        some (hk, (run_slots demo_heap [2, 3] 7)^[3] (0, 0)) ∧ connected hk 1 [2, 3])) :=
  ⟨demo_heap_connected, by decide, rfl, rfl,
    emission_invokes_each_slot demo_heap 1 9 [2, 3] 7 (0, 0) 5 3 demo_heap_connected
      (by decide)⟩

end signals

namespace bimap_impl

/-- Claim C33: for two linked subtrees `a` and `b` with pairwise distinct nodes that are
heap ordered on the priorities, `merge(a, b)` with enough fuel returns the root of a
linked, heap-ordered subtree whose in-order sequence is that of `a` followed by that of
`b`, without changing a priority; merging with an empty subtree returns the other
subtree and leaves the store as it is. -/
theorem merge_heap_ordered (m : Mem) (fuel : Nat) (a b : shape) (pa pb : Nat)
    (hf : a.size + b.size ≤ fuel) (ha : linked m pa a) (hb : linked m pb b)
    (hn : (a.inorder ++ b.inorder).Nodup) (hha : heap_shape m a) (hhb : heap_shape m b) :
    (∃ (m' : Mem) (t' : shape) (p' : Nat),
      merge m fuel a.root b.root = some (m', t'.root) ∧ heap_shape m' t' ∧
      t'.inorder = a.inorder ++ b.inorder ∧ linked m' p' t' ∧
      (∀ y, (m' y).value = (m y).value)) ∧
    merge m fuel none b.root = some (m, b.root) ∧
    merge m fuel a.root none = some (m, a.root) := by
  obtain ⟨m', t', p', e1, e2, e3, _, e5, _, e7⟩ := merge_spec fuel a b pa pb hf ha hb hn
  refine ⟨⟨m', t', p', e1, e7 hha hhb, e3, e2, e5⟩, ?_, ?_⟩
  · cases fuel <;> simp [merge]
  · cases a with
    | nil => cases fuel <;> simp [merge, shape.root]
    | node l x r => cases fuel <;> simp [merge, shape.root]

theorem merge_heap_ordered_witness :
    (shape.node .nil 1 (.node .nil 2 .nil)).size + (shape.node .nil 4 .nil).size ≤ 3 ∧
    linked bimap.demo4.mem.cur 3 (.node .nil 1 (.node .nil 2 .nil)) ∧
    linked bimap.demo4.mem.cur 3 (.node .nil 4 .nil) ∧
    heap_shape bimap.demo4.mem.cur (.node .nil 1 (.node .nil 2 .nil)) ∧
    heap_shape bimap.demo4.mem.cur (.node .nil 4 .nil) ∧
    ((∃ (m' : Mem) (t' : shape) (p' : Nat),
      merge bimap.demo4.mem.cur 3 (shape.node .nil 1 (.node .nil 2 .nil)).root
        (shape.node .nil 4 .nil).root = some (m', t'.root) ∧ heap_shape m' t' ∧
      t'.inorder = (shape.node .nil 1 (.node .nil 2 .nil)).inorder ++
        (shape.node .nil 4 .nil).inorder ∧ linked m' p' t' ∧
      (∀ y, (m' y).value = (bimap.demo4.mem.cur y).value)) ∧
    merge bimap.demo4.mem.cur 3 none (shape.node .nil 4 .nil).root =
      some (bimap.demo4.mem.cur, (shape.node .nil 4 .nil).root) ∧
    merge bimap.demo4.mem.cur 3 (shape.node .nil 1 (.node .nil 2 .nil)).root none =
      some (bimap.demo4.mem.cur, (shape.node .nil 1 (.node .nil 2 .nil)).root)) := by
  have h1 : linked bimap.demo4.mem.cur 3 (.node .nil 1 (.node .nil 2 .nil)) := by
    simp only [linked, shape.root, and_true]
    decide
  have h2 : linked bimap.demo4.mem.cur 3 (.node .nil 4 .nil) := by
    simp only [linked, shape.root, and_true]
    decide
  have h3 : heap_shape bimap.demo4.mem.cur (.node .nil 1 (.node .nil 2 .nil)) := by
    simp only [heap_shape, shape.root, Option.some.injEq, forall_eq', and_true]
    simp
    decide
  have h4 : heap_shape bimap.demo4.mem.cur (.node .nil 4 .nil) := by
    simp [heap_shape, shape.root]
  exact ⟨by decide, h1, h2, h3, h4,
    merge_heap_ordered _ 3 _ _ 3 3 (by decide) h1 h2 (by decide) h3 h4⟩

end bimap_impl

namespace bimap

variable {L R : Type}

theorem coarse_less_strict_weak : strict_weak coarse_less := by
  refine ⟨fun a => by simp [coarse_less], fun a b c h1 h2 => ?_, fun a b c h1 h2 h3 h4 => ?_⟩
  · simp only [coarse_less, decide_eq_true_eq] at h1 h2 ⊢
    omega
  · simp only [coarse_less, decide_eq_false_iff_not] at h1 h2 h3 h4 ⊢
    omega

theorem demo14_reachable : reachable demo14 :=
  reachable.insert 10 100 1 0 0 (reachable.ctor coarse_less nat_less 0 0 0)
    (by unfold fresh; decide)
    (rfl : (bimap.ctor coarse_less nat_less 0 0 0).insert 10 100 1 0 0 = some (demo14, 1))

/-- Claim C34, at a failing input: with the left comparator ordering `unsigned` by tens,
a strict weak order, the reachable bimap holding the single pair `(10, 100)` has
`find_left(11)` at the record, which is not `end_left()`, while `at_left(11)` throws
`out_of_range`; `find_left` and `at_left` agree on the key 10. -/
theorem at_left_disagrees_with_find_left :
    strict_weak coarse_less ∧ reachable demo14 ∧ demo14.compare_left = coarse_less ∧
    demo14.find_left 11 = some 1 ∧ bimap_iterator.eq demo14.mem 1 demo14.end_left = false ∧
    demo14.at_left 11 = some (.error .out_of_range) ∧
    demo14.find_left 10 = some 1 ∧ demo14.at_left 10 = some (.ok 100) :=
  ⟨coarse_less_strict_weak, demo14_reachable, rfl, by decide, by decide, rfl, by decide, rfl⟩

/-- Claim C20, at a failing input: with the left comparator ordering `unsigned` by tens,
a strict weak order, on the reachable bimap holding the single pair `(10, 100)` no record
has the left value 11 and none has the right value 0, the default-constructed one, and
`at_or_default` answers false for both. `at_left_or_default(11)` then calls
`insert(11, 0)`, which finds a left value equivalent to 11 (`find_left(11)` is at the
record), inserts nothing and returns `end_left()`; the call dereferences the flipped end
position, which holds no value. `size()` stays 1 and `at_left(11)` throws
`out_of_range`. -/
theorem at_left_or_default_reads_end :
    strict_weak coarse_less ∧ reachable demo14 ∧ demo14.compare_left = coarse_less ∧
    demo14.fresh 2 ∧ ¬ demo14.left_key 11 ∧ ¬ demo14.right_key (default : Nat) ∧
    map.at_or_default demo14.compare_left demo14.mem 11 demo14.base = some false ∧
    map.at_or_default demo14.compare_right demo14.mem.flipped (default : Nat) demo14.base =
      some false ∧
    demo14.find_left 11 = some 1 ∧
    demo14.insert 11 default 2 0 0 = some (demo14, demo14.end_left) ∧
    bimap_iterator.deref demo14.mem.flipped (bimap_iterator.flip demo14.end_left) = none ∧
    demo14.at_left_or_default 11 2 0 0 = none ∧
    demo14.size = 1 ∧ demo14.at_left 11 = some (.error .out_of_range) := by
  have hlive : demo14.mem.live = [1] := rfl
  have hl : ¬ demo14.left_key 11 := by
    rintro ⟨a, ha, hv⟩
    rw [hlive] at ha
    have h1 : a = 1 := by simpa using ha
    subst h1
    revert hv
    decide
  have hd : ¬ demo14.right_key (default : Nat) := by
    rintro ⟨a, ha, hv⟩
    rw [hlive] at ha
    have h1 : a = 1 := by simpa using ha
    subst h1
    revert hv
    decide
  exact ⟨coarse_less_strict_weak, demo14_reachable, rfl, by unfold fresh; decide, hl, hd,
    rfl, rfl, rfl, rfl, rfl, rfl, rfl, rfl⟩

end bimap

namespace bimap_impl

/-- `swap` of the sentinels of two trees with disjoint nodes: each sentinel holds the
tree of the other one. -/
theorem side_ok.node_swap {m : Mem} {b1 b2 : Nat} {t1 t2 : shape} (h1 : side_ok m b1 t1)
    (h2 : side_ok m b2 t2) (hsep : ∀ y ∈ b1 :: t1.inorder, y ∉ b2 :: t2.inorder) :
    side_ok (bimap_impl.node_swap m b1 b2) b1 t2 ∧
      side_ok (bimap_impl.node_swap m b1 b2) b2 t1 := by
  have hb12 : b1 ≠ b2 := fun hc => hsep b1 (by simp) (by simp [hc])
  have hb1t2 : b1 ∉ t2.inorder := fun hc => hsep b1 (by simp) (List.mem_cons_of_mem _ hc)
  have hb2t1 : b2 ∉ t1.inorder := fun hc => hsep b2 (List.mem_cons_of_mem _ hc) (by simp)
  have hb1t1 : b1 ∉ t1.inorder := (List.nodup_cons.1 h1.nodup).1
  have hb2t2 : b2 ∉ t2.inorder := (List.nodup_cons.1 h2.nodup).1
  have ht12 : ∀ y ∈ t1.inorder, y ∉ t2.inorder := fun y hy hc =>
    hsep y (List.mem_cons_of_mem _ hy) (List.mem_cons_of_mem _ hc)
  have hq1 : ∀ c, t2.root = some c → c ≠ b1 := fun c hc hcb =>
    hb1t2 (by rw [← hcb]; exact shape.root_mem hc)
  have hq2 : ∀ c, t1.root = some c → c ≠ b2 := fun c hc hcb =>
    hb2t1 (by rw [← hcb]; exact shape.root_mem hc)
  obtain ⟨s1, s2, s3⟩ := set_left_spec (m := m) hq1
  obtain ⟨u1, u2, u3⟩ := set_left_spec (m := set_left m b1 t2.root) hq2
  have hdef : bimap_impl.node_swap m b1 b2 =
      set_left (set_left m b1 t2.root) b2 t1.root := by
    unfold bimap_impl.node_swap
    simp only [h1.left, h2.left]
  rw [hdef]
  -- the cells after the two assignments
  have c_b1 : set_left (set_left m b1 t2.root) b2 t1.root b1 = { m b1 with left := t2.root } := by
    rw [u3 b1 hb12 (fun hc => hb1t1 (shape.root_mem hc)), s1]
  have c_b2 : set_left (set_left m b1 t2.root) b2 t1.root b2 = { m b2 with left := t1.root } := by
    rw [u1, s3 b2 (Ne.symm hb12) (fun hc => hb2t2 (shape.root_mem hc))]
  have c_r2 : ∀ c, t2.root = some c →
      set_left (set_left m b1 t2.root) b2 t1.root c = { m c with pred := some b1 } := by
    intro c hc
    have hc2 := shape.root_mem hc
    rw [u3 c (fun g => hb2t2 (by rw [← g]; exact hc2))
      (fun g => ht12 c (shape.root_mem g) hc2), s2 c hc]
  have c_r1 : ∀ c, t1.root = some c →
      set_left (set_left m b1 t2.root) b2 t1.root c = { m c with pred := some b2 } := by
    intro c hc
    have hc1 := shape.root_mem hc
    rw [u2 c hc, s3 c (fun g => hb1t1 (by rw [← g]; exact hc1))
      (fun g => ht12 c hc1 (shape.root_mem g))]
  have c_t2 : ∀ y ∈ t2.inorder, t2.root ≠ some y →
      set_left (set_left m b1 t2.root) b2 t1.root y = m y := by
    intro y hy hyr
    rw [u3 y (fun g => hb2t2 (by rw [← g]; exact hy))
      (fun g => ht12 y (shape.root_mem g) hy),
      s3 y (fun g => hb1t2 (by rw [← g]; exact hy)) hyr]
  have c_t1 : ∀ y ∈ t1.inorder, t1.root ≠ some y →
      set_left (set_left m b1 t2.root) b2 t1.root y = m y := by
    intro y hy hyr
    rw [u3 y (fun g => hb2t1 (by rw [← g]; exact hy)) hyr,
      s3 y (fun g => hb1t1 (by rw [← g]; exact hy))
        (fun g => ht12 y hy (shape.root_mem g))]
  refine ⟨⟨?_, ?_, ?_, ?_, ?_⟩, ⟨?_, ?_, ?_, ?_, ?_⟩⟩
  · rw [c_b1]; exact h1.pred
  · rw [c_b1]; exact h1.right
  · rw [c_b1]
  · exact linked_rehang h2.linked (List.nodup_cons.1 h2.nodup).2 c_r2 c_t2
  · exact List.nodup_cons.2 ⟨hb1t2, (List.nodup_cons.1 h2.nodup).2⟩
  · rw [c_b2]; exact h2.pred
  · rw [c_b2]; exact h2.right
  · rw [c_b2]
  · exact linked_rehang h1.linked (List.nodup_cons.1 h1.nodup).2 c_r1 c_t1
  · exact List.nodup_cons.2 ⟨hb2t1, (List.nodup_cons.1 h1.nodup).2⟩

end bimap_impl

namespace bimap

variable {L R : Type}

/-- After `swap(a, b)` each bimap is well formed with the trees of the other one, and
every record keeps its pair. -/
theorem wf_at.swap {a b : bimap L R} {tl tr tl2 tr2 : shape} (ha : wf_at a tl tr)
    (hb : wf_at b tl2 tr2) (hsep : ∀ y ∈ a.base :: a.mem.live, y ∉ b.base :: b.mem.live) :
    wf_at (bimap.swap a b).1 tl2 tr2 ∧ wf_at (bimap.swap a b).2 tl tr ∧
    (∀ y ∈ a.mem.live, (bimap.swap a b).2.mem.value y = a.mem.value y ∧
      (bimap.swap a b).2.mem.other y = a.mem.other y) ∧
    (∀ y ∈ b.mem.live, (bimap.swap a b).1.mem.value y = b.mem.value y ∧
      (bimap.swap a b).1.mem.other y = b.mem.other y) := by
  -- the two stores read through the joint heap
  have hva : ∀ y ∈ a.mem.live, (bimap.swap a b).1.mem.value y = a.mem.value y ∧
      (bimap.swap a b).1.mem.other y = a.mem.other y := by
    intro y hy
    simp [bimap.swap, hy]
  have hvb : ∀ y ∈ b.mem.live, (bimap.swap a b).1.mem.value y = b.mem.value y ∧
      (bimap.swap a b).1.mem.other y = b.mem.other y := by
    intro y hy
    have hn : y ∉ a.base :: a.mem.live := fun hc => hsep y hc (List.mem_cons_of_mem _ hy)
    simp only [List.mem_cons, not_or] at hn
    simp [bimap.swap, hn.1, hn.2]
  have side : ∀ (m1 m2 : Mem) (t1 t2 : shape), side_ok m1 a.base t1 → side_ok m2 b.base t2 →
      t1.inorder.Perm a.mem.live → t2.inorder.Perm b.mem.live →
      side_ok (node_swap (fun y => if y ∈ a.base :: a.mem.live then m1 y else m2 y)
        a.base b.base) a.base t2 ∧
      side_ok (node_swap (fun y => if y ∈ a.base :: a.mem.live then m1 y else m2 y)
        a.base b.base) b.base t1 := by
    intro m1 m2 t1 t2 g1 g2 p1 p2
    have hsep' : ∀ y ∈ a.base :: t1.inorder, y ∉ b.base :: t2.inorder := by
      intro y hy hc
      refine hsep y ?_ ?_
      · rcases List.mem_cons.1 hy with g | g
        · simp [g]
        · exact List.mem_cons_of_mem _ (p1.mem_iff.1 g)
      · rcases List.mem_cons.1 hc with g | g
        · simp [g]
        · exact List.mem_cons_of_mem _ (p2.mem_iff.1 g)
    have j1 : side_ok (fun y => if y ∈ a.base :: a.mem.live then m1 y else m2 y) a.base t1 := by
      refine g1.congr_mem (fun y hy => ?_)
      have : y ∈ a.base :: a.mem.live := by
        rcases List.mem_cons.1 hy with g | g
        · simp [g]
        · exact List.mem_cons_of_mem _ (p1.mem_iff.1 g)
      simp only [this, if_true]
    have j2 : side_ok (fun y => if y ∈ a.base :: a.mem.live then m1 y else m2 y) b.base t2 := by
      refine g2.congr_mem (fun y hy => ?_)
      have : y ∉ a.base :: a.mem.live := by
        intro hc
        refine hsep y hc ?_
        rcases List.mem_cons.1 hy with g | g
        · simp [g]
        · exact List.mem_cons_of_mem _ (p2.mem_iff.1 g)
      simp only [this, if_false]
    exact j1.node_swap j2 hsep'
  obtain ⟨l1, l2⟩ := side a.mem.cur b.mem.cur tl tl2 ha.left.side hb.left.side ha.left.perm
    hb.left.perm
  obtain ⟨r1, r2⟩ := side a.mem.opp b.mem.opp tr tr2 ha.right.side hb.right.side ha.right.perm
    hb.right.perm
  have hva2 : ∀ y ∈ a.mem.live, (bimap.swap a b).2.mem.value y = a.mem.value y ∧
      (bimap.swap a b).2.mem.other y = a.mem.other y := hva
  have hvb2 : ∀ y ∈ b.mem.live, (bimap.swap a b).2.mem.value y = b.mem.value y ∧
      (bimap.swap a b).2.mem.other y = b.mem.other y := hvb
  refine ⟨⟨⟨l1.pred, l1.right, l1.left, l1.linked, l1.nodup, hb.left.perm, ?_, ?_⟩,
      ⟨r1.pred, r1.right, r1.left, r1.linked, r1.nodup, hb.right.perm, ?_, ?_⟩, hb.size,
      hb.addr⟩,
    ⟨⟨l2.pred, l2.right, l2.left, l2.linked, l2.nodup, ha.left.perm, ?_, ?_⟩,
      ⟨r2.pred, r2.right, r2.left, r2.linked, r2.nodup, ha.right.perm, ?_, ?_⟩, ha.size,
      ha.addr⟩, hva2, hvb⟩
  · intro y hy
    obtain ⟨x, hx⟩ := hb.left.vals y hy
    exact ⟨x, by rw [(hvb y (hb.left.mem_live.1 hy)).1]; exact hx⟩
  · refine hb.left.sorted.imp_of_mem ?_
    intro x y hx hy ⟨u, w, e1, e2, e3⟩
    exact ⟨u, w, by rw [(hvb x (hb.left.mem_live.1 hx)).1]; exact e1,
      by rw [(hvb y (hb.left.mem_live.1 hy)).1]; exact e2, e3⟩
  · intro y hy
    obtain ⟨x, hx⟩ := hb.right.vals y hy
    exact ⟨x, by
      show (bimap.swap a b).1.mem.other y = some x
      rw [(hvb y (hb.right.mem_live.1 hy)).2]; exact hx⟩
  · refine hb.right.sorted.imp_of_mem ?_
    intro x y hx hy ⟨u, w, e1, e2, e3⟩
    exact ⟨u, w, by
        show (bimap.swap a b).1.mem.other x = some u
        rw [(hvb x (hb.right.mem_live.1 hx)).2]; exact e1,
      by
        show (bimap.swap a b).1.mem.other y = some w
        rw [(hvb y (hb.right.mem_live.1 hy)).2]; exact e2, e3⟩
  · intro y hy
    obtain ⟨x, hx⟩ := ha.left.vals y hy
    exact ⟨x, by rw [(hva2 y (ha.left.mem_live.1 hy)).1]; exact hx⟩
  · refine ha.left.sorted.imp_of_mem ?_
    intro x y hx hy ⟨u, w, e1, e2, e3⟩
    exact ⟨u, w, by rw [(hva2 x (ha.left.mem_live.1 hx)).1]; exact e1,
      by rw [(hva2 y (ha.left.mem_live.1 hy)).1]; exact e2, e3⟩
  · intro y hy
    obtain ⟨x, hx⟩ := ha.right.vals y hy
    exact ⟨x, by
      show (bimap.swap a b).2.mem.other y = some x
      rw [(hva2 y (ha.right.mem_live.1 hy)).2]; exact hx⟩
  · refine ha.right.sorted.imp_of_mem ?_
    intro x y hx hy ⟨u, w, e1, e2, e3⟩
    exact ⟨u, w, by
        show (bimap.swap a b).2.mem.other x = some u
        rw [(hva2 x (ha.right.mem_live.1 hx)).2]; exact e1,
      by
        show (bimap.swap a b).2.mem.other y = some w
        rw [(hva2 y (ha.right.mem_live.1 hy)).2]; exact e2, e3⟩

end bimap

namespace bimap

variable {L R : Type}

theorem demo15_reachable : reachable demo15 :=
  reachable.insert 6 60 22 1 1
    (reachable.insert 7 70 21 0 0 (reachable.ctor nat_less nat_less 20 0 0)
      (by unfold fresh; decide)
      (rfl : (bimap.ctor nat_less nat_less 20 0 0).insert 7 70 21 0 0 =
        some (after_insert (bimap.ctor nat_less nat_less 20 0 0) 7 70 21 0 0, 21)))
    (by unfold fresh; decide)
    (rfl : (after_insert (bimap.ctor nat_less nat_less 20 0 0) 7 70 21 0 0).insert 6 60 22 1 1 =
      some (demo15, 22))

/-- Claim C38: for two reachable bimaps `a` and `b` with no object in common, after
`swap(a, b)` the bimap `a` has the `size()` that `b` had and its two loops visit the
records that the loops of `b` visited, holding the same pairs, and `b` has those of `a`;
both are well formed, and a second `swap(a, b)` gives back to each its own size and its
own two sequences of pairs. -/
theorem swap_exchanges [DecidableEq L] [DecidableEq R] (a b : bimap L R) (ha : reachable a)
    (hb : reachable b) (hal : strict_weak a.compare_left) (har : strict_weak a.compare_right)
    (hbl : strict_weak b.compare_left) (hbr : strict_weak b.compare_right)
    (hsep : ∀ y ∈ a.base :: a.mem.live, y ∉ b.base :: b.mem.live) :
    ∃ (al ar bl br : List Nat),
      a.walk_left = some al ∧ a.walk_right = some ar ∧
      b.walk_left = some bl ∧ b.walk_right = some br ∧
      (bimap.swap a b).1.size = b.size ∧ (bimap.swap a b).1.walk_left = some bl ∧
      (bimap.swap a b).1.walk_right = some br ∧
      (bimap.swap a b).1.pairs bl = b.pairs bl ∧ (bimap.swap a b).1.pairs br = b.pairs br ∧
      (bimap.swap a b).2.size = a.size ∧ (bimap.swap a b).2.walk_left = some al ∧
      (bimap.swap a b).2.walk_right = some ar ∧
      (bimap.swap a b).2.pairs al = a.pairs al ∧ (bimap.swap a b).2.pairs ar = a.pairs ar ∧
      wf (bimap.swap a b).1 ∧ wf (bimap.swap a b).2 ∧
      (bimap.swap (bimap.swap a b).1 (bimap.swap a b).2).1.size = a.size ∧
      (bimap.swap (bimap.swap a b).1 (bimap.swap a b).2).1.walk_left = some al ∧
      (bimap.swap (bimap.swap a b).1 (bimap.swap a b).2).1.walk_right = some ar ∧
      (bimap.swap (bimap.swap a b).1 (bimap.swap a b).2).1.pairs al = a.pairs al ∧
      (bimap.swap (bimap.swap a b).1 (bimap.swap a b).2).1.pairs ar = a.pairs ar ∧
      (bimap.swap (bimap.swap a b).1 (bimap.swap a b).2).2.size = b.size ∧
      (bimap.swap (bimap.swap a b).1 (bimap.swap a b).2).2.walk_left = some bl ∧
      (bimap.swap (bimap.swap a b).1 (bimap.swap a b).2).2.walk_right = some br ∧
      (bimap.swap (bimap.swap a b).1 (bimap.swap a b).2).2.pairs bl = b.pairs bl ∧
      (bimap.swap (bimap.swap a b).1 (bimap.swap a b).2).2.pairs br = b.pairs br := by
  obtain ⟨tl, tr, hwa⟩ := ha.wf hal har
  obtain ⟨tl2, tr2, hwb⟩ := hb.wf hbl hbr
  obtain ⟨w1, w2, v2, v1⟩ := hwa.swap hwb hsep
  have hsep2 : ∀ y ∈ (bimap.swap a b).1.base :: (bimap.swap a b).1.mem.live,
      y ∉ (bimap.swap a b).2.base :: (bimap.swap a b).2.mem.live := by
    intro y hy hc
    have hy' : y = a.base ∨ y ∈ b.mem.live := List.mem_cons.1 hy
    have hc' : y = b.base ∨ y ∈ a.mem.live := List.mem_cons.1 hc
    rcases hy' with g | g <;> rcases hc' with k | k
    · exact hsep y (by simp [g]) (by simp [k])
    · exact hwa.base_not_live (by rw [← g]; exact k)
    · exact hwb.base_not_live (by rw [← k]; exact g)
    · exact hsep y (List.mem_cons_of_mem _ k) (List.mem_cons_of_mem _ g)
  obtain ⟨x1, x2, y2, y1⟩ := w1.swap w2 hsep2
  have ml : ∀ y ∈ tl.inorder, y ∈ a.mem.live := fun y hy => hwa.left.mem_live.1 hy
  have mr : ∀ y ∈ tr.inorder, y ∈ a.mem.live := fun y hy => hwa.right.mem_live.1 hy
  have ml2 : ∀ y ∈ tl2.inorder, y ∈ b.mem.live := fun y hy => hwb.left.mem_live.1 hy
  have mr2 : ∀ y ∈ tr2.inorder, y ∈ b.mem.live := fun y hy => hwb.right.mem_live.1 hy
  refine ⟨tl.inorder, tr.inorder, tl2.inorder, tr2.inorder, hwa.walk_left, hwa.walk_right,
    hwb.walk_left, hwb.walk_right, rfl, w1.walk_left, w1.walk_right,
    pairs_congr (fun y hy => v1 y (ml2 y hy)), pairs_congr (fun y hy => v1 y (mr2 y hy)),
    rfl, w2.walk_left, w2.walk_right,
    pairs_congr (fun y hy => v2 y (ml y hy)), pairs_congr (fun y hy => v2 y (mr y hy)),
    ⟨_, _, w1⟩, ⟨_, _, w2⟩, rfl, x1.walk_left, x1.walk_right, ?_, ?_, rfl, x2.walk_left,
    x2.walk_right, ?_, ?_⟩
  · refine pairs_congr (fun y hy => ?_)
    have h1 := y1 y (ml y hy)
    have h2 := v2 y (ml y hy)
    exact ⟨h1.1.trans h2.1, h1.2.trans h2.2⟩
  · refine pairs_congr (fun y hy => ?_)
    have h1 := y1 y (mr y hy)
    have h2 := v2 y (mr y hy)
    exact ⟨h1.1.trans h2.1, h1.2.trans h2.2⟩
  · refine pairs_congr (fun y hy => ?_)
    have h1 := y2 y (ml2 y hy)
    have h2 := v1 y (ml2 y hy)
    exact ⟨h1.1.trans h2.1, h1.2.trans h2.2⟩
  · refine pairs_congr (fun y hy => ?_)
    have h1 := y2 y (mr2 y hy)
    have h2 := v1 y (mr2 y hy)
    exact ⟨h1.1.trans h2.1, h1.2.trans h2.2⟩

theorem swap_exchanges_witness :
    reachable demo4 ∧ reachable demo15 ∧
    (∀ y ∈ demo4.base :: demo4.mem.live, y ∉ demo15.base :: demo15.mem.live) ∧
    ∃ (al ar bl br : List Nat),
      demo4.walk_left = some al ∧ demo4.walk_right = some ar ∧
      demo15.walk_left = some bl ∧ demo15.walk_right = some br ∧
      (bimap.swap demo4 demo15).1.size = demo15.size ∧
      (bimap.swap demo4 demo15).1.walk_left = some bl ∧
      (bimap.swap demo4 demo15).1.walk_right = some br ∧
      (bimap.swap demo4 demo15).1.pairs bl = demo15.pairs bl ∧
      (bimap.swap demo4 demo15).1.pairs br = demo15.pairs br ∧
      (bimap.swap demo4 demo15).2.size = demo4.size ∧
      (bimap.swap demo4 demo15).2.walk_left = some al ∧
      (bimap.swap demo4 demo15).2.walk_right = some ar ∧
      (bimap.swap demo4 demo15).2.pairs al = demo4.pairs al ∧
      (bimap.swap demo4 demo15).2.pairs ar = demo4.pairs ar ∧
      wf (bimap.swap demo4 demo15).1 ∧ wf (bimap.swap demo4 demo15).2 ∧
      (bimap.swap (bimap.swap demo4 demo15).1 (bimap.swap demo4 demo15).2).1.size =
        demo4.size ∧
      (bimap.swap (bimap.swap demo4 demo15).1 (bimap.swap demo4 demo15).2).1.walk_left =
        some al ∧
      (bimap.swap (bimap.swap demo4 demo15).1 (bimap.swap demo4 demo15).2).1.walk_right =
        some ar ∧
      (bimap.swap (bimap.swap demo4 demo15).1 (bimap.swap demo4 demo15).2).1.pairs al =
        demo4.pairs al ∧
      (bimap.swap (bimap.swap demo4 demo15).1 (bimap.swap demo4 demo15).2).1.pairs ar =
        demo4.pairs ar ∧
      (bimap.swap (bimap.swap demo4 demo15).1 (bimap.swap demo4 demo15).2).2.size =
        demo15.size ∧
      (bimap.swap (bimap.swap demo4 demo15).1 (bimap.swap demo4 demo15).2).2.walk_left =
        some bl ∧
      (bimap.swap (bimap.swap demo4 demo15).1 (bimap.swap demo4 demo15).2).2.walk_right =
        some br ∧
      (bimap.swap (bimap.swap demo4 demo15).1 (bimap.swap demo4 demo15).2).2.pairs bl =
        demo15.pairs bl ∧
      (bimap.swap (bimap.swap demo4 demo15).1 (bimap.swap demo4 demo15).2).2.pairs br =
        demo15.pairs br :=
  ⟨demo4_reachable, demo15_reachable, by decide,
    swap_exchanges demo4 demo15 demo4_reachable demo15_reachable nat_less_strict_weak
      nat_less_strict_weak nat_less_strict_weak nat_less_strict_weak (by decide)⟩

end bimap

namespace bimap

variable {L R : Type}

theorem linked_spine_right {m : Mem} :
    ∀ (l : List Nat) (p : Nat), linked m p (shape.spine l) → ∀ a ∈ l, (m a).right = none := by
  intro l
  induction l with
  | nil => intro p _ a ha; simp at ha
  | cons x rest ih =>
    intro p h a ha
    obtain ⟨_, _, h3, h4, _⟩ := h
    rcases List.mem_cons.1 ha with g | g
    · rw [g]; exact h3
    · exact ih x h4 a g

/-- Claim C37: inserting into a fresh bimap the pairs of a list whose left values
increase strictly and whose right values are pairwise inequivalent, whatever the
priorities drawn, returns a bimap whose left tree is a chain: the record inserted last
is the root, each record has as left child the record inserted before it, no node has
a right child, and the height of the tree is the number of pairs, which is `size()`.
The left tree of the bimap built by the copy constructor from a reachable bimap is such
a chain as well, of height `size()`. -/
theorem insert_increasing_chain [DecidableEq L] [DecidableEq R] (cl : L → L → Bool)
    (cr : R → R → Bool) (hcl : strict_weak cl) (hcr : strict_weak cr) (base p q : Nat)
    (xs : List (L × R × Nat × Nat × Nat))
    (hinc : xs.Pairwise (fun x y => cl x.1 y.1 = true))
    (hdis : xs.Pairwise (fun x y => cr x.2.1 y.2.1 = true ∨ cr y.2.1 x.2.1 = true))
    (hnd : (xs.map (fun x => x.2.2.1)).Nodup)
    (haddr : ∀ x ∈ xs, 0 < x.2.2.1 ∧ x.2.2.1 < size_max ∧ x.2.2.1 ≠ base)
    (b1 : bimap L R) (hr : reachable b1) (hcl1 : strict_weak b1.compare_left)
    (hcr1 : strict_weak b1.compare_right) (base2 p2 q2 : Nat) (alloc : Nat → Nat × Nat × Nat)
    (hfresh : ∀ i < b1.size,
      0 < (alloc i).1 ∧ (alloc i).1 < size_max ∧ (alloc i).1 ≠ base2)
    (hinj : ∀ i j, i < b1.size → j < b1.size → (alloc i).1 = (alloc j).1 → i = j) :
    (∃ (s : bimap L R) (tr : shape),
      (bimap.ctor cl cr base p q).insert_all xs = some s ∧
      wf_at s (shape.spine s.mem.live) tr ∧
      s.mem.live = (xs.map (fun x => x.2.2.1)).reverse ∧
      (shape.spine s.mem.live).height = xs.length ∧ s.size = xs.length ∧
      (s.mem.cur s.base).left = s.mem.live.head? ∧
      ∀ a ∈ s.mem.live, (s.mem.cur a).right = none) ∧
    (∃ (b2 : bimap L R) (tr : shape),
      b1.copy_ctor base2 p2 q2 alloc = some b2 ∧
      wf_at b2 (shape.spine b2.mem.live) tr ∧
      (shape.spine b2.mem.live).height = b2.size ∧ b2.size = b1.size ∧
      (b2.mem.cur b2.base).left = b2.mem.live.head? ∧
      ∀ a ∈ b2.mem.live, (b2.mem.cur a).right = none) := by
  have hroot : ∀ l : List Nat, (shape.spine l).root = l.head? := by
    intro l
    cases l <;> rfl
  constructor
  · obtain ⟨s, tr, e1, e2, e3, _, _, _⟩ :=
      wf_at.insert_all_spine xs (bimap.ctor cl cr base p q) .nil (wf_ctor cl cr base p q)
        hcl hcr hinc hdis hnd
        (fun x hx => by
          obtain ⟨g1, g2, g3⟩ := haddr x hx
          exact ⟨g1, g2, g3, by simp [bimap.ctor]⟩)
        (fun x _ b hb => by simp [bimap.ctor] at hb)
        (fun x _ => by
          rintro ⟨b, hb, _⟩
          simp [bimap.ctor] at hb)
    have e3' : s.mem.live = (xs.map (fun x => x.2.2.1)).reverse := by
      rw [e3]
      simp [bimap.ctor]
    refine ⟨s, tr, e1, e2, e3', ?_, ?_, ?_, linked_spine_right _ _ e2.left.linked⟩
    · rw [shape.height_spine, e3']
      simp
    · show s.size_ = xs.length
      rw [e2.size, e3']
      simp
    · rw [e2.left.left, hroot]
  · obtain ⟨t1, r1, hw1⟩ := hr.wf hcl1 hcr1
    have hn : t1.inorder.length = b1.size := by
      rw [hw1.left.perm.length_eq]; exact hw1.size.symm
    obtain ⟨b2, k1, _, _, _, _, _, k7, tr, k8⟩ :=
      copy_loop_spec hw1 hcl1 hcr1 alloc base2 (by rw [hn]; exact hfresh)
        (by rw [hn]; exact hinj) t1.inorder []
        (bimap.ctor b1.compare_left b1.compare_right base2 p2 q2) b1.mem.fuel rfl
        (le_of_lt (by rw [shape.length_inorder]; exact hw1.left.size_lt_fuel))
        (reachable.ctor _ _ base2 p2 q2) rfl rfl rfl (by intro a ha; simp [bimap.ctor] at ha)
        (by simp [bimap.pairs, bimap.ctor]) ⟨.nil, wf_ctor _ _ base2 p2 q2⟩
    have hrun : b1.copy_ctor base2 p2 q2 alloc = some b2 := by
      have e1 : b1.begin_left = some (t1.inorder.headD b1.base) := hw1.left.begin
      simp only [copy_ctor, e1]
      exact k1
    have hsize : b2.size = b1.size := by
      have h1 : b2.size = b2.mem.live.length := k8.size
      have h2 := k7.length_eq
      simp only [bimap.pairs, List.length_map] at h2
      rw [h1, h2, hn]
    refine ⟨b2, tr, hrun, k8, ?_, hsize, ?_, linked_spine_right _ _ k8.left.linked⟩
    · rw [shape.height_spine]
      exact k8.size.symm
    · rw [k8.left.left, hroot]

theorem insert_increasing_chain_witness :
    strict_weak nat_less ∧
    [((1 : Nat), (10 : Nat), 1, 5, 5), (2, 20, 2, 3, 3), (3, 30, 3, 9, 9)].Pairwise
      (fun x y => nat_less x.1 y.1 = true) ∧
    [((1 : Nat), (10 : Nat), 1, 5, 5), (2, 20, 2, 3, 3), (3, 30, 3, 9, 9)].Pairwise
      (fun x y => nat_less x.2.1 y.2.1 = true ∨ nat_less y.2.1 x.2.1 = true) ∧
    reachable demo4 ∧
    ((∃ (s : bimap Nat Nat) (tr : shape),
      (bimap.ctor nat_less nat_less 0 7 7).insert_all
        [(1, 10, 1, 5, 5), (2, 20, 2, 3, 3), (3, 30, 3, 9, 9)] = some s ∧
      wf_at s (shape.spine s.mem.live) tr ∧
      s.mem.live = ([((1 : Nat), (10 : Nat), 1, 5, 5), (2, 20, 2, 3, 3),
        (3, 30, 3, 9, 9)].map (fun x => x.2.2.1)).reverse ∧
      (shape.spine s.mem.live).height =
        [((1 : Nat), (10 : Nat), 1, 5, 5), (2, 20, 2, 3, 3), (3, 30, 3, 9, 9)].length ∧
      s.size = [((1 : Nat), (10 : Nat), 1, 5, 5), (2, 20, 2, 3, 3), (3, 30, 3, 9, 9)].length ∧
      (s.mem.cur s.base).left = s.mem.live.head? ∧
      ∀ a ∈ s.mem.live, (s.mem.cur a).right = none) ∧
    (∃ (b2 : bimap Nat Nat) (tr : shape),
      demo4.copy_ctor 10 0 0 demo_alloc = some b2 ∧
      wf_at b2 (shape.spine b2.mem.live) tr ∧
      (shape.spine b2.mem.live).height = b2.size ∧ b2.size = demo4.size ∧
      (b2.mem.cur b2.base).left = b2.mem.live.head? ∧
      ∀ a ∈ b2.mem.live, (b2.mem.cur a).right = none)) := by
  have hsz : demo4.size = 4 := rfl
  have h1 : ∀ i < demo4.size,
      0 < (demo_alloc i).1 ∧ (demo_alloc i).1 < size_max ∧ (demo_alloc i).1 ≠ 10 := by
    intro i hi
    rw [hsz] at hi
    have h64 : (2 : Nat) ^ 64 = 18446744073709551616 := by norm_num
    show 0 < i + 11 ∧ i + 11 < 2 ^ 64 ∧ i + 11 ≠ 10
    rw [h64]
    exact ⟨by omega, by omega, by omega⟩
  have h2 : ∀ i j, i < demo4.size → j < demo4.size →
      (demo_alloc i).1 = (demo_alloc j).1 → i = j := by
    intro i j _ _ h
    have h' : i + 11 = j + 11 := h
    omega
  have h3 : [((1 : Nat), (10 : Nat), 1, 5, 5), (2, 20, 2, 3, 3), (3, 30, 3, 9, 9)].Pairwise
      (fun x y => nat_less x.1 y.1 = true) := by decide
  have h4 : [((1 : Nat), (10 : Nat), 1, 5, 5), (2, 20, 2, 3, 3), (3, 30, 3, 9, 9)].Pairwise
      (fun x y => nat_less x.2.1 y.2.1 = true ∨ nat_less y.2.1 x.2.1 = true) := by decide
  exact ⟨nat_less_strict_weak, h3, h4, demo4_reachable,
    insert_increasing_chain nat_less nat_less nat_less_strict_weak nat_less_strict_weak 0 7 7
      [(1, 10, 1, 5, 5), (2, 20, 2, 3, 3), (3, 30, 3, 9, 9)] h3 h4 (by decide)
      (by unfold size_max; decide) demo4 demo4_reachable nat_less_strict_weak
      nat_less_strict_weak 10 0 0 demo_alloc h1 h2⟩

end bimap

namespace bimap

variable {L R : Type}

/-- Two well-formed bimaps with the same records have the same two in-order sequences. -/
theorem same_view.inorder {s1 s2 : bimap L R} {tl1 tr1 tl2 tr2 : shape}
    (hv : same_view s1 s2) (hw1 : wf_at s1 tl1 tr1) (hw2 : wf_at s2 tl2 tr2)
    (hcl : strict_weak s1.compare_left) (hcr : strict_weak s1.compare_right) :
    tl1.inorder = tl2.inorder ∧ tr1.inorder = tr2.inorder := by
  constructor
  · have hp : tl1.inorder.Perm tl2.inorder := by
      refine hw1.left.perm.trans ?_
      rw [hv.live]
      exact hw2.left.perm.symm
    have h2 := hw2.left.sorted
    rw [← hv.cl, ← hv.value] at h2
    exact sorted_perm_unique hcl s1.mem.value hp hw1.left.sorted h2
  · have hp : tr1.inorder.Perm tr2.inorder := by
      refine hw1.right.perm.trans ?_
      have : s1.mem.flipped.live = s2.mem.flipped.live := hv.live
      rw [this]
      exact hw2.right.perm.symm
    have h2 := hw2.right.sorted
    have hval : s2.mem.flipped.value = s1.mem.flipped.value := hv.other.symm
    rw [← hv.cr, hval] at h2
    exact sorted_perm_unique hcr s1.mem.flipped.value hp hw1.right.sorted h2

/-- One call gives the same answer on two well-formed bimaps with the same records, and
leaves them well formed with the same records. -/
theorem same_view.run_call [DecidableEq L] [DecidableEq R] {s1 s2 : bimap L R}
    {tl1 tr1 tl2 tr2 : shape} (hv : same_view s1 s2) (hw1 : wf_at s1 tl1 tr1)
    (hw2 : wf_at s2 tl2 tr2) (hcl : strict_weak s1.compare_left)
    (hcr : strict_weak s1.compare_right) {a : Nat} (ha : s1.fresh a) (p1 q1 p2 q2 : Nat)
    (c : call L R) :
    ∃ (s1' s2' : bimap L R) (x : answer L R),
      bimap.run_call s1 a p1 q1 c = some (s1', x) ∧
      bimap.run_call s2 a p2 q2 c = some (s2', x) ∧
      wf s1' ∧ wf s2' ∧ same_view s1' s2' ∧ (∀ b ∈ s1'.mem.live, b = a ∨ b ∈ s1.mem.live) ∧
      s1'.compare_left = s1.compare_left ∧ s1'.compare_right = s1.compare_right ∧
      s1'.base = s1.base := by
  have hcl2 : strict_weak s2.compare_left := by rw [← hv.cl]; exact hcl
  have hcr2 : strict_weak s2.compare_right := by rw [← hv.cr]; exact hcr
  have ha2 : s2.fresh a := by
    obtain ⟨g1, g2, g3, g4⟩ := ha
    exact ⟨g1, g2, by rw [← hv.base]; exact g3, by rw [← hv.live]; exact g4⟩
  have hstay : ∀ x : answer L R, bimap.run_call s1 a p1 q1 c = some (s1, x) →
      bimap.run_call s2 a p2 q2 c = some (s2, x) →
      ∃ (s1' s2' : bimap L R) (x : answer L R),
        bimap.run_call s1 a p1 q1 c = some (s1', x) ∧
        bimap.run_call s2 a p2 q2 c = some (s2', x) ∧
        wf s1' ∧ wf s2' ∧ same_view s1' s2' ∧
        (∀ b ∈ s1'.mem.live, b = a ∨ b ∈ s1.mem.live) ∧
        s1'.compare_left = s1.compare_left ∧ s1'.compare_right = s1.compare_right ∧
        s1'.base = s1.base :=
    fun x h1 h2 => ⟨s1, s2, x, h1, h2, ⟨_, _, hw1⟩, ⟨_, _, hw2⟩, hv, fun b hb => Or.inr hb,
      rfl, rfl, rfl⟩
  have hlt : ∀ l, s2.left_taken l ↔ s1.left_taken l := by
    intro l
    unfold left_taken
    rw [hv.live, hv.value, hv.cl]
  have hrt : ∀ r, s2.right_taken r ↔ s1.right_taken r := by
    intro r
    unfold right_taken
    rw [hv.live, hv.other, hv.cr]
  cases c with
  | insert l r =>
    by_cases ht : s1.left_taken l ∨ s1.right_taken r
    · have ht2 : s2.left_taken l ∨ s2.right_taken r := by
        rw [hlt, hrt]; exact ht
      have e1 := hw1.insert_taken hcl hcr a p1 q1 ht
      have e2 := hw2.insert_taken hcl2 hcr2 a p2 q2 ht2
      refine hstay (.position false s1.base) ?_ ?_
      · simp [bimap.run_call, e1, end_left, map.end_, bimap_iterator.eq, node_eq_self]
      · simp [bimap.run_call, e2, end_left, map.end_, bimap_iterator.eq, node_eq_self, hv.base]
    · have hl1 : ¬ s1.left_taken l := fun h => ht (Or.inl h)
      have hr1 : ¬ s1.right_taken r := fun h => ht (Or.inr h)
      obtain ⟨s1', tl1', tr1', lbl1, _, e1, e2, _, _, e5, _, e7, e8, e9, e10, e11, e12, e13⟩ :=
        hw1.insert_fresh hcl hcr p1 q1 ha hl1 hr1
      obtain ⟨s2', tl2', tr2', lbl2, _, f1, f2, _, _, f5, _, f7, f8, f9, f10, f11, f12, f13⟩ :=
        hw2.insert_fresh hcl2 hcr2 p2 q2 ha2 (fun h => hl1 ((hlt l).1 h))
          (fun h => hr1 ((hrt r).1 h))
      have ha1 : a ∈ tl1'.inorder := e2.left.mem_live.2 (by rw [e7]; simp)
      have ha2' : a ∈ tl2'.inorder := f2.left.mem_live.2 (by rw [f7]; simp)
      have g1 : bimap_iterator.eq s1'.mem a s1'.end_left = false := e2.left.eq_end_false ha1
      have g2 : bimap_iterator.eq s2'.mem a s2'.end_left = false := f2.left.eq_end_false ha2'
      refine ⟨s1', s2', .position true a, ?_, ?_, ⟨_, _, e2⟩, ⟨_, _, f2⟩,
        ⟨by rw [e7, f7, hv.live], by rw [e8, f8, hv.value], by rw [e9, f9, hv.other],
          by rw [e10, f10, hv.size], by rw [e11, f11, hv.cl], by rw [e12, f12, hv.cr],
          by rw [e13, f13, hv.base]⟩, ?_, e11, e12, e13⟩
      · simp [bimap.run_call, e1, g1]
      · simp [bimap.run_call, f1, g2]
      · intro b hb
        rw [e7] at hb
        exact List.mem_cons.1 hb
  | erase_left k =>
    by_cases hm : ∃ b ∈ s1.mem.live, s1.mem.value b = some k
    · obtain ⟨b, hb, hk⟩ := hm
      have hb2 : b ∈ s2.mem.live := by rw [← hv.live]; exact hb
      have hk2 : s2.mem.value b = some k := by rw [← hv.value]; exact hk
      obtain ⟨s1', tl1', tr1', e1, e2, _, _, e5, e6, e7, e8, e9, e10, e11⟩ := hw1.erase_left hb
      obtain ⟨s2', tl2', tr2', f1, f2, _, _, f5, f6, f7, f8, f9, f10, f11⟩ := hw2.erase_left hb2
      refine ⟨s1', s2', .erased true, ?_, ?_, ⟨_, _, e2⟩, ⟨_, _, f2⟩,
        ⟨by rw [e5, f5, hv.live], by rw [e6, f6, hv.value], by rw [e7, f7, hv.other],
          by have := hv.size; omega, by rw [e9, f9, hv.cl], by rw [e10, f10, hv.cr],
          by rw [e11, f11, hv.base]⟩, ?_, e9, e10, e11⟩
      · simp [bimap.run_call, hw1.erase_left_value_of_mem hcl hb hk, e1]
      · simp [bimap.run_call, hw2.erase_left_value_of_mem hcl2 hb2 hk2, f1]
      · intro y hy
        rw [e5] at hy
        exact Or.inr (List.mem_of_mem_erase hy)
    · have hm1 : ∀ b ∈ s1.mem.live, s1.mem.value b ≠ some k := fun b hb hk => hm ⟨b, hb, hk⟩
      have hm2 : ∀ b ∈ s2.mem.live, s2.mem.value b ≠ some k := by
        rw [← hv.live, ← hv.value]; exact hm1
      refine hstay (.erased false) ?_ ?_
      · simp [bimap.run_call, hw1.erase_left_value_of_not_mem hcl hm1]
      · simp [bimap.run_call, hw2.erase_left_value_of_not_mem hcl2 hm2]
  | erase_right k =>
    by_cases hm : ∃ b ∈ s1.mem.live, s1.mem.other b = some k
    · obtain ⟨b, hb, hk⟩ := hm
      have hb2 : b ∈ s2.mem.live := by rw [← hv.live]; exact hb
      have hk2 : s2.mem.other b = some k := by rw [← hv.other]; exact hk
      obtain ⟨s1', tl1', tr1', e1, e2, _, _, e5, e6, e7, e8, e9, e10, e11⟩ := hw1.erase_right hb
      obtain ⟨s2', tl2', tr2', f1, f2, _, _, f5, f6, f7, f8, f9, f10, f11⟩ :=
        hw2.erase_right hb2
      refine ⟨s1', s2', .erased true, ?_, ?_, ⟨_, _, e2⟩, ⟨_, _, f2⟩,
        ⟨by rw [e5, f5, hv.live], by rw [e6, f6, hv.value], by rw [e7, f7, hv.other],
          by have := hv.size; omega, by rw [e9, f9, hv.cl], by rw [e10, f10, hv.cr],
          by rw [e11, f11, hv.base]⟩, ?_, e9, e10, e11⟩
      · simp [bimap.run_call, hw1.erase_right_value_of_mem hcr hb hk, e1]
      · simp [bimap.run_call, hw2.erase_right_value_of_mem hcr2 hb2 hk2, f1]
      · intro y hy
        rw [e5] at hy
        exact Or.inr (List.mem_of_mem_erase hy)
    · have hm1 : ∀ b ∈ s1.mem.live, s1.mem.other b ≠ some k := fun b hb hk => hm ⟨b, hb, hk⟩
      have hm2 : ∀ b ∈ s2.mem.live, s2.mem.other b ≠ some k := by
        rw [← hv.live, ← hv.other]; exact hm1
      refine hstay (.erased false) ?_ ?_
      · simp [bimap.run_call, hw1.erase_right_value_of_not_mem hcr hm1]
      · simp [bimap.run_call, hw2.erase_right_value_of_not_mem hcr2 hm2]
  | find_left k =>
    by_cases ht : s1.left_taken k
    · obtain ⟨b, hb, x, hx, h1, h2⟩ := ht
      have hb2 : b ∈ s2.mem.live := by rw [← hv.live]; exact hb
      have e1 : s1.find_left k = some b := hw1.left.find_of_equiv hcl hb hx h1 h2
      have e2 : s2.find_left k = some b :=
        hw2.left.find_of_equiv hcl2 hb2 (by rw [← hv.value]; exact hx)
          (by rw [← hv.cl]; exact h1) (by rw [← hv.cl]; exact h2)
      have g1 : bimap_iterator.eq s1.mem b s1.end_left = false :=
        hw1.left.eq_end_false (hw1.left.mem_live.2 hb)
      have g2 : bimap_iterator.eq s2.mem b s2.end_left = false :=
        hw2.left.eq_end_false (hw2.left.mem_live.2 hb2)
      refine hstay (.position true b) ?_ ?_
      · simp [bimap.run_call, e1, g1]
      · simp [bimap.run_call, e2, g2]
    · have e1 : s1.find_left k = some s1.base := hw1.left.find_of_not_taken hcl ht
      have e2 : s2.find_left k = some s2.base :=
        hw2.left.find_of_not_taken hcl2 (fun h => ht ((hlt k).1 h))
      refine hstay (.position false s1.base) ?_ ?_
      · simp [bimap.run_call, e1, end_left, map.end_, bimap_iterator.eq, node_eq_self]
      · simp [bimap.run_call, e2, end_left, map.end_, bimap_iterator.eq, node_eq_self, hv.base]
  | find_right k =>
    by_cases ht : s1.right_taken k
    · obtain ⟨b, hb, x, hx, h1, h2⟩ := ht
      have hb2 : b ∈ s2.mem.live := by rw [← hv.live]; exact hb
      have e1 : s1.find_right k = some b := hw1.right.find_of_equiv hcr hb hx h1 h2
      have e2 : s2.find_right k = some b :=
        hw2.right.find_of_equiv hcr2 hb2
          (by show s2.mem.other b = some x; rw [← hv.other]; exact hx)
          (by rw [← hv.cr]; exact h1) (by rw [← hv.cr]; exact h2)
      have g1 : bimap_iterator.eq s1.mem.flipped b s1.end_right = false :=
        hw1.right.eq_end_false (hw1.right.mem_live.2 hb)
      have g2 : bimap_iterator.eq s2.mem.flipped b s2.end_right = false :=
        hw2.right.eq_end_false (hw2.right.mem_live.2 hb2)
      refine hstay (.position true b) ?_ ?_
      · simp [bimap.run_call, e1, g1]
      · simp [bimap.run_call, e2, g2]
    · have e1 : s1.find_right k = some s1.base := hw1.right.find_of_not_taken hcr ht
      have e2 : s2.find_right k = some s2.base :=
        hw2.right.find_of_not_taken hcr2 (fun h => ht ((hrt k).1 h))
      refine hstay (.position false s1.base) ?_ ?_
      · simp [bimap.run_call, e1, end_right, map.end_, bimap_iterator.eq, node_eq_self]
      · simp [bimap.run_call, e2, end_right, map.end_, bimap_iterator.eq, node_eq_self, hv.base]
  | at_left k =>
    by_cases hm : ∃ b ∈ s1.mem.live, s1.mem.value b = some k
    · obtain ⟨b, hb, hk⟩ := hm
      have hb2 : b ∈ s2.mem.live := by rw [← hv.live]; exact hb
      obtain ⟨w, hw⟩ := hw1.right.vals b (hw1.right.mem_live.2 hb)
      have hw' : s1.mem.other b = some w := hw
      have e1 : s1.at_left k = some (.ok w) := hw1.left.at_of_mem hcl hb hk hw'
      have e2 : s2.at_left k = some (.ok w) :=
        hw2.left.at_of_mem hcl2 hb2 (by rw [← hv.value]; exact hk)
          (by rw [← hv.other]; exact hw')
      refine hstay (.right_value (.ok w)) ?_ ?_
      · simp [bimap.run_call, e1]
      · simp [bimap.run_call, e2]
    · have hm1 : ∀ b ∈ s1.mem.live, s1.mem.value b ≠ some k := fun b hb hk => hm ⟨b, hb, hk⟩
      have hm2 : ∀ b ∈ s2.mem.live, s2.mem.value b ≠ some k := by
        rw [← hv.live, ← hv.value]; exact hm1
      have e1 : s1.at_left k = some (.error .out_of_range) := hw1.left.at_of_not_mem hcl hm1
      have e2 : s2.at_left k = some (.error .out_of_range) := hw2.left.at_of_not_mem hcl2 hm2
      refine hstay (.right_value (.error .out_of_range)) ?_ ?_
      · simp [bimap.run_call, e1]
      · simp [bimap.run_call, e2]
  | at_right k =>
    by_cases hm : ∃ b ∈ s1.mem.live, s1.mem.other b = some k
    · obtain ⟨b, hb, hk⟩ := hm
      have hb2 : b ∈ s2.mem.live := by rw [← hv.live]; exact hb
      obtain ⟨w, hw⟩ := hw1.left.vals b (hw1.left.mem_live.2 hb)
      have e1 : s1.at_right k = some (.ok w) := hw1.right.at_of_mem hcr hb hk hw
      have e2 : s2.at_right k = some (.ok w) :=
        hw2.right.at_of_mem hcr2 hb2 (by show s2.mem.other b = some k; rw [← hv.other]; exact hk)
          (by show s2.mem.value b = some w; rw [← hv.value]; exact hw)
      refine hstay (.left_value (.ok w)) ?_ ?_
      · simp [bimap.run_call, e1]
      · simp [bimap.run_call, e2]
    · have hm1 : ∀ b ∈ s1.mem.flipped.live, s1.mem.flipped.value b ≠ some k :=
        fun b hb hk => hm ⟨b, hb, hk⟩
      have hm2 : ∀ b ∈ s2.mem.flipped.live, s2.mem.flipped.value b ≠ some k := by
        intro b hb hk
        exact hm ⟨b, by rw [hv.live]; exact hb, by rw [hv.other]; exact hk⟩
      have e1 : s1.at_right k = some (.error .out_of_range) := hw1.right.at_of_not_mem hcr hm1
      have e2 : s2.at_right k = some (.error .out_of_range) :=
        hw2.right.at_of_not_mem hcr2 hm2
      refine hstay (.left_value (.error .out_of_range)) ?_ ?_
      · simp [bimap.run_call, e1]
      · simp [bimap.run_call, e2]

end bimap

namespace bimap

variable {L R : Type}

/-- A sequence of calls gives the same answers on two well-formed bimaps with the same
records, whatever the priorities drawn in the two runs. -/
theorem same_view.run_calls [DecidableEq L] [DecidableEq R] (addr : Nat → Nat)
    (prio1 prio2 : Nat → Nat × Nat) :
    ∀ (cs : List (call L R)) (i : Nat) (s1 s2 : bimap L R), wf s1 → wf s2 → same_view s1 s2 →
      strict_weak s1.compare_left → strict_weak s1.compare_right →
      (∀ b ∈ s1.mem.live, ∃ j < i, b = addr j) →
      (∀ j < i + cs.length, 0 < addr j ∧ addr j < size_max ∧ addr j ≠ s1.base) →
      (∀ j k, j < i + cs.length → k < i + cs.length → addr j = addr k → j = k) →
      ∃ (s1' s2' : bimap L R) (xs : List (answer L R)),
        bimap.run_calls addr prio1 i s1 cs = some (s1', xs) ∧
        bimap.run_calls addr prio2 i s2 cs = some (s2', xs) ∧
        wf s1' ∧ wf s2' ∧ same_view s1' s2' ∧ s1'.compare_left = s1.compare_left ∧
        s1'.compare_right = s1.compare_right := by
  intro cs
  induction cs with
  | nil =>
    intro i s1 s2 h1 h2 hv _ _ _ _ _
    exact ⟨s1, s2, [], rfl, rfl, h1, h2, hv, rfl, rfl⟩
  | cons c rest ih =>
    intro i s1 s2 h1 h2 hv hcl hcr hlive haddr hinj
    obtain ⟨tl1, tr1, hw1⟩ := h1
    obtain ⟨tl2, tr2, hw2⟩ := h2
    have hlen : i < i + (c :: rest).length := by simp
    have hfr : s1.fresh (addr i) := by
      obtain ⟨g1, g2, g3⟩ := haddr i hlen
      refine ⟨g1, g2, g3, fun hc => ?_⟩
      obtain ⟨j, hj, hja⟩ := hlive _ hc
      have := hinj i j hlen (by omega) hja
      omega
    obtain ⟨s1', s2', x, e1, e2, k1, k2, k3, k4, k5, k6, k7⟩ :=
      hv.run_call hw1 hw2 hcl hcr hfr (prio1 i).1 (prio1 i).2 (prio2 i).1 (prio2 i).2 c
    have hlen' : i + 1 + rest.length = i + (c :: rest).length := by
      simp only [List.length_cons]; omega
    obtain ⟨t1, t2, xs, f1, f2, g1, g2, g3, g4, g5⟩ :=
      ih (i + 1) s1' s2' k1 k2 k3 (by rw [k5]; exact hcl) (by rw [k6]; exact hcr)
        (fun b hb => by
          rcases k4 b hb with g | g
          · exact ⟨i, by omega, g⟩
          · obtain ⟨j, hj, hja⟩ := hlive b g
            exact ⟨j, by omega, hja⟩)
        (by rw [hlen', k7]; exact haddr) (by rw [hlen']; exact hinj)
    refine ⟨t1, t2, x :: xs, ?_, ?_, g1, g2, g3, by rw [g4, k5], by rw [g5, k6]⟩
    · simp only [bimap.run_calls, e1, f1]
    · simp only [bimap.run_calls, e2, f2]

/-- Claim C35: a sequence of `insert`, `erase_left(key)`, `erase_right(key)`, `find` and
`at` calls on a fresh bimap, run twice with priorities drawn in any two ways (those of
the two sentinels included) and with `new` returning the same addresses, gives in both
runs the same list of answers (the iterator returned and whether it is the end iterator,
the flag of `erase`, the value or the exception of `at`), the same `size()`, and two
loops that visit the same records holding the same pairs. -/
theorem priorities_unobservable [DecidableEq L] [DecidableEq R] (cl : L → L → Bool)
    (cr : R → R → Bool) (hcl : strict_weak cl) (hcr : strict_weak cr)
    (base p1 q1 p2 q2 : Nat) (addr : Nat → Nat) (prio1 prio2 : Nat → Nat × Nat)
    (cs : List (call L R))
    (haddr : ∀ i < cs.length, 0 < addr i ∧ addr i < size_max ∧ addr i ≠ base)
    (hinj : ∀ i j, i < cs.length → j < cs.length → addr i = addr j → i = j) :
    ∃ (s1 s2 : bimap L R) (xs : List (answer L R)) (itl itr : List Nat),
      bimap.run_calls addr prio1 0 (bimap.ctor cl cr base p1 q1) cs = some (s1, xs) ∧
      bimap.run_calls addr prio2 0 (bimap.ctor cl cr base p2 q2) cs = some (s2, xs) ∧
      s1.size = s2.size ∧
      s1.walk_left = some itl ∧ s2.walk_left = some itl ∧
      s1.walk_right = some itr ∧ s2.walk_right = some itr ∧
      s1.pairs itl = s2.pairs itl ∧ s1.pairs itr = s2.pairs itr := by
  obtain ⟨s1, s2, xs, e1, e2, ⟨tl1, tr1, hw1⟩, ⟨tl2, tr2, hw2⟩, hv, c1, c2⟩ :=
    same_view.run_calls addr prio1 prio2 cs 0 (bimap.ctor cl cr base p1 q1)
      (bimap.ctor cl cr base p2 q2) ⟨_, _, wf_ctor cl cr base p1 q1⟩
      ⟨_, _, wf_ctor cl cr base p2 q2⟩ ⟨rfl, rfl, rfl, rfl, rfl, rfl, rfl⟩ hcl hcr
      (fun b hb => by simp [bimap.ctor] at hb)
      (by rw [Nat.zero_add]; exact haddr) (by rw [Nat.zero_add]; exact hinj)
  have hcl1 : strict_weak s1.compare_left := by rw [c1]; exact hcl
  have hcr1 : strict_weak s1.compare_right := by rw [c2]; exact hcr
  obtain ⟨hl, hr⟩ := hv.inorder hw1 hw2 hcl1 hcr1
  refine ⟨s1, s2, xs, tl1.inorder, tr1.inorder, e1, e2, hv.size, hw1.walk_left,
    by rw [hl]; exact hw2.walk_left, hw1.walk_right, by rw [hr]; exact hw2.walk_right,
    pairs_congr (fun b _ => by rw [hv.value, hv.other]; exact ⟨rfl, rfl⟩),
    pairs_congr (fun b _ => by rw [hv.value, hv.other]; exact ⟨rfl, rfl⟩)⟩

theorem priorities_unobservable_witness :
    strict_weak nat_less ∧
    (∀ i < [call.insert 5 50, call.insert 3 30, call.insert 5 70, call.find_left 3,
        call.at_right 50, call.erase_left 5, call.at_left 5, call.find_right 30,
        call.erase_right (30 : Nat), call.insert (4 : Nat) 40].length,
      0 < i + 1 ∧ i + 1 < size_max ∧ i + 1 ≠ 0) ∧
    ∃ (s1 s2 : bimap Nat Nat) (xs : List (answer Nat Nat)) (itl itr : List Nat),
      bimap.run_calls (fun i => i + 1) (fun i => (i, 2 * i)) 0 (bimap.ctor nat_less nat_less 0 1 2)
        [call.insert 5 50, call.insert 3 30, call.insert 5 70, call.find_left 3,
          call.at_right 50, call.erase_left 5, call.at_left 5, call.find_right 30,
          call.erase_right 30, call.insert 4 40] = some (s1, xs) ∧
      bimap.run_calls (fun i => i + 1) (fun i => (100 - i, 7)) 0
        (bimap.ctor nat_less nat_less 0 9 8)
        [call.insert 5 50, call.insert 3 30, call.insert 5 70, call.find_left 3,
          call.at_right 50, call.erase_left 5, call.at_left 5, call.find_right 30,
          call.erase_right 30, call.insert 4 40] = some (s2, xs) ∧
      s1.size = s2.size ∧
      s1.walk_left = some itl ∧ s2.walk_left = some itl ∧
      s1.walk_right = some itr ∧ s2.walk_right = some itr ∧
      s1.pairs itl = s2.pairs itl ∧ s1.pairs itr = s2.pairs itr := by
  have h1 : ∀ i < [call.insert 5 50, call.insert 3 30, call.insert 5 70, call.find_left 3,
        call.at_right 50, call.erase_left 5, call.at_left 5, call.find_right 30,
        call.erase_right (30 : Nat), call.insert (4 : Nat) 40].length,
      0 < i + 1 ∧ i + 1 < size_max ∧ i + 1 ≠ 0 := by
    intro i hi
    simp only [List.length_cons, List.length_nil] at hi
    have h64 : (2 : Nat) ^ 64 = 18446744073709551616 := by norm_num
    unfold size_max
    rw [h64]
    exact ⟨by omega, by omega, by omega⟩
  exact ⟨nat_less_strict_weak, h1,
    priorities_unobservable nat_less nat_less nat_less_strict_weak nat_less_strict_weak
      0 1 2 9 8 (fun i => i + 1) (fun i => (i, 2 * i)) (fun i => (100 - i, 7)) _ h1
      (fun i j _ _ h => by simpa using h)⟩

end bimap

namespace impl

theorem storage.elements_append {Types Others : List Type} (a : storage Types)
    (b : storage Others) : (a.append b).elements = a.elements ++ b.elements := by
  induction a with
  | nil => rfl
  | cons first rest ih => simp [storage.append, storage.elements, ih]

theorem storage.elements_expand {Types : List Type} (s : storage Types) :
    (storage.expand Types (fun I => s.get I)).elements = s.elements := by
  induction s with
  | nil => rfl
  | cons first rest ih =>
    simp only [storage.expand, storage.elements, List.cons.injEq]
    refine ⟨rfl, ?_⟩
    exact ih

theorem storage.elements_get {Types : List Type} (s : storage Types) :
    ∀ I : Fin Types.length, s.elements.get? I.val = some ⟨Types.get I, s.get I⟩ := by
  induction s with
  | nil => intro I; exact I.elim0
  | cons first rest ih =>
    intro I
    obtain ⟨i, hi⟩ := I
    cases i with
    | zero => rfl
    | succ j => exact ih ⟨j, Nat.lt_of_succ_lt_succ hi⟩

theorem storage.length_elements {Types : List Type} (s : storage Types) :
    s.elements.length = Types.length := by
  induction s with
  | nil => rfl
  | cons first rest ih => simp [storage.elements, ih]

theorem return_value.go_eq (Types : List Type) (Tuples : List (List Type)) :
    return_value.go Types Tuples = Types ++ Tuples.flatten := by
  induction Tuples generalizing Types with
  | nil => simp [return_value.go]
  | cons t rest ih => simp [return_value.go, ih]

theorem return_value_eq (Tuples : List (List Type)) : return_value Tuples = Tuples.flatten := by
  cases Tuples with
  | nil => rfl
  | cons t rest => simp [return_value, return_value.go_eq]

theorem tuple_cat_impl.func_elements {Tuples : List (List Type)} (args : pack Tuples) :
    ∀ {Elements : List Type} (elems : storage Elements),
      (tuple_cat_impl.func args elems).storage.elements = elems.elements ++ args.elements := by
  induction args with
  | nil => intro Elements elems; simp [tuple_cat_impl.func, pack.elements]
  | cons first rest ih =>
    intro Elements elems
    simp only [tuple_cat_impl.func, pack.elements]
    rw [ih, storage.elements_append]
    have h : (storage.expand _ (fun I => first.get I)).elements = first.storage.elements :=
      storage.elements_expand first.storage
    rw [h, List.append_assoc]

end impl

/-- Claim C32: `tuple_cat(t1, ..., tn)` has the element types of the arguments one after
the other, so its size is the sum of their sizes, and its elements are the elements of
`t1`, ..., `tn` in this order: `get<I>` of the result is the `I`-th element of the
concatenation, with its type. -/
theorem tuple_cat_spec {Tuples : List (List Type)} (args : impl.pack Tuples) :
    impl.return_value Tuples = Tuples.flatten ∧
    tuple_size_v (impl.return_value Tuples) = (Tuples.map tuple_size_v).sum ∧
    (tuple_cat args).storage.elements = args.elements ∧
    args.elements.length = tuple_size_v (impl.return_value Tuples) ∧
    ∀ I : Fin (impl.return_value Tuples).length,
      args.elements.get? I.val =
        some ⟨(impl.return_value Tuples).get I, (tuple_cat args).get I⟩ := by
  have h1 : (tuple_cat args).storage.elements = args.elements := by
    cases args with
    | nil =>
      simp [tuple_cat, impl.tuple_cat_impl.func_elements, impl.storage.elements,
        impl.pack.elements]
    | cons first rest =>
      simp [tuple_cat, impl.tuple_cat_impl.func_elements, impl.storage.elements]
  refine ⟨impl.return_value_eq Tuples, ?_, h1, ?_, ?_⟩
  · unfold tuple_size_v
    rw [impl.return_value_eq, List.length_flatten]
  · rw [← h1, impl.storage.length_elements]
    rfl
  · intro I
    rw [← h1]
    exact impl.storage.elements_get _ I

/-- The concatenation of `{42, true}` and `{7}` is `{42, true, 7}`. -/
theorem tuple_cat_demo :
    (tuple_cat (.cons demo_tuple1 (.cons demo_tuple2 .nil))).storage.elements =
      [⟨Nat, (42 : Nat)⟩, ⟨Bool, true⟩, ⟨Nat, (7 : Nat)⟩] := rfl

namespace word_type

theorem testBit_shl (w k j : Nat) :
    (shl w k).testBit j = (decide (j < 64) && decide (k ≤ j) && w.testBit (j - k)) := by
  unfold shl
  rw [Nat.testBit_mod_two_pow, Nat.testBit_shiftLeft]
  simp [Bool.and_assoc]

theorem testBit_shr (w k j : Nat) : (shr w k).testBit j = w.testBit (k + j) := by
  unfold shr
  exact Nat.testBit_shiftRight w

theorem shl_lt (w k : Nat) : shl w k < 2 ^ 64 := Nat.mod_lt _ (by positivity)

theorem shr_lt {w : Nat} (k : Nat) (h : w < 2 ^ 64) : shr w k < 2 ^ 64 := by
  unfold shr
  rw [Nat.shiftRight_eq_div_pow]
  exact lt_of_le_of_lt (Nat.div_le_self _ _) h

theorem testBit_of_lt {w : Nat} (h : w < 2 ^ 64) {j : Nat} (hj : 64 ≤ j) :
    w.testBit j = false :=
  Nat.testBit_lt_two_pow (lt_of_lt_of_le h (Nat.pow_le_pow_right (by norm_num) hj))

theorem testBit_of_lt_pow {w c : Nat} (h : w < 2 ^ c) {j : Nat} (hj : c ≤ j) :
    w.testBit j = false :=
  Nat.testBit_lt_two_pow (lt_of_lt_of_le h (Nat.pow_le_pow_right (by norm_num) hj))

theorem shl_one {j : Nat} (hj : j < 64) : shl 1 j = 2 ^ j := by
  unfold shl
  rw [Nat.one_shiftLeft]
  exact Nat.mod_eq_of_lt (Nat.pow_lt_pow_right (by norm_num) hj)

/-- The word `max >> (64 - count)` has exactly its `count` low bits set. -/
theorem shr_max {count : Nat} (h1 : 1 ≤ count) (h2 : count ≤ 64) :
    shr constants.max (constants.word_size_bits - count) = 2 ^ count - 1 := by
  apply Nat.eq_of_testBit_eq
  intro j
  rw [testBit_shr, Nat.testBit_two_pow_sub_one]
  unfold constants.max constants.word_size_bits
  rw [Nat.testBit_two_pow_sub_one]
  congr 1
  simp only [eq_iff_iff]
  omega

theorem lt_of_testBit {w c : Nat} (h : ∀ j, c ≤ j → w.testBit j = false) : w < 2 ^ c :=
  Nat.lt_pow_two_of_testBit w h

end word_type

namespace bitset

theorem getD_set (d : List Nat) (k i v : Nat) :
    (d.set k v).getD i 0 = if i = k ∧ k < d.length then v else d.getD i 0 := by
  rw [List.getD_eq_getElem?_getD, List.getD_eq_getElem?_getD, List.getElem?_set]
  by_cases hik : k = i
  · subst hik
    by_cases hk : k < d.length
    · simp [hk]
    · rw [List.getElem?_eq_none (by omega)]
      simp [hk]
  · have : ¬ i = k := fun h => hik h.symm
    simp [hik, this]

theorem bit_set (d : List Nat) (k i v : Nat) :
    bit (d.set k v) i =
      if i / 64 = k ∧ k < d.length then v.testBit (i % 64) else bit d i := by
  unfold bit constants.word_size_bits
  rw [getD_set]
  split <;> rfl

theorem words_ok_set {d : List Nat} (h : words_ok d) (k : Nat) {v : Nat} (hv : v < 2 ^ 64) :
    words_ok (d.set k v) := by
  intro w hw
  rcases List.mem_or_eq_of_mem_set hw with g | g
  · exact h w g
  · rw [g]; exact hv

theorem words_ok.getD {d : List Nat} (h : words_ok d) (k : Nat) : d.getD k 0 < 2 ^ 64 := by
  rw [List.getD_eq_getElem?_getD]
  by_cases hk : k < d.length
  · rw [List.getElem?_eq_getElem hk]
    exact h _ (List.getElem_mem _)
  · rw [List.getElem?_eq_none (by omega)]
    simp

/-- Writing into the word of position `pos` a value of `c` bits keeps zero the bits from
`pos + c` on, when the bits from `pos` on were zero. -/
theorem padding_set {d : List Nat} {pos c v : Nat} (hv : v < 2 ^ c)
    (h : ∀ i, pos ≤ i → bit d i = false) :
    ∀ i, pos + c ≤ i → bit (d.set (pos / 64) v) i = false := by
  intro i hi
  rw [bit_set]
  split
  · rename_i hk
    refine word_type.testBit_of_lt_pow hv ?_
    have := hk.1
    omega
  · exact h i (by omega)

/-- Changing in a word of the array only bits below position `pos` keeps zero the bits
from `pos` on. -/
theorem padding_set_low {d : List Nat} {pos k v : Nat}
    (hv : ∀ j, j < 64 → pos ≤ 64 * k + j → v.testBit j = (d.getD k 0).testBit j)
    (h : ∀ i, pos ≤ i → bit d i = false) :
    ∀ i, pos ≤ i → bit (d.set k v) i = false := by
  intro i hi
  rw [bit_set]
  split
  · rename_i hk
    rw [hv (i % 64) (Nat.mod_lt _ (by norm_num)) (by have := hk.1; omega)]
    have := h i hi
    unfold bit constants.word_size_bits at this
    rw [hk.1] at this
    exact this
  · exact h i hi

end bitset

namespace bitset

theorem getD_replicate_zero (m k : Nat) : (List.replicate m 0).getD k 0 = 0 := by
  rw [List.getD_eq_getElem?_getD, List.getElem?_replicate]
  split <;> rfl

theorem bit_replicate_zero (m i : Nat) : bit (List.replicate m 0) i = false := by
  unfold bit
  rw [getD_replicate_zero]
  exact Nat.zero_testBit _

theorem ctor_size_eq {n : Nat} (h : n + 63 < 2 ^ 64) :
    ctor_size n = ⟨List.replicate ((n + 63) / 64) 0, n⟩ := by
  unfold ctor_size constants.word_size_bits
  have h1 : (n + 64 - 1) % 2 ^ 64 = n + 63 := by
    rw [Nat.mod_eq_of_lt (by omega)]
    omega
  rw [h1]
  by_cases hn : n > 0
  · simp [hn]
  · have : n = 0 := by omega
    subst this
    simp

theorem wf_ctor_size {n : Nat} (h : n + 63 < 2 ^ 64) : wf (ctor_size n) := by
  rw [ctor_size_eq h]
  refine ⟨by simp, ?_, fun i _ => bit_replicate_zero _ i, h⟩
  intro w hw
  rw [List.eq_of_mem_replicate hw]
  positivity

theorem fill_n_succ (d : List Nat) (n v : Nat) : fill_n d (n + 1) v = (fill_n d n v).set n v := by
  unfold fill_n
  rw [List.range_succ, List.foldl_append]
  rfl

theorem length_fill_n (d : List Nat) (n v : Nat) : (fill_n d n v).length = d.length := by
  induction n with
  | zero => rfl
  | succ n ih => rw [fill_n_succ, List.length_set, ih]

theorem getD_fill_n (d : List Nat) (n v k : Nat) :
    (fill_n d n v).getD k 0 = if k < n ∧ k < d.length then v else d.getD k 0 := by
  induction n with
  | zero => simp [fill_n]
  | succ n ih =>
    rw [fill_n_succ, getD_set, ih, length_fill_n]
    by_cases h1 : k = n
    · subst h1
      by_cases h2 : k < d.length
      · simp [h2]
      · simp [h2]
    · by_cases h2 : k < n
      · have : k < n + 1 := by omega
        simp [h1, h2, this]
      · have : ¬ k < n + 1 := by omega
        simp [h1, h2, this]

theorem words_ok_fill_n {d : List Nat} (h : words_ok d) (n : Nat) {v : Nat} (hv : v < 2 ^ 64) :
    words_ok (fill_n d n v) := by
  induction n with
  | zero => exact h
  | succ n ih => rw [fill_n_succ]; exact words_ok_set ih n hv

theorem wf_ctor_fill {n : Nat} (value : Bool) (h : n + 63 < 2 ^ 64) : wf (ctor_fill n value) := by
  have hw := wf_ctor_size h
  unfold ctor_fill
  cases value with
  | false => exact hw
  | true =>
    simp only [if_true]
    have hsz : (ctor_size n).size_ = n := by rw [ctor_size_eq h]
    have hmax : constants.max < 2 ^ 64 := by unfold constants.max; omega
    rw [hsz]
    unfold constants.word_size_bits
    have hfill : ∀ i, n ≤ i →
        bit (fill_n (ctor_size n).data_ (n / 64) constants.max) i = false := by
      intro i hi
      unfold bit constants.word_size_bits
      rw [getD_fill_n]
      have : ¬ i / 64 < n / 64 := by omega
      simp only [this, false_and, if_false]
      rw [ctor_size_eq h]
      rw [getD_replicate_zero]
      exact Nat.zero_testBit _
    by_cases hr : n % 64 ≠ 0
    · simp only [hr, if_true, ne_eq, not_false_eq_true]
      have hval : word_type.dec (word_type.shl constants.one (n % 64)) = 2 ^ (n % 64) - 1 := by
        unfold constants.one
        rw [word_type.shl_one (Nat.mod_lt _ (by norm_num))]
        unfold word_type.dec
        have h1 : 1 ≤ 2 ^ (n % 64) := Nat.one_le_two_pow
        have h2 : 2 ^ (n % 64) < 2 ^ 64 :=
          Nat.pow_lt_pow_right (by norm_num) (Nat.mod_lt _ (by norm_num))
        have h3 : 2 ^ (n % 64) + (2 ^ 64 - 1) = (2 ^ (n % 64) - 1) + 2 ^ 64 := by omega
        rw [h3, Nat.add_mod_right, Nat.mod_eq_of_lt (by omega)]
      rw [hval]
      have hvlt : 2 ^ (n % 64) - 1 < 2 ^ 64 := by
        have h2 : 2 ^ (n % 64) < 2 ^ 64 :=
          Nat.pow_lt_pow_right (by norm_num) (Nat.mod_lt _ (by norm_num))
        omega
      refine ⟨?_, words_ok_set (words_ok_fill_n hw.words _ hmax) _ hvlt, ?_, h⟩
      · show (List.set _ _ _).length = _
        rw [List.length_set, length_fill_n]
        have := hw.length
        rw [hsz] at this
        exact this
      · intro i hi
        show bit (List.set _ _ _) i = false
        rw [bit_set]
        split
        · rename_i hk
          rw [Nat.testBit_two_pow_sub_one]
          have := hk.1
          simp only [decide_eq_false_iff_not, not_lt]
          have hi' : n ≤ i := hi
          omega
        · exact hfill i hi
    · simp only [hr, if_false]
      refine ⟨?_, words_ok_fill_n hw.words _ hmax, fun i hi => hfill i hi, h⟩
      show (fill_n _ _ _).length = _
      rw [length_fill_n]
      have := hw.length
      rw [hsz] at this
      exact this

theorem copy_n_succ (src : List Nat) (n : Nat) (dest : List Nat) :
    copy_n src (n + 1) dest = (copy_n src n dest).set n (src.getD n 0) := by
  unfold copy_n
  rw [List.range_succ, List.foldl_append]
  rfl

theorem length_copy_n (src : List Nat) (n : Nat) (dest : List Nat) :
    (copy_n src n dest).length = dest.length := by
  induction n with
  | zero => rfl
  | succ n ih => rw [copy_n_succ, List.length_set, ih]

theorem getD_copy_n (src : List Nat) (n : Nat) (dest : List Nat) (k : Nat) :
    (copy_n src n dest).getD k 0 =
      if k < n ∧ k < dest.length then src.getD k 0 else dest.getD k 0 := by
  induction n with
  | zero => simp [copy_n]
  | succ n ih =>
    rw [copy_n_succ, getD_set, ih, length_copy_n]
    by_cases h1 : k = n
    · subst h1
      by_cases h2 : k < dest.length
      · simp [h2]
      · simp [h2]
    · by_cases h2 : k < n
      · have : k < n + 1 := by omega
        simp [h1, h2, this]
      · have : ¬ k < n + 1 := by omega
        simp [h1, h2, this]

theorem getD_of_length_le {d : List Nat} {k : Nat} (h : d.length ≤ k) : d.getD k 0 = 0 := by
  rw [List.getD_eq_getElem?_getD, List.getElem?_eq_none h]
  rfl

theorem words_ok_of_getD {d : List Nat} (h : ∀ k, d.getD k 0 < 2 ^ 64) : words_ok d := by
  intro w hw
  obtain ⟨k, hk, hkw⟩ := List.getElem_of_mem hw
  have := h k
  rw [List.getD_eq_getElem?_getD, List.getElem?_eq_getElem hk] at this
  rw [← hkw]
  exact this

theorem wf_ctor_copy {b : bitset} (hw : wf b) : wf (ctor_copy b) := by
  have hs := wf_ctor_size hw.small
  have hget : ∀ k, (ctor_copy b).data_.getD k 0 = b.data_.getD k 0 := by
    intro k
    unfold ctor_copy
    simp only
    rw [getD_copy_n, ctor_size_eq hw.small]
    simp only [List.length_replicate]
    unfold constants.word_size_bits
    have h1 : (b.size_ + 64 - 1) % 2 ^ 64 / 64 = (b.size_ + 63) / 64 := by
      have : (b.size_ + 64 - 1) = b.size_ + 63 := by omega
      rw [this, Nat.mod_eq_of_lt hw.small]
    rw [h1]
    by_cases hk : k < (b.size_ + 63) / 64
    · simp [hk]
    · simp only [hk, and_self, if_false]
      rw [getD_replicate_zero, getD_of_length_le (by rw [hw.length]; omega)]
  refine ⟨?_, words_ok_of_getD (fun k => by rw [hget]; exact hw.words.getD k), ?_, ?_⟩
  · unfold ctor_copy
    simp only
    rw [length_copy_n]
    exact hs.length
  · intro i hi
    unfold bit
    rw [hget]
    have hsz : (ctor_copy b).size_ = b.size_ := by
      unfold ctor_copy
      simp only
      rw [ctor_size_eq hw.small]
    rw [hsz] at hi
    exact hw.padding i hi
  · have hsz : (ctor_copy b).size_ = b.size_ := by
      unfold ctor_copy
      simp only
      rw [ctor_size_eq hw.small]
    rw [hsz]
    exact hw.small

end bitset

namespace bitset

theorem to_bool_deref (d : List Nat) (i : Nat) :
    (bitset_iterator.deref ⟨d, i⟩).to_bool = bit d i := by
  unfold bitset_iterator.deref bitset_reference.to_bool bit word_type.shr Nat.testBit
  simp only
  rw [Nat.and_comm]

/-- The characters that `to_string` writes for the bits from `it` on. -/
theorem to_string_loop_spec (vw : bitset_view) :
    ∀ (fuel it : Nat) (ans : List Char), it ≤ vw.end_.index_ → vw.end_.index_ - it ≤ fuel →
      to_string_loop vw fuel it ans =
        some (ans ++ (List.range' it (vw.end_.index_ - it)).map
          (fun i => if bit vw.begin.data_ i then '1' else '0')) := by
  intro fuel
  induction fuel with
  | zero =>
    intro it ans h1 h2
    have : it = vw.end_.index_ := by omega
    simp [to_string_loop, this]
  | succ f ih =>
    intro it ans h1 h2
    by_cases he : it = vw.end_.index_
    · simp [to_string_loop, he]
    · have hlt : it < vw.end_.index_ := by omega
      have hsub : vw.end_.index_ - it = (vw.end_.index_ - (it + 1)) + 1 := by omega
      simp only [to_string_loop, ne_eq, he, not_false_eq_true, if_true]
      rw [ih (it + 1) _ (by omega) (by omega), to_bool_deref, hsub, List.range'_succ]
      simp

theorem to_string_spec {b : bitset} :
    to_string b.to_view =
      some ((List.range b.size).map (fun i => if bit b.data_ i then '1' else '0')) := by
  unfold to_string
  have h := to_string_loop_spec b.to_view b.to_view.size b.to_view.begin.index_ []
    (by simp [to_view, bitset_view.begin, bitset_view.end_, begin, end_])
    (by simp [to_view, bitset_view.begin, bitset_view.end_, begin, end_, bitset_view.size])
  rw [h]
  simp [to_view, bitset_view.begin, bitset_view.end_, begin, end_, List.range_eq_range']

/-- The bits that the loop of `bitset(str)` leaves. -/
theorem ctor_string_loop_spec :
    ∀ (str : List Char) (count : Nat) (d : List Nat), count + str.length ≤ 64 * d.length →
      words_ok d → (∀ i, count ≤ i → bit d i = false) →
      (ctor_string_loop str count d).length = d.length ∧
      words_ok (ctor_string_loop str count d) ∧
      ∀ i, bit (ctor_string_loop str count d) i =
        if i < count then bit d i else decide (str.getD (i - count) '0' = '1') := by
  intro str
  induction str with
  | nil =>
    intro count d _ hw hz
    refine ⟨rfl, hw, fun i => ?_⟩
    simp only [ctor_string_loop, List.getD_nil]
    split
    · rfl
    · rw [hz i (by omega)]
      simp
  | cons c rest ih =>
    intro count d hlen hw hz
    simp only [List.length_cons] at hlen
    have hj : count % 64 < 64 := Nat.mod_lt _ (by norm_num)
    have hk : count / 64 < d.length := by omega
    -- the array after the statement of the loop body
    have hstep : ∃ d1, (if c = '1' then
          d.set (count / constants.word_size_bits)
            (d.getD (count / constants.word_size_bits) 0 ^^^
              word_type.shl constants.one (count % constants.word_size_bits))
        else d) = d1 ∧ d1.length = d.length ∧ words_ok d1 ∧
        ∀ i, bit d1 i = if i = count then decide (c = '1') else bit d i := by
      by_cases hc : c = '1'
      · refine ⟨_, rfl, ?_, ?_, ?_⟩
        · simp [hc]
        · simp only [hc, if_true]
          refine words_ok_set hw _ ?_
          exact Nat.xor_lt_two_pow (hw.getD _) (word_type.shl_lt _ _)
        · intro i
          simp only [hc, if_true, decide_True]
          unfold constants.word_size_bits constants.one
          rw [bit_set, word_type.shl_one hj, Nat.testBit_xor, Nat.testBit_two_pow]
          by_cases hic : i = count
          · subst hic
            have := hz i (le_refl _)
            unfold bit constants.word_size_bits at this
            rw [if_pos ⟨rfl, hk⟩, this]
            simp
          · by_cases hw' : i / 64 = count / 64
            · have hne : ¬ count % 64 = i % 64 := by omega
              simp only [hw', hk, and_self, if_true, hne, decide_False, Bool.xor_false, hic,
                if_false]
              unfold bit constants.word_size_bits
              rw [hw']
            · simp [hw', hic]
      · refine ⟨d, by simp [hc], rfl, hw, fun i => ?_⟩
        by_cases hic : i = count
        · subst hic
          simp [hc, hz i (le_refl _)]
        · simp [hic]
    obtain ⟨d1, e1, e2, e3, e4⟩ := hstep
    simp only [ctor_string_loop]
    rw [e1]
    obtain ⟨k1, k2, k3⟩ := ih (count + 1) d1 (by rw [e2]; omega) e3 (fun i hi => by
      rw [e4]
      have : ¬ i = count := by omega
      simp only [this, if_false]
      exact hz i (by omega))
    refine ⟨by rw [k1, e2], k2, fun i => ?_⟩
    rw [k3, e4]
    by_cases h1 : i < count
    · have h2 : i < count + 1 := by omega
      have h3 : ¬ i = count := by omega
      simp [h1, h2, h3]
    · by_cases h2 : i = count
      · subst h2
        simp
      · have h3 : ¬ i < count + 1 := by omega
        have h4 : i - count = (i - (count + 1)) + 1 := by omega
        simp only [h1, h3, h2, if_false]
        rw [h4, List.getD_cons_succ]

theorem ctor_string_spec {str : List Char} (h : str.length + 63 < 2 ^ 64) :
    wf (ctor_string str) ∧ (ctor_string str).size_ = str.length ∧
    ∀ i, bit (ctor_string str).data_ i = decide (str.getD i '0' = '1') := by
  have hs := wf_ctor_size h
  have hd : (ctor_size str.length).data_ = List.replicate ((str.length + 63) / 64) 0 := by
    rw [ctor_size_eq h]
  have hsz : (ctor_size str.length).size_ = str.length := by rw [ctor_size_eq h]
  obtain ⟨k1, k2, k3⟩ := ctor_string_loop_spec str 0 (ctor_size str.length).data_
    (by rw [hd, List.length_replicate]; omega) hs.words
    (fun i _ => by rw [hd]; exact bit_replicate_zero _ i)
  have hbit : ∀ i, bit (ctor_string str).data_ i = decide (str.getD i '0' = '1') := by
    intro i
    show bit (ctor_string_loop str 0 (ctor_size str.length).data_) i = _
    rw [k3]
    simp
  refine ⟨⟨?_, k2, ?_, ?_⟩, hsz, hbit⟩
  · show (ctor_string_loop str 0 (ctor_size str.length).data_).length = _
    rw [k1]
    have := hs.length
    rw [this]
    show ((ctor_size str.length).size_ + 63) / 64 = ((ctor_size str.length).size_ + 63) / 64
    rfl
  · intro i hi
    rw [hbit]
    have hi' : str.length ≤ i := by
      have : (ctor_string str).size_ = str.length := hsz
      rw [this] at hi
      exact hi
    rw [List.getD_eq_getElem?_getD, List.getElem?_eq_none hi']
    decide
  · show (ctor_size str.length).size_ + 63 < 2 ^ 64
    rw [hsz]
    exact h

end bitset

/-- Claim C39: for a string `s` of characters `'0'` and `'1'` (short enough for its words
to be allocated), `to_string(bitset(s))` returns `s` and `bitset(s).size()` is the
length of `s`. -/
theorem string_round_trip (s : List Char) (h01 : ∀ c ∈ s, c = '0' ∨ c = '1')
    (hlen : s.length + 63 < 2 ^ 64) :
    to_string (bitset.ctor_string s).to_view = some s ∧
    (bitset.ctor_string s).size = s.length := by
  obtain ⟨_, hsz, hbit⟩ := bitset.ctor_string_spec hlen
  refine ⟨?_, hsz⟩
  rw [bitset.to_string_spec]
  congr 1
  apply List.ext_getElem
  · simp [bitset.size, hsz]
  · intro i h1 h2
    simp only [List.getElem_map, List.getElem_range]
    rw [hbit, List.getD_eq_getElem?_getD, List.getElem?_eq_getElem h2]
    simp only [Option.getD_some]
    rcases h01 _ (List.getElem_mem h2) with g | g
    · rw [g]; decide
    · rw [g]; decide

theorem string_round_trip_witness :
    (∀ c ∈ "0110100111".toList, c = '0' ∨ c = '1') ∧ "0110100111".toList.length + 63 < 2 ^ 64 ∧
    to_string (bitset.ctor_string "0110100111".toList).to_view = some "0110100111".toList ∧
    (bitset.ctor_string "0110100111".toList).size = "0110100111".toList.length :=
  ⟨by decide, by decide, string_round_trip _ (by decide) (by decide)⟩

namespace bitset

/-- `get(size)` returns a word of `size` bits. -/
theorem get_lt {d : List Nat} (hw : words_ok d) (it : Nat) {size : Nat} (h1 : 1 ≤ size)
    (h2 : size ≤ 64) : bitset_iterator.get ⟨d, it⟩ size < 2 ^ size := by
  apply word_type.lt_of_testBit
  intro j hj
  have h64 : (2 : Nat) ^ 64 = 18446744073709551616 := by norm_num
  have hs : it % 64 < 64 := Nat.mod_lt _ (by norm_num)
  unfold bitset_iterator.get constants.word_size_bits
  simp only
  by_cases hb : size ≤ 64 - it % 64
  · rw [if_pos hb, word_type.testBit_shr, word_type.testBit_shl]
    have : ¬ 64 - size + j < 64 := by omega
    simp [this]
  · rw [if_neg hb, Nat.testBit_xor, word_type.testBit_shr, word_type.testBit_shl,
      word_type.testBit_shr, word_type.testBit_shl]
    have hrem : (size + (2 ^ 64 - 64) + it % 64) % 2 ^ 64 = size + it % 64 - 64 := by
      rw [h64]
      omega
    rw [hrem]
    have hA : (d.getD (it / 64) 0).testBit (it % 64 + j) = false :=
      word_type.testBit_of_lt (hw.getD _) (by omega)
    rw [hA]
    by_cases hj64 : j < 64
    · have : ¬ 64 - (size + it % 64 - 64) + (j - (64 - it % 64)) < 64 := by omega
      simp [this]
    · simp [hj64]

/-- `set(value, size)` through an iterator at the first bit of the word `m`: the word is
replaced, and its bits from `size` on are kept. -/
theorem set_aligned {d : List Nat} (hw : words_ok d) (m : Nat) {size value : Nat}
    (h1 : 1 ≤ size) (h2 : size ≤ 64) (hv : value < 2 ^ size) :
    ∃ w', bitset_iterator.set ⟨d, 64 * m⟩ value size = d.set m w' ∧ w' < 2 ^ 64 ∧
      ∀ j, size ≤ j → w'.testBit j = (d.getD m 0).testBit j := by
  have hsh : 64 * m % 64 = 0 := Nat.mul_mod_right 64 m
  have hdiv : 64 * m / 64 = m := Nat.mul_div_cancel_left m (by norm_num)
  have hwm := hw.getD m
  have hv64 : value < 2 ^ 64 := lt_of_lt_of_le hv (Nat.pow_le_pow_right (by norm_num) h2)
  -- the mask of the first word
  have hmask : ∃ mask, (if size < 64 - 0 then
        word_type.shr (word_type.shl (word_type.shl (word_type.shr (d.getD m 0) 0) 0)
          (64 - 0 - size)) (64 - 0 - size)
      else word_type.shl (word_type.shr (d.getD m 0) 0) 0) = mask ∧ mask < 2 ^ 64 ∧
      ∀ j, size ≤ j → mask.testBit j = false := by
    by_cases hlt : size < 64 - 0
    · refine ⟨_, rfl, ?_, ?_⟩
      · rw [if_pos hlt]
        exact word_type.shr_lt _ (word_type.shl_lt _ _)
      · intro j hj
        rw [if_pos hlt, word_type.testBit_shr, word_type.testBit_shl]
        have : ¬ 64 - 0 - size + j < 64 := by omega
        simp [this]
    · refine ⟨_, rfl, ?_, ?_⟩
      · rw [if_neg hlt]
        exact word_type.shl_lt _ _
      · intro j hj
        rw [if_neg hlt, word_type.testBit_shl]
        have : ¬ j < 64 := by omega
        simp [this]
  obtain ⟨mask, e1, e2, e3⟩ := hmask
  unfold bitset_iterator.set constants.word_size_bits
  simp only [hsh, hdiv]
  rw [e1]
  have hcond : ¬ 64 - 0 < size := by omega
  rw [if_neg hcond, List.set_set]
  refine ⟨_, rfl, ?_, ?_⟩
  · refine Nat.or_lt_two_pow ?_ (word_type.shl_lt _ _)
    rw [getD_set]
    split
    · exact Nat.xor_lt_two_pow hwm e2
    · exact hwm
  · intro j hj
    rw [Nat.testBit_or, word_type.testBit_shl, getD_set]
    have hvj : value.testBit (j - 0) = false := word_type.testBit_of_lt_pow hv (by omega)
    rw [hvj]
    simp only [Bool.and_false, Bool.or_false]
    split
    · rw [Nat.testBit_xor, e3 j hj]
      simp
    · rfl

/-- One step of a loop over the words of a bitset keeps its invariant. -/
theorem wf_set_aligned {b : bitset} (hw : wf b) (m value : Nat) (hm : 64 * m < b.size_)
    (hv : value < 2 ^ (min 64 (b.size_ - 64 * m))) :
    wf ⟨bitset_iterator.set ⟨b.data_, 64 * m⟩ value (min 64 (b.size_ - 64 * m)), b.size_⟩ := by
  obtain ⟨w', e1, e2, e3⟩ := set_aligned hw.words m (by omega) (Nat.min_le_left _ _) hv
  rw [e1]
  refine ⟨by simp [hw.length], words_ok_set hw.words _ e2, ?_, hw.small⟩
  intro i hi
  show bit (b.data_.set m w') i = false
  rw [bit_set]
  have hpad := hw.padding i hi
  split
  · rename_i hk
    rw [e3 (i % 64) (by
      have := hk.1
      have hi' : b.size_ ≤ i := hi
      omega)]
    unfold bit constants.word_size_bits at hpad
    rw [hk.1] at hpad
    exact hpad
  · exact hpad

end bitset

namespace bitset

/-- The loop of `iteration_with_operation` over all the words of a bitset returns, and
keeps the invariant of the bitset, when `func` makes words of `count` bits. -/
theorem iteration_with_operation_loop_spec {func : Nat → Nat → Nat} {n : Nat}
    (hf : ∀ v c, 1 ≤ c → c ≤ 64 → v < 2 ^ c → func v c < 2 ^ c) :
    ∀ (fuel it : Nat) (d : List Nat), wf ⟨d, n⟩ → (it % 64 = 0 ∨ n ≤ it) → n - it ≤ fuel →
      ∃ d', bitset_view.iteration_with_operation_loop func n fuel d it = some d' ∧
        wf ⟨d', n⟩ := by
  intro fuel
  induction fuel with
  | zero =>
    intro it d hw _ hfuel
    have : ¬ it < n := by omega
    exact ⟨d, by simp [bitset_view.iteration_with_operation_loop, this], hw⟩
  | succ f ih =>
    intro it d hw hal hfuel
    by_cases hlt : it < n
    · have hmod : it % 64 = 0 := by
        rcases hal with g | g
        · exact g
        · omega
      have hit : it = 64 * (it / 64) := by omega
      have hm : 64 * (it / 64) < n := by omega
      have hc1 : 1 ≤ min 64 (n - it) := by omega
      have hc2 : min 64 (n - it) ≤ 64 := Nat.min_le_left _ _
      have hv := hf (bitset_iterator.get ⟨d, it⟩ (min 64 (n - it))) _ hc1 hc2
        (get_lt hw.words it hc1 hc2)
      have hstep := wf_set_aligned hw (it / 64)
        (func (bitset_iterator.get ⟨d, it⟩ (min 64 (n - it))) (min 64 (n - it)))
        hm (by rw [← hit]; exact hv)
      rw [← hit] at hstep
      obtain ⟨d', e1, e2⟩ := ih (it + min 64 (n - it)) _ hstep (by omega) (by omega)
      refine ⟨d', ?_, e2⟩
      simp only [bitset_view.iteration_with_operation_loop, hlt, if_true,
        constants.word_size_bits]
      exact e1
    · exact ⟨d, by simp [bitset_view.iteration_with_operation_loop, hlt], hw⟩

/-- The loop of `iteration_with_bits_operation` over all the words of a bitset returns,
and keeps the invariant of the bitset, when `bit_function` makes words of `count` bits. -/
theorem iteration_with_bits_operation_loop_spec {bit_function : Nat → Nat → Nat} {n : Nat}
    (other : bitset_view) (left : Nat) (ho : words_ok other.left_.data_)
    (hf : ∀ v w c, v < 2 ^ c → w < 2 ^ c → bit_function v w < 2 ^ c) :
    ∀ (fuel it : Nat) (d : List Nat), wf ⟨d, n⟩ → (it % 64 = 0 ∨ n ≤ it) → n - it ≤ fuel →
      ∃ d', bitset_view.iteration_with_bits_operation_loop bit_function other left n fuel d it =
          some d' ∧ wf ⟨d', n⟩ := by
  intro fuel
  induction fuel with
  | zero =>
    intro it d hw _ hfuel
    have : ¬ it < n := by omega
    exact ⟨d, by simp [bitset_view.iteration_with_bits_operation_loop, this], hw⟩
  | succ f ih =>
    intro it d hw hal hfuel
    by_cases hlt : it < n
    · have hmod : it % 64 = 0 := by
        rcases hal with g | g
        · exact g
        · omega
      have hit : it = 64 * (it / 64) := by omega
      have hm : 64 * (it / 64) < n := by omega
      have hc1 : 1 ≤ min 64 (n - it) := by omega
      have hc2 : min 64 (n - it) ≤ 64 := Nat.min_le_left _ _
      have hv := hf (bitset_iterator.get ⟨d, it⟩ (min 64 (n - it)))
        ((other.begin.add (it - left)).get (min 64 (n - it))) _
        (get_lt hw.words it hc1 hc2) (get_lt ho _ hc1 hc2)
      have hstep := wf_set_aligned hw (it / 64)
        (bit_function (bitset_iterator.get ⟨d, it⟩ (min 64 (n - it)))
          ((other.begin.add (it - left)).get (min 64 (n - it))))
        hm (by rw [← hit]; exact hv)
      rw [← hit] at hstep
      obtain ⟨d', e1, e2⟩ := ih (it + min 64 (n - it)) _ hstep (by omega) (by omega)
      refine ⟨d', ?_, e2⟩
      simp only [bitset_view.iteration_with_bits_operation_loop, hlt, if_true,
        constants.word_size_bits]
      exact e1
    · exact ⟨d, by simp [bitset_view.iteration_with_bits_operation_loop, hlt], hw⟩

theorem subview_full {b : bitset} (hw : wf b) :
    b.subview 0 constants.npos = ⟨⟨b.data_, 0⟩, ⟨b.data_, b.size_⟩⟩ := by
  have h64 : (2 : Nat) ^ 64 = 18446744073709551616 := by norm_num
  have hs := hw.small
  rw [h64] at hs
  unfold subview constants.npos size
  rw [h64]
  have h1 : ¬ 0 > b.size_ := by omega
  have h2 : ¬ 18446744073709551616 - 1 ≤ b.size_ - 0 := by omega
  simp only [h1, h2, if_false]
  rfl

/-- `set()`, `reset()` and `flip()` return and keep the invariant. -/
theorem wf_iteration {b : bitset} (hw : wf b) (func : Nat → Nat → Nat)
    (hf : ∀ v c, 1 ≤ c → c ≤ 64 → v < 2 ^ c → func v c < 2 ^ c) :
    ∃ d', (b.subview 0 constants.npos).iteration_with_operation func = some d' ∧
      wf ⟨d', b.size_⟩ := by
  rw [subview_full hw]
  exact iteration_with_operation_loop_spec hf _ 0 b.data_ hw (Or.inl rfl)
    (by simp [bitset_view.size, bitset_view.end_])

theorem wf_set {b : bitset} (hw : wf b) : ∃ b', b.set = some b' ∧ wf b' ∧ b'.size_ = b.size_ := by
  obtain ⟨d', e1, e2⟩ := wf_iteration hw (fun _ count =>
    word_type.shr constants.max (constants.word_size_bits - count)) (by
      intro v c h1 h2 _
      simp only
      rw [word_type.shr_max h1 h2]
      have : 1 ≤ 2 ^ c := Nat.one_le_two_pow
      omega)
  exact ⟨⟨d', b.size_⟩, by simp [bitset.set, bitset_view.set, e1], e2, rfl⟩

theorem wf_reset {b : bitset} (hw : wf b) :
    ∃ b', b.reset = some b' ∧ wf b' ∧ b'.size_ = b.size_ := by
  obtain ⟨d', e1, e2⟩ := wf_iteration hw (fun _ _ => 0) (by
      intro v c _ _ _
      positivity)
  exact ⟨⟨d', b.size_⟩, by simp [bitset.reset, bitset_view.reset, e1], e2, rfl⟩

theorem wf_flip {b : bitset} (hw : wf b) :
    ∃ b', b.flip = some b' ∧ wf b' ∧ b'.size_ = b.size_ := by
  obtain ⟨d', e1, e2⟩ := wf_iteration hw (fun value count =>
    value ^^^ word_type.shr constants.max (constants.word_size_bits - count)) (by
      intro v c h1 h2 hv
      simp only
      rw [word_type.shr_max h1 h2]
      refine Nat.xor_lt_two_pow hv ?_
      have : 1 ≤ 2 ^ c := Nat.one_le_two_pow
      omega)
  exact ⟨⟨d', b.size_⟩, by simp [bitset.flip, bitset_view.flip, e1], e2, rfl⟩

theorem wf_bits_iteration {b : bitset} (hw : wf b) (bit_function : Nat → Nat → Nat)
    (other : bitset_view) (ho : words_ok other.left_.data_)
    (hf : ∀ v w c, v < 2 ^ c → w < 2 ^ c → bit_function v w < 2 ^ c) :
    ∃ d', (b.subview 0 constants.npos).iteration_with_bits_operation bit_function other =
        some d' ∧ wf ⟨d', b.size_⟩ := by
  rw [subview_full hw]
  exact iteration_with_bits_operation_loop_spec other _ ho hf _ 0 b.data_ hw (Or.inl rfl)
    (by simp [bitset_view.size, bitset_view.end_])

theorem wf_op_and {b : bitset} (hw : wf b) (other : bitset_view)
    (ho : words_ok other.left_.data_) :
    ∃ b', b.op_and other = some b' ∧ wf b' ∧ b'.size_ = b.size_ := by
  obtain ⟨d', e1, e2⟩ := wf_bits_iteration hw (fun a b => a &&& b) other ho
    (fun v w c _ h2 => Nat.and_lt_two_pow v h2)
  exact ⟨⟨d', b.size_⟩, by simp [bitset.op_and, bitset_view.op_and, e1], e2, rfl⟩

theorem wf_op_or {b : bitset} (hw : wf b) (other : bitset_view)
    (ho : words_ok other.left_.data_) :
    ∃ b', b.op_or other = some b' ∧ wf b' ∧ b'.size_ = b.size_ := by
  obtain ⟨d', e1, e2⟩ := wf_bits_iteration hw (fun a b => a ||| b) other ho
    (fun v w c h1 h2 => Nat.or_lt_two_pow h1 h2)
  exact ⟨⟨d', b.size_⟩, by simp [bitset.op_or, bitset_view.op_or, e1], e2, rfl⟩

theorem wf_op_xor {b : bitset} (hw : wf b) (other : bitset_view)
    (ho : words_ok other.left_.data_) :
    ∃ b', b.op_xor other = some b' ∧ wf b' ∧ b'.size_ = b.size_ := by
  obtain ⟨d', e1, e2⟩ := wf_bits_iteration hw (fun a b => a ^^^ b) other ho
    (fun v w c h1 h2 => Nat.xor_lt_two_pow h1 h2)
  exact ⟨⟨d', b.size_⟩, by simp [bitset.op_xor, bitset_view.op_xor, e1], e2, rfl⟩

theorem wf_assign_at {b : bitset} (hw : wf b) {index : Nat} (val : Bool) (hi : index < b.size) :
    wf (b.assign_at index val) := by
  have hj : index % 64 < 64 := Nat.mod_lt _ (by norm_num)
  have hwk := hw.words.getD (index / 64)
  unfold assign_at at_ bitset_reference.assign bitset_reference.flip constants.word_size_bits
  simp only
  by_cases hc : (bitset_reference.to_bool ⟨b.data_.getD (index / 64) 0, index % 64⟩ != val)
      = true
  · rw [if_pos hc, word_type.shl_one hj]
    refine ⟨by simp [hw.length], words_ok_set hw.words _ ?_, ?_, hw.small⟩
    · exact Nat.xor_lt_two_pow hwk (Nat.pow_lt_pow_right (by norm_num) hj)
    · refine padding_set_low ?_ hw.padding
      intro j _ hjp
      rw [Nat.testBit_xor, Nat.testBit_two_pow]
      have hi' : index < b.size_ := hi
      have hjp' : b.size_ ≤ 64 * (index / 64) + j := hjp
      have : ¬ index % 64 = j := by
        clear hjp hi
        omega
      simp [this]
  · rw [if_neg hc]
    refine ⟨by simp [hw.length], words_ok_set hw.words _ hwk, ?_, hw.small⟩
    exact padding_set_low (fun j _ _ => rfl) hw.padding

end bitset

namespace bitset

/-- The loop of `bitset(first, last)` returns and leaves zero the bits it did not copy. -/
theorem ctor_range_loop_spec (first last : bitset_iterator) (hw : words_ok first.data_) :
    ∀ (fuel it : Nat) (d : List Nat), words_ok d →
      (∀ i, it - first.index_ ≤ i → bit d i = false) → first.index_ ≤ it → it ≤ last.index_ →
      last.index_ - it ≤ fuel →
      ∃ d', ctor_range_loop first last fuel d it = some d' ∧ d'.length = d.length ∧
        words_ok d' ∧ ∀ i, last.index_ - first.index_ ≤ i → bit d' i = false := by
  intro fuel
  induction fuel with
  | zero =>
    intro it d hd hz h1 h2 hfuel
    have : ¬ it < last.index_ := by omega
    have he : it = last.index_ := by omega
    exact ⟨d, by simp [ctor_range_loop, this], rfl, hd, fun i hi => hz i (by omega)⟩
  | succ f ih =>
    intro it d hd hz h1 h2 hfuel
    by_cases hlt : it < last.index_
    · have hc1 : 1 ≤ min 64 (last.index_ - it) := by omega
      have hc2 : min 64 (last.index_ - it) ≤ 64 := Nat.min_le_left _ _
      have hg := get_lt hw it hc1 hc2
      have hg64 : bitset_iterator.get ⟨first.data_, it⟩ (min 64 (last.index_ - it)) < 2 ^ 64 :=
        lt_of_lt_of_le hg (Nat.pow_le_pow_right (by norm_num) hc2)
      obtain ⟨d', e1, e2, e3, e4⟩ := ih (it + min 64 (last.index_ - it))
        (d.set ((it - first.index_) / 64)
          (bitset_iterator.get ⟨first.data_, it⟩ (min 64 (last.index_ - it))))
        (words_ok_set hd _ hg64)
        (fun i hi => padding_set hg hz i (by omega)) (by omega) (by omega) (by omega)
      refine ⟨d', ?_, by rw [e2, List.length_set], e3, e4⟩
      simp only [ctor_range_loop, hlt, if_true, constants.word_size_bits]
      exact e1
    · have he : it = last.index_ := by omega
      exact ⟨d, by simp [ctor_range_loop, hlt], rfl, hd, fun i hi => hz i (by omega)⟩

theorem wf_ctor_view {other : bitset_view} (h1 : other.left_.index_ ≤ other.right_.index_)
    (h2 : other.right_.index_ + 63 < 2 ^ 64) (hw : words_ok other.left_.data_) :
    ∃ b, ctor_view other = some b ∧ wf b := by
  have hsmall : other.right_.index_ - other.left_.index_ + 63 < 2 ^ 64 := by omega
  have hs := wf_ctor_size hsmall
  have hsz : (ctor_size (other.right_.index_ - other.left_.index_)).size_ =
      other.right_.index_ - other.left_.index_ := by rw [ctor_size_eq hsmall]
  obtain ⟨d', e1, e2, e3, e4⟩ := ctor_range_loop_spec other.left_ other.right_ hw
    (ctor_size (other.right_.index_ - other.left_.index_)).size_ other.left_.index_
    (ctor_size (other.right_.index_ - other.left_.index_)).data_ hs.words
    (fun i _ => by rw [ctor_size_eq hsmall]; exact bit_replicate_zero _ i) (le_refl _) h1
    (by rw [hsz])
  refine ⟨⟨d', other.right_.index_ - other.left_.index_⟩, ?_, ?_, e3, e4, hsmall⟩
  · rw [hsz] at e1
    simp only [ctor_view, ctor_range, bitset_view.begin, bitset_view.end_, hsz, e1]
  · show d'.length = _
    rw [e2, hs.length, hsz]

/-- The loop of `iteration_for_shifts` returns and leaves zero the bits it did not copy. -/
theorem iteration_for_shifts_loop_spec {data : List Nat} (hw : words_ok data) (size : Nat) :
    ∀ (fuel ind : Nat) (copy : List Nat), words_ok copy →
      (∀ i, ind ≤ i → bit copy i = false) → ind ≤ size → size - ind ≤ fuel →
      ∃ d', iteration_for_shifts_loop data size fuel copy ind = some d' ∧
        d'.length = copy.length ∧ words_ok d' ∧ ∀ i, size ≤ i → bit d' i = false := by
  intro fuel
  induction fuel with
  | zero =>
    intro ind copy hc hz h1 hfuel
    have : ¬ ind < size := by omega
    exact ⟨copy, by simp [iteration_for_shifts_loop, this], rfl, hc,
      fun i hi => hz i (by omega)⟩
  | succ f ih =>
    intro ind copy hc hz h1 hfuel
    by_cases hlt : ind < size
    · by_cases hfull : ind + 64 ≤ size
      · have hv : data.getD (ind / 64) 0 < 2 ^ 64 := hw.getD _
        obtain ⟨d', e1, e2, e3, e4⟩ := ih (ind + 64)
          (copy.set (ind / 64) (data.getD (ind / 64) 0)) (words_ok_set hc _ hv)
          (fun i hi => padding_set hv hz i hi) hfull (by omega)
        refine ⟨d', ?_, by rw [e2, List.length_set], e3, e4⟩
        simp only [iteration_for_shifts_loop, hlt, if_true, constants.word_size_bits, hfull]
        exact e1
      · have hj : ind % 64 < 64 := Nat.mod_lt _ (by norm_num)
        have hv : copy.getD (ind / 64) 0 ^^^
            (data.getD (ind / 64) 0 &&& word_type.shl constants.one (ind % 64)) < 2 ^ 64 :=
          Nat.xor_lt_two_pow (hc.getD _) (Nat.and_lt_two_pow _ (word_type.shl_lt _ _))
        obtain ⟨d', e1, e2, e3, e4⟩ := ih (ind + 1)
          (copy.set (ind / 64) (copy.getD (ind / 64) 0 ^^^
            (data.getD (ind / 64) 0 &&& word_type.shl constants.one (ind % 64))))
          (words_ok_set hc _ hv)
          (padding_set_low (fun j _ hjp => by
              unfold constants.one
              rw [Nat.testBit_xor, Nat.testBit_and, word_type.shl_one hj, Nat.testBit_two_pow]
              have : ¬ ind % 64 = j := by omega
              simp [this])
            (fun i hi => hz i (by omega)))
          (by omega) (by omega)
        refine ⟨d', ?_, by rw [e2, List.length_set], e3, e4⟩
        simp only [iteration_for_shifts_loop, hlt, if_true, constants.word_size_bits, hfull,
          if_false]
        exact e1
    · exact ⟨copy, by simp [iteration_for_shifts_loop, hlt], rfl, hc,
        fun i hi => hz i (by omega)⟩

theorem wf_iteration_for_shifts {b : bitset} (hw : wf b) (count size : Nat) (h1 : size ≤ count)
    (h2 : count + 63 < 2 ^ 64) :
    ∃ b', b.iteration_for_shifts count size = some b' ∧ wf b' ∧ b'.size_ = count := by
  have hs : wf (ctor_fill count false) := wf_ctor_fill false h2
  have hsz : (ctor_fill count false).size_ = count := by
    simp [ctor_fill, ctor_size_eq h2]
  have hzero : ∀ i, bit (ctor_fill count false).data_ i = false := by
    intro i
    simp only [ctor_fill, Bool.false_eq_true, if_false, ctor_size_eq h2]
    exact bit_replicate_zero _ i
  obtain ⟨d', e1, e2, e3, e4⟩ := iteration_for_shifts_loop_spec hw.words size size 0
    (ctor_fill count false).data_ hs.words (fun i _ => hzero i) (Nat.zero_le _) (by omega)
  refine ⟨⟨d', (ctor_fill count false).size_⟩, ?_, ⟨?_, e3, ?_, ?_⟩, hsz⟩
  · simp only [iteration_for_shifts, e1]
  · show d'.length = _
    rw [e2]
    exact hs.length
  · intro i hi
    have hi' : (ctor_fill count false).size_ ≤ i := hi
    rw [hsz] at hi'
    exact e4 i (by omega)
  · exact hs.small

theorem wf_op_shl {b : bitset} (hw : wf b) {count : Nat} (h : b.size + count + 63 < 2 ^ 64) :
    ∃ b', b.op_shl count = some b' ∧ wf b' := by
  have hmod : (b.size + count) % 2 ^ 64 = b.size + count := Nat.mod_eq_of_lt (by omega)
  obtain ⟨b', e1, e2, _⟩ := wf_iteration_for_shifts hw (b.size + count) b.size
    (by omega) h
  exact ⟨b', by simp only [op_shl, hmod, e1], e2⟩

theorem wf_ctor_empty : wf ctor := by
  refine ⟨rfl, ?_, ?_, ?_⟩
  · intro w hw
    simp [ctor] at hw
  · intro i _
    simp [ctor, bit]
  · show 0 + 63 < 2 ^ 64
    norm_num

theorem wf_op_shr {b : bitset} (hw : wf b) (count : Nat) :
    ∃ b', b.op_shr count = some b' ∧ wf b' := by
  by_cases hc : b.size ≥ count
  · have hsm := hw.small
    have hsz : b.size = b.size_ := rfl
    obtain ⟨b', e1, e2, _⟩ := wf_iteration_for_shifts hw (b.size - count)
      (b.size - count) (le_refl _) (by omega)
    exact ⟨b', by simp only [op_shr, hc, if_true, e1], e2⟩
  · exact ⟨ctor, by simp only [op_shr, hc, if_false], wf_ctor_empty⟩

end bitset

namespace bitset

/-- The loop of `count()` adds the `popcount` of each word of the array. -/
theorem count_loop_spec (b : bitset) :
    ∀ (fuel m ans : Nat), m ≤ (b.size + 63) / 64 → (b.size + 63) / 64 - m ≤ fuel →
      count_loop b fuel (64 * m) ans =
        some (ans + ((List.range' m ((b.size + 63) / 64 - m)).map
          (fun k => word_type.popcount (b.data_.getD k 0))).sum) := by
  intro fuel
  induction fuel with
  | zero =>
    intro m ans h1 h2
    have h0 : (b.size + 63) / 64 - m = 0 := by omega
    have : ¬ 64 * m < b.size := by omega
    simp only [count_loop, this, if_false]
    rw [h0]
    simp
  | succ f ih =>
    intro m ans h1 h2
    by_cases hlt : 64 * m < b.size
    · have hm : m < (b.size + 63) / 64 := by omega
      have hsub : (b.size + 63) / 64 - m = ((b.size + 63) / 64 - (m + 1)) + 1 := by omega
      have hdiv : 64 * m / 64 = m := Nat.mul_div_cancel_left m (by norm_num)
      have hnext : 64 * m + 64 = 64 * (m + 1) := by ring
      simp only [count_loop, hlt, if_true, constants.word_size_bits, hdiv]
      rw [hnext, ih (m + 1) _ (by omega) (by omega), hsub, List.range'_succ]
      simp only [List.map_cons, List.sum_cons]
      congr 1
      omega
    · have h0 : (b.size + 63) / 64 - m = 0 := by omega
      simp only [count_loop, hlt, if_false]
      rw [h0]
      simp

/-- The bits set among the first `64 * L` positions are counted word by word. -/
theorem filter_bit_words (d : List Nat) :
    ∀ L : Nat, ((List.range (64 * L)).filter (bit d)).length =
      ((List.range L).map (fun k => word_type.popcount (d.getD k 0))).sum := by
  intro L
  induction L with
  | zero => simp
  | succ L ih =>
    have h1 : 64 * (L + 1) = 64 * L + 64 := by ring
    rw [h1, List.range_add, List.filter_append, List.length_append, ih, List.range_succ L,
      List.map_append, List.sum_append]
    simp only [List.map_cons, List.map_nil, List.sum_cons, List.sum_nil, Nat.add_zero]
    congr 1
    rw [List.filter_map, List.length_map]
    unfold word_type.popcount
    congr 1
    apply List.filter_congr
    intro j hj
    have hj' : j < 64 := List.mem_range.1 hj
    simp only [Function.comp, bit, constants.word_size_bits]
    have e1 : (64 * L + j) / 64 = L := by omega
    have e2 : (64 * L + j) % 64 = j := by omega
    rw [e1, e2]

/-- Positions whose bits are zero do not count. -/
theorem filter_bit_padding {d : List Nat} {n : Nat} (h : ∀ i, n ≤ i → bit d i = false) :
    ∀ N, n ≤ N → ((List.range N).filter (bit d)).length =
      ((List.range n).filter (bit d)).length := by
  intro N hN
  obtain ⟨k, rfl⟩ : ∃ k, N = n + k := ⟨N - n, by omega⟩
  rw [List.range_add, List.filter_append, List.length_append]
  have : (List.map (fun x => n + x) (List.range k)).filter (bit d) = [] := by
    rw [List.filter_eq_nil_iff]
    intro a ha
    obtain ⟨x, _, hx⟩ := List.mem_map.1 ha
    rw [← hx, h (n + x) (by omega)]
    simp
  rw [this]
  simp

theorem count_spec {b : bitset} (hw : wf b) :
    b.count = some ((List.range b.size).filter (bit b.data_)).length := by
  unfold count
  have h := count_loop_spec b b.size 0 0 (Nat.zero_le _) (by omega)
  rw [Nat.mul_zero] at h
  rw [h]
  simp only [Nat.zero_add, Nat.sub_zero, ← List.range_eq_range']
  have hsz : b.size = b.size_ := rfl
  rw [← filter_bit_words, filter_bit_padding hw.padding _ (by rw [hsz]; omega)]
  rfl

theorem count_ones (d : List Nat) (n : Nat) :
    ((List.range n).map (fun i => if bit d i then '1' else '0')).count '1' =
      ((List.range n).filter (bit d)).length := by
  rw [List.count, List.countP_map, List.countP_eq_length_filter]
  congr 1
  apply List.filter_congr
  intro i _
  simp only [Function.comp]
  cases bit d i <;> decide

/-- A bitset that satisfies the invariant: `count()` returns the number of characters
`'1'` of `to_string`, which returns `size()` characters. The invariant holds after each
constructor and is kept by `set()`, `reset()`, `flip()`, an `operator[]` assignment below
`size()`, `>>=`, `&=`, `|=`, `^=` with a view of the same size, and by `<<= count` when
`size() + count + 63` stays below `2 ^ 64`. -/
theorem wf.count_eq_ones {b : bitset} (hw : wf b) :
    ∃ (n : Nat) (s : List Char), b.count = some n ∧ to_string b.to_view = some s ∧
      n = s.count '1' ∧ s.length = b.size := by
  refine ⟨_, _, count_spec hw, to_string_spec, ?_, by simp⟩
  rw [count_ones]

theorem demo_bitset_reachable : reachable ⟨[1023], 10⟩ :=
  reachable.ctor_string "1111111111".toList (by decide)

/-- Claim C40, at a failing input: `bitset b("1111111111"); b <<= 2^64 - 5`. The bitset
built from the string satisfies the invariant, with the word 1023 and the size 10. In
`operator<<=` the sum `size() + count` wraps to 5, and `iteration_for_shifts(5, 10)`
copies the ten bits one by one into the only word of the copy `bitset(5, false)`. The bitset left is
reachable and has the size 5 and the word 1023: the bits at the positions 5 to 9 of its
array are set, `count()` returns 10, and `to_string` returns `11111`, five characters
`'1'`. -/
theorem shl_wrap_leaves_padding :
    bitset.ctor_string "1111111111".toList = ⟨[1023], 10⟩ ∧
    wf ⟨[1023], 10⟩ ∧
    (bitset.size ⟨[1023], 10⟩ + (2 ^ 64 - 5)) % 2 ^ 64 = 5 ∧
    bitset.ctor_fill 5 false = ⟨[0], 5⟩ ∧
    bitset.op_shl ⟨[1023], 10⟩ (2 ^ 64 - 5) = some ⟨[1023], 5⟩ ∧
    reachable ⟨[1023], 5⟩ ∧
    bitset.size ⟨[1023], 5⟩ = 5 ∧
    (List.range 10).map (bit [1023]) =
      [true, true, true, true, true, true, true, true, true, true] ∧
    bitset.count ⟨[1023], 5⟩ = some 10 ∧
    to_string (bitset.to_view ⟨[1023], 5⟩) = some "11111".toList ∧
    "11111".toList.count '1' = 5 :=
  ⟨rfl, (ctor_string_spec (by decide : "1111111111".toList.length + 63 < 2 ^ 64)).1,
    by decide, rfl, rfl, reachable.op_shl (2 ^ 64 - 5) demo_bitset_reachable (by decide) (by rfl),
    rfl, by decide, rfl, rfl, by decide⟩

end bitset

namespace signals

/-- Claim C31, at a failing input. The state of the caller lists the slots invoked.
On the signal with the slots 2, 3, 4, 5, the slot 3 disconnecting the connection 4 during
the emission, two emissions invoke 2, 3, 5 and again 2, 3, 5; a connection disconnected
before an emission is not invoked by it. On the signal with the slots 2 and 3, the slot
2 connecting during the emission the slots 4 and 5, the emission invokes 2, 3, 4, 5; when
the slot 3 moreover disconnects the connection 4 before its turn, the emission invokes 2
and 3 and then calls the emptied slot of the connection 4, which throws
`bad_function_call`: the slot 5, still in the list and not empty, is not invoked. -/
theorem disconnect_of_new_connection_throws :
    ((signal.emit_calls calls_disconnect demo_trace4 1 9 () [] 10).bind
      (fun r => signal.emit_calls calls_disconnect r.1 1 9 () r.2.1 10)).map
      (fun r => (r.2.1, r.2.2, list_of r.1.elem 1 10 (r.1.elem 1).next)) =
      some ([2, 3, 5, 2, 3, 5], .ok (), [2, 3, 5]) ∧
    ((connection.disconnect demo_trace2 2 10).bind
      (fun h => signal.emit_calls calls_none h 1 9 () [] 10)).map
      (fun r => (r.2.1, r.2.2, list_of r.1.elem 1 10 (r.1.elem 1).next)) =
      some ([3], .ok (), [3]) ∧
    (signal.emit_calls calls_connect demo_trace2 1 9 () [] 10).map
      (fun r => (r.2.1, r.2.2, list_of r.1.elem 1 10 (r.1.elem 1).next)) =
      some ([2, 3, 4, 5], .ok (), [2, 3, 4, 5]) ∧
    (signal.emit_calls calls_connect_disconnect demo_trace2 1 9 () [] 10).map
      (fun r => (r.2.1, r.2.2, list_of r.1.elem 1 10 (r.1.elem 1).next,
        (r.1.conn 5).slot_.isSome, (r.1.conn 4).slot_.isSome)) =
      some ([2, 3], .error .bad_function_call, [2, 3, 5], true, false) :=
  ⟨rfl, rfl, rfl, rfl⟩

end signals

namespace bimap

variable {L R : Type}

/-- Claim C36: on a reachable bimap, `end_left().flip()` is the iterator `end_right()`
and compares equal to it, and `end_right().flip()` is `end_left()` and compares equal to
it. For a left iterator `it` at the end position or at a position of the left walk, the
casts of `it.flip()` are defined; `it.flip()` is a right iterator at the same object, the
end position for the end position and a position of the right walk for a position of the
left walk; and `it.flip().flip()` is `it` and compares equal to it. -/
theorem flip_involution [DecidableEq L] [DecidableEq R] (s : bimap L R)
    (hr : reachable s) (hcl : strict_weak s.compare_left)
    (hcr : strict_weak s.compare_right) (itl : List Nat) (hwalk : s.walk_left = some itl)
    (it : Nat) (hit : it = s.end_left ∨ it ∈ itl) :
    s.left = ⟨.left_tag, s.end_left⟩ ∧ s.right = ⟨.right_tag, s.end_right⟩ ∧
    (bimap_iterator.flip_node s s.left).map
      (fun f => (f, bimap_iterator.eq_node s f s.right)) = some (s.right, true) ∧
    (bimap_iterator.flip_node s s.right).map
      (fun f => (f, bimap_iterator.eq_node s f s.left)) = some (s.left, true) ∧
    ∃ f : node_ptr, bimap_iterator.flip_node s ⟨.left_tag, it⟩ = some f ∧
      f = ⟨.right_tag, bimap_iterator.flip it⟩ ∧
      (it = s.end_left → f = s.right) ∧
      (it ∈ itl → ∃ itr : List Nat, s.walk_right = some itr ∧ f.obj ∈ itr) ∧
      (bimap_iterator.flip_node s f).map
        (fun g => (g, bimap_iterator.eq_node s g ⟨.left_tag, it⟩)) =
        some (⟨.left_tag, it⟩, true) := by
  obtain ⟨tl, tr, hw⟩ := hr.wf hcl hcr
  have hl := hw.walk_left
  rw [hwalk] at hl
  cases hl
  have hobj : it = s.base ∨ it ∈ s.mem.live := by
    rcases hit with h | h
    · exact Or.inl h
    · exact Or.inr (hw.left.mem_live.1 h)
  refine ⟨rfl, rfl, ?_, ?_, ⟨.right_tag, bimap_iterator.flip it⟩, ?_, rfl, ?_, ?_, ?_⟩
  · simp [bimap_iterator.flip_node, to_sentinel_node, left, right, to_node, opposite_tag,
      bimap_iterator.eq_node, node_eq_self]
  · simp [bimap_iterator.flip_node, to_sentinel_node, left, right, to_node, opposite_tag,
      bimap_iterator.eq_node, node_eq_self]
  · simp [bimap_iterator.flip_node, to_sentinel_node, to_node, opposite_tag,
      bimap_iterator.flip, hobj]
  · intro h
    rw [h]
    rfl
  · intro h
    exact ⟨tr.inorder, hw.walk_right, hw.right.mem_live.2 (hw.left.mem_live.1 h)⟩
  · simp [bimap_iterator.flip_node, to_sentinel_node, to_node, opposite_tag,
      bimap_iterator.flip, hobj, bimap_iterator.eq_node, node_eq_self]

theorem flip_involution_witness :
    reachable demo4 ∧ strict_weak demo4.compare_left ∧ strict_weak demo4.compare_right ∧
    demo4.walk_left = some [1, 2, 3, 4] ∧ demo4.walk_right = some [1, 2, 3, 4] ∧
    bimap_iterator.flip_node demo4 ⟨.left_tag, 2⟩ = some ⟨.right_tag, 2⟩ ∧
    bimap_iterator.flip_node demo4 ⟨.right_tag, 2⟩ = some ⟨.left_tag, 2⟩ ∧
    bimap_iterator.flip_node demo4 ⟨.left_tag, 7⟩ = none ∧
    (bimap_iterator.flip_node demo4 demo4.left).map
      (fun f => (f, bimap_iterator.eq_node demo4 f demo4.right)) =
      some (demo4.right, true) :=
  ⟨demo4_reachable, nat_less_strict_weak, nat_less_strict_weak, rfl, rfl, by decide,
    by decide, by decide,
    (flip_involution demo4 demo4_reachable nat_less_strict_weak nat_less_strict_weak
      [1, 2, 3, 4] rfl 2 (Or.inr (by decide))).2.2.1⟩

end bimap
